import Mathlib

/-!
The sort operator of `physical_order.cpp`: block store, in-memory sorter, reorder pass.

A shallow embedding of the functions of
`src/execution/operator/order/physical_order.cpp` together with proofs about them. Later
sections embed the null operations of `src/common/vector_operations/null_operations.cpp`, the
read heads of the parquet read-ahead buffer (`extension/parquet/include/thrift_tools.hpp`) and
the cast loops from strings to lists and enums (`src/function/cast/string_cast.cpp`).

Conventions of the embedding:

* a pinned buffer (`data_ptr_t`) is the function giving the byte at each offset from the
  base pointer; pointer arithmetic is arithmetic on offsets;
* `idx_t` values are natural numbers, reduced modulo `2 ^ 64` where the source computes
  with them and stores them;
* `Load<T>` and `Store<T>` read and write little-endian, as on the platforms the code targets;
* a `for` loop over `0 .. n-1` is `forUp`, a loop over a vector is `List.foldl`;
* memory handed out by the buffer manager has unspecified contents: every function that
  allocates takes the contents of fresh memory as the argument `fresh`.
-/

namespace duckdb

/-! ## Memory -/

/-- One byte (`data_t`, `uint8_t`). -/
abbrev Byte := Fin 256

/-- The memory behind a `data_ptr_t`: the byte found at each offset from the pointer. -/
abbrev Buffer := Nat → Byte

/-- The value of `sizeof(idx_t)`. -/
def sizeof_idx_t : Nat := 8

/-- The number of values of an `idx_t` (64-bit unsigned). -/
def IDX_MOD : Nat := 2 ^ 64

/-- The call `memcpy(dst + d, src + s, n)`: the destination memory afterwards. -/
def memcpy (dst : Buffer) (d : Nat) (src : Buffer) (s n : Nat) : Buffer :=
  fun a => if d ≤ a ∧ a < d + n then src (s + (a - d)) else dst a

/-- The little-endian value of the `w` bytes at offset `a`. -/
def LoadLE : Nat → Buffer → Nat → Nat
  | 0, _, _ => 0
  | w + 1, p, a => (p a).val + 256 * LoadLE w p (a + 1)

/-- The memory after writing `v` little-endian into the `w` bytes at offset `a`. -/
def StoreLE (w v : Nat) (p : Buffer) (a : Nat) : Buffer :=
  fun x => if a ≤ x ∧ x < a + w then ⟨v / 256 ^ (x - a) % 256, Nat.mod_lt _ (by decide)⟩ else p x

/-- The call `Load<idx_t>(p + a)`. -/
def Load_idx (p : Buffer) (a : Nat) : Nat := LoadLE sizeof_idx_t p a

/-- The call `Store<idx_t>(v, p + a)`. -/
def Store_idx (v : Nat) (p : Buffer) (a : Nat) : Buffer := StoreLE sizeof_idx_t v p a

/-- The call `Load<uint32_t>(p + a)`. -/
def Load_u32 (p : Buffer) (a : Nat) : Nat := LoadLE 4 p a

/-- The `n` bytes starting at offset `a`, as a list. -/
def bytesOf (p : Buffer) (a n : Nat) : List Byte := (List.range n).map (fun i => p (a + i))

/-- The loop `for (i = 0; i < n; i++) body(i)` run on the state `s`. -/
def forUp {σ : Type} : Nat → (Nat → σ → σ) → σ → σ
  | 0, _, s => s
  | k + 1, body, s => body k (forUp k body s)

/-- The loop `for (i = n; i > 0; i--) body(i - 1)` run on the state `s`. -/
def forDown {σ : Type} : Nat → (Nat → σ → σ) → σ → σ
  | 0, _, s => s
  | k + 1, body, s => forDown k body (body k s)

/-! ## Block store -/

/-- A `RowDataBlock`: the contents of its buffer-manager block and its bookkeeping fields. -/
structure RowDataBlock where
  block : Buffer
  CAPACITY : Nat
  ENTRY_SIZE : Nat
  count : Nat
  byte_offset : Nat

/-- Modelled from the spec: the constructor `RowDataBlock(buffer_manager, capacity, entry_size)`,
whose declaration is in a header outside the sources. It registers a block with the buffer
manager and starts with no entries and no bytes used. -/
def RowDataBlock.create (fresh : Buffer) (capacity entry_size : Nat) : RowDataBlock :=
  { block := fresh, CAPACITY := capacity, ENTRY_SIZE := entry_size, count := 0, byte_offset := 0 }

/-- A `RowChunk`: an ordered list of blocks sharing one entry size. -/
structure RowChunk where
  blocks : List RowDataBlock
  entry_size : Nat
  count : Nat

/-- The function `ComputeCountAndCapacity`: the pair `(count, capacity)` it writes to its
reference arguments. `BLOCK_ALLOC_SIZE` is `Storage::BLOCK_ALLOC_SIZE`. -/
def ComputeCountAndCapacity (BLOCK_ALLOC_SIZE : Nat) (row_chunk : RowChunk)
    (variable_entry_size : Bool) : Nat × Nat :=
  let entry_size := row_chunk.entry_size
  let acc := row_chunk.blocks.foldl
    (fun (s : Nat × Nat) (block : RowDataBlock) =>
      (s.1 + block.count,
       if variable_entry_size then s.2 + block.byte_offset else s.2 + block.count * entry_size))
    (0, 0)
  let count := acc.1
  let total_size := acc.2
  let capacity :=
    if variable_entry_size then max (BLOCK_ALLOC_SIZE / entry_size) (total_size / entry_size + 1)
    else max (BLOCK_ALLOC_SIZE / entry_size + 1) count
  (count, capacity)

/-- The function `ConcatenateBlocks`: the block it returns and the row chunk it leaves behind. -/
def ConcatenateBlocks (BLOCK_ALLOC_SIZE : Nat) (fresh : Buffer) (row_chunk : RowChunk)
    (variable_entry_size : Bool) : RowDataBlock × RowChunk :=
  let cc := ComputeCountAndCapacity BLOCK_ALLOC_SIZE row_chunk variable_entry_size
  let total_count := cc.1
  let capacity := cc.2
  let entry_size := row_chunk.entry_size
  let new_block := { RowDataBlock.create fresh capacity entry_size with count := total_count }
  let copied := row_chunk.blocks.foldl
    (fun (s : Buffer × Nat) (block : RowDataBlock) =>
      if variable_entry_size then
        (memcpy s.1 s.2 block.block 0 block.byte_offset, s.2 + block.byte_offset)
      else
        (memcpy s.1 s.2 block.block 0 (block.count * entry_size), s.2 + block.count * entry_size))
    (new_block.block, 0)
  ({ new_block with block := copied.1 }, { row_chunk with blocks := [], count := 0 })

/-- The function `SizesToOffsets`: the block it returns and the row chunk it leaves behind.
The block is read and written as an array of `idx_t`; the final store reads
`offsets[total_count - 1]`, so the function is called with at least one row. -/
def SizesToOffsets (BLOCK_ALLOC_SIZE : Nat) (fresh : Buffer) (row_chunk : RowChunk) :
    RowDataBlock × RowChunk :=
  let cc := ComputeCountAndCapacity BLOCK_ALLOC_SIZE row_chunk false
  let total_count := cc.1
  let capacity := cc.2
  let entry_size := row_chunk.entry_size
  let new_block := { RowDataBlock.create fresh capacity entry_size with count := total_count }
  let copied := row_chunk.blocks.foldl
    (fun (s : Buffer × Nat) (block : RowDataBlock) =>
      (memcpy s.1 s.2 block.block 0 (block.count * entry_size), s.2 + block.count * entry_size))
    (new_block.block, 0)
  -- convert sizes to offsets
  let prev := Load_idx copied.1 0
  let offsets := Store_idx 0 copied.1 0
  let looped := forUp (total_count - 1)
    (fun k (s : Buffer × Nat) =>
      let i := k + 1
      let curr := Load_idx s.1 (sizeof_idx_t * i)
      (Store_idx ((Load_idx s.1 (sizeof_idx_t * (i - 1)) + s.2) % IDX_MOD) s.1 (sizeof_idx_t * i),
       curr))
    (offsets, prev)
  let offsets := Store_idx
    ((Load_idx looped.1 (sizeof_idx_t * (total_count - 1)) + looped.2) % IDX_MOD)
    looped.1 (sizeof_idx_t * total_count)
  ({ new_block with block := offsets }, { row_chunk with blocks := [], count := 0 })

/-- The used bytes of a block of a chunk: `byte_offset` bytes of a variable-width chunk,
`count * entry_size` bytes of a fixed-width one. -/
def usedLen (entry_size : Nat) (variable_entry_size : Bool) (block : RowDataBlock) : Nat :=
  if variable_entry_size then block.byte_offset else block.count * entry_size

/-- The per-row sizes held by a sizes chunk, in row order. -/
def sizesOf (blocks : List RowDataBlock) : List Nat :=
  blocks.flatMap (fun b => (List.range b.count).map (fun k => Load_idx b.block (sizeof_idx_t * k)))

/-- The entry `offsets[i]` of a block read as an array of `idx_t`. -/
def offsetAt (p : Buffer) (i : Nat) : Nat := Load_idx p (sizeof_idx_t * i)

/-! ## Sorting state and continuous blocks -/

/-- The order of a key column (`OrderType`). -/
inductive OrderType where
  | ASCENDING
  | DESCENDING
  deriving DecidableEq, Repr

/-- The placement of NULLs of a key column (`OrderByNullType`). -/
inductive OrderByNullType where
  | NULLS_FIRST
  | NULLS_LAST
  deriving DecidableEq, Repr

/-- The physical type of a column (`PhysicalType`), as far as the sorter looks at it. -/
inductive PhysicalType where
  | BOOL
  | INT8
  | INT16
  | INT32
  | INT64
  | FLOAT
  | DOUBLE
  | INTERVAL
  | VARCHAR
  deriving DecidableEq, Repr

/-- The struct `SortingState`. `TYPES` holds the internal (physical) type of each key column;
the statistics pointers `STATS` and the initial chunk sizes are not used by the sorter. -/
structure SortingState where
  ENTRY_SIZE : Nat
  ORDER_TYPES : List OrderType
  ORDER_BY_NULL_TYPES : List OrderByNullType
  TYPES : List PhysicalType
  HAS_NULL : List Bool
  CONSTANT_SIZE : List Bool
  COL_SIZE : List Nat

/-- The struct `ContinuousChunk`, without its read cursor. -/
structure ContinuousChunk where
  data_blocks : List RowDataBlock
  offset_blocks : List RowDataBlock
  CONSTANT_SIZE : Bool
  ENTRY_SIZE : Nat

/-- The struct `ContinuousBlock`, without its read cursor. A constant-width key column has no
chunk in `var_sorting_chunks` (a null pointer). -/
structure ContinuousBlock where
  sorting_blocks : List RowDataBlock
  var_sorting_chunks : List (Option ContinuousChunk)
  payload_chunk : ContinuousChunk

/-- What the sorter takes from outside this file: the constants `Storage::BLOCK_ALLOC_SIZE`,
`StringStatistics::MAX_STRING_MINMAX_SIZE` and `string_t::PREFIX_LENGTH`, the contents of
freshly allocated memory, `std::sort` on an array of row pointers, and the comparison
operators `Equals` and `LessThan` on `string_t`. -/
structure Extern where
  BLOCK_ALLOC_SIZE : Nat
  MAX_STRING_MINMAX_SIZE : Nat
  PREFIX_LENGTH : Nat
  fresh : Buffer
  std_sort : (Nat → Nat → Bool) → List Nat → List Nat
  Equals : List Byte → List Byte → Bool
  LessThan : List Byte → List Byte → Bool

/-- The reason a sort stops without a result. -/
inductive SortError where
  | NotImplemented
  | InvalidAccess
  deriving DecidableEq, Repr

/-! ## Reorder pass -/

/-- The function `ReOrder(buffer_manager, cc, sorting_ptr, sorting_state)`: the chunk
afterwards. `sorting` is the sorting block and `sorting_ptr` the offset in it of the index
field of its first row. The result is `none` when `back()` is taken of an empty vector. -/
def ReOrder (fresh : Buffer) (cc : ContinuousChunk) (sorting : Buffer) (sorting_ptr : Nat)
    (sorting_state : SortingState) : Option ContinuousChunk :=
  match cc.data_blocks.getLast? with
  | none => none
  | some unordered_data_block =>
    let count := unordered_data_block.count
    let unordered_data_ptr := unordered_data_block.block
    let reordered_data_block :=
      { RowDataBlock.create fresh unordered_data_block.CAPACITY unordered_data_block.ENTRY_SIZE
        with count := count }
    if cc.CONSTANT_SIZE then
      -- state: ordered block, ordered_data_ptr, sorting_ptr
      let r := forUp count
        (fun _ (s : Buffer × Nat × Nat) =>
          (memcpy s.1 s.2.1 unordered_data_ptr
              (Load_idx sorting s.2.2 * sorting_state.ENTRY_SIZE) cc.ENTRY_SIZE,
           s.2.1 + cc.ENTRY_SIZE,
           s.2.2 + sorting_state.ENTRY_SIZE))
        (reordered_data_block.block, 0, sorting_ptr)
      some { cc with data_blocks := [{ reordered_data_block with block := r.1 }] }
    else
      match cc.offset_blocks.getLast? with
      | none => none
      | some unordered_offset_block =>
        let reordered_data_block :=
          { reordered_data_block with byte_offset := unordered_data_block.byte_offset }
        let unordered_offsets := unordered_offset_block.block
        let reordered_offset_block :=
          { RowDataBlock.create fresh unordered_offset_block.CAPACITY
              unordered_offset_block.ENTRY_SIZE with count := count }
        let reordered_offsets := Store_idx 0 reordered_offset_block.block 0
        -- state: ordered block, ordered_data_ptr, reordered offsets, sorting_ptr
        let r := forUp count
          (fun i (s : Buffer × Nat × Buffer × Nat) =>
            let index := Load_idx sorting s.2.2.2
            let size := (offsetAt unordered_offsets (index + 1) + IDX_MOD
              - offsetAt unordered_offsets index) % IDX_MOD
            (memcpy s.1 s.2.1 unordered_data_ptr (offsetAt unordered_offsets index) size,
             s.2.1 + size,
             Store_idx ((offsetAt s.2.2.1 i + size) % IDX_MOD) s.2.2.1 (sizeof_idx_t * (i + 1)),
             s.2.2.2 + sorting_state.ENTRY_SIZE))
          (reordered_data_block.block, 0, reordered_offsets, sorting_ptr)
        some { cc with
          data_blocks := [{ reordered_data_block with block := r.1 }],
          offset_blocks := [{ reordered_offset_block with block := r.2.2.1 }] }

/-- The function `ReOrder(context, cb, sorting_state, payload_state)`: the continuous block
afterwards. -/
def ReOrder_block (fresh : Buffer) (cb : ContinuousBlock) (sorting_state : SortingState) :
    Option ContinuousBlock :=
  match cb.sorting_blocks.getLast? with
  | none => none
  | some sorting_block =>
    let sorting_ptr := (sorting_state.ENTRY_SIZE + IDX_MOD - sizeof_idx_t) % IDX_MOD
    -- re-order variable size sorting columns
    let reordered := forUp sorting_state.CONSTANT_SIZE.length
      (fun col_idx (acc : Option (List (Option ContinuousChunk))) =>
        match acc with
        | none => none
        | some chunks =>
          if !(sorting_state.CONSTANT_SIZE.getD col_idx true) then
            match chunks.getD col_idx none with
            | none => none
            | some cc =>
              (ReOrder fresh cc sorting_block.block sorting_ptr sorting_state).map
                (fun cc1 => chunks.set col_idx (some cc1))
          else some chunks)
      (some cb.var_sorting_chunks)
    match reordered with
    | none => none
    | some chunks =>
      -- and the payload
      match ReOrder fresh cb.payload_chunk sorting_block.block sorting_ptr sorting_state with
      | none => none
      | some payload => some { cb with var_sorting_chunks := chunks, payload_chunk := payload }

/-! ## In-memory sorter -/

/-- The call `memcmp(p + a, q + b, n)`: negative, zero or positive as the first differing byte
(compared as unsigned) decides. -/
def memcmp (p : Buffer) (a : Nat) (q : Buffer) (b : Nat) : Nat → Int
  | 0 => 0
  | n + 1 =>
    if p a = q b then memcmp p (a + 1) q (b + 1) n
    else ((p a).val : Int) - ((q b).val : Int)

/-- One pass of the byte loop of `RadixSort`, on byte `offset` of every row: the contents of the
block behind `temp` after the rows of `dataptr` have been distributed into it. -/
def RadixSort.pass (ENTRY_SIZE count offset : Nat) (dataptr temp : Buffer × Nat) : Buffer :=
  -- init to 0, collect counts
  let counts := forUp count
    (fun i (counts : Nat → Nat) =>
      let byte := (dataptr.1 (dataptr.2 + i * ENTRY_SIZE + offset)).val
      fun v => if v = byte then counts v + 1 else counts v)
    (fun _ => 0)
  -- compute offsets from counts
  let counts := forUp 255
    (fun k (counts : Nat → Nat) =>
      let val := k + 1
      fun v => if v = val then counts val + counts (val - 1) else counts v)
    counts
  -- re-order the data in temporary array
  let r := forDown count
    (fun j (s : Buffer × (Nat → Nat)) =>
      let byte := (dataptr.1 (dataptr.2 + j * ENTRY_SIZE + offset)).val
      (memcpy s.1 (temp.2 + (s.2 byte - 1) * ENTRY_SIZE) dataptr.1 (dataptr.2 + j * ENTRY_SIZE)
          ENTRY_SIZE,
       fun v => if v = byte then s.2 v - 1 else s.2 v))
    (temp.1, counts)
  r.1

/-- The byte loop of `RadixSort`: `for (offset = col_offset + sorting_size - 1;
offset + 1 > col_offset; offset--)` in `idx_t` arithmetic. The state is the pair of pointers
`dataptr`, `temp` (each a block and an offset in it) and the flag `swap`. -/
def RadixSort.loop (ENTRY_SIZE count col_offset : Nat) :
    Nat → Nat → (Buffer × Nat) × (Buffer × Nat) × Bool → (Buffer × Nat) × (Buffer × Nat) × Bool
  | 0, _, s => s
  | fuel + 1, offset, s =>
    if (offset + 1) % IDX_MOD > col_offset then
      let dataptr := s.1
      let temp := s.2.1
      let written := RadixSort.pass ENTRY_SIZE count offset dataptr temp
      -- std::swap(dataptr, temp); swap = !swap
      RadixSort.loop ENTRY_SIZE count col_offset fuel ((offset + IDX_MOD - 1) % IDX_MOD)
        (((written, temp.2), dataptr, !s.2.2) : (Buffer × Nat) × (Buffer × Nat) × Bool)
    else s

/-- The function `RadixSort`, called on the rows starting at offset `dataptr` of the block
`data`: the contents of that block afterwards. The byte loop ends after fewer than `2 ^ 64`
passes, which is the fuel given to it. -/
def RadixSort (fresh : Buffer) (data : Buffer) (dataptr : Nat) (count col_offset sorting_size : Nat)
    (sorting_state : SortingState) : Buffer :=
  let s := RadixSort.loop sorting_state.ENTRY_SIZE count col_offset IDX_MOD
    ((col_offset + sorting_size + IDX_MOD - 1) % IDX_MOD) ((data, dataptr), (fresh, 0), false)
  -- move data back to original buffer (if it was swapped)
  if s.2.2 then memcpy s.2.1.1 s.2.1.2 s.1.1 s.1.2 (count * sorting_state.ENTRY_SIZE)
  else s.1.1

/-- The inner loop `for (j = from; j < count; j++) if (!ties[j]) break;` of `SubSortTiedTuples`
and `BreakTies`: the value of `j` after it. -/
def scanTies (ties : Nat → Bool) (count : Nat) : Nat → Nat → Nat
  | 0, j => j
  | fuel + 1, j => if j < count then (if !ties j then j else scanTies ties count fuel (j + 1)) else j

/-- The outer loop of `SubSortTiedTuples`, from row `i` on. -/
def SubSortTiedTuples.loop (fresh : Buffer) (count col_offset sorting_size : Nat)
    (ties : Nat → Bool) (sorting_state : SortingState) : Nat → Nat → Buffer → Buffer
  | 0, _, dataptr => dataptr
  | fuel + 1, i, dataptr =>
    if i < count then
      if !ties i then
        SubSortTiedTuples.loop fresh count col_offset sorting_size ties sorting_state fuel (i + 1)
          dataptr
      else
        let j := scanTies ties count count (i + 1)
        SubSortTiedTuples.loop fresh count col_offset sorting_size ties sorting_state fuel (j + 1)
          (RadixSort fresh dataptr (i * sorting_state.ENTRY_SIZE) (j - i + 1) col_offset
            sorting_size sorting_state)
    else dataptr

/-- The function `SubSortTiedTuples`: the contents of the sorting block afterwards. -/
def SubSortTiedTuples (fresh : Buffer) (dataptr : Buffer) (count col_offset sorting_size : Nat)
    (ties : Nat → Bool) (sorting_state : SortingState) : Buffer :=
  SubSortTiedTuples.loop fresh count col_offset sorting_size ties sorting_state count 0 dataptr

/-- The function `AnyTies`. -/
def AnyTies (ties : Nat → Bool) (count : Nat) : Bool :=
  forUp (count - 1) (fun i any_ties => any_ties || ties i) false

/-- The unrolled loop of `ComputeTies`: `for (; i + 7 < count - 1; i += 8)` with its inner loop
of eight steps. The state is `i`, the offset `dataptr` and the array `ties`. -/
def ComputeTies.unrolled (data : Buffer) (ENTRY_SIZE count tie_size : Nat) :
    Nat → Nat × Nat × (Nat → Bool) → Nat × Nat × (Nat → Bool)
  | 0, s => s
  | fuel + 1, s =>
    if s.1 + 7 < count - 1 then
      let inner := forUp 8
        (fun j (t : Nat × (Nat → Bool)) =>
          (t.1 + ENTRY_SIZE,
           fun v => if v = s.1 + j then
             (t.2 (s.1 + j) && decide (memcmp data t.1 data (t.1 + ENTRY_SIZE) tie_size = 0))
             else t.2 v))
        (s.2.1, s.2.2)
      ComputeTies.unrolled data ENTRY_SIZE count tie_size fuel (s.1 + 8, inner.1, inner.2)
    else s

/-- The remainder loop of `ComputeTies`: `for (; i < count - 1; i++)`. -/
def ComputeTies.remainder (data : Buffer) (ENTRY_SIZE count tie_size : Nat) :
    Nat → Nat × Nat × (Nat → Bool) → Nat × Nat × (Nat → Bool)
  | 0, s => s
  | fuel + 1, s =>
    if s.1 < count - 1 then
      ComputeTies.remainder data ENTRY_SIZE count tie_size fuel
        (s.1 + 1, s.2.1 + ENTRY_SIZE,
         fun v => if v = s.1 then
           (s.2.2 s.1 && decide (memcmp data s.2.1 data (s.2.1 + ENTRY_SIZE) tie_size = 0))
           else s.2.2 v)
    else s

/-- The function `ComputeTies`: the array `ties` afterwards. -/
def ComputeTies (dataptr : Buffer) (count col_offset tie_size : Nat) (ties : Nat → Bool)
    (sorting_state : SortingState) : Nat → Bool :=
  -- align dataptr
  let s1 := ComputeTies.unrolled dataptr sorting_state.ENTRY_SIZE count tie_size count
    (0, col_offset, ties)
  let s2 := ComputeTies.remainder dataptr sorting_state.ENTRY_SIZE count tie_size count s1
  fun v => if v = count - 1 then false else s2.2.2 v

/-- The function `CompareStrings`; `l` and `r` are the offsets of two rows in the block `data`. -/
def CompareStrings (ext : Extern) (data : Buffer) (l r : Nat) (var_dataptr offsets : Buffer)
    (order : Int) (sorting_size : Nat) : Bool :=
  -- use indices to find strings in blob
  let left_idx := Load_idx data (l + sorting_size)
  let right_idx := Load_idx data (r + sorting_size)
  let left_ptr := offsetAt offsets left_idx
  let right_ptr := offsetAt offsets right_idx
  -- read string lengths
  let left_size := Load_u32 var_dataptr left_ptr
  let right_size := Load_u32 var_dataptr right_ptr
  let left_ptr := left_ptr + ext.PREFIX_LENGTH
  let right_ptr := right_ptr + ext.PREFIX_LENGTH
  -- construct strings
  let left_val := bytesOf var_dataptr left_ptr left_size
  let right_val := bytesOf var_dataptr right_ptr right_size
  let comp_res : Int :=
    if ext.LessThan left_val right_val then -1
    else if ext.Equals left_val right_val then 0
    else 1
  decide (order * comp_res < 0)

/-- The full string of the row at offset `row` of the block `data`, found through the index in
its trailing field: its length and its bytes. -/
def stringOfRow (ext : Extern) (data : Buffer) (row : Nat) (var_dataptr offsets : Buffer)
    (sorting_size : Nat) : Nat × List Byte :=
  let idx := Load_idx data (row + sorting_size)
  let ptr := offsetAt offsets idx
  let size := Load_u32 var_dataptr ptr
  (size, bytesOf var_dataptr (ptr + ext.PREFIX_LENGTH) size)

/-- The function `BreakStringTies`: the sorting block and the array `ties` afterwards. -/
def BreakStringTies (ext : Extern) (dataptr : Buffer) (start end_ tie_col : Nat)
    (ties : Nat → Bool) (var_dataptr offsets_ptr : Buffer) (sorting_state : SortingState) :
    Buffer × (Nat → Bool) :=
  let ENTRY_SIZE := sorting_state.ENTRY_SIZE
  let tie_col_offset := forUp tie_col (fun i acc => acc + sorting_state.COL_SIZE.getD i 0) 0
  let has_null := sorting_state.HAS_NULL.getD tie_col false
  let null_order := sorting_state.ORDER_BY_NULL_TYPES.getD tie_col OrderByNullType.NULLS_FIRST
  let order_type := sorting_state.ORDER_TYPES.getD tie_col OrderType.ASCENDING
  let validity := dataptr (start * ENTRY_SIZE + tie_col_offset)
  if has_null && ((null_order == OrderByNullType.NULLS_FIRST && validity == 0)
      || (null_order == OrderByNullType.NULLS_LAST && validity == 1)) then
    -- we can't break null ties
    (dataptr, ties)
  else
    let tie_col_offset := if has_null then tie_col_offset + 1 else tie_col_offset
    -- if the tied strings are smaller than the prefix size, we don't need to break the ties
    let null_char : Byte := if order_type == OrderType.ASCENDING then 0 else 255
    if (List.range ext.MAX_STRING_MINMAX_SIZE).any
        (fun i => dataptr (start * ENTRY_SIZE + tie_col_offset + i) == null_char) then
      (dataptr, ties)
    else
      -- fill pointer array for sorting
      let entry_ptrs := (List.range (end_ - start)).map (fun k => (start + k) * ENTRY_SIZE)
      -- slow pointer-based sorting
      let order : Int := if order_type == OrderType.DESCENDING then -1 else 1
      let sorting_size := (ENTRY_SIZE + IDX_MOD - sizeof_idx_t) % IDX_MOD
      let sorted := ext.std_sort
        (fun l r => CompareStrings ext dataptr l r var_dataptr offsets_ptr order sorting_size)
        entry_ptrs
      -- re-order
      let temp := forUp (end_ - start)
        (fun i (s : Buffer × Nat) =>
          (memcpy s.1 s.2 dataptr (sorted.getD i 0) ENTRY_SIZE, s.2 + ENTRY_SIZE))
        (ext.fresh, 0)
      let dataptr := memcpy dataptr (start * ENTRY_SIZE) temp.1 0 ((end_ - start) * ENTRY_SIZE)
      -- determine if there are still ties (if this is not the last column)
      if tie_col < sorting_state.ORDER_TYPES.length - 1 then
        let idx_ptr := start * ENTRY_SIZE
        let current := stringOfRow ext dataptr idx_ptr var_dataptr offsets_ptr sorting_size
        -- state: ties, idx_ptr, current_size, current_val
        let r := forUp (end_ - start - 1)
          (fun i (s : (Nat → Bool) × Nat × Nat × List Byte) =>
            let idx_ptr := s.2.1 + ENTRY_SIZE
            -- load next entry
            let next := stringOfRow ext dataptr idx_ptr var_dataptr offsets_ptr sorting_size
            let tie : Bool :=
              if s.2.2.1 ≠ next.1 then false else ext.Equals s.2.2.2 next.2
            ((fun v => if v = start + i then tie else s.1 v), idx_ptr, next.1, next.2))
          (ties, idx_ptr, current.1, current.2)
        (dataptr, r.1)
      else (dataptr, ties)

/-- The outer loop of `BreakTies`, from row `i` on. -/
def BreakTies.loop (ext : Extern) (count tie_col : Nat) (var_dataptr offsets_ptr : Buffer)
    (sorting_state : SortingState) :
    Nat → Nat → Buffer × (Nat → Bool) → Except SortError (Buffer × (Nat → Bool))
  | 0, _, s => .ok s
  | fuel + 1, i, s =>
    if i < count then
      if !s.2 i then
        BreakTies.loop ext count tie_col var_dataptr offsets_ptr sorting_state fuel (i + 1) s
      else
        let j := scanTies s.2 count count i
        match sorting_state.TYPES.getD tie_col PhysicalType.INT32 with
        | PhysicalType.VARCHAR =>
          BreakTies.loop ext count tie_col var_dataptr offsets_ptr sorting_state fuel (j + 1)
            (BreakStringTies ext s.1 i (j + 1) tie_col s.2 var_dataptr offsets_ptr sorting_state)
        | _ => .error SortError.NotImplemented
    else .ok s

/-- The function `BreakTies`: the sorting block and the array `ties` afterwards, or the
exception it throws. -/
def BreakTies (ext : Extern) (cb : ContinuousBlock) (ties : Nat → Bool) (dataptr : Buffer)
    (count tie_col : Nat) (sorting_state : SortingState) :
    Except SortError (Buffer × (Nat → Bool)) :=
  match cb.var_sorting_chunks.getD tie_col none with
  | none => .error SortError.InvalidAccess
  | some chunk =>
    match chunk.data_blocks.getLast?, chunk.offset_blocks.getLast? with
    | some var_data_block, some var_offsets_block =>
      BreakTies.loop ext count tie_col var_data_block.block var_offsets_block.block sorting_state
        count 0 (dataptr, ties)
    | _, _ => .error SortError.InvalidAccess

/-- The state of the column loop of `SortInMemory`. -/
structure SortLoopState where
  dataptr : Buffer
  ties : Option (Nat → Bool)
  sorting_size : Nat
  col_offset : Nat

/-- The column loop of `SortInMemory` (the path taken when some key column is not of constant
size), over the column numbers still to visit: the sorting block afterwards. -/
def SortInMemory.columns (ext : Extern) (cb : ContinuousBlock) (sorting_state : SortingState)
    (count : Nat) : List Nat → SortLoopState → Except SortError Buffer
  | [], s => .ok s.dataptr
  | i :: rest, s =>
    let num_cols := sorting_state.CONSTANT_SIZE.length
    let sorting_size := s.sorting_size + sorting_state.COL_SIZE.getD i 0
    if sorting_state.CONSTANT_SIZE.getD i false && decide (i < num_cols - 1) then
      -- add columns to the sort until we reach a variable size column, or the last column
      SortInMemory.columns ext cb sorting_state count rest { s with sorting_size := sorting_size }
    else
      let sorted : Buffer × (Nat → Bool) :=
        match s.ties with
        | none =>
          -- this is the first sort
          (RadixSort ext.fresh s.dataptr 0 count s.col_offset sorting_size sorting_state,
           fun v => if v = count - 1 then false else if v < count - 1 then true
             else decide (ext.fresh v ≠ 0))
        | some ties =>
          -- for subsequent sorts, we subsort the tied tuples
          (SubSortTiedTuples ext.fresh s.dataptr count s.col_offset sorting_size ties
            sorting_state, ties)
      if sorting_state.CONSTANT_SIZE.getD i false && decide (i = num_cols - 1) then
        -- all columns are sorted, no ties to break because last column is constant size
        .ok sorted.1
      else
        let ties := ComputeTies sorted.1 count s.col_offset sorting_size sorted.2 sorting_state
        if !AnyTies ties count then
          -- no ties, so we stop sorting
          .ok sorted.1
        else
          match BreakTies ext cb ties sorted.1 count i sorting_state with
          | .error e => .error e
          | .ok broken =>
            if !AnyTies broken.2 count then
              -- no more ties after tie-breaking
              .ok broken.1
            else
              SortInMemory.columns ext cb sorting_state count rest
                { dataptr := broken.1, ties := some broken.2,
                  sorting_size := 0, col_offset := s.col_offset + sorting_size }

/-- The index stamping of `SortInMemory`: `Store<idx_t>(i, ...)` into the trailing field of
every row. -/
def SortInMemory.stamp (dataptr : Buffer) (count : Nat) (sorting_state : SortingState) : Buffer :=
  let sorting_size := (sorting_state.ENTRY_SIZE + IDX_MOD - sizeof_idx_t) % IDX_MOD
  (forUp count
    (fun i (s : Buffer × Nat) => (Store_idx i s.1 s.2, s.2 + sorting_state.ENTRY_SIZE))
    (dataptr, sorting_size)).1

/-- The body of `SortInMemory` on the pinned sorting block `dataptr` of `count` rows: the
contents of the block afterwards, or the exception thrown. -/
def SortInMemory.sort (ext : Extern) (cb : ContinuousBlock) (sorting_state : SortingState)
    (dataptr : Buffer) (count : Nat) : Except SortError Buffer :=
  -- assign an index to each row
  let sorting_size := (sorting_state.ENTRY_SIZE + IDX_MOD - sizeof_idx_t) % IDX_MOD
  let dataptr := SortInMemory.stamp dataptr count sorting_state
  let all_constant := sorting_state.CONSTANT_SIZE.foldl (fun acc c => acc && c) true
  if all_constant then
    .ok (RadixSort ext.fresh dataptr 0 count 0 sorting_size sorting_state)
  else
    SortInMemory.columns ext cb sorting_state count
      (List.range sorting_state.CONSTANT_SIZE.length)
      { dataptr := dataptr, ties := none, sorting_size := 0, col_offset := 0 }

/-- The function `SortInMemory`: the continuous block afterwards, its last sorting block
sorted in place, or the exception thrown. -/
def SortInMemory (ext : Extern) (cb : ContinuousBlock) (sorting_state : SortingState) :
    Except SortError ContinuousBlock :=
  match cb.sorting_blocks.getLast? with
  | none => .error SortError.InvalidAccess
  | some block =>
    match SortInMemory.sort ext cb sorting_state block.block block.count with
    | .error e => .error e
    | .ok sorted =>
      .ok { cb with
        sorting_blocks := cb.sorting_blocks.dropLast ++ [{ block with block := sorted }] }

/-! ## Auxiliary definitions used in the statements and proofs -/

/-- The copying loop shared by `ConcatenateBlocks` and `SizesToOffsets`, with the number of
bytes taken from each block as a parameter. -/
def copyStep (len : RowDataBlock → Nat) (s : Buffer × Nat) (block : RowDataBlock) : Buffer × Nat :=
  (memcpy s.1 s.2 block.block 0 (len block), s.2 + len block)

/-- The sum `f 0 + ... + f (k-1)`. -/
def sumTo (f : Nat → Nat) : Nat → Nat
  | 0 => 0
  | k + 1 => sumTo f k + f k

/-- A blob chunk of one row of two bytes, held in one block. -/
def sampleBlobChunk : RowChunk :=
  { blocks := [{ block := fun a => if a = 0 then 7 else if a = 1 then 9 else 0, CAPACITY := 4,
                 ENTRY_SIZE := 8, count := 1, byte_offset := 2 }],
    entry_size := 8, count := 1 }

/-- The sizes chunk that goes with `sampleBlobChunk`: one row of size 2. -/
def sampleBlobSizes : RowChunk :=
  { blocks := [{ block := Store_idx 2 (fun _ => 0) 0, CAPACITY := 4,
                 ENTRY_SIZE := 8, count := 1, byte_offset := 8 }],
    entry_size := 8, count := 1 }

/-- A sorting state with one `INT8` key column: a validity byte, a value byte and the index. -/
def sampleSortingState : SortingState :=
  { ENTRY_SIZE := 10, ORDER_TYPES := [OrderType.ASCENDING],
    ORDER_BY_NULL_TYPES := [OrderByNullType.NULLS_FIRST], TYPES := [PhysicalType.INT8],
    HAS_NULL := [true], CONSTANT_SIZE := [true], COL_SIZE := [2] }

/-- A sorted key block of two rows for `sampleSortingState`: keys `(1, 5)` and `(1, 9)`, with
trailing indices 1 and 0. -/
def sampleSortedKeys : Buffer :=
  Store_idx 0 (Store_idx 1
    (fun a => if a = 0 then 1 else if a = 1 then 5 else if a = 10 then 1 else if a = 11 then 9
      else 0) 2) 12

/-- A constant-size payload block of two entries of two bytes, `[10, 11]` and `[12, 13]`; the
bytes at offsets 10 and 11, past the entries, are 20 and 21. -/
def samplePayloadBlock : RowDataBlock :=
  { block := fun a => if a = 0 then 10 else if a = 1 then 11 else if a = 2 then 12
      else if a = 3 then 13 else if a = 10 then 20 else if a = 11 then 21 else 0,
    CAPACITY := 16, ENTRY_SIZE := 2, count := 2, byte_offset := 0 }

/-- The payload chunk holding `samplePayloadBlock`. -/
def samplePayloadChunk : ContinuousChunk :=
  { data_blocks := [samplePayloadBlock], offset_blocks := [], CONSTANT_SIZE := true,
    ENTRY_SIZE := 2 }

/-- A variable-size blob block of two rows: row 0 is the byte `[1]`, row 1 the bytes `[2, 3]`. -/
def sampleVarData : RowDataBlock :=
  { block := fun a => if a = 0 then 1 else if a = 1 then 2 else if a = 2 then 3 else 0,
    CAPACITY := 16, ENTRY_SIZE := 8, count := 2, byte_offset := 0 }

/-- The offsets `[0, 1, 3]` of `sampleVarData`. -/
def sampleVarOffsets : RowDataBlock :=
  { block := Store_idx 3 (Store_idx 1 (Store_idx 0 (fun _ => 0) 0) 8) 16,
    CAPACITY := 16, ENTRY_SIZE := 8, count := 2, byte_offset := 0 }

/-- The variable-size chunk made of `sampleVarData` and `sampleVarOffsets`. -/
def sampleVarChunk : ContinuousChunk :=
  { data_blocks := [sampleVarData], offset_blocks := [sampleVarOffsets], CONSTANT_SIZE := false,
    ENTRY_SIZE := 0 }

/-- The number of rows `j < n` whose key byte is `b`. -/
def cntEq (key : Nat → Nat) (b : Nat) : Nat → Nat
  | 0 => 0
  | n + 1 => cntEq key b n + (if key n = b then 1 else 0)

/-- The number of rows `j < n` whose key byte is less than `b`. -/
def cntLt (key : Nat → Nat) (b : Nat) : Nat → Nat
  | 0 => 0
  | n + 1 => cntLt key b n + (if key n < b then 1 else 0)

/-- The number of rows `j < n` whose key byte is at most `b`. -/
def cntLe (key : Nat → Nat) (b : Nat) : Nat → Nat
  | 0 => 0
  | n + 1 => cntLe key b n + (if key n ≤ b then 1 else 0)

/-- The slot that a pass of `RadixSort` gives to row `j`: the rows with a smaller key byte come
first, then the earlier rows with the same key byte. -/
def radixPos (key : Nat → Nat) (count j : Nat) : Nat :=
  cntLt key (key j) count + cntEq key (key j) j

/-- The map `σ` sends the `count` rows into their slots as a stable sort by `cmp` does: row `j`
comes before row `k` exactly when it compares less, or equal with `j < k`. -/
def IsStablePlacement (count : Nat) (cmp : Nat → Nat → Int) (σ : Nat → Nat) : Prop :=
  (∀ j, j < count → σ j < count) ∧
  ∀ j k, j < count → k < count → (σ j < σ k ↔ (cmp j k < 0 ∨ (cmp j k = 0 ∧ j < k)))

/-- The block `out` holds at slot `σ j` (rows of `ES` bytes from offset `ob`) the row `j` of the
block `data` (rows from offset `base`). -/
def RowsMoved (ES count : Nat) (data : Buffer) (base : Nat) (out : Buffer) (ob : Nat)
    (σ : Nat → Nat) : Prop :=
  ∀ j, j < count → ∀ x, x < ES → out (ob + σ j * ES + x) = data (base + j * ES + x)

/-- The block `out` agrees with `data` outside the `count` rows that start at `base`. -/
def SameOutside (ES count : Nat) (data : Buffer) (base : Nat) (out : Buffer) : Prop :=
  ∀ a, a < base ∨ base + count * ES ≤ a → out a = data a

/-- The state of the byte loop of `RadixSort` after the last `m` bytes of the window have been
processed. -/
def RadixLoopInv (ES count col_offset sorting_size : Nat) (data : Buffer) (base : Nat) (m : Nat)
    (s : (Buffer × Nat) × (Buffer × Nat) × Bool) : Prop :=
  ∃ σ : Nat → Nat,
    IsStablePlacement count
      (fun j k => memcmp data (base + j * ES + (col_offset + sorting_size - m))
        data (base + k * ES + (col_offset + sorting_size - m)) m) σ ∧
    RowsMoved ES count data base s.1.1 s.1.2 σ ∧
    (if s.2.2 then s.2.1.2 = base ∧ SameOutside ES count data base s.2.1.1
     else s.1.2 = base ∧ SameOutside ES count data base s.1.1)

/-- The `n` rows of `ES` bytes that start at offset `base` of a block, as a list of rows. -/
def rowsAt (d : Buffer) (ES base n : Nat) : List (List Byte) :=
  (List.range n).map (fun k => bytesOf d (base + k * ES) ES)

/-- Values for the externals: the constants of the code base, zero-filled fresh memory, a
stable insertion sort standing for `std::sort`, and byte-wise comparison of strings. -/
def sampleExtern : Extern :=
  { BLOCK_ALLOC_SIZE := 262144, MAX_STRING_MINMAX_SIZE := 8, PREFIX_LENGTH := 4,
    fresh := fun _ => 0,
    std_sort := fun lt l => List.insertionSort (fun a b => lt b a = false) l,
    Equals := fun a b => decide (a = b),
    LessThan := fun a b => decide (a < b) }

/-- An unsorted key block of three rows for `sampleSortingState`: keys `(1, 9)`, `(1, 5)` and
`(1, 7)`. -/
def sampleKeyBlock : RowDataBlock :=
  { block := fun a => if a = 0 then 1 else if a = 1 then 9 else if a = 10 then 1
      else if a = 11 then 5 else if a = 20 then 1 else if a = 21 then 7 else 0,
    CAPACITY := 16, ENTRY_SIZE := 10, count := 3, byte_offset := 0 }

/-- A continuous block with `sampleKeyBlock` as its sorting block. -/
def sampleContinuousBlock : ContinuousBlock :=
  { sorting_blocks := [sampleKeyBlock], var_sorting_chunks := [none],
    payload_chunk := samplePayloadChunk }

/-- The rows `p` and `q` belong to one tied group: every row between them is tied to its
successor. -/
def SameGroup (ties : Nat → Bool) (p q : Nat) : Prop :=
  ∀ k, min p q ≤ k → k < max p q → ties k = true

/-- Row `p` of the block `r` and row `q` of the block `d` hold the same bytes. -/
def RowEq (ES : Nat) (r : Buffer) (p : Nat) (d : Buffer) (q : Nat) : Prop :=
  ∀ x, x < ES → r (p * ES + x) = d (q * ES + x)

/-! ## The order of rows that the sorter establishes -/

/-- The offset of key column `c` in a row: the sum of the sizes of the columns before it (the
value `tie_col_offset` that `BreakStringTies` computes first). -/
def colStart (st : SortingState) (c : Nat) : Nat :=
  forUp c (fun i acc => acc + st.COL_SIZE.getD i 0) 0

/-- The test of `BreakStringTies` for a NULL key in column `c` of the row at offset `row`: the
validity byte is 0 under NULLS_FIRST or 1 under NULLS_LAST. -/
def isNullKey (st : SortingState) (c : Nat) (d : Buffer) (row : Nat) : Bool :=
  st.HAS_NULL.getD c false &&
    ((st.ORDER_BY_NULL_TYPES.getD c OrderByNullType.NULLS_FIRST == OrderByNullType.NULLS_FIRST
        && d (row + colStart st c) == 0)
      || (st.ORDER_BY_NULL_TYPES.getD c OrderByNullType.NULLS_FIRST == OrderByNullType.NULLS_LAST
        && d (row + colStart st c) == 1))

/-- The test of `BreakStringTies` for a string shorter than the key bytes kept of it: one of
these bytes of column `c` is the padding byte (0 for ascending, 0xFF for descending). -/
def hasPadding (ext : Extern) (st : SortingState) (c : Nat) (d : Buffer) (row : Nat) : Bool :=
  (List.range ext.MAX_STRING_MINMAX_SIZE).any
    (fun i =>
      d (row + (if st.HAS_NULL.getD c false then colStart st c + 1 else colStart st c) + i)
        == (if st.ORDER_TYPES.getD c OrderType.ASCENDING == OrderType.ASCENDING then (0 : Byte)
            else 255))

/-- The blob block of the variable-size key column `c` (zero-filled when there is none). -/
def varBlob (cb : ContinuousBlock) (c : Nat) : Buffer :=
  match cb.var_sorting_chunks.getD c none with
  | some chunk =>
    match chunk.data_blocks.getLast? with
    | some b => b.block
    | none => fun _ => 0
  | none => fun _ => 0

/-- The offsets block of the variable-size key column `c` (zero-filled when there is none). -/
def varOffsets (cb : ContinuousBlock) (c : Nat) : Buffer :=
  match cb.var_sorting_chunks.getD c none with
  | some chunk =>
    match chunk.offset_blocks.getLast? with
    | some b => b.block
    | none => fun _ => 0
  | none => fun _ => 0

/-- The string `l` comes before the string `r` in the order of column `c`: `l < r` for an
ascending column, `r < l` for a descending one. -/
def stringBefore (ext : Extern) (st : SortingState) (c : Nat) (l r : List Byte) : Bool :=
  if st.ORDER_TYPES.getD c OrderType.ASCENDING == OrderType.DESCENDING then ext.LessThan r l
  else ext.LessThan l r

/-- The comparison of the rows at offsets `a` and `b` of the block `d` on key column `c`:
the key bytes of the column by `memcmp`; when these are equal and the column is of variable
size and the value is not NULL, the full strings found through the trailing indices of the
rows. With `skipPadded`, rows whose key bytes contain the padding byte count as equal. -/
def columnCompare (ext : Extern) (cb : ContinuousBlock) (st : SortingState) (skipPadded : Bool)
    (d : Buffer) (c a b : Nat) : Int :=
  let m := memcmp d (a + colStart st c) d (b + colStart st c) (st.COL_SIZE.getD c 0)
  if m ≠ 0 then m
  else if st.CONSTANT_SIZE.getD c false then 0
  else if isNullKey st c d a then 0
  else if skipPadded && hasPadding ext st c d a then 0
  else
    let l := (stringOfRow ext d a (varBlob cb c) (varOffsets cb c)
      (st.ENTRY_SIZE - sizeof_idx_t)).2
    let r := (stringOfRow ext d b (varBlob cb c) (varOffsets cb c)
      (st.ENTRY_SIZE - sizeof_idx_t)).2
    if stringBefore ext st c l r then -1 else if stringBefore ext st c r l then 1 else 0

/-- The comparison of two rows on the first `n` key columns, column by column. -/
def rowCompareUpTo (ext : Extern) (cb : ContinuousBlock) (st : SortingState) (skipPadded : Bool)
    (d : Buffer) (a b : Nat) : Nat → Int
  | 0 => 0
  | n + 1 =>
    if rowCompareUpTo ext cb st skipPadded d a b n ≠ 0 then
      rowCompareUpTo ext cb st skipPadded d a b n
    else columnCompare ext cb st skipPadded d n a b

/-- The comparison of two rows on all key columns. -/
def rowCompare (ext : Extern) (cb : ContinuousBlock) (st : SortingState) (skipPadded : Bool)
    (d : Buffer) (a b : Nat) : Int :=
  rowCompareUpTo ext cb st skipPadded d a b st.CONSTANT_SIZE.length

/-- A comparison function as `std::sort` requires it: a strict weak ordering. -/
def StrictWeak (lt : Nat → Nat → Bool) : Prop :=
  (∀ a, lt a a = false) ∧
  (∀ a b c, lt a b = true → lt b c = true → lt a c = true) ∧
  (∀ a b c, lt a b = false → lt b c = false → lt a c = false)

/-- The contract of the externals: `std::sort` with a strict weak ordering leaves no element
before one that compares less, `Equals` is equality of strings, and `LessThan` is a strict
total order of strings. -/
structure Extern.Valid (ext : Extern) : Prop where
  sort_sorted : ∀ (lt : Nat → Nat → Bool) (l : List Nat), StrictWeak lt →
    List.Pairwise (fun x y => lt y x = false) (ext.std_sort lt l)
  eq_iff : ∀ a b, ext.Equals a b = true ↔ a = b
  lt_irrefl : ∀ a, ext.LessThan a a = false
  lt_trans : ∀ a b c, ext.LessThan a b = true → ext.LessThan b c = true →
    ext.LessThan a c = true
  lt_total : ∀ a b, a ≠ b → ext.LessThan a b = true ∨ ext.LessThan b a = true

/-- The value `order` of `BreakStringTies` for column `c`. -/
def breakOrder (st : SortingState) (c : Nat) : Int :=
  if st.ORDER_TYPES.getD c OrderType.ASCENDING == OrderType.DESCENDING then -1 else 1

/-- The array `entry_ptrs` of `BreakStringTies` after `std::sort`. -/
def sortedPtrs (ext : Extern) (d : Buffer) (start end_ c : Nat) (var_dataptr offsets_ptr : Buffer)
    (st : SortingState) : List Nat :=
  ext.std_sort
    (fun l r => CompareStrings ext d l r var_dataptr offsets_ptr (breakOrder st c)
      ((st.ENTRY_SIZE + IDX_MOD - sizeof_idx_t) % IDX_MOD))
    ((List.range (end_ - start)).map (fun k => (start + k) * st.ENTRY_SIZE))

/-- The sorting block of `BreakStringTies` after the rows of the group have been copied
back in the order of the sorted pointers. -/
def reorderedRows (ext : Extern) (d : Buffer) (start end_ c : Nat)
    (var_dataptr offsets_ptr : Buffer) (st : SortingState) : Buffer :=
  memcpy d (start * st.ENTRY_SIZE)
    (forUp (end_ - start)
      (fun i (s : Buffer × Nat) =>
        (memcpy s.1 s.2 d ((sortedPtrs ext d start end_ c var_dataptr offsets_ptr st).getD i 0)
          st.ENTRY_SIZE, s.2 + st.ENTRY_SIZE))
      (ext.fresh, 0)).1 0 ((end_ - start) * st.ENTRY_SIZE)

/-- The array `ties` of `BreakStringTies` after the loop that compares the full strings of
neighbouring rows of the group in the block `d`. -/
def recomputedTies (ext : Extern) (d : Buffer) (start end_ : Nat) (ties : Nat → Bool)
    (var_dataptr offsets_ptr : Buffer) (st : SortingState) : Nat → Bool :=
  (forUp (end_ - start - 1)
    (fun i (s : (Nat → Bool) × Nat × Nat × List Byte) =>
      let idx_ptr := s.2.1 + st.ENTRY_SIZE
      let next := stringOfRow ext d idx_ptr var_dataptr offsets_ptr
        ((st.ENTRY_SIZE + IDX_MOD - sizeof_idx_t) % IDX_MOD)
      let tie : Bool :=
        if s.2.2.1 ≠ next.1 then false else ext.Equals s.2.2.2 next.2
      ((fun v => if v = start + i then tie else s.1 v), idx_ptr, next.1, next.2))
    (ties, start * st.ENTRY_SIZE,
      (stringOfRow ext d (start * st.ENTRY_SIZE) var_dataptr offsets_ptr
        ((st.ENTRY_SIZE + IDX_MOD - sizeof_idx_t) % IDX_MOD)).1,
      (stringOfRow ext d (start * st.ENTRY_SIZE) var_dataptr offsets_ptr
        ((st.ENTRY_SIZE + IDX_MOD - sizeof_idx_t) % IDX_MOD)).2)).1

/-- The layout of key column `c` fits the rows: the column lies before the trailing index,
and for a column of variable size the validity byte (if any) and the key bytes that
`BreakStringTies` inspects lie inside the column. -/
def ColOK (ext : Extern) (st : SortingState) (c : Nat) : Prop :=
  colStart st c + st.COL_SIZE.getD c 0 + 8 ≤ st.ENTRY_SIZE ∧
  (st.CONSTANT_SIZE.getD c false = false →
    (if st.HAS_NULL.getD c false then 1 else 0) + ext.MAX_STRING_MINMAX_SIZE
      ≤ st.COL_SIZE.getD c 0)

/-- What the sorter needs of the key layout and of the continuous block: the trailing index
fits, the vectors of the sorting state describe the same columns, every key column fits the
rows, and every key column of variable size is a VARCHAR column whose blob and offsets blocks
are present. -/
structure KeyLayout (ext : Extern) (cb : ContinuousBlock) (st : SortingState) : Prop where
  entry_ge : 8 ≤ st.ENTRY_SIZE
  entry_lt : st.ENTRY_SIZE < IDX_MOD
  orders : st.ORDER_TYPES.length = st.CONSTANT_SIZE.length
  cols : ∀ c, c < st.CONSTANT_SIZE.length → ColOK ext st c
  varchar : ∀ c, c < st.CONSTANT_SIZE.length → st.CONSTANT_SIZE.getD c false = false →
    st.TYPES.getD c PhysicalType.INT32 = PhysicalType.VARCHAR
  blocks : ∀ c, c < st.CONSTANT_SIZE.length → st.CONSTANT_SIZE.getD c false = false →
    ∃ chunk b1 b2, cb.var_sorting_chunks.getD c none = some chunk ∧
      chunk.data_blocks.getLast? = some b1 ∧ chunk.offset_blocks.getLast? = some b2

/-- The array `ties` describes the block `d` on the first `n` key columns: a row tied to its
successor equals it on these columns, a row not tied comes strictly before its successor. -/
def TiesInv (ext : Extern) (cb : ContinuousBlock) (st : SortingState) (count : Nat) (d : Buffer)
    (t : Nat → Bool) (n : Nat) : Prop :=
  ∀ p, p + 1 < count →
    (t p = true →
      rowCompareUpTo ext cb st true d (p * st.ENTRY_SIZE) ((p + 1) * st.ENTRY_SIZE) n = 0) ∧
    (t p = false →
      rowCompareUpTo ext cb st true d (p * st.ENTRY_SIZE) ((p + 1) * st.ENTRY_SIZE) n < 0)

/-- The rows at offsets `a` and `b` are equal on the key columns before column `i` and have the
same key bytes in column `i`. -/
def KeyTied (ext : Extern) (cb : ContinuousBlock) (st : SortingState) (d : Buffer) (i a b : Nat) :
    Prop :=
  rowCompareUpTo ext cb st true d a b i = 0 ∧
  memcmp d (a + colStart st i) d (b + colStart st i) (st.COL_SIZE.getD i 0) = 0

/-- The row at offset `a` comes strictly before the row at offset `b` by the key columns before
column `i` or, these being equal, by the key bytes of column `i`. -/
def KeyLess (ext : Extern) (cb : ContinuousBlock) (st : SortingState) (d : Buffer) (i a b : Nat) :
    Prop :=
  rowCompareUpTo ext cb st true d a b i < 0 ∨
  (rowCompareUpTo ext cb st true d a b i = 0 ∧
    memcmp d (a + colStart st i) d (b + colStart st i) (st.COL_SIZE.getD i 0) < 0)

/-- The array `ties` as `ComputeTies` leaves it for column `i`: tied neighbours agree up to the
key bytes of column `i`, the others are strictly ordered by them. -/
def PreBreak (ext : Extern) (cb : ContinuousBlock) (st : SortingState) (count : Nat) (d : Buffer)
    (t : Nat → Bool) (i : Nat) : Prop :=
  ∀ p, p + 1 < count →
    (t p = true → KeyTied ext cb st d i (p * st.ENTRY_SIZE) ((p + 1) * st.ENTRY_SIZE)) ∧
    (t p = false → KeyLess ext cb st d i (p * st.ENTRY_SIZE) ((p + 1) * st.ENTRY_SIZE))

/-- Every row of the block `d` comes before or equals its successor under `rowCompare`. -/
def SortedRows (ext : Extern) (cb : ContinuousBlock) (st : SortingState) (skipPadded : Bool)
    (count : Nat) (d : Buffer) : Prop :=
  ∀ p, p + 1 < count →
    rowCompare ext cb st skipPadded d (p * st.ENTRY_SIZE) ((p + 1) * st.ENTRY_SIZE) ≤ 0

/-- The body of the column loop of `SortInMemory` from the test for a constant-size last column
on, for column `i` and the window of `sorting_size` bytes at `col_offset`; `sorted` is the
block and the array `ties` after the sort of this window, `next` the remaining iterations. -/
def SortInMemory.afterSort (ext : Extern) (cb : ContinuousBlock) (sorting_state : SortingState)
    (count i col_offset sorting_size : Nat) (sorted : Buffer × (Nat → Bool))
    (next : SortLoopState → Except SortError Buffer) : Except SortError Buffer :=
  if sorting_state.CONSTANT_SIZE.getD i false
      && decide (i = sorting_state.CONSTANT_SIZE.length - 1) then
    .ok sorted.1
  else
    let ties := ComputeTies sorted.1 count col_offset sorting_size sorted.2 sorting_state
    if !AnyTies ties count then
      .ok sorted.1
    else
      match BreakTies ext cb ties sorted.1 count i sorting_state with
      | .error e => .error e
      | .ok broken =>
        if !AnyTies broken.2 count then
          .ok broken.1
        else
          next { dataptr := broken.1, ties := some broken.2,
                 sorting_size := 0, col_offset := col_offset + sorting_size }

/-- The array `ties` after the first sort of `SortInMemory`: `true` for the first `count - 1`
rows, `false` for the last one. -/
def firstTies (ext : Extern) (count : Nat) : Nat → Bool :=
  fun v => if v = count - 1 then false else if v < count - 1 then true
    else decide (ext.fresh v ≠ 0)

/-- A sorting state with one nullable `VARCHAR` key column, ascending, NULLs first: a validity
byte, eight key bytes of the string and the index. -/
def sampleStringState : SortingState :=
  { ENTRY_SIZE := 17, ORDER_TYPES := [OrderType.ASCENDING],
    ORDER_BY_NULL_TYPES := [OrderByNullType.NULLS_FIRST], TYPES := [PhysicalType.VARCHAR],
    HAS_NULL := [true], CONSTANT_SIZE := [false], COL_SIZE := [9] }

/-- A key block of two rows for `sampleStringState`: both rows are valid and have the key bytes
`'a', 0, 0, 0, 0, 0, 0, 0`, the first of the two-byte string `"a\0"` and the second of the
string `"a"`. -/
def sampleStringKeys : RowDataBlock :=
  { block := fun a => if a = 0 then 1 else if a = 1 then 97 else if a = 17 then 1
      else if a = 18 then 97 else 0,
    CAPACITY := 16, ENTRY_SIZE := 17, count := 2, byte_offset := 0 }

/-- The blob block of the two strings: `"a\0"` (length 2) at offset 0 and `"a"` (length 1) at
offset 6, each as a length of four bytes followed by its bytes. -/
def sampleStringBlob : RowDataBlock :=
  { block := fun a => if a = 0 then 2 else if a = 4 then 97 else if a = 6 then 1
      else if a = 10 then 97 else 0,
    CAPACITY := 16, ENTRY_SIZE := 8, count := 2, byte_offset := 0 }

/-- The offsets `[0, 6, 11]` of `sampleStringBlob`. -/
def sampleStringOffsets : RowDataBlock :=
  { block := Store_idx 11 (Store_idx 6 (Store_idx 0 (fun _ => 0) 0) 8) 16,
    CAPACITY := 16, ENTRY_SIZE := 8, count := 2, byte_offset := 0 }

/-- The variable-size chunk of the key column of `sampleStringState`. -/
def sampleStringChunk : ContinuousChunk :=
  { data_blocks := [sampleStringBlob], offset_blocks := [sampleStringOffsets],
    CONSTANT_SIZE := false, ENTRY_SIZE := 0 }

/-- A continuous block with `sampleStringKeys` as its sorting block. -/
def sampleStringContinuousBlock : ContinuousBlock :=
  { sorting_blocks := [sampleStringKeys], var_sorting_chunks := [some sampleStringChunk],
    payload_chunk := samplePayloadChunk }

/-! ## Operator state: sink, combine, finalize -/

/-- The struct `PayloadState`. -/
structure PayloadState where
  HAS_VARIABLE_SIZE : Bool
  VALIDITYMASK_SIZE : Nat
  ENTRY_SIZE : Nat
  ROWCHUNK_INIT_SIZE : Nat

/-- The class `OrderGlobalState`, without its lock and buffer manager: the two constant states
(set by `GetGlobalState`), the runs sorted so far and `total_count`. -/
structure OrderGlobalState where
  sorting_state : SortingState
  payload_state : PayloadState
  sorted_blocks : List ContinuousBlock
  total_count : Nat

/-- The class `OrderLocalState`, without its executor and scratch arrays. A `unique_ptr` that
may be null is an `Option`. -/
structure OrderLocalState where
  initialized : Bool
  sorting_block : Option RowChunk
  var_sorting_blocks : List (Option RowChunk)
  var_sorting_sizes : List (Option RowChunk)
  payload_block : Option RowChunk
  sizes_block : Option RowChunk
  sorted_blocks : List ContinuousBlock

/-- Modelled from the spec: the constructor `RowChunk(buffer_manager, block_capacity, entry_size)`,
whose declaration is in a header outside the sources. A new chunk has no blocks and no rows;
the block capacity is used only by `Build`, which is outside the sources too, and is not
kept. -/
def RowChunk.create (entry_size : Nat) : RowChunk :=
  { blocks := [], entry_size := entry_size, count := 0 }

/-- The loop of `SortLocalState` over the variable-size sorting columns: the vector
`var_sorting_chunks` of the new continuous block, and the vectors `var_sorting_blocks` and
`var_sorting_sizes` of the local state, whose chunks are emptied as they are concatenated.
Dereferencing a null chunk is `InvalidAccess`. -/
def SortLocalState.varChunks (ext : Extern) (lstate : OrderLocalState)
    (sorting_state : SortingState) :
    Except SortError
      (List (Option ContinuousChunk) × List (Option RowChunk) × List (Option RowChunk)) :=
  forUp lstate.var_sorting_blocks.length
    (fun i acc =>
      match acc with
      | .error e => .error e
      | .ok (chunks, blocks, sizes) =>
        if !(sorting_state.CONSTANT_SIZE.getD i true) then
          match blocks.getD i none, sizes.getD i none with
          | some row_chunk, some sizes_chunk =>
            let new_block := ConcatenateBlocks ext.BLOCK_ALLOC_SIZE ext.fresh row_chunk true
            let offsets_block := SizesToOffsets ext.BLOCK_ALLOC_SIZE ext.fresh sizes_chunk
            .ok (chunks ++ [some
                  { data_blocks := [new_block.1], offset_blocks := [offsets_block.1],
                    CONSTANT_SIZE := sorting_state.CONSTANT_SIZE.getD i true, ENTRY_SIZE := 0 }],
                 blocks.set i (some new_block.2), sizes.set i (some offsets_block.2))
          | _, _ => .error SortError.InvalidAccess
        else .ok (chunks ++ [none], blocks, sizes))
    (.ok ([], lstate.var_sorting_blocks, lstate.var_sorting_sizes))

/-- The function `PhysicalOrder::SortLocalState`: the local state afterwards, or the exception
thrown by the sort. Dereferencing a null chunk or taking `back()` of an empty vector is
`InvalidAccess`. -/
def SortLocalState (ext : Extern) (lstate : OrderLocalState) (sorting_state : SortingState)
    (payload_state : PayloadState) : Except SortError OrderLocalState :=
  match lstate.sorting_block with
  | none => .error SortError.InvalidAccess
  | some sorting_chunk =>
    if sorting_chunk.count = 0 then .ok lstate
    else
      -- copy all data to ContinuousBlocks: fixed-size sorting data
      let sorting_block := ConcatenateBlocks ext.BLOCK_ALLOC_SIZE ext.fresh sorting_chunk false
      -- variable size sorting columns
      match SortLocalState.varChunks ext lstate sorting_state with
      | .error e => .error e
      | .ok (chunks, var_blocks, var_sizes) =>
        -- payload data
        match lstate.payload_block with
        | none => .error SortError.InvalidAccess
        | some payload_chunk =>
          let payload_block := ConcatenateBlocks ext.BLOCK_ALLOC_SIZE ext.fresh payload_chunk
            payload_state.HAS_VARIABLE_SIZE
          let offsets : Except SortError (List RowDataBlock × Option RowChunk) :=
            if payload_state.HAS_VARIABLE_SIZE then
              match lstate.sizes_block with
              | none => .error SortError.InvalidAccess
              | some sizes_chunk =>
                let offsets_block := SizesToOffsets ext.BLOCK_ALLOC_SIZE ext.fresh sizes_chunk
                .ok ([offsets_block.1], some offsets_block.2)
            else .ok ([], lstate.sizes_block)
          match offsets with
          | .error e => .error e
          | .ok (offset_blocks, sizes_block) =>
            let cb : ContinuousBlock :=
              { sorting_blocks := [sorting_block.1], var_sorting_chunks := chunks,
                payload_chunk :=
                  { data_blocks := [payload_block.1], offset_blocks := offset_blocks,
                    CONSTANT_SIZE := !payload_state.HAS_VARIABLE_SIZE,
                    ENTRY_SIZE := payload_state.ENTRY_SIZE } }
            -- now perform the actual sort
            match SortInMemory ext cb sorting_state with
            | .error e => .error e
            | .ok sorted =>
              -- re-order before the merge sort
              match ReOrder_block ext.fresh sorted sorting_state with
              | none => .error SortError.InvalidAccess
              | some reordered =>
                -- add the sorted block to the global state
                .ok { lstate with
                  sorting_block := some sorting_block.2, var_sorting_blocks := var_blocks,
                  var_sorting_sizes := var_sizes, payload_block := some payload_block.2,
                  sizes_block := sizes_block,
                  sorted_blocks := lstate.sorted_blocks ++ [reordered] }

/-- The function `PhysicalOrder::Combine`: the global state afterwards (the runs of the local
state are moved into it, so the local state is not used again). -/
def Combine (ext : Extern) (gstate : OrderGlobalState) (lstate : OrderLocalState) :
    Except SortError OrderGlobalState :=
  match lstate.sorting_block with
  | none => .ok gstate
  | some _ =>
    match SortLocalState ext lstate gstate.sorting_state gstate.payload_state with
    | .error e => .error e
    | .ok lstate =>
      .ok { gstate with
        sorted_blocks := lstate.sorted_blocks.foldl (fun blocks cb => blocks ++ [cb])
          gstate.sorted_blocks }

/-- The members of `PhysicalOrder` that its methods read and write: `sink_state` and
`estimated_cardinality`. -/
structure PhysicalOrder where
  sink_state : Option OrderGlobalState
  estimated_cardinality : Nat

/-- The function `PhysicalOrder::Finalize`: the operator afterwards; `none` when `back()` is
taken of an empty vector of sorting blocks. -/
def Finalize (op : PhysicalOrder) (state_p : OrderGlobalState) : Option PhysicalOrder :=
  match state_p.sorted_blocks.getLast? with
  | none => some { op with sink_state := some state_p }
  | some cb =>
    match cb.sorting_blocks.getLast? with
    | none => none
    | some block => some { op with sink_state := some { state_p with total_count := block.count } }

/-! ## Operator state: emit -/

/-- The function `PhysicalOrder::MaxThreads`; `none` when `back()` is taken of an empty
vector. -/
def MaxThreads (STANDARD_VECTOR_SIZE : Nat) (op : PhysicalOrder) : Option Nat :=
  match op.sink_state with
  | some state =>
    match state.sorted_blocks.getLast? with
    | none => none
    | some cb =>
      match cb.payload_chunk.data_blocks.getLast? with
      | none => none
      | some block => some ((block.count / STANDARD_VECTOR_SIZE + 1) % IDX_MOD)
  | none => some ((op.estimated_cardinality / STANDARD_VECTOR_SIZE + 1) % IDX_MOD)

/-- The class `OrderParallelState`, without its lock. -/
structure OrderParallelState where
  entry_idx : Nat

/-- The function `PhysicalOrder::GetParallelState`. -/
def GetParallelState : OrderParallelState := { entry_idx := 0 }

/-- The class `PhysicalOrderOperatorState`. `parallel_state` tells whether the pointer of that
name is set; the pinned buffers are `none` while their handles are null; the two arrays of
locations hold offsets from the base of the pinned payload buffer. -/
structure PhysicalOrderOperatorState where
  parallel_state : Bool
  initialized : Bool
  payload_handle : Option Buffer
  offsets_handle : Option Buffer
  key_locations : Nat → Nat
  validitymask_locations : Nat → Nat
  entry_idx : Nat
  count : Nat

/-- The function `PhysicalOrder::GetOperatorState`: `entry_idx` is 0 and `count` is `-1` as an
`idx_t`; `locations` is what the two arrays hold before they are written. -/
def GetOperatorState (locations : Nat → Nat) : PhysicalOrderOperatorState :=
  { parallel_state := false, initialized := false, payload_handle := none,
    offsets_handle := none, key_locations := locations, validitymask_locations := locations,
    entry_idx := 0, count := IDX_MOD - 1 }

/-- The function `Scan`, up to the locations it computes and the cardinality it gives the
chunk: the cardinality of the chunk and the operator state afterwards. The vectors of the
chunk are filled by `RowChunk::DeserializeIntoVector` (outside the sources) from these
locations. `chunk` is the cardinality of the chunk on entry; `none` stands for the use of a
null handle. -/
def Scan (chunk : Nat) (state : PhysicalOrderOperatorState) (payload_state : PayloadState)
    (offset next : Nat) : Option (Nat × PhysicalOrderOperatorState) :=
  if offset ≥ state.count then some (chunk, state)
  else
    match state.payload_handle with
    | none => none
    | some _ =>
      if payload_state.HAS_VARIABLE_SIZE then
        match state.offsets_handle with
        | none => none
        | some offsets =>
          let s := forUp next
            (fun i (s : (Nat → Nat) × (Nat → Nat)) =>
              let validitymask_location := offsetAt offsets i
              ((fun v => if v = i then validitymask_location else s.1 v),
               (fun v => if v = i then validitymask_location + payload_state.VALIDITYMASK_SIZE
                 else s.2 v)))
            (state.validitymask_locations, state.key_locations)
          some (next, { state with validitymask_locations := s.1, key_locations := s.2 })
      else
        let s := forUp next
          (fun i (s : (Nat → Nat) × (Nat → Nat)) =>
            let validitymask_location := 0
            ((fun v => if v = i then validitymask_location else s.1 v),
             (fun v => if v = i then validitymask_location + payload_state.VALIDITYMASK_SIZE
               else s.2 v)))
          (state.validitymask_locations, state.key_locations)
        some (next, { state with validitymask_locations := s.1, key_locations := s.2 })

/-- The block of `GetChunkInternal` run under the lock of the parallel state: the claimed
`offset` and `next`, and the parallel state afterwards. -/
def OrderParallelState.claim (STANDARD_VECTOR_SIZE count : Nat)
    (parallel_state : OrderParallelState) : Nat × Nat × OrderParallelState :=
  let offset := parallel_state.entry_idx
  let next := min STANDARD_VECTOR_SIZE ((count + IDX_MOD - offset) % IDX_MOD)
  (offset, next, { parallel_state with entry_idx := (parallel_state.entry_idx + next) % IDX_MOD })

/-- The function `PhysicalOrder::GetChunkInternal`: the cardinality of the chunk, the operator
state and the parallel state afterwards. `chunk` is the cardinality of the chunk on entry and
`task_parallel` the parallel state registered for this operator in the task, if any; `none`
stands for the use of a null pointer or `back()` of an empty vector. -/
def GetChunkInternal (STANDARD_VECTOR_SIZE : Nat) (op : PhysicalOrder)
    (task_parallel : Option OrderParallelState) (chunk : Nat)
    (state : PhysicalOrderOperatorState) :
    Option (Nat × PhysicalOrderOperatorState × Option OrderParallelState) :=
  match op.sink_state with
  | none => none
  | some gstate =>
    match gstate.sorted_blocks.getLast? with
    | none => some (chunk, state, task_parallel)
    | some cb =>
      let payload_state := gstate.payload_state
      let initialized : Option PhysicalOrderOperatorState :=
        if !state.initialized then
          -- initialize operator state
          match cb.sorting_blocks.getLast? with
          | none => none
          | some sorting_block =>
            let state := { state with count := sorting_block.count }
            let pinned : Option PhysicalOrderOperatorState :=
              if state.count > 0 then
                match cb.payload_chunk.data_blocks.getLast? with
                | none => none
                | some data_block =>
                  let state := { state with payload_handle := some data_block.block }
                  if payload_state.HAS_VARIABLE_SIZE then
                    match cb.payload_chunk.offset_blocks.getLast? with
                    | none => none
                    | some offset_block =>
                      some { state with offsets_handle := some offset_block.block }
                  else some state
              else some state
            -- initialize parallel state (if any)
            pinned.map (fun state =>
              { state with parallel_state := task_parallel.isSome, initialized := true })
        else some state
      match initialized with
      | none => none
      | some state =>
        if !state.parallel_state then
          -- sequential scan
          let next := min STANDARD_VECTOR_SIZE ((state.count + IDX_MOD - state.entry_idx) % IDX_MOD)
          match Scan chunk state payload_state state.entry_idx next with
          | none => none
          | some (chunk, state) =>
            some (chunk,
              { state with entry_idx := (state.entry_idx + STANDARD_VECTOR_SIZE) % IDX_MOD },
              task_parallel)
        else
          -- parallel scan
          match task_parallel with
          | none => none
          | some parallel_state =>
            let claimed := parallel_state.claim STANDARD_VECTOR_SIZE state.count
            match Scan chunk state payload_state claimed.1 claimed.2.1 with
            | none => none
            | some (chunk, state) => some (chunk, state, some claimed.2.2)

/-! ## Auxiliary definitions for the operator state -/

/-- The parallel state after `n` claims, starting from the state that `GetParallelState`
returns. -/
def claimsAfter (STANDARD_VECTOR_SIZE count : Nat) : Nat → OrderParallelState
  | 0 => GetParallelState
  | n + 1 =>
    (OrderParallelState.claim STANDARD_VECTOR_SIZE count
      (claimsAfter STANDARD_VECTOR_SIZE count n)).2.2

/-- The range `(offset, next)` of claim number `n` (counted from 0). -/
def claimedRange (STANDARD_VECTOR_SIZE count n : Nat) : Nat × Nat :=
  ((OrderParallelState.claim STANDARD_VECTOR_SIZE count
      (claimsAfter STANDARD_VECTOR_SIZE count n)).1,
   (OrderParallelState.claim STANDARD_VECTOR_SIZE count
      (claimsAfter STANDARD_VECTOR_SIZE count n)).2.1)

/-- The cardinalities of the chunks that `n` successive calls of `GetChunkInternal` return, each
call made with an empty chunk and without parallel state, and the operator state afterwards. -/
def sequentialChunks (STANDARD_VECTOR_SIZE : Nat) (op : PhysicalOrder) :
    Nat → PhysicalOrderOperatorState → Option (List Nat × PhysicalOrderOperatorState)
  | 0, state => some ([], state)
  | n + 1, state =>
    match GetChunkInternal STANDARD_VECTOR_SIZE op none 0 state with
    | none => none
    | some (chunk, state, _) =>
      match sequentialChunks STANDARD_VECTOR_SIZE op n state with
      | none => none
      | some (chunks, state) => some (chunk :: chunks, state)

/-- An operator state in a sequential scan of a run of `c` rows, with its cursor at `e`: it is
initialized, has no parallel state, and its buffers are pinned when the run has rows. -/
def SeqInv (payload_state : PayloadState) (c e : Nat) (s : PhysicalOrderOperatorState) : Prop :=
  s.initialized = true ∧ s.parallel_state = false ∧ s.count = c ∧ s.entry_idx = e ∧
  (0 < c → s.payload_handle.isSome = true ∧
    (payload_state.HAS_VARIABLE_SIZE = true → s.offsets_handle.isSome = true))

/-- The number of rows that call number `k` of a sequential scan of `count` rows emits. -/
def batchSize (STANDARD_VECTOR_SIZE count k : Nat) : Nat :=
  if k * STANDARD_VECTOR_SIZE < count then
    min STANDARD_VECTOR_SIZE (count - k * STANDARD_VECTOR_SIZE)
  else 0

/-- A payload state for a payload of constant size: a validity mask of one byte and one value
byte per row. -/
def samplePayloadState : PayloadState :=
  { HAS_VARIABLE_SIZE := false, VALIDITYMASK_SIZE := 1, ENTRY_SIZE := 2, ROWCHUNK_INIT_SIZE := 2048 }

/-- The sorted key block of two rows `sampleSortedKeys`, as a block. -/
def sampleRunKeys : RowDataBlock :=
  { block := sampleSortedKeys, CAPACITY := 16, ENTRY_SIZE := 10, count := 2, byte_offset := 0 }

/-- A run of two rows: the key block `sampleRunKeys` and the payload `samplePayloadChunk`. -/
def sampleRun : ContinuousBlock :=
  { sorting_blocks := [sampleRunKeys], var_sorting_chunks := [none],
    payload_chunk := samplePayloadChunk }

/-- A global state holding the run `sampleRun`, before `Finalize`. -/
def sampleGlobalState : OrderGlobalState :=
  { sorting_state := sampleSortingState, payload_state := samplePayloadState,
    sorted_blocks := [sampleRun], total_count := 0 }

/-- The operator after `Finalize` on `sampleGlobalState`. -/
def sampleFinalized : PhysicalOrder :=
  { sink_state := some { sampleGlobalState with total_count := 2 }, estimated_cardinality := 0 }

/-- What the sorter needs of a sorting state with key columns of variable size: the vectors
of the state describe the same columns, every key column fits the rows, every key column of
variable size is a VARCHAR column, and `std::sort` returns a permutation of its input. -/
structure SortingLayout (ext : Extern) (st : SortingState) : Prop where
  orders : st.ORDER_TYPES.length = st.CONSTANT_SIZE.length
  cols : ∀ c, c < st.CONSTANT_SIZE.length → ColOK ext st c
  varchar : ∀ c, c < st.CONSTANT_SIZE.length → st.CONSTANT_SIZE.getD c false = false →
    st.TYPES.getD c PhysicalType.INT32 = PhysicalType.VARCHAR
  sort_perm : ∀ (lt : Nat → Nat → Bool) (l : List Nat), List.Perm (ext.std_sort lt l) l

/-- A local state that `SortLocalState` can sort: the trailing index fits the rows, the key
columns are all of constant size or the sorting state has a `SortingLayout`, and the chunks
that `Initialize` creates are there (one entry per key column in `var_sorting_blocks`, a blob
chunk and a sizes chunk for every key column of variable size, the payload chunk, and the
sizes chunk of a payload of variable size). -/
structure LocalReady (ext : Extern) (st : SortingState) (ps : PayloadState)
    (l : OrderLocalState) : Prop where
  entry_ge : 8 ≤ st.ENTRY_SIZE
  entry_lt : st.ENTRY_SIZE < IDX_MOD
  keys : (∀ c, c ∈ st.CONSTANT_SIZE → c = true) ∨ SortingLayout ext st
  vars_length : l.var_sorting_blocks.length = st.CONSTANT_SIZE.length
  vars : ∀ c, c < st.CONSTANT_SIZE.length → st.CONSTANT_SIZE.getD c true = false →
    ∃ vb vs, l.var_sorting_blocks.getD c none = some vb ∧ l.var_sorting_sizes.getD c none = some vs
  payload : ∃ pb, l.payload_block = some pb
  sizes : ps.HAS_VARIABLE_SIZE = true → ∃ sc, l.sizes_block = some sc

/-- Every key column of variable size has its chunk in `chunks`, with a blob block and an
offsets block. -/
def HasVarBlocks (st : SortingState) (chunks : List (Option ContinuousChunk)) : Prop :=
  ∀ c, c < st.CONSTANT_SIZE.length → st.CONSTANT_SIZE.getD c true = false →
    ∃ cc db ob, chunks.getD c none = some cc ∧ cc.CONSTANT_SIZE = false ∧
      cc.data_blocks.getLast? = some db ∧ cc.offset_blocks.getLast? = some ob

/-- The number of rows in the blocks of a chunk. -/
def RowChunk.rows (chunk : RowChunk) : Nat := (chunk.blocks.map (fun b => b.count)).sum

/-- A sorting chunk for `sampleSortingState` with one block, holding the first `rows` rows of
`sampleKeyBlock`. -/
def sampleSortingChunk (rows : Nat) : RowChunk :=
  { blocks := [{ sampleKeyBlock with count := rows }], entry_size := 10, count := rows }

/-- A local state for `sampleSortingState` and `samplePayloadState` that has sealed no run:
its sorting chunk and its payload chunk hold one block of `rows` rows each. -/
def sampleLocalState (rows : Nat) : OrderLocalState :=
  { initialized := true,
    sorting_block := some (sampleSortingChunk rows),
    var_sorting_blocks := [none], var_sorting_sizes := [none],
    payload_block := some
      { blocks := [{ samplePayloadBlock with count := rows }], entry_size := 2, count := rows },
    sizes_block := none, sorted_blocks := [] }

/-- A local state whose rows have all been sealed into the run `sampleRun`: the state that a
call of `Sink` above the threshold leaves behind, with empty chunks and one run. -/
def sampleSortedLocalState : OrderLocalState :=
  { initialized := true, sorting_block := some (RowChunk.create 10),
    var_sorting_blocks := [none], var_sorting_sizes := [none],
    payload_block := some (RowChunk.create 2), sizes_block := none,
    sorted_blocks := [sampleRun] }

/-- A global state without runs. -/
def sampleEmptyGlobalState : OrderGlobalState :=
  { sorting_state := sampleSortingState, payload_state := samplePayloadState,
    sorted_blocks := [], total_count := 0 }

/-! ## Null operations (`null_operations.cpp`) -/

/-- The kinds of vector (`VectorType`). -/
inductive VectorType where
  | FLAT_VECTOR
  | CONSTANT_VECTOR
  | DICTIONARY_VECTOR
  | SEQUENCE_VECTOR
  deriving DecidableEq, Repr

/-- The class `ValidityMask` as the null operations use it: the values that its methods
`AllValid()` and `RowIsValid(idx)` return (the class is outside the sources). -/
structure ValidityMask where
  AllValid : Bool
  RowIsValid : Nat → Bool

/-- The struct `VectorData` that `Orrify` fills: `sel i` is `data.sel->get_index(i)`. -/
structure VectorData where
  sel : Nat → Nat
  validity : ValidityMask

/-- An input vector as the null operations read it: its `vector_type`, the value of
`ConstantVector::IsNull(input)`, and the data that `input.Orrify(count, data)` yields. -/
structure Vector where
  vector_type : VectorType
  ConstantIsNull : Bool
  Orrify : Nat → VectorData

/-- A result vector of type BOOLEAN: its `vector_type` and its data array. -/
structure ResultVector where
  vector_type : VectorType
  data : Nat → Bool

/-- The function template `IsNullLoop<INVERSE>`: the result vector afterwards. -/
def IsNullLoop (INVERSE : Bool) (input : Vector) (result : ResultVector) (count : Nat) :
    ResultVector :=
  if input.vector_type = VectorType.CONSTANT_VECTOR then
    { vector_type := VectorType.CONSTANT_VECTOR,
      data := fun v =>
        if v = 0 then (if INVERSE then !input.ConstantIsNull else input.ConstantIsNull)
        else result.data v }
  else
    let data := input.Orrify count
    { vector_type := VectorType.FLAT_VECTOR,
      data := forUp count
        (fun i (result_data : Nat → Bool) =>
          let idx := data.sel i
          fun v =>
            if v = i then
              (if INVERSE then data.validity.RowIsValid idx else !data.validity.RowIsValid idx)
            else result_data v)
        result.data }

/-- The function `VectorOperations::IsNotNull`. -/
def IsNotNull (input : Vector) (result : ResultVector) (count : Nat) : ResultVector :=
  IsNullLoop true input result count

/-- The function `VectorOperations::IsNull`. -/
def IsNull (input : Vector) (result : ResultVector) (count : Nat) : ResultVector :=
  IsNullLoop false input result count

/-- The loop of `HasNotNull` from row `i` on: it returns at the first valid row. -/
def HasNotNull.loop (data : VectorData) (count : Nat) : Nat → Nat → Bool
  | 0, _ => false
  | fuel + 1, i =>
    if i < count then
      if data.validity.RowIsValid (data.sel i) then true
      else HasNotNull.loop data count fuel (i + 1)
    else false

/-- The function `VectorOperations::HasNotNull`. -/
def HasNotNull (input : Vector) (count : Nat) : Bool :=
  if count = 0 then false
  else if input.vector_type = VectorType.CONSTANT_VECTOR then !input.ConstantIsNull
  else
    let data := input.Orrify count
    if data.validity.AllValid then true
    else HasNotNull.loop data count count 0

/-- The loop of `HasNull` from row `i` on: it returns at the first row that is not valid. -/
def HasNull.loop (data : VectorData) (count : Nat) : Nat → Nat → Bool
  | 0, _ => false
  | fuel + 1, i =>
    if i < count then
      if !data.validity.RowIsValid (data.sel i) then true
      else HasNull.loop data count fuel (i + 1)
    else false

/-- The function `VectorOperations::HasNull`. -/
def HasNull (input : Vector) (count : Nat) : Bool :=
  if count = 0 then false
  else if input.vector_type = VectorType.CONSTANT_VECTOR then input.ConstantIsNull
  else
    let data := input.Orrify count
    if data.validity.AllValid then false
    else HasNull.loop data count count 0

/-- The row-by-row scan that the specification describes for `HasNull`: some of the `count` selected
rows is NULL. -/
def scanHasNull (input : Vector) (count : Nat) : Bool :=
  (List.range count).any
    (fun i => !(input.Orrify count).validity.RowIsValid ((input.Orrify count).sel i))

/-- The row-by-row scan that the specification describes for `HasNotNull`: some of the `count`
selected rows is not NULL. -/
def scanHasNotNull (input : Vector) (count : Nat) : Bool :=
  (List.range count).any
    (fun i => (input.Orrify count).validity.RowIsValid ((input.Orrify count).sel i))

/-- What the null operations rely on of the classes outside the sources: a mask that reports
`AllValid()` reports every row valid, and the data that `Orrify` yields for a constant vector
describes its one value at every selected row. -/
structure Vector.Contract (input : Vector) (count : Nat) : Prop where
  all_valid : (input.Orrify count).validity.AllValid = true →
    ∀ idx, (input.Orrify count).validity.RowIsValid idx = true
  constant : input.vector_type = VectorType.CONSTANT_VECTOR →
    ∀ i, (input.Orrify count).validity.RowIsValid ((input.Orrify count).sel i) =
      !input.ConstantIsNull

/-- A flat vector of four rows, read through the selection `i ↦ 3 - i`, whose row 2 is NULL. -/
def sampleVector : Vector :=
  { vector_type := VectorType.FLAT_VECTOR, ConstantIsNull := false,
    Orrify := fun _ =>
      { sel := fun i => 3 - i,
        validity := { AllValid := false, RowIsValid := fun idx => decide (idx ≠ 2) } } }

/-! ## The sorting state built by `GetGlobalState` -/

/-- An entry of `orders` (`BoundOrderByNode`) as `GetGlobalState` reads it: the order type,
the null order, and the internal type of the return type of the expression. -/
structure BoundOrderByNode where
  type : OrderType
  null_order : OrderByNullType
  return_type : PhysicalType

/-- The body of the loop of `PhysicalOrder::GetGlobalState` over `orders`: the vectors and
the entry size after the entry `order`. `TypeIsConstantSize` and `GetTypeIdSize` are the
functions of these names, which are outside the sources. -/
def GetGlobalState.addOrder (ext : Extern) (TypeIsConstantSize : PhysicalType → Bool)
    (GetTypeIdSize : PhysicalType → Nat) (s : SortingState) (order : BoundOrderByNode) :
    SortingState :=
  -- compute column sizes
  let physical_type := order.return_type
  let col_size := GetTypeIdSize physical_type % IDX_MOD
  let col_size :=
    if !TypeIsConstantSize physical_type then
      match physical_type with
      | PhysicalType.VARCHAR => ext.MAX_STRING_MINMAX_SIZE % IDX_MOD
      | _ => col_size
    else col_size
  -- increment entry size with the column size (has_null is always true)
  let col_size := (col_size + 1) % IDX_MOD
  { ENTRY_SIZE := (s.ENTRY_SIZE + col_size) % IDX_MOD,
    ORDER_TYPES := s.ORDER_TYPES ++ [order.type],
    ORDER_BY_NULL_TYPES := s.ORDER_BY_NULL_TYPES ++ [order.null_order],
    TYPES := s.TYPES ++ [order.return_type],
    HAS_NULL := s.HAS_NULL ++ [true],
    CONSTANT_SIZE := s.CONSTANT_SIZE ++ [TypeIsConstantSize physical_type],
    COL_SIZE := s.COL_SIZE ++ [col_size] }

/-- The first part of `PhysicalOrder::GetGlobalState`: the sorting state it builds from
`orders` (the payload state, built after it from the types of the child, is not used by the
sorter). The vectors `STATS` and `ROWCHUNK_INIT_SIZES` are not kept. -/
def GetGlobalState.sorting_state (ext : Extern) (TypeIsConstantSize : PhysicalType → Bool)
    (GetTypeIdSize : PhysicalType → Nat) (orders : List BoundOrderByNode) : SortingState :=
  let s := orders.foldl (GetGlobalState.addOrder ext TypeIsConstantSize GetTypeIdSize)
    { ENTRY_SIZE := 0, ORDER_TYPES := [], ORDER_BY_NULL_TYPES := [], TYPES := [],
      HAS_NULL := [], CONSTANT_SIZE := [], COL_SIZE := [] }
  -- make room for an 'index' column at the end
  { s with ENTRY_SIZE := (s.ENTRY_SIZE + sizeof_idx_t) % IDX_MOD }

/-- Values for `TypeIsConstantSize`: every type but VARCHAR is of constant size. -/
def sampleTypeIsConstantSize : PhysicalType → Bool :=
  fun t => decide (t ≠ PhysicalType.VARCHAR)

/-- Values for `GetTypeIdSize`: the sizes of the values of the types in bytes. -/
def sampleGetTypeIdSize : PhysicalType → Nat
  | PhysicalType.BOOL => 1
  | PhysicalType.INT8 => 1
  | PhysicalType.INT16 => 2
  | PhysicalType.INT32 => 4
  | PhysicalType.INT64 => 8
  | PhysicalType.FLOAT => 4
  | PhysicalType.DOUBLE => 8
  | PhysicalType.INTERVAL => 16
  | PhysicalType.VARCHAR => 16

/-- The orders `ORDER BY a ASC NULLS FIRST, b DESC NULLS LAST` with `a` of type INT32 and
`b` of type VARCHAR. -/
def sampleOrders : List BoundOrderByNode :=
  [{ type := OrderType.ASCENDING, null_order := OrderByNullType.NULLS_FIRST,
     return_type := PhysicalType.INT32 },
   { type := OrderType.DESCENDING, null_order := OrderByNullType.NULLS_LAST,
     return_type := PhysicalType.VARCHAR }]

/-! ## The calls that `SortInMemory` makes -/

/-- A call that `SortInMemory` makes, with the window and the array `ties` it passes. -/
inductive SortCall where
  | RadixSort (count col_offset sorting_size : Nat)
  | SubSortTiedTuples (col_offset sorting_size : Nat) (ties : Nat → Bool)
  | ComputeTies (col_offset tie_size : Nat) (ties : Nat → Bool)
  | AnyTies (ties : Nat → Bool)
  | BreakTies (tie_col : Nat) (ties : Nat → Bool) (dataptr : Buffer)

/-- The array `ties` that a call receives, if it receives one. -/
def SortCall.tiesArg : SortCall → Option (Nat → Bool)
  | .RadixSort _ _ _ => none
  | .SubSortTiedTuples _ _ ties => some ties
  | .ComputeTies _ _ ties => some ties
  | .AnyTies ties => some ties
  | .BreakTies _ ties _ => some ties

/-- The window `(col_offset, sorting_size)` that a call receives, if it receives one. -/
def SortCall.window : SortCall → Option (Nat × Nat)
  | .RadixSort _ col_offset sorting_size => some (col_offset, sorting_size)
  | .SubSortTiedTuples col_offset sorting_size _ => some (col_offset, sorting_size)
  | .ComputeTies col_offset tie_size _ => some (col_offset, tie_size)
  | .AnyTies _ => none
  | .BreakTies _ _ _ => none

/-- The column loop of `SortInMemory` as `SortInMemory.columns`, together with the list of the
calls it makes, in order. -/
def SortInMemory.columnsTraced (ext : Extern) (cb : ContinuousBlock)
    (sorting_state : SortingState) (count : Nat) :
    List Nat → SortLoopState → Except SortError Buffer × List SortCall
  | [], s => (.ok s.dataptr, [])
  | i :: rest, s =>
    let num_cols := sorting_state.CONSTANT_SIZE.length
    let sorting_size := s.sorting_size + sorting_state.COL_SIZE.getD i 0
    if sorting_state.CONSTANT_SIZE.getD i false && decide (i < num_cols - 1) then
      SortInMemory.columnsTraced ext cb sorting_state count rest
        { s with sorting_size := sorting_size }
    else
      let sorted : Buffer × (Nat → Bool) :=
        match s.ties with
        | none =>
          (RadixSort ext.fresh s.dataptr 0 count s.col_offset sorting_size sorting_state,
           fun v => if v = count - 1 then false else if v < count - 1 then true
             else decide (ext.fresh v ≠ 0))
        | some ties =>
          (SubSortTiedTuples ext.fresh s.dataptr count s.col_offset sorting_size ties
            sorting_state, ties)
      let first : SortCall :=
        match s.ties with
        | none => SortCall.RadixSort count s.col_offset sorting_size
        | some ties => SortCall.SubSortTiedTuples s.col_offset sorting_size ties
      if sorting_state.CONSTANT_SIZE.getD i false && decide (i = num_cols - 1) then
        (.ok sorted.1, [first])
      else
        let ties := ComputeTies sorted.1 count s.col_offset sorting_size sorted.2 sorting_state
        let calls := [first, SortCall.ComputeTies s.col_offset sorting_size sorted.2,
          SortCall.AnyTies ties]
        if !AnyTies ties count then
          (.ok sorted.1, calls)
        else
          let calls := calls ++ [SortCall.BreakTies i ties sorted.1]
          match BreakTies ext cb ties sorted.1 count i sorting_state with
          | .error e => (.error e, calls)
          | .ok broken =>
            let calls := calls ++ [SortCall.AnyTies broken.2]
            if !AnyTies broken.2 count then
              (.ok broken.1, calls)
            else
              let r := SortInMemory.columnsTraced ext cb sorting_state count rest
                { dataptr := broken.1, ties := some broken.2,
                  sorting_size := 0, col_offset := s.col_offset + sorting_size }
              (r.1, calls ++ r.2)

/-- The body of the column loop as `SortInMemory.afterSort`, together with the list of the
calls made: `first` is the call that sorted the window, `next` the remaining iterations. -/
def SortInMemory.afterSortTraced (ext : Extern) (cb : ContinuousBlock)
    (sorting_state : SortingState) (count i col_offset sorting_size : Nat)
    (sorted : Buffer × (Nat → Bool)) (first : SortCall)
    (next : SortLoopState → Except SortError Buffer × List SortCall) :
    Except SortError Buffer × List SortCall :=
  if sorting_state.CONSTANT_SIZE.getD i false
      && decide (i = sorting_state.CONSTANT_SIZE.length - 1) then
    (.ok sorted.1, [first])
  else
    let ties := ComputeTies sorted.1 count col_offset sorting_size sorted.2 sorting_state
    let calls := [first, SortCall.ComputeTies col_offset sorting_size sorted.2,
      SortCall.AnyTies ties]
    if !AnyTies ties count then
      (.ok sorted.1, calls)
    else
      let calls := calls ++ [SortCall.BreakTies i ties sorted.1]
      match BreakTies ext cb ties sorted.1 count i sorting_state with
      | .error e => (.error e, calls)
      | .ok broken =>
        let calls := calls ++ [SortCall.AnyTies broken.2]
        if !AnyTies broken.2 count then
          (.ok broken.1, calls)
        else
          let r := next { dataptr := broken.1, ties := some broken.2,
                          sorting_size := 0, col_offset := col_offset + sorting_size }
          (r.1, calls ++ r.2)

/-- The body of `SortInMemory` as `SortInMemory.sort`, together with the list of the calls it
makes after the index stamping, in order. -/
def SortInMemory.sortTraced (ext : Extern) (cb : ContinuousBlock) (sorting_state : SortingState)
    (dataptr : Buffer) (count : Nat) : Except SortError Buffer × List SortCall :=
  let sorting_size := (sorting_state.ENTRY_SIZE + IDX_MOD - sizeof_idx_t) % IDX_MOD
  let dataptr := SortInMemory.stamp dataptr count sorting_state
  let all_constant := sorting_state.CONSTANT_SIZE.foldl (fun acc c => acc && c) true
  if all_constant then
    (.ok (RadixSort ext.fresh dataptr 0 count 0 sorting_size sorting_state),
     [SortCall.RadixSort count 0 sorting_size])
  else
    SortInMemory.columnsTraced ext cb sorting_state count
      (List.range sorting_state.CONSTANT_SIZE.length)
      { dataptr := dataptr, ties := none, sorting_size := 0, col_offset := 0 }

/-- The groups of rows that the loop of `SubSortTiedTuples` hands to `RadixSort` from row `i`
on: for each call the first row `i` and the last row `j` of the group (the call sorts the
`j - i + 1` rows from row `i`). -/
def SubSortTiedTuples.groups (count : Nat) (ties : Nat → Bool) : Nat → Nat → List (Nat × Nat)
  | 0, _ => []
  | fuel + 1, i =>
    if i < count then
      if !ties i then SubSortTiedTuples.groups count ties fuel (i + 1)
      else
        let j := scanTies ties count count (i + 1)
        (i, j) :: SubSortTiedTuples.groups count ties fuel (j + 1)
    else []

/-- The groups of rows that the loop of `BreakTies` hands to `BreakStringTies` from row `i`
on: for each call its arguments `start` and `end`. -/
def BreakTies.groups (ext : Extern) (count tie_col : Nat) (var_dataptr offsets_ptr : Buffer)
    (sorting_state : SortingState) : Nat → Nat → Buffer × (Nat → Bool) → List (Nat × Nat)
  | 0, _, _ => []
  | fuel + 1, i, s =>
    if i < count then
      if !s.2 i then
        BreakTies.groups ext count tie_col var_dataptr offsets_ptr sorting_state fuel (i + 1) s
      else
        let j := scanTies s.2 count count i
        match sorting_state.TYPES.getD tie_col PhysicalType.INT32 with
        | PhysicalType.VARCHAR =>
          (i, j + 1) ::
            BreakTies.groups ext count tie_col var_dataptr offsets_ptr sorting_state fuel (j + 1)
              (BreakStringTies ext s.1 i (j + 1) tie_col s.2 var_dataptr offsets_ptr
                sorting_state)
        | _ => []
    else []

/-- The array that the specification gives as the result of compute-ties: for every adjacent pair
of rows, `ties[i] && memcmp(row i + col_offset, row i+1 + col_offset, tie_size) == 0`, false
at `count - 1`, and the entries past the block as they were. -/
def pairwiseTies (dataptr : Buffer) (count col_offset tie_size : Nat) (ties : Nat → Bool)
    (sorting_state : SortingState) : Nat → Bool :=
  fun i =>
    if i < count - 1 then
      ties i && decide (memcmp dataptr (i * sorting_state.ENTRY_SIZE + col_offset)
        dataptr ((i + 1) * sorting_state.ENTRY_SIZE + col_offset) tie_size = 0)
    else if i = count - 1 then false
    else ties i

/-- The rows `i..j` form a maximal tied group of `ties`: the entries `i..j-1` are true, the
entry `j` is false, and the entry before `i`, if there is one, is false. -/
def TiedGroup (ties : Nat → Bool) (i j : Nat) : Prop :=
  i ≤ j ∧ (∀ k, i ≤ k → k < j → ties k = true) ∧ ties j = false ∧
    (i = 0 ∨ ties (i - 1) = false)

/-! ## Sample data for the tie-breaking of strings -/

/-- A key row of `sampleStringState` with the key bytes `alphabet`, not NULL, and the
trailing index `i`. -/
def sampleAlphabetRow (i : Byte) : List Byte :=
  [1, 97, 108, 112, 104, 97, 98, 101, 116, i, 0, 0, 0, 0, 0, 0, 0]

/-- A key block of three rows for `sampleStringState`, all with the key bytes `alphabet`,
with the trailing indices 0, 1, 2. -/
def sampleAlphabetKeys : Buffer :=
  fun a => (sampleAlphabetRow 0 ++ sampleAlphabetRow 1 ++ sampleAlphabetRow 2).getD a 0

/-- The blob block of the strings `alphabetical`, `alphabetic!` and `alphabet`, each as a
length of four bytes followed by its bytes. -/
def sampleAlphabetBlob : Buffer :=
  fun a => ([12, 0, 0, 0, 97, 108, 112, 104, 97, 98, 101, 116, 105, 99, 97, 108,
             11, 0, 0, 0, 97, 108, 112, 104, 97, 98, 101, 116, 105, 99, 33,
             8, 0, 0, 0, 97, 108, 112, 104, 97, 98, 101, 116] : List Byte).getD a 0

/-- The offsets `[0, 16, 31, 43]` of `sampleAlphabetBlob`. -/
def sampleAlphabetOffsets : Buffer :=
  fun a => ([0, 0, 0, 0, 0, 0, 0, 0, 16, 0, 0, 0, 0, 0, 0, 0,
             31, 0, 0, 0, 0, 0, 0, 0, 43, 0, 0, 0, 0, 0, 0, 0] : List Byte).getD a 0

/-- The array `ties` of a block of three rows that are all tied. -/
def sampleAlphabetTies : Nat → Bool := fun v => decide (v < 2)

/-- A sorting state with two VARCHAR key columns, both ascending with NULLs first. -/
def sampleTwoStringState : SortingState :=
  { ENTRY_SIZE := 26, ORDER_TYPES := [OrderType.ASCENDING, OrderType.ASCENDING],
    ORDER_BY_NULL_TYPES := [OrderByNullType.NULLS_FIRST, OrderByNullType.NULLS_FIRST],
    TYPES := [PhysicalType.VARCHAR, PhysicalType.VARCHAR], HAS_NULL := [true, true],
    CONSTANT_SIZE := [false, false], COL_SIZE := [9, 9] }

/-- A key row of `sampleTwoStringState`: the key bytes `alphabet` in the first column, the key
bytes of the string `x` in the second, neither NULL, and the trailing index `i`. -/
def sampleTwoStringRow (i : Byte) : List Byte :=
  [1, 97, 108, 112, 104, 97, 98, 101, 116, 1, 120, 0, 0, 0, 0, 0, 0, 0, i, 0, 0, 0, 0, 0, 0, 0]

/-- A key block of three rows for `sampleTwoStringState`, with the trailing indices 0, 1, 2;
the strings of the first column are those of `sampleAlphabetBlob`. -/
def sampleTwoStringKeys : Buffer :=
  fun a => (sampleTwoStringRow 0 ++ sampleTwoStringRow 1 ++ sampleTwoStringRow 2).getD a 0

/-- The sorting state `sampleStringState` with its key column in descending order. -/
def sampleDescStringState : SortingState :=
  { sampleStringState with ORDER_TYPES := [OrderType.DESCENDING] }

/-- A key block of two rows for `sampleDescStringState` whose keys are NULL: the validity
byte of each row is 0 and every other byte is 0. -/
def sampleNullKeys : Buffer := fun _ => 0

/-! ## The byte loop of the radix sort, one iteration at a time -/

/-- One iteration of the byte loop of `RadixSort` at byte `offset`: the counting pass from
`dataptr` into `temp`, then `std::swap(dataptr, temp)` and `swap = !swap`. -/
def RadixSort.step (ENTRY_SIZE count : Nat) (s : (Buffer × Nat) × (Buffer × Nat) × Bool)
    (offset : Nat) : (Buffer × Nat) × (Buffer × Nat) × Bool :=
  ((RadixSort.pass ENTRY_SIZE count offset s.1 s.2.1, s.2.1.2), s.1, !s.2.2)

/-- The byte offsets of the window `[col_offset, col_offset + sorting_size)`, last byte first. -/
def windowOffsets (col_offset sorting_size : Nat) : List Nat :=
  (List.range sorting_size).map (fun k => col_offset + sorting_size - 1 - k)

/-- A fixed-width chunk of two blocks with entry size 10, holding 3 rows and 2 rows. -/
def sampleTwoBlockChunk : RowChunk :=
  { blocks := [{ block := fun _ => 0, CAPACITY := 16, ENTRY_SIZE := 10, count := 3,
                 byte_offset := 0 },
               { block := fun _ => 1, CAPACITY := 16, ENTRY_SIZE := 10, count := 2,
                 byte_offset := 0 }],
    entry_size := 10, count := 5 }

/-! ## Read heads of the parquet read-ahead buffer (`thrift_tools.hpp`) -/

/-- The struct `ReadHead`: its hint fields `location` and `size` (both 64-bit unsigned). The
allocated data is not part of the model. -/
structure ReadHead where
  location : Nat
  size : Nat
  deriving DecidableEq, Repr

/-- The method `ReadHead::GetEnd`: `size + location` in `idx_t` arithmetic. -/
def ReadHead.GetEnd (h : ReadHead) : Nat := (h.size + h.location) % IDX_MOD

/-- The constant `ReadHeadComparator::ALLOW_GAP`: `1 << 14`, 16 KiB. -/
def ReadHeadComparator.ALLOW_GAP : Nat := 1 <<< 14

/-- The value of `NumericLimits<idx_t>::Maximum()`. -/
def IDX_MAX : Nat := IDX_MOD - 1

/-- The call operator of `ReadHeadComparator`. -/
def ReadHeadComparator (a b : ReadHead) : Bool :=
  let a_start := a.location
  let a_end := (a.location + a.size) % IDX_MOD
  let b_start := b.location
  let a_end :=
    if a_end ≤ IDX_MAX - ReadHeadComparator.ALLOW_GAP then a_end + ReadHeadComparator.ALLOW_GAP
    else a_end
  decide (a_start < b_start) && decide (a_end < b_start)

/-- The two byte ranges share a byte position: each starts before the other ends. -/
def ReadHead.Overlaps (a b : ReadHead) : Prop :=
  a.location < b.location + b.size ∧ b.location < a.location + a.size

/-- The two byte ranges are adjacent: one ends where the other starts. -/
def ReadHead.Adjacent (a b : ReadHead) : Prop :=
  a.location + a.size = b.location ∨ b.location + b.size = a.location

/-- The two byte ranges are apart, by at most `gap` bytes. -/
def ReadHead.SeparatedWithin (gap : Nat) (a b : ReadHead) : Prop :=
  (a.location + a.size < b.location ∧ b.location - (a.location + a.size) ≤ gap) ∨
  (b.location + b.size < a.location ∧ a.location - (b.location + b.size) ≤ gap)

/-- The operations of `std::set<ReadHead *, ReadHeadComparator>` that `AddReadHead` calls; the
container is outside the sources. A set is given as the list of the pointers it holds, a pointer
to a head as the number of heads that existed before that head was created, and `deref` reads
the head behind a pointer. `find` yields the pointer found, or `none` for `end()`. -/
structure StdSet where
  find : (Nat → ReadHead) → List Nat → ReadHead → Option Nat
  insert : (Nat → ReadHead) → List Nat → Nat → List Nat

/-- What the proofs use of the contract of `std::set`: `find` yields only a pointer that the
set holds and whose head is equivalent to the key (neither compares less than the other), and
`insert` adds no pointer other than the one it is given. -/
def StdSet.Valid (S : StdSet) : Prop :=
  (∀ deref set key p, S.find deref set key = some p →
    p ∈ set ∧ ReadHeadComparator (deref p) key = false ∧
      ReadHeadComparator key (deref p) = false) ∧
  (∀ deref set p q, q ∈ S.insert deref set p → q ∈ set ∨ q = p)

/-- The fields of `ReadAheadBuffer` that `AddReadHead` uses: the list `read_heads` (front
first), the pointers held by `merge_set`, and `total_size`. -/
structure ReadAheadBuffer where
  read_heads : List ReadHead
  merge_set : List Nat
  total_size : Nat

/-- A `ReadAheadBuffer` as its constructor leaves it: no heads and `total_size = 0`. -/
def ReadAheadBuffer.create : ReadAheadBuffer :=
  { read_heads := [], merge_set := [], total_size := 0 }

/-- The position in `read_heads` of the head behind the pointer `p`: heads are added at the
front, so the head created after `p` others is `p + 1` places before the end of the list. -/
def ReadAheadBuffer.indexOf (b : ReadAheadBuffer) (p : Nat) : Nat :=
  b.read_heads.length - 1 - p

/-- The head behind the pointer `p`. -/
def ReadAheadBuffer.deref (b : ReadAheadBuffer) (p : Nat) : ReadHead :=
  b.read_heads.getD (b.indexOf p) { location := 0, size := 0 }

/-- The part of `AddReadHead` that registers a new head: it is reached when merging is off or
no head was found. The error carries the message of the `std::runtime_error` and the state the
buffer is left in. `file_size` is the value of `handle.GetFileSize()`. -/
def AddReadHead.add (S : StdSet) (file_size : Nat) (b : ReadAheadBuffer) (pos len : Nat) :
    Except (String × ReadAheadBuffer) ReadAheadBuffer :=
  let read_heads := ReadHead.mk pos len :: b.read_heads
  let total_size := (b.total_size + len) % IDX_MOD
  let added : ReadAheadBuffer :=
    { read_heads := read_heads, merge_set := b.merge_set, total_size := total_size }
  let read_head := b.read_heads.length
  let inserted : ReadAheadBuffer :=
    { added with merge_set := S.insert added.deref added.merge_set read_head }
  if (inserted.deref read_head).GetEnd > file_size then
    .error ("Prefetch registered for bytes outside file", inserted)
  else
    .ok inserted

/-- The method `ReadAheadBuffer::AddReadHead`. -/
def AddReadHead (S : StdSet) (file_size : Nat) (b : ReadAheadBuffer) (pos len : Nat)
    (merge_buffers : Bool) : Except (String × ReadAheadBuffer) ReadAheadBuffer :=
  if merge_buffers then
    let new_read_head : ReadHead := { location := pos, size := len }
    match S.find b.deref b.merge_set new_read_head with
    | some existing_head =>
      let new_start := min (b.deref existing_head).location new_read_head.location
      let new_length :=
        (max (b.deref existing_head).GetEnd new_read_head.GetEnd + IDX_MOD - new_start) % IDX_MOD
      .ok { b with read_heads :=
        b.read_heads.set (b.indexOf existing_head) { location := new_start, size := new_length } }
    | none => AddReadHead.add S file_size b pos len
  else
    AddReadHead.add S file_size b pos len

/-- The state in which a call of `AddReadHead` leaves the buffer, whether it returned or
threw. -/
def AddReadHead.after (r : Except (String × ReadAheadBuffer) ReadAheadBuffer) :
    ReadAheadBuffer :=
  match r with
  | .ok b => b
  | .error e => e.2

/-- A sequence of calls `AddReadHead(pos, len, merge_buffers)` on the buffer `b`, stopping at
the first call that throws. -/
def AddReadHead.calls (S : StdSet) (file_size : Nat) (b : ReadAheadBuffer) :
    List (Nat × Nat × Bool) → Except (String × ReadAheadBuffer) ReadAheadBuffer
  | [] => .ok b
  | c :: rest =>
    match AddReadHead S file_size b c.1 c.2.1 c.2.2 with
    | .ok b1 => AddReadHead.calls S file_size b1 rest
    | .error e => .error e

/-- A `std::set` kept as a plain list of pointers: `find` yields the first pointer whose head
is equivalent to the key, and `insert` adds the pointer unless `find` yields one for its head.
On a set of at most one pointer every implementation of `std::set` returns the same. -/
def sampleStdSet : StdSet :=
  { find := fun deref set key =>
      set.find? (fun q => !ReadHeadComparator (deref q) key && !ReadHeadComparator key (deref q)),
    insert := fun deref set p =>
      match set.find? (fun q => !ReadHeadComparator (deref q) (deref p) &&
          !ReadHeadComparator (deref p) (deref q)) with
      | some _ => set
      | none => p :: set }

/-- A buffer holding the single head `[100, 150)`, registered in the merge set. -/
def sampleReadAheadBuffer : ReadAheadBuffer :=
  { read_heads := [{ location := 100, size := 50 }], merge_set := [0], total_size := 50 }

/-! ## Casting strings to lists and enums (`string_cast.cpp`) -/

/-- Modelled from the spec: the method `ValidityMask::SetInvalid(idx)` of the class
`ValidityMask`, which is outside the sources. Row `idx` is no longer valid, every other row
keeps its validity. -/
def ValidityMask.SetInvalid (m : ValidityMask) (idx : Nat) : ValidityMask :=
  { AllValid := false, RowIsValid := fun j => if j = idx then false else m.RowIsValid j }

/-- Modelled from the spec: the call
`HandleVectorCastError::Operation<T>(text, mask, idx, error_message, all_converted)` with a
non-null `error_message` (the helper is declared in `vector_cast_helpers.hpp`, outside the
sources; with a null pointer it throws instead). It records the message, sets `all_converted`
to false and calls `mask.SetInvalid(idx)`: the result is the mask and the flag afterwards. -/
def HandleVectorCastError.Operation (mask : ValidityMask) (idx : Nat) : ValidityMask × Bool :=
  (mask.SetInvalid idx, false)

/-- The source row that output position `i` reads: `sel->get_index(i)` when a selection
vector is passed, `i` when `sel` is null. -/
def selIndex (sel : Option (Nat → Nat)) (i : Nat) : Nat :=
  match sel with
  | some s => s i
  | none => i

/-- The state of the loop of `StringEnumCastLoop`: `result_data`, `result_mask` and
`all_converted`. -/
structure EnumCastState where
  result_data : Nat → Int
  result_mask : ValidityMask
  all_converted : Bool

/-- The body of the loop of `StringEnumCastLoop` for output position `i`. `GetPos s` is
`EnumType::GetPos(result_type, s)` and `NullValue` is `NullValue<T>()`, both outside the
sources; positions are stored as they are returned. -/
def StringEnumCastLoop.body {string_t : Type} (GetPos : string_t → Int) (NullValue : Int)
    (source_data : Nat → string_t) (source_mask : ValidityMask) (sel : Option (Nat → Nat))
    (i : Nat) (s : EnumCastState) : EnumCastState :=
  let source_idx := selIndex sel i
  if source_mask.RowIsValid source_idx then
    let pos := GetPos (source_data source_idx)
    if pos = -1 then
      let e := HandleVectorCastError.Operation s.result_mask i
      { result_data := fun j => if j = i then NullValue else s.result_data j,
        result_mask := e.1, all_converted := e.2 }
    else
      { s with result_data := fun j => if j = i then pos else s.result_data j }
  else
    { s with result_mask := s.result_mask.SetInvalid i }

/-- The function `StringEnumCastLoop`: the result data and mask it leaves and the value it
returns (in `all_converted`). -/
def StringEnumCastLoop {string_t : Type} (GetPos : string_t → Int) (NullValue : Int)
    (source_data : Nat → string_t) (source_mask : ValidityMask) (result_data : Nat → Int)
    (result_mask : ValidityMask) (count : Nat) (sel : Option (Nat → Nat)) : EnumCastState :=
  forUp count (StringEnumCastLoop.body GetPos NullValue source_data source_mask sel)
    { result_data := result_data, result_mask := result_mask, all_converted := true }

/-- The struct `list_entry_t`. -/
structure list_entry_t where
  offset : Nat
  length : Nat
  deriving DecidableEq, Repr

/-- The functions that `StringListCastLoop` calls and whose definitions are outside the sources:
`VectorStringifiedListParser::CountParts`, `VectorStringifiedListParser::SplitStringifiedList`
(from a string, the child data and `total` it yields whether the split succeeded and the child
data and `total` afterwards) and the cast function of the child type (from the child vector and
its size, the value it returns). -/
structure ListCastExtern (string_t : Type) where
  CountParts : string_t → Nat
  SplitStringifiedList : string_t → (Nat → string_t) → Nat → Bool × (Nat → string_t) × Nat
  child_cast : (Nat → string_t) → Nat → Bool

/-- The state of the second loop of `StringListCastLoop`. -/
structure ListCastState (string_t : Type) where
  list_data : Nat → list_entry_t
  child_data : Nat → string_t
  total : Nat
  result_mask : ValidityMask
  all_converted : Bool

/-- The first loop of `StringListCastLoop`: the value of `total_list_size`. -/
def StringListCastLoop.total_list_size {string_t : Type} (ext : ListCastExtern string_t)
    (source_data : Nat → string_t) (source_mask : ValidityMask) (count : Nat)
    (sel : Option (Nat → Nat)) : Nat :=
  forUp count
    (fun i total_list_size =>
      let idx := selIndex sel i
      if !source_mask.RowIsValid idx then total_list_size
      else (total_list_size + ext.CountParts (source_data idx)) % IDX_MOD)
    0

/-- The body of the second loop of `StringListCastLoop` for output position `i`. -/
def StringListCastLoop.body {string_t : Type} (ext : ListCastExtern string_t)
    (source_data : Nat → string_t) (source_mask : ValidityMask) (sel : Option (Nat → Nat))
    (i : Nat) (s : ListCastState string_t) : ListCastState string_t :=
  let idx := selIndex sel i
  if !source_mask.RowIsValid idx then
    { s with result_mask := s.result_mask.SetInvalid i }
  else
    let offset := s.total
    let split := ext.SplitStringifiedList (source_data idx) s.child_data s.total
    let e :=
      if !split.1 then HandleVectorCastError.Operation s.result_mask idx
      else (s.result_mask, s.all_converted)
    { list_data := fun j =>
        if j = i then { offset := offset, length := (split.2.2 + IDX_MOD - offset) % IDX_MOD }
        else s.list_data j,
      child_data := split.2.1,
      total := split.2.2,
      result_mask := e.1,
      all_converted := e.2 }

/-- The function `StringListCastLoop`: the state its second loop leaves (list entries, child
strings, result mask) and the value it returns. `list_data` is the data of the result vector
and `varchar_vector` the contents of the fresh child vector. -/
def StringListCastLoop {string_t : Type} (ext : ListCastExtern string_t)
    (source_data : Nat → string_t) (source_mask : ValidityMask) (list_data : Nat → list_entry_t)
    (varchar_vector : Nat → string_t) (result_mask : ValidityMask) (count : Nat)
    (sel : Option (Nat → Nat)) : ListCastState string_t × Bool :=
  let total_list_size :=
    StringListCastLoop.total_list_size ext source_data source_mask count sel
  let s := forUp count (StringListCastLoop.body ext source_data source_mask sel)
    { list_data := list_data, child_data := varchar_vector, total := 0,
      result_mask := result_mask, all_converted := true }
  (s, ext.child_cast s.child_data total_list_size && s.all_converted)

/-- Strings as numbers for the samples: a string splits into one part (itself) unless it is
`13`, which cannot be split; the child cast succeeds. -/
def sampleListCastExtern : ListCastExtern Nat :=
  { CountParts := fun _ => 1,
    SplitStringifiedList := fun s child_data total =>
      if s = 13 then (false, child_data, total)
      else (true, fun j => if j = total then s else child_data j, total + 1),
    child_cast := fun _ _ => true }

/-- Two source rows: row 0 holds the string `7`, row 1 the string `13`. -/
def sampleSourceData : Nat → Nat := fun i => if i = 1 then 13 else 7

/-- A selection vector that swaps the two rows: output 0 reads source row 1 and output 1
reads source row 0. -/
def sampleSwapSel : Nat → Nat := fun i => if i = 0 then 1 else 0

/-- A mask with every row valid. -/
def sampleAllValid : ValidityMask := { AllValid := true, RowIsValid := fun _ => true }

/-- A mask with every row valid except row 1. -/
def sampleRowOneNull : ValidityMask :=
  { AllValid := false, RowIsValid := fun i => !(i == 1) }

/-- Positions of the sample enum: the string `13` is not a member, every other string `s` has
position `s`. -/
def sampleGetPos : Nat → Int := fun s => if s = 13 then -1 else (s : Int)

/-! ## Theorems -/

theorem memcpy_inside (dst : Buffer) (d : Nat) (src : Buffer) (s n a : Nat)
    (h1 : d ≤ a) (h2 : a < d + n) : memcpy dst d src s n a = src (s + (a - d)) := by
  simp [memcpy, h1, h2]

theorem memcpy_outside (dst : Buffer) (d : Nat) (src : Buffer) (s n a : Nat)
    (h : a < d ∨ d + n ≤ a) : memcpy dst d src s n a = dst a := by
  unfold memcpy
  rw [if_neg]
  omega

theorem StoreLE_outside (w v : Nat) (p : Buffer) (a x : Nat) (h : x < a ∨ a + w ≤ x) :
    StoreLE w v p a x = p x := by
  unfold StoreLE
  rw [if_neg]
  omega

theorem StoreLE_inside (w v : Nat) (p : Buffer) (a x : Nat) (h1 : a ≤ x) (h2 : x < a + w) :
    (StoreLE w v p a x).val = v / 256 ^ (x - a) % 256 := by
  simp [StoreLE, h1, h2]

theorem LoadLE_congr (w : Nat) (p q : Buffer) (a b : Nat)
    (h : ∀ k, k < w → p (a + k) = q (b + k)) : LoadLE w p a = LoadLE w q b := by
  induction w generalizing a b with
  | zero => rfl
  | succ w ih =>
    have h0 := h 0 (Nat.succ_pos w)
    simp only [Nat.add_zero] at h0
    have ht : LoadLE w p (a + 1) = LoadLE w q (b + 1) := by
      apply ih
      intro k hk
      have := h (k + 1) (Nat.succ_lt_succ hk)
      rw [show a + 1 + k = a + (k + 1) by omega, show b + 1 + k = b + (k + 1) by omega]
      exact this
    simp only [LoadLE, h0, ht]

theorem LoadLE_lt (w : Nat) (p : Buffer) (a : Nat) : LoadLE w p a < 256 ^ w := by
  induction w generalizing a with
  | zero => simp [LoadLE]
  | succ w ih =>
    have h1 := ih (a + 1)
    have h2 := (p a).isLt
    simp only [LoadLE, pow_succ]
    omega

theorem LoadLE_StoreLE_same (w v : Nat) (p : Buffer) (a : Nat) :
    LoadLE w (StoreLE w v p a) a = v % 256 ^ w := by
  induction w generalizing a v with
  | zero => simp [LoadLE, Nat.mod_one]
  | succ w ih =>
    have hb : (StoreLE (w + 1) v p a a).val = v % 256 := by
      rw [StoreLE_inside _ _ _ _ _ (Nat.le_refl a) (by omega)]
      simp
    have ht : LoadLE w (StoreLE (w + 1) v p a) (a + 1) = LoadLE w (StoreLE w (v / 256) p (a + 1)) (a + 1) := by
      apply LoadLE_congr
      intro k hk
      apply Fin.ext
      rw [StoreLE_inside _ _ _ _ _ (by omega) (by omega), StoreLE_inside _ _ _ _ _ (by omega) (by omega)]
      rw [show a + 1 + k - a = k + 1 by omega, show a + 1 + k - (a + 1) = k by omega]
      rw [pow_succ, Nat.mul_comm, Nat.div_div_eq_div_mul]
    simp only [LoadLE, hb, ht, ih]
    rw [pow_succ', Nat.mod_mul]

theorem LoadLE_StoreLE_disj (w1 w v : Nat) (p : Buffer) (a b : Nat) (h : b + w1 ≤ a ∨ a + w ≤ b) :
    LoadLE w1 (StoreLE w v p a) b = LoadLE w1 p b := by
  apply LoadLE_congr
  intro k hk
  apply StoreLE_outside
  omega

theorem Load_idx_lt (p : Buffer) (a : Nat) : Load_idx p a < IDX_MOD := by
  have := LoadLE_lt sizeof_idx_t p a
  simpa [Load_idx, IDX_MOD, sizeof_idx_t] using this

theorem Load_Store_idx_same (v : Nat) (p : Buffer) (a : Nat) :
    Load_idx (Store_idx v p a) a = v % IDX_MOD := by
  have := LoadLE_StoreLE_same sizeof_idx_t v p a
  simpa [Load_idx, Store_idx, IDX_MOD, sizeof_idx_t] using this

theorem Load_Store_idx_disj (v : Nat) (p : Buffer) (a b : Nat) (h : b + 8 ≤ a ∨ a + 8 ≤ b) :
    Load_idx (Store_idx v p a) b = Load_idx p b := by
  unfold Load_idx Store_idx
  apply LoadLE_StoreLE_disj
  simpa [sizeof_idx_t] using h

theorem Load_idx_congr (p q : Buffer) (a b : Nat) (h : ∀ k, k < 8 → p (a + k) = q (b + k)) :
    Load_idx p a = Load_idx q b :=
  LoadLE_congr _ p q a b h

theorem bytesOf_length (p : Buffer) (a n : Nat) : (bytesOf p a n).length = n := by
  simp [bytesOf]

theorem bytesOf_add (p : Buffer) (a n m : Nat) :
    bytesOf p a (n + m) = bytesOf p a n ++ bytesOf p (a + n) m := by
  simp only [bytesOf, List.range_add, List.map_append, List.map_map]
  congr 1
  apply List.map_congr_left
  intro i _
  simp [Nat.add_assoc]

theorem bytesOf_congr (p q : Buffer) (a b n : Nat) (h : ∀ k, k < n → p (a + k) = q (b + k)) :
    bytesOf p a n = bytesOf q b n := by
  unfold bytesOf
  apply List.map_congr_left
  intro i hi
  exact h i (List.mem_range.mp hi)

theorem copy_foldl_ptr (len : RowDataBlock → Nat) (blocks : List RowDataBlock) (s : Buffer × Nat) :
    (blocks.foldl (copyStep len) s).2 = s.2 + (blocks.map len).sum := by
  induction blocks generalizing s with
  | nil => simp
  | cons b rest ih =>
    simp only [List.foldl_cons, List.map_cons, List.sum_cons, ih]
    simp [copyStep, Nat.add_assoc]

theorem copy_foldl_below (len : RowDataBlock → Nat) (blocks : List RowDataBlock) (s : Buffer × Nat)
    (a : Nat) (h : a < s.2) : (blocks.foldl (copyStep len) s).1 a = s.1 a := by
  induction blocks generalizing s with
  | nil => simp
  | cons b rest ih =>
    simp only [List.foldl_cons]
    rw [ih]
    · simp only [copyStep]
      exact memcpy_outside _ _ _ _ _ _ (Or.inl h)
    · simp only [copyStep]
      omega

theorem copy_foldl_bytes (len : RowDataBlock → Nat) (blocks : List RowDataBlock) (s : Buffer × Nat) :
    bytesOf (blocks.foldl (copyStep len) s).1 s.2 ((blocks.map len).sum) =
      blocks.flatMap (fun b => bytesOf b.block 0 (len b)) := by
  induction blocks generalizing s with
  | nil => simp [bytesOf]
  | cons b rest ih =>
    simp only [List.foldl_cons, List.map_cons, List.sum_cons, List.flatMap_cons]
    rw [bytesOf_add]
    congr 1
    · apply bytesOf_congr
      intro k hk
      rw [copy_foldl_below]
      · simp only [copyStep]
        rw [memcpy_inside _ _ _ _ _ _ (by omega) (by omega)]
        congr 1
        omega
      · simp only [copyStep]
        omega
    · have := ih (copyStep len s b)
      simpa [copyStep] using this

theorem count_foldl (v : Bool) (e : Nat) (blocks : List RowDataBlock) (s : Nat × Nat) :
    (blocks.foldl (fun (s : Nat × Nat) (block : RowDataBlock) =>
      (s.1 + block.count,
       if v then s.2 + block.byte_offset else s.2 + block.count * e)) s).1
      = s.1 + (blocks.map (fun b => b.count)).sum := by
  induction blocks generalizing s with
  | nil => simp
  | cons b rest ih =>
    simp only [List.foldl_cons, List.map_cons, List.sum_cons, ih]
    omega

theorem ComputeCountAndCapacity_count (B : Nat) (row_chunk : RowChunk) (v : Bool) :
    (ComputeCountAndCapacity B row_chunk v).1 = (row_chunk.blocks.map (fun b => b.count)).sum := by
  simp [ComputeCountAndCapacity, count_foldl]

theorem ConcatenateBlocks_block (B : Nat) (fresh : Buffer) (row_chunk : RowChunk) (v : Bool) :
    (ConcatenateBlocks B fresh row_chunk v).1.block =
      (row_chunk.blocks.foldl (copyStep (usedLen row_chunk.entry_size v)) (fresh, 0)).1 := by
  cases v <;> rfl

/-- What `ConcatenateBlocks` returns: the summed count, the used bytes of the blocks in block
order, and an emptied chunk. -/
theorem ConcatenateBlocks_spec (B : Nat) (fresh : Buffer) (row_chunk : RowChunk) (v : Bool) :
    (ConcatenateBlocks B fresh row_chunk v).1.count = (row_chunk.blocks.map (fun b => b.count)).sum ∧
    bytesOf (ConcatenateBlocks B fresh row_chunk v).1.block 0
        ((row_chunk.blocks.map (usedLen row_chunk.entry_size v)).sum) =
      row_chunk.blocks.flatMap (fun b => bytesOf b.block 0 (usedLen row_chunk.entry_size v b)) ∧
    (ConcatenateBlocks B fresh row_chunk v).2.blocks = [] ∧
    (ConcatenateBlocks B fresh row_chunk v).2.count = 0 := by
  refine ⟨?_, ?_, rfl, rfl⟩
  · exact ComputeCountAndCapacity_count B row_chunk v
  · rw [ConcatenateBlocks_block]
    exact copy_foldl_bytes _ _ (fresh, 0)

/-- C8: `ConcatenateBlocks` returns one block whose count is the sum of the counts of the
blocks of the chunk and whose leading bytes are the used bytes of the blocks (`byte_offset`
bytes each for a variable-width chunk, `count * entry_size` bytes each for a fixed-width one),
concatenated in block order; the chunk is left without blocks and with count 0. -/
theorem ConcatenateBlocks_concat (B : Nat) (fresh : Buffer) (row_chunk : RowChunk) (v : Bool) :
    (ConcatenateBlocks B fresh row_chunk v).1.count = (row_chunk.blocks.map (fun b => b.count)).sum ∧
    bytesOf (ConcatenateBlocks B fresh row_chunk v).1.block 0
        ((row_chunk.blocks.map (usedLen row_chunk.entry_size v)).sum) =
      row_chunk.blocks.flatMap (fun b => bytesOf b.block 0 (usedLen row_chunk.entry_size v b)) ∧
    (ConcatenateBlocks B fresh row_chunk v).2.blocks = [] ∧
    (ConcatenateBlocks B fresh row_chunk v).2.count = 0 :=
  ConcatenateBlocks_spec B fresh row_chunk v

/-- The block returned by `ConcatenateBlocks` keeps the `byte_offset` its constructor gave it:
the function assigns `count` only. -/
theorem ConcatenateBlocks_byte_offset (B : Nat) (fresh : Buffer) (row_chunk : RowChunk) (v : Bool) :
    (ConcatenateBlocks B fresh row_chunk v).1.byte_offset = 0 := rfl

/-- C7, evaluated on a variable-length key column holding one row of two bytes: the per-row
sizes sum to 2 and `SizesToOffsets` yields `offsets[count] = 2`, but the blob block returned by
`ConcatenateBlocks` has `byte_offset = 0` although two bytes were copied into it. -/
theorem ConcatenateBlocks_byte_offset_not_accounted :
    (sizesOf sampleBlobSizes.blocks).sum = 2 ∧
    (sampleBlobChunk.blocks.map (fun b => b.byte_offset)).sum = 2 ∧
    offsetAt (SizesToOffsets 262144 (fun _ => 0) sampleBlobSizes).1.block 1 = 2 ∧
    bytesOf (ConcatenateBlocks 262144 (fun _ => 0) sampleBlobChunk true).1.block 0 2 = [7, 9] ∧
    (ConcatenateBlocks 262144 (fun _ => 0) sampleBlobChunk true).1.byte_offset = 0 := by
  decide

/-- For a fixed-width chunk, concatenating the chunk whose only block is the result of a
concatenation gives the same count and the same used bytes again. -/
theorem ConcatenateBlocks_idempotent_fixed (B : Nat) (fresh fresh2 : Buffer) (x : RowChunk) :
    let y := (ConcatenateBlocks B fresh x false).1
    let z := (ConcatenateBlocks B fresh2
      { blocks := [y], entry_size := x.entry_size, count := y.count } false).1
    z.count = y.count ∧
    bytesOf z.block 0 (y.count * x.entry_size) = bytesOf y.block 0 (y.count * x.entry_size) := by
  intro y z
  have h := ConcatenateBlocks_spec B fresh2
    { blocks := [y], entry_size := x.entry_size, count := y.count } false
  obtain ⟨h1, h2, -, -⟩ := h
  refine ⟨by simpa using h1, ?_⟩
  simpa [usedLen] using h2

/-- C9, evaluated on a variable-width chunk of one block holding the two bytes 7, 9:
`ConcatenateBlocks` returns a block that starts with these bytes, and applying
`ConcatenateBlocks` to the chunk made of that block returns a block of the same count that does
not: no byte is copied, because the first result has `byte_offset = 0`. -/
theorem ConcatenateBlocks_twice_variable :
    bytesOf (ConcatenateBlocks 262144 (fun _ => 0) sampleBlobChunk true).1.block 0 2 = [7, 9] ∧
    (ConcatenateBlocks 262144 (fun _ => 0)
      { blocks := [(ConcatenateBlocks 262144 (fun _ => 0) sampleBlobChunk true).1],
        entry_size := sampleBlobChunk.entry_size,
        count := (ConcatenateBlocks 262144 (fun _ => 0) sampleBlobChunk true).1.count } true).1.count
      = (ConcatenateBlocks 262144 (fun _ => 0) sampleBlobChunk true).1.count ∧
    bytesOf (ConcatenateBlocks 262144 (fun _ => 0)
      { blocks := [(ConcatenateBlocks 262144 (fun _ => 0) sampleBlobChunk true).1],
        entry_size := sampleBlobChunk.entry_size,
        count := (ConcatenateBlocks 262144 (fun _ => 0) sampleBlobChunk true).1.count } true).1.block
      0 2 = [0, 0] := by
  decide

theorem forUp_inv {σ : Type} (Inv : Nat → σ → Prop) (body : Nat → σ → σ) (s : σ) (n : Nat)
    (h0 : Inv 0 s) (hstep : ∀ k st, k < n → Inv k st → Inv (k + 1) (body k st)) :
    Inv n (forUp n body s) := by
  induction n with
  | zero => exact h0
  | succ n ih =>
    simp only [forUp]
    exact hstep n _ (Nat.lt_succ_self n) (ih (fun k st hk h => hstep k st (Nat.lt_succ_of_lt hk) h))

theorem forDown_inv {σ : Type} (Inv : Nat → σ → Prop) (body : Nat → σ → σ) (n : Nat) (s : σ)
    (h0 : Inv n s) (hstep : ∀ k st, k < n → Inv (k + 1) st → Inv k (body k st)) :
    Inv 0 (forDown n body s) := by
  induction n generalizing s with
  | zero => exact h0
  | succ n ih =>
    simp only [forDown]
    exact ih _ (hstep n s (Nat.lt_succ_self n) h0)
      (fun k st hk h => hstep k st (Nat.lt_succ_of_lt hk) h)

theorem bytesOf_eq_iff (p q : Buffer) (a b n : Nat) :
    bytesOf p a n = bytesOf q b n ↔ ∀ k, k < n → p (a + k) = q (b + k) := by
  constructor
  · intro h k hk
    have := congrArg (fun l => l[k]?) h
    simpa [bytesOf, List.getElem?_map, List.getElem?_range hk] using this
  · exact bytesOf_congr p q a b n

/-- What the constant-size branch of `ReOrder` does: entry `k` of the new block is copied from
offset `idx_k * sorting_state.ENTRY_SIZE` of the old block. -/
theorem ReOrder_constant_bytes (fresh : Buffer) (cc : ContinuousChunk) (sorting : Buffer)
    (sorting_ptr : Nat) (st : SortingState) (data : RowDataBlock)
    (hd : cc.data_blocks.getLast? = some data) (hc : cc.CONSTANT_SIZE = true) :
    ∃ nd : RowDataBlock,
      ReOrder fresh cc sorting sorting_ptr st = some { cc with data_blocks := [nd] } ∧
      nd.count = data.count ∧
      ∀ k, k < data.count →
        bytesOf nd.block (k * cc.ENTRY_SIZE) cc.ENTRY_SIZE =
          bytesOf data.block (Load_idx sorting (sorting_ptr + k * st.ENTRY_SIZE) * st.ENTRY_SIZE)
            cc.ENTRY_SIZE := by
  simp only [ReOrder, hd, hc, if_true]
  refine ⟨_, rfl, rfl, ?_⟩
  simp only []
  have hinv := forUp_inv
    (fun k (s : Buffer × Nat × Nat) =>
      s.2.1 = k * cc.ENTRY_SIZE ∧ s.2.2 = sorting_ptr + k * st.ENTRY_SIZE ∧
      ∀ i, i < k → ∀ t, t < cc.ENTRY_SIZE →
        s.1 (i * cc.ENTRY_SIZE + t) =
          data.block (Load_idx sorting (sorting_ptr + i * st.ENTRY_SIZE) * st.ENTRY_SIZE + t))
    (fun _ (s : Buffer × Nat × Nat) =>
          (memcpy s.1 s.2.1 data.block
              (Load_idx sorting s.2.2 * st.ENTRY_SIZE) cc.ENTRY_SIZE,
           s.2.1 + cc.ENTRY_SIZE,
           s.2.2 + st.ENTRY_SIZE))
    ((RowDataBlock.create fresh data.CAPACITY data.ENTRY_SIZE).block, 0, sorting_ptr) data.count
    (by simp)
    (by
      rintro k ⟨buf, p, sp⟩ _ ⟨h1, h2, h3⟩
      simp only [] at h1 h2 h3 ⊢
      subst h1 h2
      refine ⟨by rw [Nat.add_mul, Nat.one_mul], by rw [Nat.add_mul, Nat.one_mul, Nat.add_assoc], ?_⟩
      intro i hi t ht
      by_cases hik : i < k
      · rw [memcpy_outside]
        · exact h3 i hik t ht
        · left
          have : (i + 1) * cc.ENTRY_SIZE ≤ k * cc.ENTRY_SIZE := Nat.mul_le_mul_right _ hik
          rw [Nat.add_mul, Nat.one_mul] at this
          omega
      · have : i = k := by omega
        subst this
        rw [memcpy_inside _ _ _ _ _ _ (by omega) (by omega)]
        congr 1
        omega)
  obtain ⟨-, -, h3⟩ := hinv
  intro k hk
  rw [bytesOf_eq_iff]
  intro t ht
  exact h3 k hk t ht

theorem sumTo_eq_sum (f : Nat → Nat) (k : Nat) : sumTo f k = ((List.range k).map f).sum := by
  induction k with
  | zero => rfl
  | succ k ih => simp [sumTo, List.range_succ, ih]

theorem sumTo_mono (f : Nat → Nat) {k n : Nat} (h : k ≤ n) : sumTo f k ≤ sumTo f n := by
  induction n with
  | zero =>
    have : k = 0 := by omega
    subst this
    exact Nat.le_refl _
  | succ n ih =>
    by_cases hk : k = n + 1
    · subst hk
      exact Nat.le_refl _
    · have := ih (by omega)
      simp only [sumTo]
      omega

theorem sumTo_telescope (off : Nat → Nat) (n : Nat) (hmono : ∀ j, j < n → off j ≤ off (j + 1)) :
    sumTo (fun j => off (j + 1) - off j) n = off n - off 0 ∧ off 0 ≤ off n := by
  induction n with
  | zero => simp [sumTo]
  | succ n ih =>
    have := ih (fun j hj => hmono j (Nat.lt_succ_of_lt hj))
    have hn := hmono n (Nat.lt_succ_self n)
    simp only [sumTo]
    omega

theorem sub_mod_idx (a b : Nat) (hab : b ≤ a) (ha : a < IDX_MOD) :
    (a + IDX_MOD - b) % IDX_MOD = a - b := by
  have : a + IDX_MOD - b = (a - b) + IDX_MOD := by omega
  rw [this, Nat.add_mod_right, Nat.mod_eq_of_lt (by omega)]

/-- The variable-size branch of `ReOrder`, for offsets that start at 0 and do not decrease and
for trailing indices that are a permutation of `0 .. count-1`. -/
theorem ReOrder_variable_spec (fresh : Buffer) (cc : ContinuousChunk) (sorting : Buffer)
    (sorting_ptr : Nat) (st : SortingState) (data offs : RowDataBlock)
    (hd : cc.data_blocks.getLast? = some data) (ho : cc.offset_blocks.getLast? = some offs)
    (hc : cc.CONSTANT_SIZE = false)
    (hperm : List.Perm
      ((List.range data.count).map (fun k => Load_idx sorting (sorting_ptr + k * st.ENTRY_SIZE)))
      (List.range data.count))
    (h0 : offsetAt offs.block 0 = 0)
    (hmono : ∀ j, j < data.count → offsetAt offs.block j ≤ offsetAt offs.block (j + 1)) :
    ∃ nd no : RowDataBlock,
      ReOrder fresh cc sorting sorting_ptr st =
        some { cc with data_blocks := [nd], offset_blocks := [no] } ∧
      offsetAt no.block 0 = 0 ∧
      (∀ k, k < data.count →
        offsetAt no.block (k + 1) = offsetAt no.block k +
          (offsetAt offs.block (Load_idx sorting (sorting_ptr + k * st.ENTRY_SIZE) + 1)
            - offsetAt offs.block (Load_idx sorting (sorting_ptr + k * st.ENTRY_SIZE))) ∧
        bytesOf nd.block (offsetAt no.block k)
            (offsetAt offs.block (Load_idx sorting (sorting_ptr + k * st.ENTRY_SIZE) + 1)
              - offsetAt offs.block (Load_idx sorting (sorting_ptr + k * st.ENTRY_SIZE))) =
          bytesOf data.block
            (offsetAt offs.block (Load_idx sorting (sorting_ptr + k * st.ENTRY_SIZE)))
            (offsetAt offs.block (Load_idx sorting (sorting_ptr + k * st.ENTRY_SIZE) + 1)
              - offsetAt offs.block (Load_idx sorting (sorting_ptr + k * st.ENTRY_SIZE)))) ∧
      offsetAt no.block data.count = offsetAt offs.block data.count := by
  simp only [ReOrder, hd, ho, hc]
  refine ⟨_, _, rfl, ?_⟩
  simp only []
  generalize hidx : (fun k => Load_idx sorting (sorting_ptr + k * st.ENTRY_SIZE)) = idx at hperm
  have hidx' : ∀ k, Load_idx sorting (sorting_ptr + k * st.ENTRY_SIZE) = idx k := by
    intro k; rw [← hidx]
  simp only [hidx']
  generalize hoff : offsetAt offs.block = off at h0 hmono
  -- sizes in sorted order
  have hidx_lt : ∀ k, k < data.count → idx k < data.count := by
    intro k hk
    have : idx k ∈ (List.range data.count).map idx :=
      List.mem_map.mpr ⟨k, List.mem_range.mpr hk, rfl⟩
    exact List.mem_range.mp (hperm.subset this)
  have htotal : sumTo (fun k => off (idx k + 1) - off (idx k)) data.count = off data.count := by
    rw [sumTo_eq_sum]
    have h1 : (List.range data.count).map (fun k => off (idx k + 1) - off (idx k)) =
        ((List.range data.count).map idx).map (fun j => off (j + 1) - off j) := by
      rw [List.map_map]; rfl
    rw [h1, (hperm.map _).sum_eq, ← sumTo_eq_sum, (sumTo_telescope off data.count hmono).1, h0]
    rfl
  have hlt : ∀ k, k ≤ data.count → sumTo (fun k => off (idx k + 1) - off (idx k)) k < IDX_MOD := by
    intro k hk
    have h1 := sumTo_mono (fun k => off (idx k + 1) - off (idx k)) hk
    have h2 : off data.count < IDX_MOD := by rw [← hoff]; exact Load_idx_lt _ _
    omega
  have hsize : ∀ k, k < data.count →
      (off (idx k + 1) + IDX_MOD - off (idx k)) % IDX_MOD = off (idx k + 1) - off (idx k) := by
    intro k hk
    apply sub_mod_idx _ _ (hmono _ (hidx_lt k hk))
    rw [← hoff]; exact Load_idx_lt _ _
  have hinv := forUp_inv
    (fun k (s : Buffer × Nat × Buffer × Nat) =>
      s.2.1 = sumTo (fun k => off (idx k + 1) - off (idx k)) k ∧
      s.2.2.2 = sorting_ptr + k * st.ENTRY_SIZE ∧
      (∀ i, i ≤ k → offsetAt s.2.2.1 i = sumTo (fun k => off (idx k + 1) - off (idx k)) i) ∧
      ∀ i, i < k → ∀ t, t < off (idx i + 1) - off (idx i) →
        s.1 (sumTo (fun k => off (idx k + 1) - off (idx k)) i + t) = data.block (off (idx i) + t))
    (fun i (s : Buffer × Nat × Buffer × Nat) =>
            (memcpy s.1 s.2.1 data.block (off (Load_idx sorting s.2.2.2))
              ((off (Load_idx sorting s.2.2.2 + 1) + IDX_MOD - off (Load_idx sorting s.2.2.2)) % IDX_MOD),
             s.2.1 + (off (Load_idx sorting s.2.2.2 + 1) + IDX_MOD - off (Load_idx sorting s.2.2.2)) % IDX_MOD,
             Store_idx ((offsetAt s.2.2.1 i +
                (off (Load_idx sorting s.2.2.2 + 1) + IDX_MOD - off (Load_idx sorting s.2.2.2)) % IDX_MOD)
                % IDX_MOD) s.2.2.1 (sizeof_idx_t * (i + 1)),
             s.2.2.2 + st.ENTRY_SIZE))
    ((RowDataBlock.create fresh data.CAPACITY data.ENTRY_SIZE).block, 0,
      Store_idx 0 (RowDataBlock.create fresh offs.CAPACITY offs.ENTRY_SIZE).block 0, sorting_ptr)
    data.count
    (by
      refine ⟨rfl, by simp, ?_, ?_⟩
      · intro i hi
        have : i = 0 := by omega
        subst this
        simp only [offsetAt, Nat.mul_zero, sumTo]
        rw [Load_Store_idx_same]
        simp [IDX_MOD]
      · intro i hi
        omega)
    (by
      rintro k ⟨buf, p, ro, sp⟩ hk ⟨h1, h2, h3, h4⟩
      simp only [] at h1 h2 h3 h4 ⊢
      subst h1 h2
      rw [hidx' k, hsize k hk]
      refine ⟨rfl, by rw [Nat.add_mul, Nat.one_mul, Nat.add_assoc], ?_, ?_⟩
      · intro i hi
        by_cases hik : i ≤ k
        · simp only [offsetAt]
          rw [Load_Store_idx_disj _ _ _ _ (by simp only [sizeof_idx_t]; omega)]
          exact h3 i hik
        · have : i = k + 1 := by omega
          subst this
          simp only [offsetAt]
          rw [Load_Store_idx_same]
          have := h3 k (Nat.le_refl k)
          simp only [offsetAt] at this
          rw [this]
          have hb := hlt (k + 1) hk
          simp only [sumTo] at hb ⊢
          rw [Nat.mod_mod, Nat.mod_eq_of_lt hb]
      · intro i hi t ht
        by_cases hik : i < k
        · rw [memcpy_outside]
          · exact h4 i hik t ht
          · left
            have := sumTo_mono (fun k => off (idx k + 1) - off (idx k)) (show i + 1 ≤ k from hik)
            simp only [sumTo] at this
            omega
        · have : i = k := by omega
          subst this
          rw [memcpy_inside _ _ _ _ _ _ (by omega) (by omega)]
          congr 1
          omega)
  obtain ⟨-, -, h3, h4⟩ := hinv
  refine ⟨?_, ?_, ?_⟩
  · rw [h3 0 (Nat.zero_le _)]; rfl
  · intro k hk
    refine ⟨?_, ?_⟩
    · rw [h3 (k + 1) hk, h3 k (by omega)]; rfl
    · rw [bytesOf_eq_iff, h3 k (by omega)]
      intro t ht
      exact h4 k hk t ht
  · rw [h3 _ (Nat.le_refl _), htotal]

/-- C4, evaluated on a payload of two entries of two bytes, `[10, 11]` and `[12, 13]`, reordered by
a sorted key block with entry size 10 and trailing indices 1, 0: entry 0 of the new block should
be the old entry 1, `[12, 13]`, but `ReOrder` copies it from offset `1 * 10` of the old block,
where the bytes `[20, 21]` lie; the source offset is computed with the entry size of the
sorting block instead of that of the chunk. -/
theorem ReOrder_constant_reads_at_sorting_stride :
    (List.range 2).map (fun k => Load_idx sampleSortedKeys (2 + k * sampleSortingState.ENTRY_SIZE))
      = [1, 0] ∧
    bytesOf samplePayloadBlock.block (1 * samplePayloadChunk.ENTRY_SIZE) samplePayloadChunk.ENTRY_SIZE
      = [12, 13] ∧
    (ReOrder (fun _ => 0) samplePayloadChunk sampleSortedKeys 2 sampleSortingState).map
        (fun cc => cc.data_blocks.map
          (fun b => bytesOf b.block (0 * samplePayloadChunk.ENTRY_SIZE) samplePayloadChunk.ENTRY_SIZE))
      = some [[20, 21]] := by
  decide

/-- C5: for a variable-width chunk whose offsets start at 0 and do not decrease, and a sorted key
block whose trailing indices are a permutation of `0 .. count-1`, `ReOrder` produces offsets with
`new_offsets[0] = 0` and `new_offsets[k+1] = new_offsets[k] + (old_offsets[idx_k+1] -
old_offsets[idx_k])`, a blob whose bytes `[new_offsets[k], new_offsets[k+1])` are the old bytes
`[old_offsets[idx_k], old_offsets[idx_k+1])`, and `new_offsets[count] = old_offsets[count]`. -/
theorem ReOrder_variable_offsets_and_bytes (fresh : Buffer) (cc : ContinuousChunk)
    (sorting : Buffer) (sorting_ptr : Nat) (st : SortingState) (data offs : RowDataBlock)
    (hd : cc.data_blocks.getLast? = some data) (ho : cc.offset_blocks.getLast? = some offs)
    (hc : cc.CONSTANT_SIZE = false)
    (hperm : List.Perm
      ((List.range data.count).map (fun k => Load_idx sorting (sorting_ptr + k * st.ENTRY_SIZE)))
      (List.range data.count))
    (h0 : offsetAt offs.block 0 = 0)
    (hmono : ∀ j, j < data.count → offsetAt offs.block j ≤ offsetAt offs.block (j + 1)) :
    ∃ nd no : RowDataBlock,
      ReOrder fresh cc sorting sorting_ptr st =
        some { cc with data_blocks := [nd], offset_blocks := [no] } ∧
      offsetAt no.block 0 = 0 ∧
      (∀ k, k < data.count →
        offsetAt no.block (k + 1) = offsetAt no.block k +
          (offsetAt offs.block (Load_idx sorting (sorting_ptr + k * st.ENTRY_SIZE) + 1)
            - offsetAt offs.block (Load_idx sorting (sorting_ptr + k * st.ENTRY_SIZE))) ∧
        bytesOf nd.block (offsetAt no.block k)
            (offsetAt offs.block (Load_idx sorting (sorting_ptr + k * st.ENTRY_SIZE) + 1)
              - offsetAt offs.block (Load_idx sorting (sorting_ptr + k * st.ENTRY_SIZE))) =
          bytesOf data.block
            (offsetAt offs.block (Load_idx sorting (sorting_ptr + k * st.ENTRY_SIZE)))
            (offsetAt offs.block (Load_idx sorting (sorting_ptr + k * st.ENTRY_SIZE) + 1)
              - offsetAt offs.block (Load_idx sorting (sorting_ptr + k * st.ENTRY_SIZE)))) ∧
      offsetAt no.block data.count = offsetAt offs.block data.count :=
  ReOrder_variable_spec fresh cc sorting sorting_ptr st data offs hd ho hc hperm h0 hmono

theorem ReOrder_variable_offsets_and_bytes_witness :
    ∃ nd no : RowDataBlock,
      ReOrder (fun _ => 0) sampleVarChunk sampleSortedKeys 2 sampleSortingState =
        some { sampleVarChunk with data_blocks := [nd], offset_blocks := [no] } ∧
      offsetAt no.block 0 = 0 ∧
      (∀ k, k < sampleVarData.count →
        offsetAt no.block (k + 1) = offsetAt no.block k +
          (offsetAt sampleVarOffsets.block
              (Load_idx sampleSortedKeys (2 + k * sampleSortingState.ENTRY_SIZE) + 1)
            - offsetAt sampleVarOffsets.block
              (Load_idx sampleSortedKeys (2 + k * sampleSortingState.ENTRY_SIZE))) ∧
        bytesOf nd.block (offsetAt no.block k)
            (offsetAt sampleVarOffsets.block
                (Load_idx sampleSortedKeys (2 + k * sampleSortingState.ENTRY_SIZE) + 1)
              - offsetAt sampleVarOffsets.block
                (Load_idx sampleSortedKeys (2 + k * sampleSortingState.ENTRY_SIZE))) =
          bytesOf sampleVarData.block
            (offsetAt sampleVarOffsets.block
              (Load_idx sampleSortedKeys (2 + k * sampleSortingState.ENTRY_SIZE)))
            (offsetAt sampleVarOffsets.block
                (Load_idx sampleSortedKeys (2 + k * sampleSortingState.ENTRY_SIZE) + 1)
              - offsetAt sampleVarOffsets.block
                (Load_idx sampleSortedKeys (2 + k * sampleSortingState.ENTRY_SIZE)))) ∧
      offsetAt no.block sampleVarData.count = offsetAt sampleVarOffsets.block sampleVarData.count :=
  ReOrder_variable_offsets_and_bytes (fun _ => 0) sampleVarChunk sampleSortedKeys 2
    sampleSortingState sampleVarData sampleVarOffsets rfl rfl rfl (by decide) (by decide) (by decide)

theorem cntLe_eq (key : Nat → Nat) (b n : Nat) : cntLe key b n = cntLt key b n + cntEq key b n := by
  induction n with
  | zero => rfl
  | succ n ih =>
    simp only [cntLe, cntLt, cntEq, ih]
    by_cases h1 : key n < b
    · have h2 : key n ≤ b := Nat.le_of_lt h1
      have h3 : key n ≠ b := Nat.ne_of_lt h1
      simp [h1, h2, h3]; omega
    · by_cases h3 : key n = b
      · simp [h3]; omega
      · have h2 : ¬ key n ≤ b := by omega
        simp [h1, h2, h3]

theorem cntLt_succ (key : Nat → Nat) (b n : Nat) : cntLt key (b + 1) n = cntLe key b n := by
  induction n with
  | zero => rfl
  | succ n ih =>
    simp only [cntLe, cntLt, ih, Nat.lt_succ_iff]

theorem cntLt_zero (key : Nat → Nat) (n : Nat) : cntLt key 0 n = 0 := by
  induction n with
  | zero => rfl
  | succ n ih => simp [cntLt, ih]

theorem cntLe_le (key : Nat → Nat) (b n : Nat) : cntLe key b n ≤ n := by
  induction n with
  | zero => exact Nat.le_refl _
  | succ n ih =>
    simp only [cntLe]
    split <;> omega

theorem cntLe_mono (key : Nat → Nat) {b c : Nat} (h : b ≤ c) (n : Nat) :
    cntLe key b n ≤ cntLe key c n := by
  induction n with
  | zero => exact Nat.le_refl _
  | succ n ih =>
    simp only [cntLe]
    by_cases h1 : key n ≤ b
    · have h2 : key n ≤ c := Nat.le_trans h1 h
      simp [h1, h2]; omega
    · simp only [h1, if_false]
      split <;> omega

theorem cntEq_mono (key : Nat → Nat) (b : Nat) {i n : Nat} (h : i ≤ n) :
    cntEq key b i ≤ cntEq key b n := by
  induction n with
  | zero =>
    have : i = 0 := by omega
    subst this
    exact Nat.le_refl _
  | succ n ih =>
    by_cases hi : i = n + 1
    · subst hi; exact Nat.le_refl _
    · have := ih (by omega)
      simp only [cntEq]
      omega

theorem cntEq_lt (key : Nat → Nat) {j n : Nat} (h : j < n) :
    cntEq key (key j) j < cntEq key (key j) n := by
  have h1 : cntEq key (key j) (j + 1) = cntEq key (key j) j + 1 := by simp [cntEq]
  have h2 := cntEq_mono key (key j) (show j + 1 ≤ n from h)
  omega

theorem radixPos_lt_count (key : Nat → Nat) {count j : Nat} (h : j < count) :
    radixPos key count j < count := by
  have h1 := cntEq_lt key h
  have h2 := cntLe_eq key (key j) count
  have h3 := cntLe_le key (key j) count
  unfold radixPos
  omega

theorem radixPos_lt_of (key : Nat → Nat) {count j k : Nat} (hj : j < count) (_hk : k < count)
    (h : key j < key k ∨ (key j = key k ∧ j < k)) : radixPos key count j < radixPos key count k := by
  unfold radixPos
  rcases h with h | ⟨h1, h2⟩
  · have e1 := cntEq_lt key hj
    have e2 := cntLe_eq key (key j) count
    have e3 : cntLe key (key j) count ≤ cntLe key (key k - 1) count :=
      cntLe_mono key (by omega) count
    have e4 : cntLt key (key k) count = cntLe key (key k - 1) count := by
      have := cntLt_succ key (key k - 1) count
      rwa [show key k - 1 + 1 = key k by omega] at this
    omega
  · rw [h1]
    have e1 : cntEq key (key k) (j + 1) = cntEq key (key k) j + 1 := by simp [cntEq, h1]
    have e2 := cntEq_mono key (key k) (show j + 1 ≤ k from h2)
    omega

theorem radixPos_lt_iff (key : Nat → Nat) {count j k : Nat} (hj : j < count) (hk : k < count) :
    radixPos key count j < radixPos key count k ↔ (key j < key k ∨ (key j = key k ∧ j < k)) := by
  constructor
  · intro h
    by_contra hn
    have : key k < key j ∨ (key k = key j ∧ k < j) ∨ k = j := by omega
    rcases this with h1 | h1 | h1
    · have := radixPos_lt_of key hk hj (Or.inl h1); omega
    · have := radixPos_lt_of key hk hj (Or.inr h1); omega
    · subst h1; omega
  · exact radixPos_lt_of key hj hk

theorem collect_counts (key : Nat → Nat) (body : Nat → (Nat → Nat) → Nat → Nat)
    (hbody : ∀ i counts v, body i counts v = if v = key i then counts v + 1 else counts v)
    (count : Nat) (v : Nat) :
    forUp count body (fun _ => 0) v = cntEq key v count := by
  induction count with
  | zero => rfl
  | succ n ih =>
    simp only [forUp, cntEq, hbody, ih]
    by_cases h : v = key n
    · simp [h]
    · have : ¬ key n = v := fun e => h e.symm
      simp [h, this]

theorem offsets_from_counts (key : Nat → Nat) (count : Nat) (body : Nat → (Nat → Nat) → Nat → Nat)
    (hbody : ∀ k counts v,
      body k counts v = if v = k + 1 then counts (k + 1) + counts k else counts v)
    (k : Nat) (c : Nat → Nat) (hc : ∀ v, c v = cntEq key v count) :
    ∀ v, (v ≤ k → forUp k body c v = cntLe key v count) ∧
         (k < v → forUp k body c v = cntEq key v count) := by
  induction k with
  | zero =>
    intro v
    simp only [forUp]
    refine ⟨?_, fun _ => hc v⟩
    intro hv
    have : v = 0 := by omega
    subst this
    rw [hc, cntLe_eq, cntLt_zero, Nat.zero_add]
  | succ k ih =>
    intro v
    simp only [forUp, hbody]
    refine ⟨?_, ?_⟩
    · intro hv
      by_cases h : v = k + 1
      · subst h
        simp only [if_true]
        rw [(ih (k + 1)).2 (Nat.lt_succ_self k), (ih k).1 (Nat.le_refl k)]
        rw [cntLe_eq key (k + 1), cntLt_succ]
        omega
      · simp only [h, if_false]
        exact (ih v).1 (by omega)
    · intro hv
      have h : v ≠ k + 1 := by omega
      simp only [h, if_false]
      exact (ih v).2 (by omega)

theorem row_end_le {p q : Nat} (ES : Nat) (h : p < q) : p * ES + ES ≤ q * ES := by
  have := Nat.mul_le_mul_right ES (show p + 1 ≤ q from h)
  rwa [Nat.add_mul, Nat.one_mul] at this

/-- One pass of `RadixSort` puts row `j` of `dataptr` into slot `radixPos j` of `temp` and
leaves the rest of the block of `temp` as it was. -/
theorem RadixSort_pass_spec (ES count offset : Nat) (d t : Buffer × Nat) :
    (∀ j, j < count → ∀ x, x < ES →
      RadixSort.pass ES count offset d t
          (t.2 + radixPos (fun j => (d.1 (d.2 + j * ES + offset)).val) count j * ES + x)
        = d.1 (d.2 + j * ES + x)) ∧
    (∀ a, a < t.2 ∨ t.2 + count * ES ≤ a → RadixSort.pass ES count offset d t a = t.1 a) := by
  generalize hkey : (fun j => (d.1 (d.2 + j * ES + offset)).val) = key
  have hkey' : ∀ j, (d.1 (d.2 + j * ES + offset)).val = key j := by intro j; rw [← hkey]
  have hk255 : ∀ j, key j ≤ 255 := by
    intro j; rw [← hkey']; have := (d.1 (d.2 + j * ES + offset)).isLt; omega
  have hc1 : ∀ v, forUp count
      (fun i (counts : Nat → Nat) =>
        let byte := (d.1 (d.2 + i * ES + offset)).val
        fun v => if v = byte then counts v + 1 else counts v) (fun _ => 0) v = cntEq key v count :=
    fun v => collect_counts key _ (by intro i counts v; simp only [hkey']) count v
  have hc2 := offsets_from_counts key count
    (fun k (counts : Nat → Nat) =>
      let val := k + 1
      fun v => if v = val then counts val + counts (val - 1) else counts v)
    (by intro k counts v; simp only [Nat.add_sub_cancel]) 255 _ hc1
  have hinv := forDown_inv
    (fun i (s : Buffer × (Nat → Nat)) =>
      (∀ v, v ≤ 255 → s.2 v = cntLt key v count + cntEq key v i) ∧
      (∀ j, i ≤ j → j < count → ∀ x, x < ES →
        s.1 (t.2 + radixPos key count j * ES + x) = d.1 (d.2 + j * ES + x)) ∧
      (∀ a, a < t.2 ∨ t.2 + count * ES ≤ a → s.1 a = t.1 a))
    (fun j (s : Buffer × (Nat → Nat)) =>
      let byte := (d.1 (d.2 + j * ES + offset)).val
      (memcpy s.1 (t.2 + (s.2 byte - 1) * ES) d.1 (d.2 + j * ES) ES,
       fun v => if v = byte then s.2 v - 1 else s.2 v))
    count
    (t.1, forUp 255
      (fun k (counts : Nat → Nat) =>
        let val := k + 1
        fun v => if v = val then counts val + counts (val - 1) else counts v)
      (forUp count
        (fun i (counts : Nat → Nat) =>
          let byte := (d.1 (d.2 + i * ES + offset)).val
          fun v => if v = byte then counts v + 1 else counts v) (fun _ => 0)))
    (by
      refine ⟨?_, ?_, ?_⟩
      · intro v hv
        simp only []
        rw [(hc2 v).1 hv, cntLe_eq]
      · intro j h1 h2
        omega
      · intro a _
        rfl)
    (by
      rintro k ⟨buf, c⟩ hk ⟨h1, h2, h3⟩
      simp only [] at h1 h2 h3 ⊢
      simp only [hkey']
      have hck : c (key k) = radixPos key count k + 1 := by
        rw [h1 _ (hk255 k)]
        simp [radixPos, cntEq]
        omega
      have hpos := radixPos_lt_count key hk
      refine ⟨?_, ?_, ?_⟩
      · intro v hv
        by_cases hvk : v = key k
        · subst hvk
          simp only [if_true]
          rw [hck]
          simp [radixPos]
        · have : ¬ key k = v := fun e => hvk e.symm
          simp only [hvk, if_false]
          rw [h1 v hv]
          simp [cntEq, this]
      · intro j hj1 hj2 x hx
        rw [hck, Nat.add_sub_cancel]
        by_cases hjk : j = k
        · subst hjk
          rw [memcpy_inside _ _ _ _ _ _ (Nat.le_add_right _ _) (Nat.add_lt_add_left hx _)]
          rw [Nat.add_sub_cancel_left]
        · have hne : radixPos key count j ≠ radixPos key count k := by
            intro e
            have hlt : k < j := by omega
            have := radixPos_lt_of key hk hj2
              (show key k < key j ∨ (key k = key j ∧ k < j) from by
                by_cases hkk : key k = key j
                · exact Or.inr ⟨hkk, hlt⟩
                · by_cases hlt2 : key k < key j
                  · exact Or.inl hlt2
                  · exfalso
                    have := radixPos_lt_of key hj2 hk (Or.inl (by omega))
                    omega)
            omega
          rw [memcpy_outside]
          · exact h2 j (by omega) hj2 x hx
          · rcases Nat.lt_or_gt_of_ne hne with h | h
            · have := row_end_le ES h
              left; omega
            · have := row_end_le ES h
              right; omega
      · intro a ha
        rw [hck, Nat.add_sub_cancel, memcpy_outside]
        · exact h3 a ha
        · have := row_end_le ES hpos
          omega)
  obtain ⟨-, h2, h3⟩ := hinv
  exact ⟨fun j hj x hx => h2 j (Nat.zero_le _) hj x hx, h3⟩

theorem memcmp_congr (p q p2 q2 : Buffer) (a b a2 b2 n : Nat)
    (hp : ∀ k, k < n → p (a + k) = p2 (a2 + k)) (hq : ∀ k, k < n → q (b + k) = q2 (b2 + k)) :
    memcmp p a q b n = memcmp p2 a2 q2 b2 n := by
  induction n generalizing a b a2 b2 with
  | zero => rfl
  | succ n ih =>
    have h1 := hp 0 (Nat.succ_pos n)
    have h2 := hq 0 (Nat.succ_pos n)
    simp only [Nat.add_zero] at h1 h2
    simp only [memcmp, h1, h2]
    rw [ih (a + 1) (b + 1) (a2 + 1) (b2 + 1)]
    · intro k hk
      have := hp (k + 1) (Nat.succ_lt_succ hk)
      rwa [show a + 1 + k = a + (k + 1) by omega, show a2 + 1 + k = a2 + (k + 1) by omega]
    · intro k hk
      have := hq (k + 1) (Nat.succ_lt_succ hk)
      rwa [show b + 1 + k = b + (k + 1) by omega, show b2 + 1 + k = b2 + (k + 1) by omega]

theorem memcmp_succ_lt (p q : Buffer) (a b n : Nat) :
    memcmp p a q b (n + 1) < 0 ↔
      ((p a).val < (q b).val ∨ ((p a).val = (q b).val ∧ memcmp p (a + 1) q (b + 1) n < 0)) := by
  simp only [memcmp]
  by_cases h : p a = q b
  · simp [h]
  · have hv : (p a).val ≠ (q b).val := fun e => h (Fin.ext e)
    simp only [h, if_false]
    constructor
    · intro hlt
      left
      omega
    · rintro (h1 | ⟨h1, -⟩)
      · omega
      · exact absurd h1 hv

theorem memcmp_succ_eq (p q : Buffer) (a b n : Nat) :
    memcmp p a q b (n + 1) = 0 ↔
      ((p a).val = (q b).val ∧ memcmp p (a + 1) q (b + 1) n = 0) := by
  simp only [memcmp]
  by_cases h : p a = q b
  · simp [h]
  · have hv : (p a).val ≠ (q b).val := fun e => h (Fin.ext e)
    simp only [h, if_false]
    constructor
    · intro h0
      exfalso
      omega
    · rintro ⟨h1, -⟩
      exact absurd h1 hv

theorem idx_pred (c : Nat) (h0 : 0 < c) (hc : c < IDX_MOD) :
    (c + IDX_MOD - 1) % IDX_MOD = c - 1 := by
  have e1 : c + IDX_MOD - 1 = (c - 1) + IDX_MOD := by omega
  rw [e1, Nat.add_mod_right, Nat.mod_eq_of_lt (by omega)]

theorem RadixLoopInv_init (ES count col_offset sorting_size : Nat) (data : Buffer) (base : Nat)
    (t : Buffer × Nat) :
    RadixLoopInv ES count col_offset sorting_size data base 0 ((data, base), t, false) := by
  refine ⟨id, ⟨fun j hj => hj, ?_⟩, ?_, ?_⟩
  · intro j k _ _
    simp [memcmp]
  · intro j _ x _
    rfl
  · simp [SameOutside]

theorem RadixLoopInv_step (ES count col_offset sorting_size : Nat) (data : Buffer) (base : Nat)
    (hwin : col_offset + sorting_size ≤ ES) (m : Nat) (hm : m < sorting_size)
    (s : (Buffer × Nat) × (Buffer × Nat) × Bool)
    (h : RadixLoopInv ES count col_offset sorting_size data base m s) :
    RadixLoopInv ES count col_offset sorting_size data base (m + 1)
      ((RadixSort.pass ES count (col_offset + sorting_size - (m + 1)) s.1 s.2.1, s.2.1.2), s.1,
        !s.2.2) := by
  obtain ⟨σ, ⟨hσ1, hσ2⟩, hrows, hframe⟩ := h
  obtain ⟨hp1, hp2⟩ := RadixSort_pass_spec ES count (col_offset + sorting_size - (m + 1)) s.1 s.2.1
  generalize hkey : (fun j => (s.1.1 (s.1.2 + j * ES + (col_offset + sorting_size - (m + 1)))).val)
    = key at hp1
  have hkeyσ : ∀ j, j < count →
      key (σ j) = (data (base + j * ES + (col_offset + sorting_size - (m + 1)))).val := by
    intro j hj
    have := hrows j hj (col_offset + sorting_size - (m + 1)) (by omega)
    rw [← hkey]
    simp only []
    rw [this]
  refine ⟨fun j => radixPos key count (σ j), ⟨?_, ?_⟩, ?_, ?_⟩
  · intro j hj
    exact radixPos_lt_count key (hσ1 j hj)
  · intro j k hj hk
    rw [radixPos_lt_iff key (hσ1 j hj) (hσ1 k hk), hkeyσ j hj, hkeyσ k hk, hσ2 j k hj hk]
    have e : ∀ i, base + i * ES + (col_offset + sorting_size - (m + 1)) + 1 =
        base + i * ES + (col_offset + sorting_size - m) := by intro i; omega
    rw [memcmp_succ_lt, memcmp_succ_eq, e j, e k]
    constructor
    · rintro (h1 | ⟨h1, h2 | h2⟩)
      · exact Or.inl (Or.inl h1)
      · exact Or.inl (Or.inr ⟨h1, h2⟩)
      · exact Or.inr ⟨⟨h1, h2.1⟩, h2.2⟩
    · rintro ((h1 | ⟨h1, h2⟩) | ⟨⟨h1, h2⟩, h3⟩)
      · exact Or.inl h1
      · exact Or.inr ⟨h1, Or.inl h2⟩
      · exact Or.inr ⟨h1, Or.inr ⟨h2, h3⟩⟩
  · intro j hj x hx
    simp only []
    rw [hp1 (σ j) (hσ1 j hj) x hx]
    exact hrows j hj x hx
  · by_cases hsw : s.2.2 = true
    · simp only [hsw, if_true] at hframe
      simp only [hsw, Bool.not_true, Bool.false_eq_true, if_false]
      refine ⟨hframe.1, ?_⟩
      intro a ha
      rw [hp2 a (by rw [hframe.1]; exact ha)]
      exact hframe.2 a ha
    · have hsw' : s.2.2 = false := by simpa using hsw
      simp only [hsw', Bool.false_eq_true, if_false] at hframe
      simp only [hsw', Bool.not_false, if_true]
      exact hframe

theorem RadixSort_loop_spec (ES count col_offset sorting_size : Nat) (data : Buffer) (base : Nat)
    (hwin : col_offset + sorting_size ≤ ES) (hlt : col_offset + sorting_size < IDX_MOD) :
    ∀ (n m fuel : Nat) (s : (Buffer × Nat) × (Buffer × Nat) × Bool),
      m + n = sorting_size → n < fuel →
      RadixLoopInv ES count col_offset sorting_size data base m s →
      RadixLoopInv ES count col_offset sorting_size data base sorting_size
        (RadixSort.loop ES count col_offset fuel ((col_offset + n + IDX_MOD - 1) % IDX_MOD) s) := by
  intro n
  induction n with
  | zero =>
    intro m fuel s hm hfuel h
    obtain ⟨fuel, rfl⟩ : ∃ f, fuel = f + 1 := ⟨fuel - 1, by omega⟩
    have hM : 0 < IDX_MOD := by decide
    have hcond : ¬ (((col_offset + 0 + IDX_MOD - 1) % IDX_MOD + 1) % IDX_MOD > col_offset) := by
      by_cases hc : col_offset = 0
      · subst hc
        simp [IDX_MOD]
      · simp only [Nat.add_zero]
        rw [idx_pred col_offset (by omega) (by omega),
          show col_offset - 1 + 1 = col_offset by omega, Nat.mod_eq_of_lt (by omega)]
        omega
    simp only [RadixSort.loop, hcond, if_false]
    have : m = sorting_size := by omega
    subst this
    exact h
  | succ n ih =>
    intro m fuel s hm hfuel h
    obtain ⟨fuel, rfl⟩ : ∃ f, fuel = f + 1 := ⟨fuel - 1, by omega⟩
    have hoff : (col_offset + (n + 1) + IDX_MOD - 1) % IDX_MOD = col_offset + n := by
      rw [idx_pred (col_offset + (n + 1)) (by omega) (by omega)]
      omega
    have hcond : (col_offset + n + 1) % IDX_MOD > col_offset := by
      rw [Nat.mod_eq_of_lt (by omega)]
      omega
    rw [hoff]
    simp only [RadixSort.loop, hcond, if_true]
    have hstep := RadixLoopInv_step ES count col_offset sorting_size data base hwin m (by omega) s h
    rw [show col_offset + sorting_size - (m + 1) = col_offset + n by omega] at hstep
    exact ih (m + 1) fuel _ (by omega) (by omega) hstep

/-- The function `RadixSort` places the rows as a stable sort by `memcmp` over the window
`[col_offset, col_offset + sorting_size)` does, moves every row whole, and leaves the rest of
the block unchanged. -/
theorem RadixSort_spec (fresh data : Buffer) (base count col_offset sorting_size : Nat)
    (st : SortingState) (hwin : col_offset + sorting_size ≤ st.ENTRY_SIZE)
    (hlt : col_offset + sorting_size < IDX_MOD) :
    ∃ σ : Nat → Nat,
      IsStablePlacement count
        (fun j k => memcmp data (base + j * st.ENTRY_SIZE + col_offset)
          data (base + k * st.ENTRY_SIZE + col_offset) sorting_size) σ ∧
      RowsMoved st.ENTRY_SIZE count data base
        (RadixSort fresh data base count col_offset sorting_size st) base σ ∧
      SameOutside st.ENTRY_SIZE count data base
        (RadixSort fresh data base count col_offset sorting_size st) := by
  have h := RadixSort_loop_spec st.ENTRY_SIZE count col_offset sorting_size data base hwin hlt
    sorting_size 0 IDX_MOD ((data, base), (fresh, 0), false) (by omega) (by omega)
    (RadixLoopInv_init _ _ _ _ _ _ _)
  unfold RadixSort
  simp only []
  generalize RadixSort.loop st.ENTRY_SIZE count col_offset IDX_MOD
    ((col_offset + sorting_size + IDX_MOD - 1) % IDX_MOD) ((data, base), (fresh, 0), false) = s at h
  obtain ⟨σ, hσ, hrows, hframe⟩ := h
  rw [show col_offset + sorting_size - sorting_size = col_offset by omega] at hσ
  refine ⟨σ, hσ, ?_⟩
  by_cases hsw : s.2.2 = true
  · simp only [hsw, if_true] at hframe ⊢
    obtain ⟨hb, hf⟩ := hframe
    rw [hb]
    refine ⟨?_, ?_⟩
    · intro j hj x hx
      have hpos := row_end_le st.ENTRY_SIZE (hσ.1 j hj)
      rw [memcpy_inside _ _ _ _ _ _ (by omega) (by omega)]
      rw [show s.1.2 + (base + σ j * st.ENTRY_SIZE + x - base) = s.1.2 + σ j * st.ENTRY_SIZE + x by omega]
      exact hrows j hj x hx
    · intro a ha
      rw [memcpy_outside _ _ _ _ _ _ ha]
      exact hf a ha
  · have hsw' : s.2.2 = false := by simpa using hsw
    simp only [hsw', Bool.false_eq_true, if_false] at hframe ⊢
    obtain ⟨hb, hf⟩ := hframe
    rw [hb] at hrows
    exact ⟨hrows, hf⟩

theorem memcmp_swap (p q : Buffer) (a b n : Nat) : memcmp q b p a n = - memcmp p a q b n := by
  induction n generalizing a b with
  | zero => simp [memcmp]
  | succ n ih =>
    simp only [memcmp]
    by_cases h : p a = q b
    · simp [h, ih]
    · have h2 : ¬ q b = p a := fun e => h e.symm
      simp only [h, h2, if_false]
      omega

theorem memcmp_self (p : Buffer) (a n : Nat) : memcmp p a p a n = 0 := by
  induction n generalizing a with
  | zero => rfl
  | succ n ih => simp [memcmp, ih]

theorem memcmp_eq_zero_iff (p q : Buffer) (a b n : Nat) :
    memcmp p a q b n = 0 ↔ ∀ k, k < n → p (a + k) = q (b + k) := by
  induction n generalizing a b with
  | zero => simp [memcmp]
  | succ n ih =>
    rw [memcmp_succ_eq, ih]
    constructor
    · rintro ⟨h1, h2⟩ k hk
      cases k with
      | zero => exact Fin.ext h1
      | succ k =>
        have := h2 k (by omega)
        rwa [show a + 1 + k = a + (k + 1) by omega, show b + 1 + k = b + (k + 1) by omega] at this
    · intro h
      refine ⟨congrArg Fin.val (h 0 (by omega)), ?_⟩
      intro k hk
      have := h (k + 1) (by omega)
      rwa [show a + 1 + k = a + (k + 1) by omega, show b + 1 + k = b + (k + 1) by omega]

/-- A comparison that is antisymmetric in sign, as `memcmp` is. -/
theorem placement_inj (count : Nat) (cmp : Nat → Nat → Int) (σ : Nat → Nat)
    (hanti : ∀ j k, cmp k j = - cmp j k)
    (h : IsStablePlacement count cmp σ) :
    ∀ j k, j < count → k < count → σ j = σ k → j = k := by
  intro j k hj hk he
  by_contra hne
  have h1 := (h.2 j k hj hk)
  have h2 := (h.2 k j hk hj)
  have ha := hanti j k
  rw [he] at h1
  rw [← he] at h2
  have n1 : ¬ (cmp j k < 0 ∨ (cmp j k = 0 ∧ j < k)) := fun x => Nat.lt_irrefl _ (h1.mpr x)
  have n2 : ¬ (cmp k j < 0 ∨ (cmp k j = 0 ∧ k < j)) := fun x => Nat.lt_irrefl _ (h2.mpr x)
  have : cmp j k < 0 ∨ (cmp j k = 0 ∧ j < k) ∨ cmp k j < 0 ∨ (cmp k j = 0 ∧ k < j) := by
    rcases Int.lt_trichotomy (cmp j k) 0 with h | h | h
    · exact Or.inl h
    · rcases Nat.lt_or_gt_of_ne hne with h' | h'
      · exact Or.inr (Or.inl ⟨h, h'⟩)
      · exact Or.inr (Or.inr (Or.inr ⟨by omega, h'⟩))
    · exact Or.inr (Or.inr (Or.inl (by omega)))
  rcases this with h | h | h | h
  · exact n1 (Or.inl h)
  · exact n1 (Or.inr h)
  · exact n2 (Or.inl h)
  · exact n2 (Or.inr h)

theorem map_perm_range (count : Nat) (σ : Nat → Nat) (hσ : ∀ j, j < count → σ j < count)
    (hinj : ∀ j k, j < count → k < count → σ j = σ k → j = k) :
    List.Perm ((List.range count).map σ) (List.range count) := by
  apply List.Subperm.perm_of_length_le
  · apply List.subperm_of_subset
    · apply List.Nodup.map_on
      · intro x hx y hy hxy
        exact hinj x y (List.mem_range.mp hx) (List.mem_range.mp hy) hxy
      · exact List.nodup_range count
    · intro p hp
      obtain ⟨j, hj, rfl⟩ := List.mem_map.mp hp
      exact List.mem_range.mpr (hσ j (List.mem_range.mp hj))
  · simp

theorem placement_surj (count : Nat) (σ : Nat → Nat) (hσ : ∀ j, j < count → σ j < count)
    (hinj : ∀ j k, j < count → k < count → σ j = σ k → j = k) :
    ∀ p, p < count → ∃ j, j < count ∧ σ j = p := by
  intro p hp
  have := (map_perm_range count σ hσ hinj).symm.subset (List.mem_range.mpr hp)
  obtain ⟨j, hj, rfl⟩ := List.mem_map.mp this
  exact ⟨j, List.mem_range.mp hj, rfl⟩

theorem rowsAt_perm_of_moved (ES count : Nat) (data : Buffer) (base : Nat) (out : Buffer)
    (σ : Nat → Nat) (hσ : ∀ j, j < count → σ j < count)
    (hinj : ∀ j k, j < count → k < count → σ j = σ k → j = k)
    (hrows : RowsMoved ES count data base out base σ) :
    List.Perm (rowsAt out ES base count) (rowsAt data ES base count) := by
  have h1 : rowsAt data ES base count =
      ((List.range count).map σ).map (fun k => bytesOf out (base + k * ES) ES) := by
    unfold rowsAt
    rw [List.map_map]
    apply List.map_congr_left
    intro j hj
    simp only [Function.comp]
    rw [bytesOf_eq_iff]
    intro x hx
    exact (hrows j (List.mem_range.mp hj) x hx).symm
  rw [h1]
  exact ((map_perm_range count σ hσ hinj).map _).symm

/-- The rows of the block after `RadixSort` are the rows before, rearranged. -/
theorem RadixSort_rows_perm (fresh data : Buffer) (base count col_offset sorting_size : Nat)
    (st : SortingState) (hwin : col_offset + sorting_size ≤ st.ENTRY_SIZE)
    (hlt : col_offset + sorting_size < IDX_MOD) :
    List.Perm (rowsAt (RadixSort fresh data base count col_offset sorting_size st)
      st.ENTRY_SIZE base count) (rowsAt data st.ENTRY_SIZE base count) := by
  obtain ⟨σ, hσ, hrows, -⟩ := RadixSort_spec fresh data base count col_offset sorting_size st hwin hlt
  exact rowsAt_perm_of_moved _ _ _ _ _ σ hσ.1
    (placement_inj count _ σ (fun j k => memcmp_swap _ _ _ _ _) hσ) hrows

/-- After `RadixSort`, any two rows in slot order compare `<= 0` by `memcmp` over the window. -/
theorem RadixSort_sorted (fresh data : Buffer) (base count col_offset sorting_size : Nat)
    (st : SortingState) (hwin : col_offset + sorting_size ≤ st.ENTRY_SIZE)
    (hlt : col_offset + sorting_size < IDX_MOD) :
    ∀ p q, p < q → q < count →
      memcmp (RadixSort fresh data base count col_offset sorting_size st)
          (base + p * st.ENTRY_SIZE + col_offset)
        (RadixSort fresh data base count col_offset sorting_size st)
          (base + q * st.ENTRY_SIZE + col_offset) sorting_size ≤ 0 := by
  obtain ⟨σ, hσ, hrows, -⟩ := RadixSort_spec fresh data base count col_offset sorting_size st hwin hlt
  have hinj := placement_inj count _ σ (fun j k => memcmp_swap _ _ _ _ _) hσ
  intro p q hpq hq
  obtain ⟨j, hj, rfl⟩ := placement_surj count σ hσ.1 hinj p (by omega)
  obtain ⟨k, hk, rfl⟩ := placement_surj count σ hσ.1 hinj q hq
  have hc : memcmp (RadixSort fresh data base count col_offset sorting_size st)
          (base + σ j * st.ENTRY_SIZE + col_offset)
        (RadixSort fresh data base count col_offset sorting_size st)
          (base + σ k * st.ENTRY_SIZE + col_offset) sorting_size =
      memcmp data (base + j * st.ENTRY_SIZE + col_offset) data
        (base + k * st.ENTRY_SIZE + col_offset) sorting_size := by
    apply memcmp_congr
    · intro x hx
      rw [Nat.add_assoc, Nat.add_assoc (base + j * st.ENTRY_SIZE)]
      exact hrows j hj _ (by omega)
    · intro x hx
      rw [Nat.add_assoc, Nat.add_assoc (base + k * st.ENTRY_SIZE)]
      exact hrows k hk _ (by omega)
  rw [hc]
  rcases (hσ.2 j k hj hk).mp hpq with h | ⟨h, -⟩
  · exact Int.le_of_lt h
  · exact Int.le_of_eq h

theorem sorting_size_eq (ES : Nat) (h8 : 8 ≤ ES) (hES : ES < IDX_MOD) :
    (ES + IDX_MOD - sizeof_idx_t) % IDX_MOD = ES - 8 :=
  sub_mod_idx ES 8 h8 hES

/-- The index stamping of `SortInMemory` writes `i` into the trailing field of row `i` and
leaves every other byte of the block as it was. -/
theorem stamp_spec (d : Buffer) (count : Nat) (st : SortingState)
    (h8 : 8 ≤ st.ENTRY_SIZE) (hES : st.ENTRY_SIZE < IDX_MOD) :
    (∀ i, i < count →
      Load_idx (SortInMemory.stamp d count st) (i * st.ENTRY_SIZE + (st.ENTRY_SIZE - 8))
        = i % IDX_MOD) ∧
    (∀ i x, x < st.ENTRY_SIZE - 8 →
      SortInMemory.stamp d count st (i * st.ENTRY_SIZE + x) = d (i * st.ENTRY_SIZE + x)) ∧
    (∀ a, count * st.ENTRY_SIZE ≤ a → SortInMemory.stamp d count st a = d a) := by
  unfold SortInMemory.stamp
  simp only [sorting_size_eq _ h8 hES]
  have hinv := forUp_inv
    (fun k (s : Buffer × Nat) =>
      s.2 = st.ENTRY_SIZE - 8 + k * st.ENTRY_SIZE ∧
      (∀ i, i < k → Load_idx s.1 (i * st.ENTRY_SIZE + (st.ENTRY_SIZE - 8)) = i % IDX_MOD) ∧
      (∀ i x, x < st.ENTRY_SIZE - 8 → s.1 (i * st.ENTRY_SIZE + x) = d (i * st.ENTRY_SIZE + x)) ∧
      (∀ a, k * st.ENTRY_SIZE ≤ a → s.1 a = d a))
    (fun i (s : Buffer × Nat) => (Store_idx i s.1 s.2, s.2 + st.ENTRY_SIZE))
    (d, st.ENTRY_SIZE - 8) count
    (by
      refine ⟨by simp, ?_, ?_, ?_⟩
      · intro i hi; omega
      · intro i x _; rfl
      · intro a _; rfl)
    (by
      rintro k ⟨buf, p⟩ _ ⟨h1, h2, h3, h4⟩
      simp only [] at h1 h2 h3 h4 ⊢
      subst h1
      refine ⟨by rw [Nat.add_mul, Nat.one_mul, Nat.add_assoc], ?_, ?_, ?_⟩
      · intro i hi
        by_cases hik : i < k
        · have := row_end_le st.ENTRY_SIZE hik
          rw [Load_Store_idx_disj _ _ _ _ (by omega)]
          exact h2 i hik
        · have : i = k := by omega
          subst this
          rw [Nat.add_comm (i * st.ENTRY_SIZE)]
          exact Load_Store_idx_same _ _ _
      · intro i x hx
        unfold Store_idx
        rw [StoreLE_outside]
        · exact h3 i x hx
        · simp only [sizeof_idx_t]
          rcases Nat.lt_trichotomy i k with h | h | h
          · have := row_end_le st.ENTRY_SIZE h
            left; omega
          · subst h
            left; omega
          · have := row_end_le st.ENTRY_SIZE h
            right; omega
      · intro a ha
        rw [Nat.add_mul, Nat.one_mul] at ha
        unfold Store_idx
        rw [StoreLE_outside _ _ _ _ _ (by simp only [sizeof_idx_t]; omega)]
        exact h4 a (by omega))
  exact ⟨hinv.2.1, hinv.2.2.1, hinv.2.2.2⟩

theorem foldl_and_true (l : List Bool) (h : ∀ c, c ∈ l → c = true) :
    l.foldl (fun acc c => acc && c) true = true := by
  induction l with
  | nil => rfl
  | cons a l ih =>
    have ha : a = true := h a (List.mem_cons_self a l)
    subst ha
    simp only [List.foldl_cons, Bool.and_true]
    exact ih (fun c hc => h c (List.mem_cons_of_mem _ hc))

/-- With every key column of constant size, `SortInMemory` stamps the rows and runs one
`RadixSort` over the whole key region. -/
theorem sort_all_constant (ext : Extern) (cb : ContinuousBlock) (st : SortingState)
    (dataptr : Buffer) (count : Nat) (hall : ∀ c, c ∈ st.CONSTANT_SIZE → c = true)
    (h8 : 8 ≤ st.ENTRY_SIZE) (hES : st.ENTRY_SIZE < IDX_MOD) :
    SortInMemory.sort ext cb st dataptr count =
      .ok (RadixSort ext.fresh (SortInMemory.stamp dataptr count st) 0 count 0
        (st.ENTRY_SIZE - 8) st) := by
  simp only [SortInMemory.sort, foldl_and_true _ hall, if_true, sorting_size_eq _ h8 hES]

theorem strictMono_le (n : Nat) (σ : Nat → Nat) (hσ : ∀ j, j < n → σ j < n)
    (hmono : ∀ j k, j < k → k < n → σ j < σ k) :
    ∀ d j, j + d < n → σ j + d < n := by
  intro d
  induction d with
  | zero => intro j hj; exact hσ j hj
  | succ d ih =>
    intro j hj
    have h1 := hmono j (j + 1) (Nat.lt_succ_self j) (by omega)
    have h2 := ih (j + 1) (by omega)
    omega

theorem strictMono_ge (n : Nat) (σ : Nat → Nat)
    (hmono : ∀ j k, j < k → k < n → σ j < σ k) :
    ∀ j, j < n → j ≤ σ j := by
  intro j
  induction j with
  | zero => intro _; exact Nat.zero_le _
  | succ j ih =>
    intro hj
    have h1 := hmono j (j + 1) (Nat.lt_succ_self j) hj
    have h2 := ih (by omega)
    omega

theorem strictMono_id (n : Nat) (σ : Nat → Nat) (hσ : ∀ j, j < n → σ j < n)
    (hmono : ∀ j k, j < k → k < n → σ j < σ k) :
    ∀ j, j < n → σ j = j := by
  intro j hj
  have h1 := strictMono_ge n σ hmono j hj
  have h2 := strictMono_le n σ hσ hmono (n - 1 - j) j (by omega)
  omega

/-- On rows that are already in `memcmp` order over the window, `RadixSort` moves nothing. -/
theorem RadixSort_sorted_input (fresh data : Buffer) (base count col_offset sorting_size : Nat)
    (st : SortingState) (hwin : col_offset + sorting_size ≤ st.ENTRY_SIZE)
    (hlt : col_offset + sorting_size < IDX_MOD)
    (hsorted : ∀ p q, p < q → q < count →
      memcmp data (base + p * st.ENTRY_SIZE + col_offset) data
        (base + q * st.ENTRY_SIZE + col_offset) sorting_size ≤ 0) :
    ∀ j, j < count → ∀ x, x < st.ENTRY_SIZE →
      RadixSort fresh data base count col_offset sorting_size st (base + j * st.ENTRY_SIZE + x)
        = data (base + j * st.ENTRY_SIZE + x) := by
  obtain ⟨σ, hσ, hrows, -⟩ := RadixSort_spec fresh data base count col_offset sorting_size st hwin hlt
  have hid := strictMono_id count σ hσ.1 (by
    intro j k hjk hk
    rw [hσ.2 j k (by omega) hk]
    have := hsorted j k hjk hk
    rcases Int.lt_trichotomy (memcmp data (base + j * st.ENTRY_SIZE + col_offset) data
        (base + k * st.ENTRY_SIZE + col_offset) sorting_size) 0 with h | h | h
    · exact Or.inl h
    · exact Or.inr ⟨h, hjk⟩
    · omega)
  intro j hj x hx
  have := hrows j hj x hx
  rwa [hid j hj] at this

theorem getLast?_dropLast_append {α : Type} (l : List α) (x : α) :
    (l.dropLast ++ [x]).getLast? = some x := by
  simp

theorem SortInMemory_of_sort (ext : Extern) (cb : ContinuousBlock) (st : SortingState)
    (block : RowDataBlock) (sorted : Buffer)
    (hblock : cb.sorting_blocks.getLast? = some block)
    (hsort : SortInMemory.sort ext cb st block.block block.count = .ok sorted) :
    SortInMemory ext cb st = .ok { cb with
      sorting_blocks := cb.sorting_blocks.dropLast ++ [{ block with block := sorted }] } := by
  simp only [SortInMemory, hblock, hsort]

/-- The sorted block of the all-constant path is in `memcmp` order over the key region. -/
theorem sort_all_constant_sorted (fresh : Buffer) (st : SortingState) (dataptr : Buffer)
    (count : Nat) (h8 : 8 ≤ st.ENTRY_SIZE) (hES : st.ENTRY_SIZE < IDX_MOD) :
    ∀ p q, p < q → q < count →
      memcmp (RadixSort fresh (SortInMemory.stamp dataptr count st) 0 count 0
          (st.ENTRY_SIZE - 8) st) (p * st.ENTRY_SIZE)
        (RadixSort fresh (SortInMemory.stamp dataptr count st) 0 count 0
          (st.ENTRY_SIZE - 8) st) (q * st.ENTRY_SIZE) (st.ENTRY_SIZE - 8) ≤ 0 := by
  intro p q hpq hq
  have := RadixSort_sorted fresh (SortInMemory.stamp dataptr count st) 0 count 0
    (st.ENTRY_SIZE - 8) st (by omega) (by omega) p q hpq hq
  simpa using this

/-- C1: when all key columns are of constant size, after `SortInMemory` every adjacent pair of
rows `i`, `i+1` satisfies `memcmp(row i, row i+1) <= 0` over the key region, the bytes
`[0, ENTRY_SIZE - sizeof(idx_t))` of each row. -/
theorem SortInMemory_constant_sorted (ext : Extern) (cb : ContinuousBlock) (st : SortingState)
    (block : RowDataBlock) (hblock : cb.sorting_blocks.getLast? = some block)
    (hall : ∀ c, c ∈ st.CONSTANT_SIZE → c = true)
    (h8 : sizeof_idx_t ≤ st.ENTRY_SIZE) (hES : st.ENTRY_SIZE < IDX_MOD) :
    ∃ sorted : Buffer,
      SortInMemory ext cb st = .ok { cb with
        sorting_blocks := cb.sorting_blocks.dropLast ++ [{ block with block := sorted }] } ∧
      ∀ i, i + 1 < block.count →
        memcmp sorted (i * st.ENTRY_SIZE) sorted ((i + 1) * st.ENTRY_SIZE)
          (st.ENTRY_SIZE - sizeof_idx_t) ≤ 0 := by
  refine ⟨_, SortInMemory_of_sort ext cb st block _ hblock
    (sort_all_constant ext cb st block.block block.count hall h8 hES), ?_⟩
  intro i hi
  exact sort_all_constant_sorted ext.fresh st block.block block.count h8 hES i (i + 1)
    (Nat.lt_succ_self i) hi

theorem SortInMemory_constant_sorted_witness :
    ∃ sorted : Buffer,
      SortInMemory sampleExtern sampleContinuousBlock sampleSortingState =
        .ok { sampleContinuousBlock with
          sorting_blocks := sampleContinuousBlock.sorting_blocks.dropLast ++
            [{ sampleKeyBlock with block := sorted }] } ∧
      ∀ i, i + 1 < sampleKeyBlock.count →
        memcmp sorted (i * sampleSortingState.ENTRY_SIZE) sorted
          ((i + 1) * sampleSortingState.ENTRY_SIZE)
          (sampleSortingState.ENTRY_SIZE - sizeof_idx_t) ≤ 0 :=
  SortInMemory_constant_sorted sampleExtern sampleContinuousBlock sampleSortingState
    sampleKeyBlock rfl (by decide) (by decide) (by decide)

/-- C10: when all key columns are of constant size, running `SortInMemory` on the output of
`SortInMemory` leaves the key region of the row at every position unchanged. -/
theorem SortInMemory_constant_idempotent (ext : Extern) (cb : ContinuousBlock)
    (st : SortingState) (block : RowDataBlock)
    (hblock : cb.sorting_blocks.getLast? = some block)
    (hall : ∀ c, c ∈ st.CONSTANT_SIZE → c = true)
    (h8 : sizeof_idx_t ≤ st.ENTRY_SIZE) (hES : st.ENTRY_SIZE < IDX_MOD) :
    ∃ (cb1 cb2 : ContinuousBlock) (b1 b2 : RowDataBlock),
      SortInMemory ext cb st = .ok cb1 ∧ SortInMemory ext cb1 st = .ok cb2 ∧
      cb1.sorting_blocks.getLast? = some b1 ∧ cb2.sorting_blocks.getLast? = some b2 ∧
      b1.count = block.count ∧ b2.count = block.count ∧
      ∀ k, k < block.count →
        bytesOf b2.block (k * st.ENTRY_SIZE) (st.ENTRY_SIZE - sizeof_idx_t) =
          bytesOf b1.block (k * st.ENTRY_SIZE) (st.ENTRY_SIZE - sizeof_idx_t) := by
  have h8' : 8 ≤ st.ENTRY_SIZE := h8
  have e1 := SortInMemory_of_sort ext cb st block _ hblock
    (sort_all_constant ext cb st block.block block.count hall h8 hES)
  generalize hs1 : RadixSort ext.fresh (SortInMemory.stamp block.block block.count st) 0
    block.count 0 (st.ENTRY_SIZE - 8) st = sorted1 at e1
  have hsorted1 := sort_all_constant_sorted ext.fresh st block.block block.count h8 hES
  rw [hs1] at hsorted1
  generalize hcb1 : ({ cb with sorting_blocks :=
    cb.sorting_blocks.dropLast ++ [{ block with block := sorted1 }] } : ContinuousBlock) = cb1 at e1
  have hb1 : cb1.sorting_blocks.getLast? = some { block with block := sorted1 } := by
    rw [← hcb1]; exact getLast?_dropLast_append _ _
  have e2 := SortInMemory_of_sort ext cb1 st { block with block := sorted1 } _ hb1
    (sort_all_constant ext cb1 st sorted1 block.count hall h8 hES)
  refine ⟨cb1, _, _, _, e1, e2, hb1, getLast?_dropLast_append _ _, rfl, rfl, ?_⟩
  intro k hk
  simp only []
  rw [bytesOf_eq_iff]
  intro x hx
  simp only [sizeof_idx_t] at hx
  obtain ⟨-, hkey, -⟩ := stamp_spec sorted1 block.count st h8' hES
  have hfix := RadixSort_sorted_input ext.fresh (SortInMemory.stamp sorted1 block.count st) 0
    block.count 0 (st.ENTRY_SIZE - 8) st (by omega) (by omega) (by
      intro p q hpq hq
      have := hsorted1 p q hpq hq
      have e : memcmp (SortInMemory.stamp sorted1 block.count st) (0 + p * st.ENTRY_SIZE + 0)
          (SortInMemory.stamp sorted1 block.count st) (0 + q * st.ENTRY_SIZE + 0)
          (st.ENTRY_SIZE - 8) =
          memcmp sorted1 (p * st.ENTRY_SIZE) sorted1 (q * st.ENTRY_SIZE) (st.ENTRY_SIZE - 8) := by
        simp only [Nat.zero_add, Nat.add_zero]
        apply memcmp_congr
        · intro x hx; exact hkey p x hx
        · intro x hx; exact hkey q x hx
      rw [e]
      exact this) k hk x (by omega)
  simp only [Nat.zero_add] at hfix
  rw [hfix]
  exact hkey k x hx

theorem SortInMemory_constant_idempotent_witness :
    ∃ (cb1 cb2 : ContinuousBlock) (b1 b2 : RowDataBlock),
      SortInMemory sampleExtern sampleContinuousBlock sampleSortingState = .ok cb1 ∧
      SortInMemory sampleExtern cb1 sampleSortingState = .ok cb2 ∧
      cb1.sorting_blocks.getLast? = some b1 ∧ cb2.sorting_blocks.getLast? = some b2 ∧
      b1.count = sampleKeyBlock.count ∧ b2.count = sampleKeyBlock.count ∧
      ∀ k, k < sampleKeyBlock.count →
        bytesOf b2.block (k * sampleSortingState.ENTRY_SIZE)
            (sampleSortingState.ENTRY_SIZE - sizeof_idx_t) =
          bytesOf b1.block (k * sampleSortingState.ENTRY_SIZE)
            (sampleSortingState.ENTRY_SIZE - sizeof_idx_t) :=
  SortInMemory_constant_idempotent sampleExtern sampleContinuousBlock sampleSortingState
    sampleKeyBlock rfl (by decide) (by decide) (by decide)

theorem rowsAt_append (d : Buffer) (ES base n m : Nat) :
    rowsAt d ES base (n + m) = rowsAt d ES base n ++ rowsAt d ES (base + n * ES) m := by
  simp only [rowsAt, List.range_add, List.map_append, List.map_map]
  congr 1
  apply List.map_congr_left
  intro k _
  simp only [Function.comp]
  congr 1
  rw [Nat.add_mul]
  omega

theorem rowsAt_congr (d e : Buffer) (ES base n : Nat)
    (h : ∀ a, base ≤ a → a < base + n * ES → d a = e a) :
    rowsAt d ES base n = rowsAt e ES base n := by
  unfold rowsAt
  apply List.map_congr_left
  intro k hk
  have hk' := List.mem_range.mp hk
  rw [bytesOf_eq_iff]
  intro x hx
  have := row_end_le ES hk'
  exact h _ (by omega) (by omega)

/-- Rearranging the `n` rows from row `i` on, and nothing else, rearranges the rows of the
block. -/
theorem block_perm_of_segment (d e : Buffer) (ES count i n : Nat) (hin : i + n ≤ count)
    (hout : SameOutside ES n d (i * ES) e)
    (hperm : List.Perm (rowsAt e ES (i * ES) n) (rowsAt d ES (i * ES) n)) :
    List.Perm (rowsAt e ES 0 count) (rowsAt d ES 0 count) := by
  have hc : count = i + (n + (count - i - n)) := by omega
  have h1 : ∀ b : Buffer, rowsAt b ES 0 count =
      rowsAt b ES 0 i ++ (rowsAt b ES (i * ES) n ++ rowsAt b ES (i * ES + n * ES) (count - i - n)) := by
    intro b
    conv_lhs => rw [hc]
    rw [rowsAt_append, rowsAt_append, Nat.zero_add]
  rw [h1 e, h1 d]
  have e1 : rowsAt e ES 0 i = rowsAt d ES 0 i := by
    apply rowsAt_congr
    intro a _ ha
    exact hout a (Or.inl (by omega))
  have e2 : rowsAt e ES (i * ES + n * ES) (count - i - n) =
      rowsAt d ES (i * ES + n * ES) (count - i - n) := by
    apply rowsAt_congr
    intro a ha _
    exact hout a (Or.inr ha)
  rw [e1, e2]
  exact List.Perm.append_left _ (List.Perm.append_right _ hperm)

/-- The inner scan of `SubSortTiedTuples` and `BreakTies` stops at the first row from `j` on
that is not tied to its successor, or at `count`. -/
theorem scanTies_spec (ties : Nat → Bool) (count : Nat) :
    ∀ fuel j, count ≤ j + fuel →
      j ≤ scanTies ties count fuel j ∧
      (∀ k, j ≤ k → k < scanTies ties count fuel j → k < count ∧ ties k = true) ∧
      (scanTies ties count fuel j < count → ties (scanTies ties count fuel j) = false) ∧
      (j ≤ count → scanTies ties count fuel j ≤ count) := by
  intro fuel
  induction fuel with
  | zero =>
    intro j hj
    simp only [scanTies]
    exact ⟨Nat.le_refl _, fun k h1 h2 => by omega, fun h => by omega, fun h => h⟩
  | succ fuel ih =>
    intro j hj
    by_cases hjc : j < count
    · by_cases ht : ties j = true
      · have hval : scanTies ties count (fuel + 1) j = scanTies ties count fuel (j + 1) := by
          simp [scanTies, hjc, ht]
        rw [hval]
        obtain ⟨h1, h2, h3, h4⟩ := ih (j + 1) (by omega)
        refine ⟨by omega, ?_, h3, fun _ => h4 (by omega)⟩
        intro k hk1 hk2
        by_cases hkj : k = j
        · subst hkj; exact ⟨hjc, ht⟩
        · exact h2 k (by omega) hk2
      · have ht' : ties j = false := by simpa using ht
        have hval : scanTies ties count (fuel + 1) j = j := by
          simp [scanTies, hjc, ht']
        rw [hval]
        exact ⟨Nat.le_refl _, fun k h1 h2 => by omega, fun _ => ht', fun h => h⟩
    · have hval : scanTies ties count (fuel + 1) j = j := by
        simp [scanTies, hjc]
      rw [hval]
      exact ⟨Nat.le_refl _, fun k h1 h2 => by omega, fun h => absurd h hjc, fun h => h⟩

theorem SameGroup_refl (ties : Nat → Bool) (p : Nat) : SameGroup ties p p := by
  intro k h1 h2
  simp only [Nat.min_self, Nat.max_self] at h1 h2
  omega

/-- The effect of `RadixSort` on the `n` rows from row `i` on, in terms of rows. -/
theorem RadixSort_segment (fresh d : Buffer) (i n co sz : Nat) (st : SortingState)
    (hwin : co + sz ≤ st.ENTRY_SIZE) (hlt : co + sz < IDX_MOD) :
    SameOutside st.ENTRY_SIZE n d (i * st.ENTRY_SIZE)
      (RadixSort fresh d (i * st.ENTRY_SIZE) n co sz st) ∧
    (∀ q, q < n → ∃ k, k < n ∧
      RowEq st.ENTRY_SIZE (RadixSort fresh d (i * st.ENTRY_SIZE) n co sz st) (i + q) d (i + k)) ∧
    List.Perm (rowsAt (RadixSort fresh d (i * st.ENTRY_SIZE) n co sz st) st.ENTRY_SIZE
      (i * st.ENTRY_SIZE) n) (rowsAt d st.ENTRY_SIZE (i * st.ENTRY_SIZE) n) ∧
    (∀ p q, p < q → q < n →
      memcmp (RadixSort fresh d (i * st.ENTRY_SIZE) n co sz st) ((i + p) * st.ENTRY_SIZE + co)
        (RadixSort fresh d (i * st.ENTRY_SIZE) n co sz st) ((i + q) * st.ENTRY_SIZE + co) sz ≤ 0) := by
  obtain ⟨σ, hσ, hrows, hout⟩ := RadixSort_spec fresh d (i * st.ENTRY_SIZE) n co sz st hwin hlt
  have hinj := placement_inj n _ σ (fun j k => memcmp_swap _ _ _ _ _) hσ
  refine ⟨hout, ?_, RadixSort_rows_perm fresh d _ n co sz st hwin hlt, ?_⟩
  · intro q hq
    obtain ⟨k, hk, rfl⟩ := placement_surj n σ hσ.1 hinj q hq
    refine ⟨k, hk, ?_⟩
    intro x hx
    have := hrows k hk x hx
    rw [Nat.add_mul, Nat.add_mul]
    exact this
  · intro p q hpq hq
    have := RadixSort_sorted fresh d (i * st.ENTRY_SIZE) n co sz st hwin hlt p q hpq hq
    rw [Nat.add_mul, Nat.add_mul]
    exact this

/-- The effect of the loop of `SubSortTiedTuples` from row `i` on: rows before `i` and past the
block are untouched, every row stays within its tied group, the rows of the block are
rearranged, and tied neighbours end up in `memcmp` order over the window. -/
theorem SubSort_loop_spec (fresh : Buffer) (count co sz : Nat) (ties : Nat → Bool)
    (st : SortingState) (hwin : co + sz ≤ st.ENTRY_SIZE) (hlt : co + sz < IDX_MOD)
    (hlast : ties (count - 1) = false) :
    ∀ fuel i d, i ≤ count → count ≤ i + fuel →
      (∀ a, a < i * st.ENTRY_SIZE ∨ count * st.ENTRY_SIZE ≤ a →
        SubSortTiedTuples.loop fresh count co sz ties st fuel i d a = d a) ∧
      (∀ p, i ≤ p → p < count → ∃ q, i ≤ q ∧ q < count ∧ SameGroup ties p q ∧
        RowEq st.ENTRY_SIZE (SubSortTiedTuples.loop fresh count co sz ties st fuel i d) p d q) ∧
      List.Perm (rowsAt (SubSortTiedTuples.loop fresh count co sz ties st fuel i d)
        st.ENTRY_SIZE 0 count) (rowsAt d st.ENTRY_SIZE 0 count) ∧
      (∀ p, i ≤ p → p + 1 < count → ties p = true →
        memcmp (SubSortTiedTuples.loop fresh count co sz ties st fuel i d)
            (p * st.ENTRY_SIZE + co)
          (SubSortTiedTuples.loop fresh count co sz ties st fuel i d)
            ((p + 1) * st.ENTRY_SIZE + co) sz ≤ 0) := by
  intro fuel
  induction fuel with
  | zero =>
    intro i d hi hfuel
    have hval : SubSortTiedTuples.loop fresh count co sz ties st 0 i d = d := rfl
    rw [hval]
    refine ⟨fun a _ => rfl, ?_, List.Perm.refl _, ?_⟩
    · intro p h1 h2; omega
    · intro p h1 h2; omega
  | succ fuel ih =>
    intro i d hi hfuel
    by_cases hic : i < count
    · by_cases ht : ties i = true
      · -- a tied group starts at row i
        have hi1 : i + 1 < count := by
          by_contra hcon
          have : i = count - 1 := by omega
          rw [this, hlast] at ht
          exact Bool.noConfusion ht
        obtain ⟨s1, s2, s3, s4⟩ := scanTies_spec ties count count (i + 1) (by omega)
        generalize hj : scanTies ties count count (i + 1) = j at s1 s2 s3 s4
        have hjc : j < count := by
          by_contra hcon
          have hj' : j = count := by have := s4 (by omega); omega
          have := (s2 (count - 1) (by omega) (by omega)).2
          rw [hlast] at this
          exact Bool.noConfusion this
        have hval : SubSortTiedTuples.loop fresh count co sz ties st (fuel + 1) i d =
            SubSortTiedTuples.loop fresh count co sz ties st fuel (j + 1)
              (RadixSort fresh d (i * st.ENTRY_SIZE) (j - i + 1) co sz st) := by
          simp [SubSortTiedTuples.loop, hic, ht, hj]
        rw [hval]
        obtain ⟨g1, g2, g3, g4⟩ := RadixSort_segment fresh d i (j - i + 1) co sz st hwin hlt
        generalize RadixSort fresh d (i * st.ENTRY_SIZE) (j - i + 1) co sz st = d1 at g1 g2 g3 g4
        obtain ⟨r1, r2, r3, r4⟩ := ih (j + 1) d1 (by omega) (by omega)
        generalize SubSortTiedTuples.loop fresh count co sz ties st fuel (j + 1) d1 = r
          at r1 r2 r3 r4
        have hties : ∀ k, i ≤ k → k < j → ties k = true := by
          intro k hk1 hk2
          by_cases hki : k = i
          · subst hki; exact ht
          · exact (s2 k (by omega) hk2).2
        have hseg : (j + 1) * st.ENTRY_SIZE = i * st.ENTRY_SIZE + (j - i + 1) * st.ENTRY_SIZE := by
          rw [← Nat.add_mul]
          congr 1
          omega
        have hile : i * st.ENTRY_SIZE ≤ (j + 1) * st.ENTRY_SIZE :=
          Nat.mul_le_mul_right _ (by omega)
        have hjle : (j + 1) * st.ENTRY_SIZE ≤ count * st.ENTRY_SIZE :=
          Nat.mul_le_mul_right _ (by omega)
        refine ⟨?_, ?_, ?_, ?_⟩
        · intro a ha
          rw [r1 a (by omega)]
          apply g1
          rw [← hseg]
          omega
        · intro p hp1 hp2
          by_cases hpj : p ≤ j
          · obtain ⟨k, hk, hrk⟩ := g2 (p - i) (by omega)
            rw [show i + (p - i) = p by omega] at hrk
            refine ⟨i + k, by omega, by omega, ?_, ?_⟩
            · intro t ht1 ht2
              apply hties t <;> omega
            · intro x hx
              have hp' := row_end_le st.ENTRY_SIZE (show p < j + 1 by omega)
              rw [r1 _ (Or.inl (by omega))]
              exact hrk x hx
          · obtain ⟨q, hq1, hq2, hq3, hq4⟩ := r2 p (by omega) hp2
            refine ⟨q, by omega, hq2, hq3, ?_⟩
            intro x hx
            rw [hq4 x hx]
            apply g1
            right
            rw [← hseg]
            have := Nat.mul_le_mul_right st.ENTRY_SIZE hq1
            omega
        · exact r3.trans (block_perm_of_segment d d1 st.ENTRY_SIZE count i (j - i + 1)
            (by omega) g1 g3)
        · intro p hp1 hp2 hp3
          by_cases hpj : p < j
          · have e : memcmp r (p * st.ENTRY_SIZE + co) r ((p + 1) * st.ENTRY_SIZE + co) sz =
                memcmp d1 (p * st.ENTRY_SIZE + co) d1 ((p + 1) * st.ENTRY_SIZE + co) sz := by
              have hp' := row_end_le st.ENTRY_SIZE (show p < j + 1 by omega)
              have hp'' := row_end_le st.ENTRY_SIZE (show p + 1 < j + 1 + 1 by omega)
              have hp3' : (p + 1) * st.ENTRY_SIZE + st.ENTRY_SIZE ≤ (j + 1) * st.ENTRY_SIZE := by
                have := Nat.mul_le_mul_right st.ENTRY_SIZE (show p + 1 + 1 ≤ j + 1 by omega)
                rw [Nat.add_mul (p + 1) 1, Nat.one_mul] at this
                exact this
              apply memcmp_congr
              · intro x hx
                exact r1 _ (Or.inl (by omega))
              · intro x hx
                exact r1 _ (Or.inl (by omega))
            rw [e]
            have := g4 (p - i) (p + 1 - i) (by omega) (by omega)
            rwa [show i + (p - i) = p by omega, show i + (p + 1 - i) = p + 1 by omega] at this
          · by_cases hpe : p = j
            · subst hpe
              have := s3 hjc
              rw [this] at hp3
              exact Bool.noConfusion hp3
            · exact r4 p (by omega) hp2 hp3
      · -- row i is not tied to its successor
        have ht' : ties i = false := by simpa using ht
        have hval : SubSortTiedTuples.loop fresh count co sz ties st (fuel + 1) i d =
            SubSortTiedTuples.loop fresh count co sz ties st fuel (i + 1) d := by
          simp [SubSortTiedTuples.loop, hic, ht']
        rw [hval]
        obtain ⟨r1, r2, r3, r4⟩ := ih (i + 1) d (by omega) (by omega)
        refine ⟨?_, ?_, r3, ?_⟩
        · intro a ha
          apply r1
          have := Nat.mul_le_mul_right st.ENTRY_SIZE (show i ≤ i + 1 by omega)
          omega
        · intro p hp1 hp2
          by_cases hpi : p = i
          · subst hpi
            refine ⟨p, Nat.le_refl _, hp2, SameGroup_refl ties p, ?_⟩
            intro x hx
            apply r1
            left
            have := row_end_le st.ENTRY_SIZE (show p < p + 1 by omega)
            omega
          · obtain ⟨q, hq1, hq2, hq3, hq4⟩ := r2 p (by omega) hp2
            exact ⟨q, by omega, hq2, hq3, hq4⟩
        · intro p hp1 hp2 hp3
          by_cases hpi : p = i
          · subst hpi
            rw [ht'] at hp3
            exact Bool.noConfusion hp3
          · exact r4 p (by omega) hp2 hp3
    · have hval : SubSortTiedTuples.loop fresh count co sz ties st (fuel + 1) i d = d := by
        simp [SubSortTiedTuples.loop, hic]
      rw [hval]
      refine ⟨fun a _ => rfl, ?_, List.Perm.refl _, ?_⟩
      · intro p h1 h2; omega
      · intro p h1 h2; omega

/-- The loops of `ComputeTies` keep this: the offset `dataptr` is at row `i`, the entries
below `i` hold the new value and the entries from `i` on the old one. -/
theorem ComputeTies_unrolled_inv (data : Buffer) (ES count tie_size co : Nat) (ties : Nat → Bool) :
    ∀ fuel (s : Nat × Nat × (Nat → Bool)),
      (s.2.1 = co + s.1 * ES ∧
        (∀ v, v < s.1 → s.2.2 v =
          (ties v && decide (memcmp data (co + v * ES) data (co + v * ES + ES) tie_size = 0))) ∧
        (∀ v, s.1 ≤ v → s.2.2 v = ties v)) →
      ((ComputeTies.unrolled data ES count tie_size fuel s).2.1 =
          co + (ComputeTies.unrolled data ES count tie_size fuel s).1 * ES ∧
        (∀ v, v < (ComputeTies.unrolled data ES count tie_size fuel s).1 →
          (ComputeTies.unrolled data ES count tie_size fuel s).2.2 v =
            (ties v && decide (memcmp data (co + v * ES) data (co + v * ES + ES) tie_size = 0))) ∧
        (∀ v, (ComputeTies.unrolled data ES count tie_size fuel s).1 ≤ v →
          (ComputeTies.unrolled data ES count tie_size fuel s).2.2 v = ties v)) := by
  intro fuel
  induction fuel with
  | zero => intro s h; exact h
  | succ fuel ih =>
    intro s h
    by_cases hc : s.1 + 7 < count - 1
    · have hval : ComputeTies.unrolled data ES count tie_size (fuel + 1) s =
          ComputeTies.unrolled data ES count tie_size fuel
            (s.1 + 8,
             (forUp 8
              (fun j (t : Nat × (Nat → Bool)) =>
                (t.1 + ES,
                 fun v => if v = s.1 + j then
                   (t.2 (s.1 + j) && decide (memcmp data t.1 data (t.1 + ES) tie_size = 0))
                   else t.2 v))
              (s.2.1, s.2.2)).1,
             (forUp 8
              (fun j (t : Nat × (Nat → Bool)) =>
                (t.1 + ES,
                 fun v => if v = s.1 + j then
                   (t.2 (s.1 + j) && decide (memcmp data t.1 data (t.1 + ES) tie_size = 0))
                   else t.2 v))
              (s.2.1, s.2.2)).2) := by
        simp [ComputeTies.unrolled, hc]
      rw [hval]
      apply ih
      obtain ⟨h1, h2, h3⟩ := h
      have hinner := forUp_inv
        (fun j (t : Nat × (Nat → Bool)) =>
          t.1 = co + (s.1 + j) * ES ∧
          (∀ v, v < s.1 + j → t.2 v =
            (ties v && decide (memcmp data (co + v * ES) data (co + v * ES + ES) tie_size = 0))) ∧
          (∀ v, s.1 + j ≤ v → t.2 v = ties v))
        (fun j (t : Nat × (Nat → Bool)) =>
          (t.1 + ES,
           fun v => if v = s.1 + j then
             (t.2 (s.1 + j) && decide (memcmp data t.1 data (t.1 + ES) tie_size = 0))
             else t.2 v))
        (s.2.1, s.2.2) 8
        ⟨h1, h2, h3⟩
        (by
          rintro j ⟨p, t⟩ _ ⟨g1, g2, g3⟩
          simp only [] at g1 g2 g3 ⊢
          subst g1
          refine ⟨?_, ?_, ?_⟩
          · rw [← Nat.add_assoc, Nat.add_mul (s.1 + j) 1, Nat.one_mul, Nat.add_assoc]
          · intro v hv
            by_cases hvj : v = s.1 + j
            · subst hvj
              simp only [if_true]
              rw [g3 _ (Nat.le_refl _)]
            · simp only [hvj, if_false]
              exact g2 v (by omega)
          · intro v hv
            have hvj : v ≠ s.1 + j := by omega
            simp only [hvj, if_false]
            exact g3 v (by omega))
      exact hinner
    · have hval : ComputeTies.unrolled data ES count tie_size (fuel + 1) s = s := by
        simp [ComputeTies.unrolled, hc]
      rw [hval]
      exact h

theorem ComputeTies_remainder_inv (data : Buffer) (ES count tie_size co : Nat) (ties : Nat → Bool) :
    ∀ fuel (s : Nat × Nat × (Nat → Bool)), count - 1 ≤ s.1 + fuel →
      (s.2.1 = co + s.1 * ES ∧
        (∀ v, v < s.1 → s.2.2 v =
          (ties v && decide (memcmp data (co + v * ES) data (co + v * ES + ES) tie_size = 0))) ∧
        (∀ v, s.1 ≤ v → s.2.2 v = ties v)) →
      (∀ v, v < count - 1 →
        (ComputeTies.remainder data ES count tie_size fuel s).2.2 v =
          (ties v && decide (memcmp data (co + v * ES) data (co + v * ES + ES) tie_size = 0))) := by
  intro fuel
  induction fuel with
  | zero =>
    intro s hf h v hv
    exact h.2.1 v (by omega)
  | succ fuel ih =>
    intro s hf h
    by_cases hc : s.1 < count - 1
    · have hval : ComputeTies.remainder data ES count tie_size (fuel + 1) s =
          ComputeTies.remainder data ES count tie_size fuel
            (s.1 + 1, s.2.1 + ES,
             fun v => if v = s.1 then
               (s.2.2 s.1 && decide (memcmp data s.2.1 data (s.2.1 + ES) tie_size = 0))
               else s.2.2 v) := by
        simp [ComputeTies.remainder, hc]
      rw [hval]
      apply ih
      · simp only []; omega
      · obtain ⟨h1, h2, h3⟩ := h
        simp only []
        refine ⟨?_, ?_, ?_⟩
        · rw [h1, Nat.add_mul s.1 1, Nat.one_mul, Nat.add_assoc]
        · intro v hv
          by_cases hvj : v = s.1
          · subst hvj
            simp only [if_true]
            rw [h3 _ (Nat.le_refl _), h1]
          · simp only [hvj, if_false]
            exact h2 v (by omega)
        · intro v hv
          have hvj : v ≠ s.1 := by omega
          simp only [hvj, if_false]
          exact h3 v (by omega)
    · have hval : ComputeTies.remainder data ES count tie_size (fuel + 1) s = s := by
        simp [ComputeTies.remainder, hc]
      rw [hval]
      intro v hv
      exact h.2.1 v (by omega)

/-- What `ComputeTies` computes: `ties[i] && memcmp(row i, row i+1) == 0` over the window for
`i < count - 1`, and `false` at `count - 1`. -/
theorem ComputeTies_spec (d : Buffer) (count co sz : Nat) (ties : Nat → Bool)
    (st : SortingState) :
    (∀ v, v < count - 1 → ComputeTies d count co sz ties st v =
      (ties v && decide (memcmp d (v * st.ENTRY_SIZE + co) d ((v + 1) * st.ENTRY_SIZE + co) sz = 0))) ∧
    ComputeTies d count co sz ties st (count - 1) = false := by
  refine ⟨?_, by simp [ComputeTies]⟩
  intro v hv
  have h1 := ComputeTies_unrolled_inv d st.ENTRY_SIZE count sz co ties count (0, co, ties)
    ⟨by simp, fun v hv => by omega, fun v _ => rfl⟩
  have h2 := ComputeTies_remainder_inv d st.ENTRY_SIZE count sz co ties count _ (by omega) h1 v hv
  have hne : v ≠ count - 1 := by omega
  simp only [ComputeTies, hne, if_false]
  rw [h2]
  have e2 : co + v * st.ENTRY_SIZE + st.ENTRY_SIZE = (v + 1) * st.ENTRY_SIZE + co := by
    rw [Nat.add_mul, Nat.one_mul]; omega
  have e1 : co + v * st.ENTRY_SIZE = v * st.ENTRY_SIZE + co := Nat.add_comm _ _
  rw [e2, e1]

theorem AnyTies_iff (ties : Nat → Bool) (count : Nat) :
    AnyTies ties count = true ↔ ∃ i, i < count - 1 ∧ ties i = true := by
  unfold AnyTies
  generalize count - 1 = n
  induction n with
  | zero => simp [forUp]
  | succ n ih =>
    simp only [forUp, Bool.or_eq_true, ih]
    constructor
    · rintro (⟨i, hi, h⟩ | h)
      · exact ⟨i, by omega, h⟩
      · exact ⟨n, by omega, h⟩
    · rintro ⟨i, hi, h⟩
      by_cases hin : i = n
      · subst hin; exact Or.inr h
      · exact Or.inl ⟨i, by omega, h⟩

/-- The three outcomes of `BreakStringTies`: the group is left alone when its first row holds
a NULL or a padded key; otherwise its rows are reordered and, unless the column is the last
one, the ties of the group are recomputed. -/
theorem BreakStringTies_unfold (ext : Extern) (d : Buffer) (start end_ c : Nat)
    (ties : Nat → Bool) (var offs : Buffer) (st : SortingState) :
    BreakStringTies ext d start end_ c ties var offs st =
      if isNullKey st c d (start * st.ENTRY_SIZE) then (d, ties)
      else if hasPadding ext st c d (start * st.ENTRY_SIZE) then (d, ties)
      else if c < st.ORDER_TYPES.length - 1 then
        (reorderedRows ext d start end_ c var offs st,
         recomputedTies ext (reorderedRows ext d start end_ c var offs st) start end_ ties var offs st)
      else (reorderedRows ext d start end_ c var offs st, ties) := by
  rfl

theorem range_map_getD {α : Type} (l : List Nat) (n : Nat) (f : Nat → α) (hl : l.length = n) :
    (List.range n).map (fun q => f (l.getD q 0)) = l.map f := by
  apply List.ext_getElem
  · simp [hl]
  · intro i h1 h2
    simp only [List.getElem_map, List.getElem_range]
    rw [List.getD_eq_getElem]

/-- The rows of the group after the copy-back of `BreakStringTies`: row `start + q` is the row
that the `q`-th sorted pointer points to. -/
theorem reorderedRows_spec (ext : Extern) (d : Buffer) (start end_ c : Nat)
    (var offs : Buffer) (st : SortingState) :
    (∀ q, q < end_ - start → ∀ x, x < st.ENTRY_SIZE →
      reorderedRows ext d start end_ c var offs st ((start + q) * st.ENTRY_SIZE + x) =
        d ((sortedPtrs ext d start end_ c var offs st).getD q 0 + x)) ∧
    SameOutside st.ENTRY_SIZE (end_ - start) d (start * st.ENTRY_SIZE)
      (reorderedRows ext d start end_ c var offs st) := by
  have hinv := forUp_inv
    (fun i (s : Buffer × Nat) =>
      s.2 = i * st.ENTRY_SIZE ∧
      ∀ q, q < i → ∀ x, x < st.ENTRY_SIZE →
        s.1 (q * st.ENTRY_SIZE + x) = d ((sortedPtrs ext d start end_ c var offs st).getD q 0 + x))
    (fun i (s : Buffer × Nat) =>
        (memcpy s.1 s.2 d ((sortedPtrs ext d start end_ c var offs st).getD i 0)
          st.ENTRY_SIZE, s.2 + st.ENTRY_SIZE))
    (ext.fresh, 0) (end_ - start)
    ⟨by simp, fun q hq => by omega⟩
    (by
      rintro i ⟨buf, p⟩ _ ⟨h1, h2⟩
      simp only [] at h1 h2 ⊢
      subst h1
      refine ⟨by rw [Nat.add_mul, Nat.one_mul], ?_⟩
      intro q hq x hx
      by_cases hqi : q < i
      · have := row_end_le st.ENTRY_SIZE hqi
        rw [memcpy_outside _ _ _ _ _ _ (Or.inl (by omega))]
        exact h2 q hqi x hx
      · have : q = i := by omega
        subst this
        rw [memcpy_inside _ _ _ _ _ _ (Nat.le_add_right _ _) (Nat.add_lt_add_left hx _)]
        rw [Nat.add_sub_cancel_left])
  obtain ⟨-, h2⟩ := hinv
  refine ⟨?_, ?_⟩
  · intro q hq x hx
    have hq' := row_end_le st.ENTRY_SIZE hq
    unfold reorderedRows
    rw [memcpy_inside _ _ _ _ _ _ (by rw [Nat.add_mul]; omega) (by rw [Nat.add_mul]; omega)]
    rw [show 0 + ((start + q) * st.ENTRY_SIZE + x - start * st.ENTRY_SIZE) =
      q * st.ENTRY_SIZE + x by rw [Nat.add_mul]; omega]
    exact h2 q hq x hx
  · intro a ha
    unfold reorderedRows
    exact memcpy_outside _ _ _ _ _ _ ha

theorem sortedPtrs_mem (ext : Extern) (d : Buffer) (start end_ c : Nat)
    (var offs : Buffer) (st : SortingState)
    (hperm : ∀ (lt : Nat → Nat → Bool) (l : List Nat), List.Perm (ext.std_sort lt l) l) :
    (sortedPtrs ext d start end_ c var offs st).length = end_ - start ∧
    ∀ q, q < end_ - start → ∃ k, k < end_ - start ∧
      (sortedPtrs ext d start end_ c var offs st).getD q 0 = (start + k) * st.ENTRY_SIZE := by
  have hp := hperm (fun l r => CompareStrings ext d l r var offs (breakOrder st c)
      ((st.ENTRY_SIZE + IDX_MOD - sizeof_idx_t) % IDX_MOD))
    ((List.range (end_ - start)).map (fun k => (start + k) * st.ENTRY_SIZE))
  have hlen : (sortedPtrs ext d start end_ c var offs st).length = end_ - start := by
    unfold sortedPtrs
    rw [hp.length_eq]
    simp
  refine ⟨hlen, ?_⟩
  intro q hq
  have hmem : (sortedPtrs ext d start end_ c var offs st).getD q 0 ∈
      sortedPtrs ext d start end_ c var offs st := by
    rw [List.getD_eq_getElem _ _ (by omega)]
    exact List.getElem_mem _
  have := hp.subset hmem
  obtain ⟨k, hk, hkeq⟩ := List.mem_map.mp this
  exact ⟨k, List.mem_range.mp hk, hkeq.symm⟩

/-- The copy-back of `BreakStringTies` rearranges the rows of the group. -/
theorem reorderedRows_perm (ext : Extern) (d : Buffer) (start end_ c : Nat)
    (var offs : Buffer) (st : SortingState)
    (hperm : ∀ (lt : Nat → Nat → Bool) (l : List Nat), List.Perm (ext.std_sort lt l) l) :
    (∀ q, q < end_ - start → ∃ k, k < end_ - start ∧
      RowEq st.ENTRY_SIZE (reorderedRows ext d start end_ c var offs st) (start + q) d (start + k)) ∧
    List.Perm (rowsAt (reorderedRows ext d start end_ c var offs st) st.ENTRY_SIZE
      (start * st.ENTRY_SIZE) (end_ - start))
      (rowsAt d st.ENTRY_SIZE (start * st.ENTRY_SIZE) (end_ - start)) := by
  obtain ⟨h1, -⟩ := reorderedRows_spec ext d start end_ c var offs st
  obtain ⟨hlen, hmem⟩ := sortedPtrs_mem ext d start end_ c var offs st hperm
  refine ⟨?_, ?_⟩
  · intro q hq
    obtain ⟨k, hk, hkeq⟩ := hmem q hq
    refine ⟨k, hk, ?_⟩
    intro x hx
    rw [h1 q hq x hx, hkeq]
  · have e1 : rowsAt (reorderedRows ext d start end_ c var offs st) st.ENTRY_SIZE
        (start * st.ENTRY_SIZE) (end_ - start) =
        (sortedPtrs ext d start end_ c var offs st).map (fun p => bytesOf d p st.ENTRY_SIZE) := by
      rw [← range_map_getD _ (end_ - start) _ hlen]
      unfold rowsAt
      apply List.map_congr_left
      intro q hq
      rw [bytesOf_eq_iff]
      intro x hx
      rw [← Nat.add_mul]
      exact h1 q (List.mem_range.mp hq) x hx
    have e2 : rowsAt d st.ENTRY_SIZE (start * st.ENTRY_SIZE) (end_ - start) =
        ((List.range (end_ - start)).map (fun k => (start + k) * st.ENTRY_SIZE)).map
          (fun p => bytesOf d p st.ENTRY_SIZE) := by
      unfold rowsAt
      rw [List.map_map]
      apply List.map_congr_left
      intro q _
      simp only [Function.comp]
      rw [Nat.add_mul]
    rw [e1, e2]
    exact (hperm _ _).map _

theorem stringOfRow_congr (ext : Extern) (d1 d2 : Buffer) (a b : Nat) (var offs : Buffer)
    (ss : Nat) (h : ∀ x, x < 8 → d1 (a + ss + x) = d2 (b + ss + x)) :
    stringOfRow ext d1 a var offs ss = stringOfRow ext d2 b var offs ss := by
  unfold stringOfRow
  rw [Load_idx_congr d1 d2 (a + ss) (b + ss) h]

/-- The function `CompareStrings` compares the full strings of its two rows. -/
theorem CompareStrings_eq (ext : Extern) (d : Buffer) (l r : Nat) (var offs : Buffer)
    (order : Int) (ss : Nat) :
    CompareStrings ext d l r var offs order ss =
      decide (order *
        (if ext.LessThan (stringOfRow ext d l var offs ss).2 (stringOfRow ext d r var offs ss).2
          then -1
         else if ext.Equals (stringOfRow ext d l var offs ss).2 (stringOfRow ext d r var offs ss).2
          then 0 else 1) < 0) := by
  rfl

theorem lt_asymm_of_valid (ext : Extern) (hv : ext.Valid) (a b : List Byte)
    (h : ext.LessThan a b = true) : ext.LessThan b a = false := by
  by_contra hcon
  have hba : ext.LessThan b a = true := by simpa using hcon
  have := hv.lt_trans a b a h hba
  rw [hv.lt_irrefl a] at this
  exact Bool.noConfusion this

/-- With valid externals, `CompareStrings` is true exactly when the string of the left row
comes before that of the right row in the order of the column. -/
theorem CompareStrings_eq_before (ext : Extern) (hv : ext.Valid) (st : SortingState) (c : Nat)
    (d : Buffer) (l r : Nat) (var offs : Buffer) (ss : Nat) :
    CompareStrings ext d l r var offs (breakOrder st c) ss =
      stringBefore ext st c (stringOfRow ext d l var offs ss).2 (stringOfRow ext d r var offs ss).2 := by
  rw [CompareStrings_eq]
  generalize (stringOfRow ext d l var offs ss).2 = s1
  generalize (stringOfRow ext d r var offs ss).2 = s2
  unfold breakOrder stringBefore
  by_cases hdesc : (st.ORDER_TYPES.getD c OrderType.ASCENDING == OrderType.DESCENDING) = true
  · simp only [hdesc, if_true]
    by_cases h1 : ext.LessThan s1 s2 = true
    · have h2 := lt_asymm_of_valid ext hv s1 s2 h1
      simp [h1, h2]
    · have h1' : ext.LessThan s1 s2 = false := by simpa using h1
      by_cases he : s1 = s2
      · subst he
        have := (hv.eq_iff s1 s1).mpr rfl
        simp [h1', this]
      · have hne : ext.Equals s1 s2 = false := by
          by_contra hcon
          have : ext.Equals s1 s2 = true := by simpa using hcon
          exact he ((hv.eq_iff s1 s2).mp this)
        rcases hv.lt_total s1 s2 he with h | h
        · rw [h] at h1'; exact Bool.noConfusion h1'
        · simp [h1', hne, h]
  · have hd' : (st.ORDER_TYPES.getD c OrderType.ASCENDING == OrderType.DESCENDING) = false := by
      simpa using hdesc
    simp only [hd', Bool.false_eq_true, if_false]
    by_cases h1 : ext.LessThan s1 s2 = true
    · simp [h1]
    · have h1' : ext.LessThan s1 s2 = false := by simpa using h1
      by_cases h2 : ext.Equals s1 s2 = true
      · simp [h1', h2]
      · have h2' : ext.Equals s1 s2 = false := by simpa using h2
        simp [h1', h2']

theorem stringBefore_irrefl (ext : Extern) (hv : ext.Valid) (st : SortingState) (c : Nat)
    (a : List Byte) : stringBefore ext st c a a = false := by
  unfold stringBefore
  split <;> exact hv.lt_irrefl a

theorem stringBefore_trans (ext : Extern) (hv : ext.Valid) (st : SortingState) (c : Nat)
    (a b e : List Byte) (h1 : stringBefore ext st c a b = true)
    (h2 : stringBefore ext st c b e = true) : stringBefore ext st c a e = true := by
  unfold stringBefore at *
  split at h1
  · rename_i hd
    simp only [hd, if_true] at h2 ⊢
    exact hv.lt_trans _ _ _ h2 h1
  · rename_i hd
    simp only [hd, if_false] at h2 ⊢
    exact hv.lt_trans _ _ _ h1 h2

theorem stringBefore_total (ext : Extern) (hv : ext.Valid) (st : SortingState) (c : Nat)
    (a b : List Byte) (h : a ≠ b) :
    stringBefore ext st c a b = true ∨ stringBefore ext st c b a = true := by
  unfold stringBefore
  split
  · exact (hv.lt_total a b h).symm
  · exact hv.lt_total a b h

theorem stringBefore_asymm (ext : Extern) (hv : ext.Valid) (st : SortingState) (c : Nat)
    (a b : List Byte) (h : stringBefore ext st c a b = true) :
    stringBefore ext st c b a = false := by
  by_contra hcon
  have hba : stringBefore ext st c b a = true := by simpa using hcon
  have := stringBefore_trans ext hv st c a b a h hba
  rw [stringBefore_irrefl ext hv st c a] at this
  exact Bool.noConfusion this

theorem stringBefore_negtrans (ext : Extern) (hv : ext.Valid) (st : SortingState) (c : Nat)
    (a b e : List Byte) (h1 : stringBefore ext st c a b = false)
    (h2 : stringBefore ext st c b e = false) : stringBefore ext st c a e = false := by
  by_contra hcon
  have hae : stringBefore ext st c a e = true := by simpa using hcon
  by_cases hab : a = b
  · subst hab; rw [hae] at h2; exact Bool.noConfusion h2
  · by_cases hbe : b = e
    · subst hbe; rw [hae] at h1; exact Bool.noConfusion h1
    · have hba : stringBefore ext st c b a = true := by
        rcases stringBefore_total ext hv st c a b hab with h | h
        · rw [h] at h1; exact Bool.noConfusion h1
        · exact h
      have := stringBefore_trans ext hv st c b a e hba hae
      rw [this] at h2
      exact Bool.noConfusion h2

/-- With valid externals, the comparison that `BreakStringTies` hands to `std::sort` is a
strict weak ordering. -/
theorem CompareStrings_strictWeak (ext : Extern) (hv : ext.Valid) (st : SortingState) (c : Nat)
    (d : Buffer) (var offs : Buffer) (ss : Nat) :
    StrictWeak (fun l r => CompareStrings ext d l r var offs (breakOrder st c) ss) := by
  refine ⟨?_, ?_, ?_⟩
  · intro a
    simp only [CompareStrings_eq_before ext hv]
    exact stringBefore_irrefl ext hv st c _
  · intro a b e h1 h2
    simp only [CompareStrings_eq_before ext hv] at h1 h2 ⊢
    exact stringBefore_trans ext hv st c _ _ _ h1 h2
  · intro a b e h1 h2
    simp only [CompareStrings_eq_before ext hv] at h1 h2 ⊢
    exact stringBefore_negtrans ext hv st c _ _ _ h1 h2

/-- After the copy-back of `BreakStringTies`, no row of the group comes before an earlier row
of the group in the order of the full strings. -/
theorem reorderedRows_sorted (ext : Extern) (hv : ext.Valid) (d : Buffer) (start end_ c : Nat)
    (var offs : Buffer) (st : SortingState) (h8 : 8 ≤ st.ENTRY_SIZE) (hES : st.ENTRY_SIZE < IDX_MOD)
    (hperm : ∀ (lt : Nat → Nat → Bool) (l : List Nat), List.Perm (ext.std_sort lt l) l) :
    ∀ p q, p < q → q < end_ - start →
      stringBefore ext st c
        (stringOfRow ext (reorderedRows ext d start end_ c var offs st)
          ((start + q) * st.ENTRY_SIZE) var offs (st.ENTRY_SIZE - 8)).2
        (stringOfRow ext (reorderedRows ext d start end_ c var offs st)
          ((start + p) * st.ENTRY_SIZE) var offs (st.ENTRY_SIZE - 8)).2 = false := by
  intro p q hpq hq
  obtain ⟨h1, -⟩ := reorderedRows_spec ext d start end_ c var offs st
  obtain ⟨hlen, -⟩ := sortedPtrs_mem ext d start end_ c var offs st hperm
  have hs := hv.sort_sorted
    (fun l r => CompareStrings ext d l r var offs (breakOrder st c)
      ((st.ENTRY_SIZE + IDX_MOD - sizeof_idx_t) % IDX_MOD))
    ((List.range (end_ - start)).map (fun k => (start + k) * st.ENTRY_SIZE))
    (CompareStrings_strictWeak ext hv st c d var offs _)
  have hs' : List.Pairwise
      (fun x y => CompareStrings ext d y x var offs (breakOrder st c)
        ((st.ENTRY_SIZE + IDX_MOD - sizeof_idx_t) % IDX_MOD) = false)
      (sortedPtrs ext d start end_ c var offs st) := hs
  rw [List.pairwise_iff_getElem] at hs'
  have hpq' := hs' p q (by omega) (by omega) hpq
  rw [CompareStrings_eq_before ext hv, sorting_size_eq _ h8 hES] at hpq'
  have e : ∀ t, t < end_ - start →
      stringOfRow ext (reorderedRows ext d start end_ c var offs st)
        ((start + t) * st.ENTRY_SIZE) var offs (st.ENTRY_SIZE - 8) =
      stringOfRow ext d ((sortedPtrs ext d start end_ c var offs st).getD t 0) var offs
        (st.ENTRY_SIZE - 8) := by
    intro t ht
    apply stringOfRow_congr
    intro x hx
    rw [Nat.add_assoc, Nat.add_assoc ((sortedPtrs ext d start end_ c var offs st).getD t 0)]
    exact h1 t ht _ (by omega)
  rw [e p (by omega), e q hq, List.getD_eq_getElem _ _ (by omega), List.getD_eq_getElem _ _ (by omega)]
  exact hpq'

theorem stringOfRow_length (ext : Extern) (d : Buffer) (a : Nat) (var offs : Buffer) (ss : Nat) :
    (stringOfRow ext d a var offs ss).2.length = (stringOfRow ext d a var offs ss).1 := by
  simp [stringOfRow, bytesOf]

/-- The loop of `BreakStringTies` that recomputes the ties of a group: afterwards
`ties[start + i]` tells whether the full strings of rows `start + i` and `start + i + 1` are
equal, and the other entries are unchanged. -/
theorem recomputedTies_spec (ext : Extern) (d : Buffer) (start end_ : Nat) (ties : Nat → Bool)
    (var offs : Buffer) (st : SortingState) (h8 : 8 ≤ st.ENTRY_SIZE) (hES : st.ENTRY_SIZE < IDX_MOD) :
    (∀ v, v < start ∨ start + (end_ - start - 1) ≤ v →
      recomputedTies ext d start end_ ties var offs st v = ties v) ∧
    (ext.Valid → ∀ i, i < end_ - start - 1 →
      recomputedTies ext d start end_ ties var offs st (start + i) =
        decide ((stringOfRow ext d ((start + i) * st.ENTRY_SIZE) var offs (st.ENTRY_SIZE - 8)).2 =
          (stringOfRow ext d ((start + i + 1) * st.ENTRY_SIZE) var offs (st.ENTRY_SIZE - 8)).2)) := by
  unfold recomputedTies
  simp only [sorting_size_eq _ h8 hES]
  have hinv := forUp_inv
    (fun i (s : (Nat → Bool) × Nat × Nat × List Byte) =>
      s.2.1 = (start + i) * st.ENTRY_SIZE ∧
      s.2.2.1 = (stringOfRow ext d ((start + i) * st.ENTRY_SIZE) var offs (st.ENTRY_SIZE - 8)).1 ∧
      s.2.2.2 = (stringOfRow ext d ((start + i) * st.ENTRY_SIZE) var offs (st.ENTRY_SIZE - 8)).2 ∧
      (∀ v, v < start ∨ start + i ≤ v → s.1 v = ties v) ∧
      (ext.Valid → ∀ k, k < i → s.1 (start + k) =
        decide ((stringOfRow ext d ((start + k) * st.ENTRY_SIZE) var offs (st.ENTRY_SIZE - 8)).2 =
          (stringOfRow ext d ((start + k + 1) * st.ENTRY_SIZE) var offs (st.ENTRY_SIZE - 8)).2)))
    (fun i (s : (Nat → Bool) × Nat × Nat × List Byte) =>
      let idx_ptr := s.2.1 + st.ENTRY_SIZE
      let next := stringOfRow ext d idx_ptr var offs (st.ENTRY_SIZE - 8)
      let tie : Bool :=
        if s.2.2.1 ≠ next.1 then false else ext.Equals s.2.2.2 next.2
      ((fun v => if v = start + i then tie else s.1 v), idx_ptr, next.1, next.2))
    (ties, start * st.ENTRY_SIZE,
      (stringOfRow ext d (start * st.ENTRY_SIZE) var offs (st.ENTRY_SIZE - 8)).1,
      (stringOfRow ext d (start * st.ENTRY_SIZE) var offs (st.ENTRY_SIZE - 8)).2)
    (end_ - start - 1)
    ⟨by simp, by simp, by simp, fun v _ => rfl, fun _ k hk => by omega⟩
    (by
      rintro i ⟨t, p, cs, cv⟩ _ ⟨h1, h2, h3, h4, h5⟩
      simp only [] at h1 h2 h3 h4 h5 ⊢
      subst h1
      have hp : (start + i) * st.ENTRY_SIZE + st.ENTRY_SIZE = (start + (i + 1)) * st.ENTRY_SIZE := by
        rw [← Nat.add_assoc, Nat.add_mul (start + i) 1, Nat.one_mul]
      rw [hp]
      refine ⟨rfl, rfl, rfl, ?_, ?_⟩
      · intro v hv
        have hne : v ≠ start + i := by omega
        simp only [hne, if_false]
        exact h4 v (by omega)
      · intro hv k hk
        by_cases hki : k = i
        · subst hki
          simp only [if_true]
          rw [h2, h3, show start + k + 1 = start + (k + 1) by omega]
          have hla := stringOfRow_length ext d ((start + k) * st.ENTRY_SIZE) var offs (st.ENTRY_SIZE - 8)
          have hlb := stringOfRow_length ext d ((start + (k + 1)) * st.ENTRY_SIZE) var offs
            (st.ENTRY_SIZE - 8)
          generalize stringOfRow ext d ((start + k) * st.ENTRY_SIZE) var offs (st.ENTRY_SIZE - 8) = sa
            at hla ⊢
          generalize stringOfRow ext d ((start + (k + 1)) * st.ENTRY_SIZE) var offs
            (st.ENTRY_SIZE - 8) = sb at hlb ⊢
          by_cases hsz : sa.1 = sb.1
          · simp only [hsz, ne_eq, not_true_eq_false, if_false]
            by_cases he : sa.2 = sb.2
            · simp [he, (hv.eq_iff sb.2 sb.2).mpr rfl]
            · have : ext.Equals sa.2 sb.2 = false := by
                by_contra hcon
                have : ext.Equals sa.2 sb.2 = true := by simpa using hcon
                exact he ((hv.eq_iff _ _).mp this)
              simp [he, this]
          · have he : sa.2 ≠ sb.2 := by
              intro e
              apply hsz
              rw [← hla, ← hlb, e]
            simp [hsz, he]
        · have hne : start + k ≠ start + i := by omega
          simp only [hne, if_false]
          exact h5 hv k (by omega))
  obtain ⟨-, -, -, h4, h5⟩ := hinv
  exact ⟨h4, h5⟩

theorem isNullKey_congr (st : SortingState) (c : Nat) (d1 d2 : Buffer) (a1 a2 : Nat)
    (h : st.HAS_NULL.getD c false = true → d1 (a1 + colStart st c) = d2 (a2 + colStart st c)) :
    isNullKey st c d1 a1 = isNullKey st c d2 a2 := by
  unfold isNullKey
  by_cases hn : st.HAS_NULL.getD c false = true
  · rw [h hn]
  · have : st.HAS_NULL.getD c false = false := by
      cases hb : st.HAS_NULL.getD c false
      · rfl
      · exact absurd hb hn
    simp only [this, Bool.false_and]

theorem hasPadding_congr (ext : Extern) (st : SortingState) (c : Nat) (d1 d2 : Buffer)
    (a1 a2 : Nat)
    (h : ∀ i, i < ext.MAX_STRING_MINMAX_SIZE →
      d1 (a1 + (if st.HAS_NULL.getD c false then colStart st c + 1 else colStart st c) + i) =
      d2 (a2 + (if st.HAS_NULL.getD c false then colStart st c + 1 else colStart st c) + i)) :
    hasPadding ext st c d1 a1 = hasPadding ext st c d2 a2 := by
  unfold hasPadding
  rw [Bool.eq_iff_iff]
  simp only [List.any_eq_true, List.mem_range]
  constructor
  · rintro ⟨i, hi, hx⟩
    exact ⟨i, hi, by rw [← h i hi]; exact hx⟩
  · rintro ⟨i, hi, hx⟩
    exact ⟨i, hi, by rw [h i hi]; exact hx⟩

/-- The rows at offsets `a` and `b` agree on the key bytes of column `c`. -/
theorem guards_of_colBytes (ext : Extern) (st : SortingState) (c : Nat) (d1 d2 : Buffer)
    (a1 a2 : Nat) (hvar : st.CONSTANT_SIZE.getD c false = false) (hok : ColOK ext st c)
    (h : ∀ x, x < st.COL_SIZE.getD c 0 → d1 (a1 + colStart st c + x) = d2 (a2 + colStart st c + x)) :
    isNullKey st c d1 a1 = isNullKey st c d2 a2 ∧
    hasPadding ext st c d1 a1 = hasPadding ext st c d2 a2 := by
  have hsz := hok.2 hvar
  refine ⟨?_, ?_⟩
  · apply isNullKey_congr
    intro hn
    simp only [hn, if_true] at hsz
    have := h 0 (by omega)
    simpa using this
  · apply hasPadding_congr
    intro i hi
    by_cases hn : st.HAS_NULL.getD c false = true
    · simp only [hn, if_true] at hsz ⊢
      have := h (1 + i) (by omega)
      rw [← Nat.add_assoc, ← Nat.add_assoc] at this
      exact this
    · have hn' : st.HAS_NULL.getD c false = false := by
        cases hb : st.HAS_NULL.getD c false
        · rfl
        · exact absurd hb hn
      simp only [hn', Bool.false_eq_true, if_false] at hsz ⊢
      exact h i (by omega)

/-- The comparison of two rows on a column looks at the bytes of the two rows only. -/
theorem columnCompare_congr (ext : Extern) (cb : ContinuousBlock) (st : SortingState) (sk : Bool)
    (c : Nat) (d1 d2 : Buffer) (a1 b1 a2 b2 : Nat) (hok : ColOK ext st c)
    (ha : ∀ x, x < st.ENTRY_SIZE → d1 (a1 + x) = d2 (a2 + x))
    (hb : ∀ x, x < st.ENTRY_SIZE → d1 (b1 + x) = d2 (b2 + x)) :
    columnCompare ext cb st sk d1 c a1 b1 = columnCompare ext cb st sk d2 c a2 b2 := by
  have h1 := hok.1
  have hm : memcmp d1 (a1 + colStart st c) d1 (b1 + colStart st c) (st.COL_SIZE.getD c 0) =
      memcmp d2 (a2 + colStart st c) d2 (b2 + colStart st c) (st.COL_SIZE.getD c 0) := by
    apply memcmp_congr
    · intro x hx
      rw [Nat.add_assoc, Nat.add_assoc a2]
      exact ha _ (by omega)
    · intro x hx
      rw [Nat.add_assoc, Nat.add_assoc b2]
      exact hb _ (by omega)
  unfold columnCompare
  simp only [hm]
  by_cases hvar : st.CONSTANT_SIZE.getD c false = true
  · simp only [hvar, ↓reduceIte]
  · have hvar' : st.CONSTANT_SIZE.getD c false = false := by
      cases hb : st.CONSTANT_SIZE.getD c false
      · rfl
      · exact absurd hb hvar
    have hsz := hok.2 hvar'
    obtain ⟨g1, g2⟩ := guards_of_colBytes ext st c d1 d2 a1 a2 hvar' hok (by
      intro x hx
      rw [Nat.add_assoc, Nat.add_assoc a2]
      exact ha _ (by omega))
    have s1 : stringOfRow ext d1 a1 (varBlob cb c) (varOffsets cb c) (st.ENTRY_SIZE - sizeof_idx_t) =
        stringOfRow ext d2 a2 (varBlob cb c) (varOffsets cb c) (st.ENTRY_SIZE - sizeof_idx_t) := by
      apply stringOfRow_congr
      intro x hx
      rw [Nat.add_assoc, Nat.add_assoc a2]
      exact ha _ (by simp only [sizeof_idx_t]; omega)
    have s2 : stringOfRow ext d1 b1 (varBlob cb c) (varOffsets cb c) (st.ENTRY_SIZE - sizeof_idx_t) =
        stringOfRow ext d2 b2 (varBlob cb c) (varOffsets cb c) (st.ENTRY_SIZE - sizeof_idx_t) := by
      apply stringOfRow_congr
      intro x hx
      rw [Nat.add_assoc, Nat.add_assoc b2]
      exact hb _ (by simp only [sizeof_idx_t]; omega)
    rw [g1, g2, s1, s2]

theorem columnCompare_of_ne (ext : Extern) (cb : ContinuousBlock) (st : SortingState) (sk : Bool)
    (d : Buffer) (c a b : Nat)
    (h : memcmp d (a + colStart st c) d (b + colStart st c) (st.COL_SIZE.getD c 0) ≠ 0) :
    columnCompare ext cb st sk d c a b =
      memcmp d (a + colStart st c) d (b + colStart st c) (st.COL_SIZE.getD c 0) := by
  unfold columnCompare
  simp only [ne_eq, h, not_false_eq_true, ↓reduceIte]

theorem columnCompare_constant (ext : Extern) (cb : ContinuousBlock) (st : SortingState)
    (sk : Bool) (d : Buffer) (c a b : Nat) (hc : st.CONSTANT_SIZE.getD c false = true) :
    columnCompare ext cb st sk d c a b =
      memcmp d (a + colStart st c) d (b + colStart st c) (st.COL_SIZE.getD c 0) := by
  unfold columnCompare
  by_cases h : memcmp d (a + colStart st c) d (b + colStart st c) (st.COL_SIZE.getD c 0) = 0
  · simp only [ne_eq, h, not_true_eq_false, hc, ↓reduceIte]
  · simp only [ne_eq, h, not_false_eq_true, ↓reduceIte]

/-- The value of the column comparison on rows with equal key bytes in a column of variable
size. -/
theorem columnCompare_of_eq (ext : Extern) (cb : ContinuousBlock) (st : SortingState) (sk : Bool)
    (d : Buffer) (c a b : Nat) (hvar : st.CONSTANT_SIZE.getD c false = false)
    (h : memcmp d (a + colStart st c) d (b + colStart st c) (st.COL_SIZE.getD c 0) = 0) :
    columnCompare ext cb st sk d c a b =
      if isNullKey st c d a then 0
      else if sk && hasPadding ext st c d a then 0
      else if stringBefore ext st c
          (stringOfRow ext d a (varBlob cb c) (varOffsets cb c) (st.ENTRY_SIZE - sizeof_idx_t)).2
          (stringOfRow ext d b (varBlob cb c) (varOffsets cb c) (st.ENTRY_SIZE - sizeof_idx_t)).2
        then -1
      else if stringBefore ext st c
          (stringOfRow ext d b (varBlob cb c) (varOffsets cb c) (st.ENTRY_SIZE - sizeof_idx_t)).2
          (stringOfRow ext d a (varBlob cb c) (varOffsets cb c) (st.ENTRY_SIZE - sizeof_idx_t)).2
        then 1
      else 0 := by
  unfold columnCompare
  simp only [ne_eq, h, not_true_eq_false, hvar, Bool.false_eq_true, ↓reduceIte]

theorem colBytes_of_memcmp (d : Buffer) (a b s n : Nat) (h : memcmp d (a + s) d (b + s) n = 0) :
    ∀ x, x < n → d (a + s + x) = d (b + s + x) :=
  (memcmp_eq_zero_iff d d (a + s) (b + s) n).mp h

theorem columnCompare_self (ext : Extern) (hv : ext.Valid) (cb : ContinuousBlock)
    (st : SortingState) (sk : Bool) (d : Buffer) (c a : Nat) :
    columnCompare ext cb st sk d c a a = 0 := by
  by_cases hvar : st.CONSTANT_SIZE.getD c false = true
  · rw [columnCompare_constant _ _ _ _ _ _ _ _ hvar, memcmp_self]
  · have hvar' : st.CONSTANT_SIZE.getD c false = false := by
      cases hb : st.CONSTANT_SIZE.getD c false
      · rfl
      · exact absurd hb hvar
    rw [columnCompare_of_eq _ _ _ _ _ _ _ _ hvar' (memcmp_self _ _ _)]
    simp only [stringBefore_irrefl ext hv, Bool.false_eq_true, if_false, ite_self]

theorem columnCompare_swap (ext : Extern) (hv : ext.Valid) (cb : ContinuousBlock)
    (st : SortingState) (sk : Bool) (d : Buffer) (c a b : Nat) (hok : ColOK ext st c) :
    columnCompare ext cb st sk d c b a = - columnCompare ext cb st sk d c a b := by
  have hsw := memcmp_swap d d (a + colStart st c) (b + colStart st c) (st.COL_SIZE.getD c 0)
  by_cases hm : memcmp d (a + colStart st c) d (b + colStart st c) (st.COL_SIZE.getD c 0) = 0
  · have hm' : memcmp d (b + colStart st c) d (a + colStart st c) (st.COL_SIZE.getD c 0) = 0 := by
      rw [hsw, hm]; rfl
    by_cases hvar : st.CONSTANT_SIZE.getD c false = true
    · rw [columnCompare_constant _ _ _ _ _ _ _ _ hvar, columnCompare_constant _ _ _ _ _ _ _ _ hvar,
        hm, hm']
      rfl
    · have hvar' : st.CONSTANT_SIZE.getD c false = false := by
        cases hb : st.CONSTANT_SIZE.getD c false
        · rfl
        · exact absurd hb hvar
      obtain ⟨g1, g2⟩ := guards_of_colBytes ext st c d d b a hvar' hok
        (colBytes_of_memcmp d b a _ _ hm')
      rw [columnCompare_of_eq _ _ _ _ _ _ _ _ hvar' hm, columnCompare_of_eq _ _ _ _ _ _ _ _ hvar' hm',
        g1, g2]
      by_cases hnull : isNullKey st c d a = true
      · simp only [hnull, if_true]; rfl
      · simp only [hnull, if_false]
        by_cases hpad : (sk && hasPadding ext st c d a) = true
        · simp only [hpad, if_true]; rfl
        · simp only [hpad, if_false]
          generalize (stringOfRow ext d a (varBlob cb c) (varOffsets cb c)
            (st.ENTRY_SIZE - sizeof_idx_t)).2 = sa
          generalize (stringOfRow ext d b (varBlob cb c) (varOffsets cb c)
            (st.ENTRY_SIZE - sizeof_idx_t)).2 = sb
          by_cases hx : stringBefore ext st c sa sb = true
          · have hy := stringBefore_asymm ext hv st c sa sb hx
            simp [hx, hy]
          · by_cases hy : stringBefore ext st c sb sa = true
            · simp [hx, hy]
            · simp [hx, hy]
  · have hm' : memcmp d (b + colStart st c) d (a + colStart st c) (st.COL_SIZE.getD c 0) ≠ 0 := by
      rw [hsw]; omega
    rw [columnCompare_of_ne _ _ _ _ _ _ _ _ hm, columnCompare_of_ne _ _ _ _ _ _ _ _ hm', hsw]

theorem columnCompare_resp (ext : Extern) (hv : ext.Valid) (cb : ContinuousBlock)
    (st : SortingState) (sk : Bool) (d : Buffer) (c a a2 b : Nat) (hok : ColOK ext st c)
    (h : columnCompare ext cb st sk d c a a2 = 0) :
    columnCompare ext cb st sk d c a b = columnCompare ext cb st sk d c a2 b := by
  have hm0 : memcmp d (a + colStart st c) d (a2 + colStart st c) (st.COL_SIZE.getD c 0) = 0 := by
    by_contra hne
    rw [columnCompare_of_ne _ _ _ _ _ _ _ _ hne] at h
    exact hne h
  have hbytes := colBytes_of_memcmp d a a2 _ _ hm0
  have hm : memcmp d (a + colStart st c) d (b + colStart st c) (st.COL_SIZE.getD c 0) =
      memcmp d (a2 + colStart st c) d (b + colStart st c) (st.COL_SIZE.getD c 0) :=
    memcmp_congr _ _ _ _ _ _ _ _ _ hbytes (fun _ _ => rfl)
  by_cases hz : memcmp d (a + colStart st c) d (b + colStart st c) (st.COL_SIZE.getD c 0) = 0
  · have hz2 := hz
    rw [hm] at hz2
    by_cases hvar : st.CONSTANT_SIZE.getD c false = true
    · rw [columnCompare_constant _ _ _ _ _ _ _ _ hvar, columnCompare_constant _ _ _ _ _ _ _ _ hvar,
        hm]
    · have hvar' : st.CONSTANT_SIZE.getD c false = false := by
        cases hb : st.CONSTANT_SIZE.getD c false
        · rfl
        · exact absurd hb hvar
      obtain ⟨g1, g2⟩ := guards_of_colBytes ext st c d d a a2 hvar' hok hbytes
      rw [columnCompare_of_eq _ _ _ _ _ _ _ _ hvar' hm0] at h
      rw [columnCompare_of_eq _ _ _ _ _ _ _ _ hvar' hz, columnCompare_of_eq _ _ _ _ _ _ _ _ hvar' hz2,
        ← g1, ← g2]
      by_cases hnull : isNullKey st c d a = true
      · simp only [hnull, if_true]
      · simp only [hnull, if_false] at h ⊢
        by_cases hpad : (sk && hasPadding ext st c d a) = true
        · simp only [hpad, if_true]
        · simp only [hpad, if_false] at h ⊢
          have hs : (stringOfRow ext d a (varBlob cb c) (varOffsets cb c)
              (st.ENTRY_SIZE - sizeof_idx_t)).2 =
              (stringOfRow ext d a2 (varBlob cb c) (varOffsets cb c)
              (st.ENTRY_SIZE - sizeof_idx_t)).2 := by
            by_contra hne
            rcases stringBefore_total ext hv st c _ _ hne with hx | hx
            · simp [hx] at h
            · have hy := stringBefore_asymm ext hv st c _ _ hx
              simp [hx, hy] at h
          rw [hs]
  · have hz2 := hz
    rw [hm] at hz2
    rw [columnCompare_of_ne _ _ _ _ _ _ _ _ hz, columnCompare_of_ne _ _ _ _ _ _ _ _ hz2, hm]

/-- The hypotheses on the key columns below `n`. -/
theorem rowCompareUpTo_self (ext : Extern) (hv : ext.Valid) (cb : ContinuousBlock)
    (st : SortingState) (sk : Bool) (d : Buffer) (a n : Nat) :
    rowCompareUpTo ext cb st sk d a a n = 0 := by
  induction n with
  | zero => rfl
  | succ n ih => simp only [rowCompareUpTo, ih, ne_eq, not_true_eq_false, if_false,
      columnCompare_self ext hv]

theorem rowCompareUpTo_swap (ext : Extern) (hv : ext.Valid) (cb : ContinuousBlock)
    (st : SortingState) (sk : Bool) (d : Buffer) (a b n : Nat)
    (hok : ∀ c, c < n → ColOK ext st c) :
    rowCompareUpTo ext cb st sk d b a n = - rowCompareUpTo ext cb st sk d a b n := by
  induction n with
  | zero => rfl
  | succ n ih =>
    have ih' := ih (fun c hc => hok c (Nat.lt_succ_of_lt hc))
    simp only [rowCompareUpTo, ih']
    by_cases hz : rowCompareUpTo ext cb st sk d a b n = 0
    · simp only [hz, neg_zero, ne_eq, not_true_eq_false, if_false]
      exact columnCompare_swap ext hv cb st sk d n a b (hok n (Nat.lt_succ_self n))
    · have : - rowCompareUpTo ext cb st sk d a b n ≠ 0 := by omega
      simp only [ne_eq, this, not_false_eq_true, if_true, hz]

theorem rowCompareUpTo_succ_of_zero (ext : Extern) (cb : ContinuousBlock) (st : SortingState)
    (sk : Bool) (d : Buffer) (a b n : Nat) (h : rowCompareUpTo ext cb st sk d a b n = 0) :
    rowCompareUpTo ext cb st sk d a b (n + 1) = columnCompare ext cb st sk d n a b := by
  simp only [rowCompareUpTo, h, ne_eq, not_true_eq_false, if_false]

theorem rowCompareUpTo_succ_of_ne (ext : Extern) (cb : ContinuousBlock) (st : SortingState)
    (sk : Bool) (d : Buffer) (a b n : Nat) (h : rowCompareUpTo ext cb st sk d a b n ≠ 0) :
    rowCompareUpTo ext cb st sk d a b (n + 1) = rowCompareUpTo ext cb st sk d a b n := by
  simp only [rowCompareUpTo, h, ne_eq, not_false_eq_true, if_true]

theorem rowCompareUpTo_zero_of_succ (ext : Extern) (cb : ContinuousBlock) (st : SortingState)
    (sk : Bool) (d : Buffer) (a b n : Nat)
    (h : rowCompareUpTo ext cb st sk d a b (n + 1) = 0) :
    rowCompareUpTo ext cb st sk d a b n = 0 ∧ columnCompare ext cb st sk d n a b = 0 := by
  by_cases hz : rowCompareUpTo ext cb st sk d a b n = 0
  · rw [rowCompareUpTo_succ_of_zero _ _ _ _ _ _ _ _ hz] at h
    exact ⟨hz, h⟩
  · rw [rowCompareUpTo_succ_of_ne _ _ _ _ _ _ _ _ hz] at h
    exact absurd h hz

theorem rowCompareUpTo_resp (ext : Extern) (hv : ext.Valid) (cb : ContinuousBlock)
    (st : SortingState) (sk : Bool) (d : Buffer) (a a2 b n : Nat)
    (hok : ∀ c, c < n → ColOK ext st c)
    (h : rowCompareUpTo ext cb st sk d a a2 n = 0) :
    rowCompareUpTo ext cb st sk d a b n = rowCompareUpTo ext cb st sk d a2 b n := by
  induction n with
  | zero => rfl
  | succ n ih =>
    obtain ⟨h1, h2⟩ := rowCompareUpTo_zero_of_succ _ _ _ _ _ _ _ _ h
    have ih' := ih (fun c hc => hok c (Nat.lt_succ_of_lt hc)) h1
    simp only [rowCompareUpTo, ih']
    rw [columnCompare_resp ext hv cb st sk d n a a2 b (hok n (Nat.lt_succ_self n)) h2]

theorem rowCompareUpTo_resp_right (ext : Extern) (hv : ext.Valid) (cb : ContinuousBlock)
    (st : SortingState) (sk : Bool) (d : Buffer) (a b b2 n : Nat)
    (hok : ∀ c, c < n → ColOK ext st c)
    (h : rowCompareUpTo ext cb st sk d b b2 n = 0) :
    rowCompareUpTo ext cb st sk d a b n = rowCompareUpTo ext cb st sk d a b2 n := by
  have h1 := rowCompareUpTo_swap ext hv cb st sk d b a n hok
  have h2 := rowCompareUpTo_swap ext hv cb st sk d b2 a n hok
  have h3 := rowCompareUpTo_resp ext hv cb st sk d b b2 a n hok h
  omega

theorem rowCompareUpTo_congr (ext : Extern) (cb : ContinuousBlock) (st : SortingState) (sk : Bool)
    (d1 d2 : Buffer) (a1 b1 a2 b2 n : Nat) (hok : ∀ c, c < n → ColOK ext st c)
    (ha : ∀ x, x < st.ENTRY_SIZE → d1 (a1 + x) = d2 (a2 + x))
    (hb : ∀ x, x < st.ENTRY_SIZE → d1 (b1 + x) = d2 (b2 + x)) :
    rowCompareUpTo ext cb st sk d1 a1 b1 n = rowCompareUpTo ext cb st sk d2 a2 b2 n := by
  induction n with
  | zero => rfl
  | succ n ih =>
    simp only [rowCompareUpTo, ih (fun c hc => hok c (Nat.lt_succ_of_lt hc)),
      columnCompare_congr ext cb st sk n d1 d2 a1 b1 a2 b2 (hok n (Nat.lt_succ_self n)) ha hb]

/-- The effect of `BreakStringTies` on the group of rows `[start, end_)`. -/
theorem BreakStringTies_group (ext : Extern) (d : Buffer) (start end_ c : Nat)
    (t : Nat → Bool) (var offs : Buffer) (st : SortingState)
    (h8 : 8 ≤ st.ENTRY_SIZE) (hES : st.ENTRY_SIZE < IDX_MOD)
    (hperm : ∀ (lt : Nat → Nat → Bool) (l : List Nat), List.Perm (ext.std_sort lt l) l) :
    SameOutside st.ENTRY_SIZE (end_ - start) d (start * st.ENTRY_SIZE)
      (BreakStringTies ext d start end_ c t var offs st).1 ∧
    (∀ q, q < end_ - start → ∃ k, k < end_ - start ∧
      RowEq st.ENTRY_SIZE (BreakStringTies ext d start end_ c t var offs st).1 (start + q) d
        (start + k)) ∧
    List.Perm (rowsAt (BreakStringTies ext d start end_ c t var offs st).1 st.ENTRY_SIZE
      (start * st.ENTRY_SIZE) (end_ - start))
      (rowsAt d st.ENTRY_SIZE (start * st.ENTRY_SIZE) (end_ - start)) ∧
    (∀ v, v < start ∨ start + (end_ - start - 1) ≤ v →
      (BreakStringTies ext d start end_ c t var offs st).2 v = t v) ∧
    (((isNullKey st c d (start * st.ENTRY_SIZE) || hasPadding ext st c d (start * st.ENTRY_SIZE))
        = true) → BreakStringTies ext d start end_ c t var offs st = (d, t)) ∧
    (ext.Valid →
      ((isNullKey st c d (start * st.ENTRY_SIZE) || hasPadding ext st c d (start * st.ENTRY_SIZE))
        = false) →
      (∀ p q, p < q → q < end_ - start →
        stringBefore ext st c
          (stringOfRow ext (BreakStringTies ext d start end_ c t var offs st).1
            ((start + q) * st.ENTRY_SIZE) var offs (st.ENTRY_SIZE - 8)).2
          (stringOfRow ext (BreakStringTies ext d start end_ c t var offs st).1
            ((start + p) * st.ENTRY_SIZE) var offs (st.ENTRY_SIZE - 8)).2 = false) ∧
      (c < st.ORDER_TYPES.length - 1 → ∀ k, k < end_ - start - 1 →
        (BreakStringTies ext d start end_ c t var offs st).2 (start + k) =
          decide ((stringOfRow ext (BreakStringTies ext d start end_ c t var offs st).1
              ((start + k) * st.ENTRY_SIZE) var offs (st.ENTRY_SIZE - 8)).2 =
            (stringOfRow ext (BreakStringTies ext d start end_ c t var offs st).1
              ((start + k + 1) * st.ENTRY_SIZE) var offs (st.ENTRY_SIZE - 8)).2)) ∧
      (¬ c < st.ORDER_TYPES.length - 1 →
        (BreakStringTies ext d start end_ c t var offs st).2 = t)) := by
  by_cases hnull : isNullKey st c d (start * st.ENTRY_SIZE) = true
  · have hval : BreakStringTies ext d start end_ c t var offs st = (d, t) := by
      rw [BreakStringTies_unfold]
      simp only [hnull, if_true]
    rw [hval]
    refine ⟨fun a _ => rfl, fun q hq => ⟨q, hq, fun x _ => rfl⟩, List.Perm.refl _,
      fun v _ => rfl, fun _ => rfl, fun _ h => ?_⟩
    simp [hnull] at h
  · have hnull' : isNullKey st c d (start * st.ENTRY_SIZE) = false := by
      cases hb : isNullKey st c d (start * st.ENTRY_SIZE)
      · rfl
      · exact absurd hb hnull
    by_cases hpad : hasPadding ext st c d (start * st.ENTRY_SIZE) = true
    · have hval : BreakStringTies ext d start end_ c t var offs st = (d, t) := by
        rw [BreakStringTies_unfold]
        simp only [hnull', hpad, if_true, Bool.false_eq_true, if_false]
      rw [hval]
      refine ⟨fun a _ => rfl, fun q hq => ⟨q, hq, fun x _ => rfl⟩, List.Perm.refl _,
        fun v _ => rfl, fun _ => rfl, fun _ h => ?_⟩
      simp [hpad] at h
    · have hpad' : hasPadding ext st c d (start * st.ENTRY_SIZE) = false := by
        cases hb : hasPadding ext st c d (start * st.ENTRY_SIZE)
        · rfl
        · exact absurd hb hpad
      obtain ⟨-, s2⟩ := reorderedRows_spec ext d start end_ c var offs st
      obtain ⟨p1, p2⟩ := reorderedRows_perm ext d start end_ c var offs st hperm
      obtain ⟨r1, r2⟩ := recomputedTies_spec ext (reorderedRows ext d start end_ c var offs st)
        start end_ t var offs st h8 hES
      by_cases hlast : c < st.ORDER_TYPES.length - 1
      · have hval : BreakStringTies ext d start end_ c t var offs st =
            (reorderedRows ext d start end_ c var offs st,
             recomputedTies ext (reorderedRows ext d start end_ c var offs st) start end_ t
              var offs st) := by
          rw [BreakStringTies_unfold]
          simp only [hnull', hpad', hlast, if_true, Bool.false_eq_true, if_false]
        rw [hval]
        refine ⟨s2, p1, p2, r1, fun h => ?_, fun hv _ => ⟨?_, ?_, ?_⟩⟩
        · simp [hnull', hpad'] at h
        · exact reorderedRows_sorted ext hv d start end_ c var offs st h8 hES hperm
        · intro _ k hk
          exact r2 hv k hk
        · intro h; exact absurd hlast h
      · have hval : BreakStringTies ext d start end_ c t var offs st =
            (reorderedRows ext d start end_ c var offs st, t) := by
          rw [BreakStringTies_unfold]
          simp only [hnull', hpad', hlast, Bool.false_eq_true, if_false]
        rw [hval]
        refine ⟨s2, p1, p2, fun v _ => rfl, fun h => ?_, fun hv _ => ⟨?_, ?_, ?_⟩⟩
        · simp [hnull', hpad'] at h
        · exact reorderedRows_sorted ext hv d start end_ c var offs st h8 hES hperm
        · intro h; exact absurd h hlast
        · intro _; rfl

/-- Rows of one tied group agree on the bytes over which the ties were computed. -/
theorem group_bytes_eq (d : Buffer) (ES s n i j : Nat)
    (h : ∀ p, i ≤ p → p < j → memcmp d (p * ES + s) d ((p + 1) * ES + s) n = 0) :
    ∀ q, i ≤ q → q ≤ j → ∀ x, x < n → d (q * ES + s + x) = d (i * ES + s + x) := by
  intro q hq1 hq2
  induction q with
  | zero =>
    have : i = 0 := by omega
    subst this
    intro x _; rfl
  | succ q ih =>
    by_cases hqi : q + 1 = i
    · rw [hqi]; intro x _; rfl
    · intro x hx
      have h1 := colBytes_of_memcmp d (q * ES) ((q + 1) * ES) s n (h q (by omega) (by omega)) x hx
      rw [← h1]
      exact ih (by omega) (by omega) x hx

theorem bool_eq_false_of_ne_true {b : Bool} (h : ¬ b = true) : b = false := by
  cases b
  · rfl
  · exact absurd rfl h

/-- The comparison on column `c` of two neighbouring rows of a group that `BreakStringTies`
has handled, and the new tie between them. -/
theorem BreakStringTies_neighbours (ext : Extern) (hv : ext.Valid) (cb : ContinuousBlock)
    (st : SortingState) (c i j : Nat) (d : Buffer) (t : Nat → Bool)
    (h8 : 8 ≤ st.ENTRY_SIZE) (hES : st.ENTRY_SIZE < IDX_MOD)
    (hperm : ∀ (lt : Nat → Nat → Bool) (l : List Nat), List.Perm (ext.std_sort lt l) l)
    (hvar : st.CONSTANT_SIZE.getD c false = false) (hok : ColOK ext st c)
    (hties : ∀ k, i ≤ k → k < j → t k = true)
    (hpre : ∀ p, i ≤ p → p < j →
      memcmp d (p * st.ENTRY_SIZE + colStart st c) d ((p + 1) * st.ENTRY_SIZE + colStart st c)
        (st.COL_SIZE.getD c 0) = 0) :
    ∀ p, i ≤ p → p < j →
      columnCompare ext cb st true
        (BreakStringTies ext d i (j + 1) c t (varBlob cb c) (varOffsets cb c) st).1 c
        (p * st.ENTRY_SIZE) ((p + 1) * st.ENTRY_SIZE) ≤ 0 ∧
      (c < st.ORDER_TYPES.length - 1 →
        ((BreakStringTies ext d i (j + 1) c t (varBlob cb c) (varOffsets cb c) st).2 p = true ↔
          columnCompare ext cb st true
            (BreakStringTies ext d i (j + 1) c t (varBlob cb c) (varOffsets cb c) st).1 c
            (p * st.ENTRY_SIZE) ((p + 1) * st.ENTRY_SIZE) = 0)) := by
  intro p hp1 hp2
  obtain ⟨f1, f2, f3, f4, f5, f6⟩ := BreakStringTies_group ext d i (j + 1) c t (varBlob cb c)
    (varOffsets cb c) st h8 hES hperm
  have hgrp := group_bytes_eq d st.ENTRY_SIZE (colStart st c) (st.COL_SIZE.getD c 0) i j hpre
  have hcol := hok.1
  -- every row of the group after the call has the key bytes of row i before the call
  have hrow : ∀ q, q < j + 1 - i → ∀ x, x < st.COL_SIZE.getD c 0 →
      (BreakStringTies ext d i (j + 1) c t (varBlob cb c) (varOffsets cb c) st).1
        ((i + q) * st.ENTRY_SIZE + colStart st c + x) =
      d (i * st.ENTRY_SIZE + colStart st c + x) := by
    intro q hq x hx
    obtain ⟨k, hk, hrk⟩ := f2 q hq
    have := hrk (colStart st c + x) (by omega)
    rw [← Nat.add_assoc, ← Nat.add_assoc] at this
    rw [this]
    exact hgrp (i + k) (by omega) (by omega) x hx
  have hrowp := hrow (p - i) (by omega)
  have hrowp1 := hrow (p + 1 - i) (by omega)
  rw [show i + (p - i) = p by omega] at hrowp
  rw [show i + (p + 1 - i) = p + 1 by omega] at hrowp1
  have hm : memcmp (BreakStringTies ext d i (j + 1) c t (varBlob cb c) (varOffsets cb c) st).1
      (p * st.ENTRY_SIZE + colStart st c)
      (BreakStringTies ext d i (j + 1) c t (varBlob cb c) (varOffsets cb c) st).1
      ((p + 1) * st.ENTRY_SIZE + colStart st c) (st.COL_SIZE.getD c 0) = 0 := by
    rw [memcmp_eq_zero_iff]
    intro x hx
    rw [hrowp x hx, hrowp1 x hx]
  obtain ⟨g1, g2⟩ := guards_of_colBytes ext st c
    (BreakStringTies ext d i (j + 1) c t (varBlob cb c) (varOffsets cb c) st).1 d
    (p * st.ENTRY_SIZE) (i * st.ENTRY_SIZE) hvar hok hrowp
  rw [columnCompare_of_eq _ _ _ _ _ _ _ _ hvar hm, g1, g2]
  by_cases hguard : (isNullKey st c d (i * st.ENTRY_SIZE) ||
      hasPadding ext st c d (i * st.ENTRY_SIZE)) = true
  · have hval := f5 hguard
    have ht : (BreakStringTies ext d i (j + 1) c t (varBlob cb c) (varOffsets cb c) st).2 p = true := by
      rw [hval]; exact hties p hp1 hp2
    have hzero : (if isNullKey st c d (i * st.ENTRY_SIZE) = true then (0 : Int)
        else if (true && hasPadding ext st c d (i * st.ENTRY_SIZE)) = true then 0
        else if stringBefore ext st c
          (stringOfRow ext (BreakStringTies ext d i (j + 1) c t (varBlob cb c) (varOffsets cb c) st).1
            (p * st.ENTRY_SIZE) (varBlob cb c) (varOffsets cb c) (st.ENTRY_SIZE - sizeof_idx_t)).2
          (stringOfRow ext (BreakStringTies ext d i (j + 1) c t (varBlob cb c) (varOffsets cb c) st).1
            ((p + 1) * st.ENTRY_SIZE) (varBlob cb c) (varOffsets cb c)
            (st.ENTRY_SIZE - sizeof_idx_t)).2 = true then -1
        else if stringBefore ext st c
          (stringOfRow ext (BreakStringTies ext d i (j + 1) c t (varBlob cb c) (varOffsets cb c) st).1
            ((p + 1) * st.ENTRY_SIZE) (varBlob cb c) (varOffsets cb c)
            (st.ENTRY_SIZE - sizeof_idx_t)).2
          (stringOfRow ext (BreakStringTies ext d i (j + 1) c t (varBlob cb c) (varOffsets cb c) st).1
            (p * st.ENTRY_SIZE) (varBlob cb c) (varOffsets cb c) (st.ENTRY_SIZE - sizeof_idx_t)).2
            = true then 1
        else 0) = 0 := by
      by_cases hn : isNullKey st c d (i * st.ENTRY_SIZE) = true
      · simp only [hn, if_true]
      · have hn' := bool_eq_false_of_ne_true hn
        rw [hn', Bool.false_or] at hguard
        simp only [hn', hguard, Bool.false_eq_true, if_false, Bool.and_self, if_true]
    rw [hzero]
    exact ⟨Int.le_refl _, fun _ => ⟨fun _ => rfl, fun _ => ht⟩⟩
  · have hguard' := bool_eq_false_of_ne_true hguard
    obtain ⟨hs, ht1, -⟩ := f6 hv hguard'
    have hn' : isNullKey st c d (i * st.ENTRY_SIZE) = false := by
      cases hb : isNullKey st c d (i * st.ENTRY_SIZE)
      · rfl
      · rw [hb] at hguard'; simp at hguard'
    have hp' : hasPadding ext st c d (i * st.ENTRY_SIZE) = false := by
      cases hb : hasPadding ext st c d (i * st.ENTRY_SIZE)
      · rfl
      · rw [hb] at hguard'; simp at hguard'
    simp only [hn', hp', Bool.false_eq_true, if_false, Bool.and_false]
    have hsorted := hs (p - i) (p + 1 - i) (by omega) (by omega)
    rw [show i + (p - i) = p by omega, show i + (p + 1 - i) = p + 1 by omega] at hsorted
    have hsz : st.ENTRY_SIZE - sizeof_idx_t = st.ENTRY_SIZE - 8 := rfl
    rw [hsz]
    rw [hsorted]
    simp only [Bool.false_eq_true, if_false]
    generalize hsa : (stringOfRow ext
      (BreakStringTies ext d i (j + 1) c t (varBlob cb c) (varOffsets cb c) st).1
      (p * st.ENTRY_SIZE) (varBlob cb c) (varOffsets cb c) (st.ENTRY_SIZE - 8)).2 = sa at hsorted ⊢
    generalize hsb : (stringOfRow ext
      (BreakStringTies ext d i (j + 1) c t (varBlob cb c) (varOffsets cb c) st).1
      ((p + 1) * st.ENTRY_SIZE) (varBlob cb c) (varOffsets cb c) (st.ENTRY_SIZE - 8)).2 = sb
      at hsorted ⊢
    refine ⟨?_, ?_⟩
    · split <;> omega
    · intro hlast
      have := ht1 hlast (p - i) (by omega)
      rw [show i + (p - i) = p by omega, hsa, hsb] at this
      rw [this]
      by_cases he : sa = sb
      · subst he
        simp [stringBefore_irrefl ext hv]
      · rcases stringBefore_total ext hv st c sa sb he with h | h
        · simp [he, h]
        · rw [h] at hsorted; exact Bool.noConfusion hsorted

/-- The effect of the loop of `BreakTies` on column `c` from row `i` on. -/
theorem BreakTies_loop_spec (ext : Extern) (cb : ContinuousBlock) (st : SortingState)
    (count c : Nat) (h8 : 8 ≤ st.ENTRY_SIZE) (hES : st.ENTRY_SIZE < IDX_MOD)
    (hperm : ∀ (lt : Nat → Nat → Bool) (l : List Nat), List.Perm (ext.std_sort lt l) l)
    (htype : st.TYPES.getD c PhysicalType.INT32 = PhysicalType.VARCHAR)
    (hvar : st.CONSTANT_SIZE.getD c false = false) (hok : ColOK ext st c) :
    ∀ fuel i (d : Buffer) (t : Nat → Bool), i ≤ count → count ≤ i + fuel →
      t (count - 1) = false →
      ∃ d2 t2, BreakTies.loop ext count c (varBlob cb c) (varOffsets cb c) st fuel i (d, t)
          = .ok (d2, t2) ∧
        (∀ a, a < i * st.ENTRY_SIZE ∨ count * st.ENTRY_SIZE ≤ a → d2 a = d a) ∧
        (∀ v, v < i ∨ count - 1 ≤ v → t2 v = t v) ∧
        (∀ p, i ≤ p → p < count → ∃ q, i ≤ q ∧ q < count ∧ SameGroup t p q ∧
          RowEq st.ENTRY_SIZE d2 p d q) ∧
        List.Perm (rowsAt d2 st.ENTRY_SIZE 0 count) (rowsAt d st.ENTRY_SIZE 0 count) ∧
        (∀ p, i ≤ p → p + 1 < count → t p = false → t2 p = false) ∧
        (ext.Valid →
          (∀ p, i ≤ p → p + 1 < count → t p = true →
            memcmp d (p * st.ENTRY_SIZE + colStart st c) d ((p + 1) * st.ENTRY_SIZE + colStart st c)
              (st.COL_SIZE.getD c 0) = 0) →
          ∀ p, i ≤ p → p + 1 < count → t p = true →
            columnCompare ext cb st true d2 c (p * st.ENTRY_SIZE) ((p + 1) * st.ENTRY_SIZE) ≤ 0 ∧
            (c < st.ORDER_TYPES.length - 1 →
              (t2 p = true ↔
                columnCompare ext cb st true d2 c (p * st.ENTRY_SIZE) ((p + 1) * st.ENTRY_SIZE)
                  = 0))) := by
  intro fuel
  induction fuel with
  | zero =>
    intro i d t hi hfuel hlast
    refine ⟨d, t, rfl, fun a _ => rfl, fun v _ => rfl, ?_, List.Perm.refl _, ?_, ?_⟩
    · intro p h1 h2; omega
    · intro p h1 h2; omega
    · intro _ _ p h1 h2; omega
  | succ fuel ih =>
    intro i d t hi hfuel hlast
    by_cases hic : i < count
    · by_cases ht : t i = true
      · -- a tied group starts at row i
        have hi1 : i + 1 < count := by
          by_contra hcon
          have : i = count - 1 := by omega
          rw [this, hlast] at ht
          exact Bool.noConfusion ht
        obtain ⟨s1, s2, s3, s4⟩ := scanTies_spec t count count i (by omega)
        generalize hj : scanTies t count count i = j at s1 s2 s3 s4
        have hjc : j < count := by
          by_contra hcon
          have hj2 : j = count := by have := s4 (by omega); omega
          have := (s2 (count - 1) (by omega) (by omega)).2
          rw [hlast] at this
          exact Bool.noConfusion this
        have htj : t j = false := s3 hjc
        have hij : i < j := by
          by_contra hcon
          have : j = i := by omega
          rw [this, ht] at htj
          exact Bool.noConfusion htj
        have hties : ∀ k, i ≤ k → k < j → t k = true := fun k h1 h2 => (s2 k h1 h2).2
        have hval : BreakTies.loop ext count c (varBlob cb c) (varOffsets cb c) st (fuel + 1) i (d, t) =
            BreakTies.loop ext count c (varBlob cb c) (varOffsets cb c) st fuel (j + 1)
              (BreakStringTies ext d i (j + 1) c t (varBlob cb c) (varOffsets cb c) st) := by
          simp only [BreakTies.loop, hic, ht, hj, htype, if_true, Bool.not_true,
            Bool.false_eq_true, if_false]
        rw [hval]
        have hnb := fun hv hpre => BreakStringTies_neighbours ext hv cb st c i j d t h8 hES hperm
          hvar hok hties hpre
        obtain ⟨g1, g2, g3, g4, -, -⟩ := BreakStringTies_group ext d i (j + 1) c t (varBlob cb c)
          (varOffsets cb c) st h8 hES hperm
        generalize BreakStringTies ext d i (j + 1) c t (varBlob cb c) (varOffsets cb c) st = bs
          at g1 g2 g3 g4 hnb
        obtain ⟨d1, t1⟩ := bs
        simp only at g1 g2 g3 g4 hnb
        have hlast1 : t1 (count - 1) = false := by
          rw [g4 (count - 1) (Or.inr (by omega))]; exact hlast
        obtain ⟨d2, t2, r0, r1, r2, r3, r4, r5, r6⟩ := ih (j + 1) d1 t1 (by omega) (by omega) hlast1
        have hn : j + 1 - i = j - i + 1 := by omega
        have hseg : (j + 1) * st.ENTRY_SIZE = i * st.ENTRY_SIZE + (j + 1 - i) * st.ENTRY_SIZE := by
          rw [← Nat.add_mul]
          congr 1
          omega
        have hile : i * st.ENTRY_SIZE ≤ (j + 1) * st.ENTRY_SIZE :=
          Nat.mul_le_mul_right _ (by omega)
        have hjle : (j + 1) * st.ENTRY_SIZE ≤ count * st.ENTRY_SIZE :=
          Nat.mul_le_mul_right _ (by omega)
        have ht1 : ∀ v, v < i ∨ j ≤ v → t1 v = t v := by
          intro v hv
          apply g4
          rcases hv with h | h
          · exact Or.inl h
          · exact Or.inr (by omega)
        have hrow2 : ∀ p, p < j + 1 → ∀ x, x < st.ENTRY_SIZE →
            d2 (p * st.ENTRY_SIZE + x) = d1 (p * st.ENTRY_SIZE + x) := by
          intro p hp x hx
          have hp2 := row_end_le st.ENTRY_SIZE hp
          exact r1 _ (Or.inl (by omega))
        refine ⟨d2, t2, r0, ?_, ?_, ?_, ?_, ?_, ?_⟩
        · intro a ha
          rw [r1 a (by omega)]
          apply g1
          rw [← hseg]
          omega
        · intro v hv
          rw [r2 v (by omega)]
          apply ht1
          omega
        · intro p hp1 hp2
          by_cases hpj : p ≤ j
          · obtain ⟨k, hk, hrk⟩ := g2 (p - i) (by omega)
            rw [show i + (p - i) = p by omega] at hrk
            refine ⟨i + k, by omega, by omega, ?_, ?_⟩
            · intro u hu1 hu2
              apply hties u <;> omega
            · intro x hx
              rw [hrow2 p (by omega) x hx]
              exact hrk x hx
          · obtain ⟨q, hq1, hq2, hq3, hq4⟩ := r3 p (by omega) hp2
            refine ⟨q, by omega, hq2, ?_, ?_⟩
            · intro u hu1 hu2
              rw [← ht1 u (Or.inr (by omega))]
              exact hq3 u hu1 hu2
            · intro x hx
              rw [hq4 x hx]
              apply g1
              right
              rw [← hseg]
              have := Nat.mul_le_mul_right st.ENTRY_SIZE hq1
              omega
        · exact r4.trans (block_perm_of_segment d d1 st.ENTRY_SIZE count i (j + 1 - i)
            (by omega) g1 g3)
        · intro p hp1 hp2 hp3
          by_cases hpj : p < j
          · rw [hties p hp1 hpj] at hp3
            exact Bool.noConfusion hp3
          · by_cases hpe : p = j
            · subst hpe
              rw [r2 p (Or.inl (by omega)), ht1 p (Or.inr (Nat.le_refl _))]
              exact hp3
            · apply r5 p (by omega) hp2
              rw [ht1 p (Or.inr (by omega))]
              exact hp3
        · intro hv hpre p hp1 hp2 hp3
          by_cases hpj : p < j
          · have hcc : columnCompare ext cb st true d2 c (p * st.ENTRY_SIZE)
                ((p + 1) * st.ENTRY_SIZE) =
                columnCompare ext cb st true d1 c (p * st.ENTRY_SIZE) ((p + 1) * st.ENTRY_SIZE) :=
              columnCompare_congr ext cb st true c d2 d1 _ _ _ _ hok
                (hrow2 p (by omega)) (hrow2 (p + 1) (by omega))
            rw [hcc, r2 p (Or.inl (by omega))]
            exact hnb hv (fun q hq1 hq2 => hpre q hq1 (by omega) (hties q hq1 hq2)) p hp1 hpj
          · by_cases hpe : p = j
            · subst hpe
              rw [htj] at hp3
              exact Bool.noConfusion hp3
            · apply r6 hv ?_ p (by omega) hp2
              · rw [ht1 p (Or.inr (by omega))]
                exact hp3
              · intro q hq1 hq2 hq3
                rw [ht1 q (Or.inr (by omega))] at hq3
                have e : memcmp d1 (q * st.ENTRY_SIZE + colStart st c) d1
                    ((q + 1) * st.ENTRY_SIZE + colStart st c) (st.COL_SIZE.getD c 0) =
                    memcmp d (q * st.ENTRY_SIZE + colStart st c) d
                    ((q + 1) * st.ENTRY_SIZE + colStart st c) (st.COL_SIZE.getD c 0) := by
                  have hq5 := Nat.mul_le_mul_right st.ENTRY_SIZE hq1
                  have hq6 := Nat.mul_le_mul_right st.ENTRY_SIZE (show j + 1 ≤ q + 1 by omega)
                  apply memcmp_congr
                  · intro x hx
                    apply g1
                    right
                    rw [← hseg]
                    omega
                  · intro x hx
                    apply g1
                    right
                    rw [← hseg]
                    omega
                rw [e]
                exact hpre q (by omega) hq2 hq3
      · -- row i is not tied to its successor
        have ht2 : t i = false := bool_eq_false_of_ne_true ht
        have hval : BreakTies.loop ext count c (varBlob cb c) (varOffsets cb c) st (fuel + 1) i (d, t) =
            BreakTies.loop ext count c (varBlob cb c) (varOffsets cb c) st fuel (i + 1) (d, t) := by
          simp only [BreakTies.loop, hic, ht2, if_true, Bool.not_false]
        rw [hval]
        obtain ⟨d2, t2, r0, r1, r2, r3, r4, r5, r6⟩ := ih (i + 1) d t (by omega) (by omega) hlast
        refine ⟨d2, t2, r0, ?_, ?_, ?_, r4, ?_, ?_⟩
        · intro a ha
          apply r1
          have := Nat.mul_le_mul_right st.ENTRY_SIZE (show i ≤ i + 1 by omega)
          omega
        · intro v hv
          apply r2
          omega
        · intro p hp1 hp2
          by_cases hpi : p = i
          · subst hpi
            refine ⟨p, Nat.le_refl _, hp2, SameGroup_refl t p, ?_⟩
            intro x hx
            apply r1
            left
            have := row_end_le st.ENTRY_SIZE (show p < p + 1 by omega)
            omega
          · obtain ⟨q, hq1, hq2, hq3, hq4⟩ := r3 p (by omega) hp2
            exact ⟨q, by omega, hq2, hq3, hq4⟩
        · intro p hp1 hp2 hp3
          by_cases hpi : p = i
          · subst hpi
            rw [r2 p (Or.inl (by omega))]
            exact hp3
          · exact r5 p (by omega) hp2 hp3
        · intro hv hpre p hp1 hp2 hp3
          by_cases hpi : p = i
          · subst hpi
            rw [ht2] at hp3
            exact Bool.noConfusion hp3
          · exact r6 hv (fun q hq1 hq2 hq3 => hpre q (by omega) hq2 hq3) p (by omega) hp2 hp3
    · have hval : BreakTies.loop ext count c (varBlob cb c) (varOffsets cb c) st (fuel + 1) i (d, t) =
          .ok (d, t) := by
        simp only [BreakTies.loop, hic, if_false]
      rw [hval]
      refine ⟨d, t, rfl, fun a _ => rfl, fun v _ => rfl, ?_, List.Perm.refl _, ?_, ?_⟩
      · intro p h1 h2; omega
      · intro p h1 h2; omega
      · intro _ _ p h1 h2; omega

theorem memcmp_add (p q : Buffer) (a b n1 n2 : Nat) :
    memcmp p a q b (n1 + n2) =
      if memcmp p a q b n1 ≠ 0 then memcmp p a q b n1 else memcmp p (a + n1) q (b + n1) n2 := by
  induction n1 generalizing a b with
  | zero => simp [memcmp]
  | succ n ih =>
    rw [show n + 1 + n2 = (n + n2) + 1 by omega]
    simp only [memcmp]
    by_cases h : p a = q b
    · simp only [h, if_true]
      rw [ih, show a + 1 + n = a + (n + 1) by omega, show b + 1 + n = b + (n + 1) by omega]
    · have hv : ((p a).val : Int) - ((q b).val : Int) ≠ 0 := by
        intro e
        apply h
        apply Fin.ext
        omega
      simp only [h, if_false, hv, ne_eq, not_false_eq_true, if_true]

theorem colStart_succ (st : SortingState) (c : Nat) :
    colStart st (c + 1) = colStart st c + st.COL_SIZE.getD c 0 := rfl

theorem colStart_mono (st : SortingState) (c k : Nat) : colStart st c ≤ colStart st (c + k) := by
  induction k with
  | zero => exact Nat.le_refl _
  | succ k ih =>
    rw [← Nat.add_assoc, colStart_succ]
    omega

/-- Once two rows differ on the first `n` columns, further columns do not change the
comparison. -/
theorem rowCompareUpTo_of_ne_le (ext : Extern) (cb : ContinuousBlock) (st : SortingState)
    (sk : Bool) (d : Buffer) (a b n : Nat) (h : rowCompareUpTo ext cb st sk d a b n ≠ 0) (k : Nat) :
    rowCompareUpTo ext cb st sk d a b (n + k) = rowCompareUpTo ext cb st sk d a b n := by
  induction k with
  | zero => rfl
  | succ k ih =>
    rw [← Nat.add_assoc, rowCompareUpTo_succ_of_ne _ _ _ _ _ _ _ _ (by rw [ih]; exact h), ih]

/-- Over constant-size columns the comparison column by column is `memcmp` over the bytes of
these columns together. -/
theorem window_compare (ext : Extern) (cb : ContinuousBlock) (st : SortingState) (sk : Bool)
    (d : Buffer) (a b c0 : Nat) (h0 : rowCompareUpTo ext cb st sk d a b c0 = 0) :
    ∀ k, (∀ c, c0 ≤ c → c < c0 + k → st.CONSTANT_SIZE.getD c false = true) →
      rowCompareUpTo ext cb st sk d a b (c0 + k) =
        memcmp d (a + colStart st c0) d (b + colStart st c0)
          (colStart st (c0 + k) - colStart st c0) := by
  intro k
  induction k with
  | zero =>
    intro _
    rw [Nat.add_zero, Nat.sub_self, h0]
    rfl
  | succ k ih =>
    intro hc
    have ih2 := ih (fun c h1 h2 => hc c h1 (by omega))
    have hm := colStart_mono st c0 k
    have hsz : colStart st (c0 + (k + 1)) - colStart st c0 =
        (colStart st (c0 + k) - colStart st c0) + st.COL_SIZE.getD (c0 + k) 0 := by
      rw [← Nat.add_assoc, colStart_succ]
      omega
    rw [hsz, memcmp_add, ← ih2]
    have e1 : a + colStart st c0 + (colStart st (c0 + k) - colStart st c0) =
        a + colStart st (c0 + k) := by omega
    have e2 : b + colStart st c0 + (colStart st (c0 + k) - colStart st c0) =
        b + colStart st (c0 + k) := by omega
    rw [e1, e2, ← columnCompare_constant ext cb st sk d (c0 + k) a b
      (hc (c0 + k) (by omega) (by omega))]
    rfl

/-- A relation that holds between tied neighbours holds within every tied group. -/
theorem chain_of_group (R : Nat → Nat → Prop) (hrefl : ∀ a, R a a)
    (hsymm : ∀ a b, R a b → R b a) (htrans : ∀ a b c, R a b → R b c → R a c)
    (t : Nat → Bool) (count : Nat)
    (h : ∀ k, k + 1 < count → t k = true → R k (k + 1)) :
    ∀ p q, p < count → q < count → SameGroup t p q → R p q := by
  have main : ∀ n p, p + n < count → (∀ k, p ≤ k → k < p + n → t k = true) → R p (p + n) := by
    intro n
    induction n with
    | zero => intro p _ _; exact hrefl p
    | succ n ih =>
      intro p hp hk
      have h1 := ih p (by omega) (fun k k1 k2 => hk k k1 (by omega))
      have h2 := h (p + n) (by omega) (hk (p + n) (by omega) (by omega))
      exact htrans _ _ _ h1 h2
  intro p q hp hq hg
  by_cases hpq : p ≤ q
  · have := main (q - p) p (by omega) (fun k k1 k2 => hg k (by omega) (by omega))
    rwa [show p + (q - p) = q by omega] at this
  · have := main (p - q) q (by omega) (fun k k1 k2 => hg k (by omega) (by omega))
    rw [show q + (p - q) = p by omega] at this
    exact hsymm _ _ this

/-- With the blocks of column `tie_col` present, `BreakTies` is its loop from row 0 on. -/
theorem BreakTies_eq_loop (ext : Extern) (cb : ContinuousBlock) (ties : Nat → Bool) (d : Buffer)
    (count c : Nat) (st : SortingState) (chunk : ContinuousChunk) (b1 b2 : RowDataBlock)
    (h0 : cb.var_sorting_chunks.getD c none = some chunk)
    (h1 : chunk.data_blocks.getLast? = some b1) (h2 : chunk.offset_blocks.getLast? = some b2) :
    BreakTies ext cb ties d count c st =
      BreakTies.loop ext count c (varBlob cb c) (varOffsets cb c) st count 0 (d, ties) := by
  simp only [BreakTies, varBlob, varOffsets, h0, h1, h2]

theorem KeyTied_refl (ext : Extern) (hv : ext.Valid) (cb : ContinuousBlock) (st : SortingState)
    (d : Buffer) (i a : Nat) : KeyTied ext cb st d i a a :=
  ⟨rowCompareUpTo_self ext hv cb st true d a i, memcmp_self d _ _⟩

theorem KeyTied_symm (ext : Extern) (hv : ext.Valid) (cb : ContinuousBlock) (st : SortingState)
    (d : Buffer) (i a b : Nat) (hok : ∀ c, c < i → ColOK ext st c)
    (h : KeyTied ext cb st d i a b) : KeyTied ext cb st d i b a := by
  refine ⟨?_, ?_⟩
  · rw [rowCompareUpTo_swap ext hv cb st true d a b i hok, h.1]; rfl
  · rw [memcmp_swap, h.2]; rfl

theorem KeyTied_trans (ext : Extern) (hv : ext.Valid) (cb : ContinuousBlock) (st : SortingState)
    (d : Buffer) (i a b c : Nat) (hok : ∀ c, c < i → ColOK ext st c)
    (h1 : KeyTied ext cb st d i a b) (h2 : KeyTied ext cb st d i b c) :
    KeyTied ext cb st d i a c := by
  refine ⟨?_, ?_⟩
  · rw [rowCompareUpTo_resp ext hv cb st true d a b c i hok h1.1]; exact h2.1
  · have e1 := (memcmp_eq_zero_iff _ _ _ _ _).mp h1.2
    have e2 := (memcmp_eq_zero_iff _ _ _ _ _).mp h2.2
    rw [memcmp_eq_zero_iff]
    intro k hk
    rw [e1 k hk, e2 k hk]

theorem KeyLess_lt (ext : Extern) (cb : ContinuousBlock) (st : SortingState) (d : Buffer)
    (i a b : Nat) (h : KeyLess ext cb st d i a b) :
    rowCompareUpTo ext cb st true d a b (i + 1) < 0 := by
  rcases h with h | ⟨h1, h2⟩
  · rw [rowCompareUpTo_succ_of_ne _ _ _ _ _ _ _ _ (by omega)]; exact h
  · rw [rowCompareUpTo_succ_of_zero _ _ _ _ _ _ _ _ h1, columnCompare_of_ne _ _ _ _ _ _ _ _ (by omega)]
    exact h2

/-- A comparison that is strictly negative on the first `n` columns stays so on more columns. -/
theorem rowCompareUpTo_neg_le (ext : Extern) (cb : ContinuousBlock) (st : SortingState)
    (sk : Bool) (d : Buffer) (a b n m : Nat) (hnm : n ≤ m)
    (h : rowCompareUpTo ext cb st sk d a b n < 0) :
    rowCompareUpTo ext cb st sk d a b m < 0 := by
  have := rowCompareUpTo_of_ne_le ext cb st sk d a b n (by omega) (m - n)
  rw [show n + (m - n) = m by omega] at this
  rw [this]
  exact h

/-- When every row of `d1` holds a row of `d` of the same tied group, and tied neighbours of
`d` are equal on the first `n` columns, the comparison of two rows on these columns is the same
in both blocks. -/
theorem group_move_compare (ext : Extern) (hv : ext.Valid) (cb : ContinuousBlock)
    (st : SortingState) (count n : Nat) (d d1 : Buffer) (t : Nat → Bool)
    (hok : ∀ c, c < n → ColOK ext st c)
    (hties : ∀ k, k + 1 < count → t k = true →
      rowCompareUpTo ext cb st true d (k * st.ENTRY_SIZE) ((k + 1) * st.ENTRY_SIZE) n = 0)
    (hmove : ∀ p, p < count → ∃ q, q < count ∧ SameGroup t p q ∧ RowEq st.ENTRY_SIZE d1 p d q) :
    ∀ p p2, p < count → p2 < count →
      rowCompareUpTo ext cb st true d1 (p * st.ENTRY_SIZE) (p2 * st.ENTRY_SIZE) n =
      rowCompareUpTo ext cb st true d (p * st.ENTRY_SIZE) (p2 * st.ENTRY_SIZE) n := by
  have hchain := chain_of_group
    (fun a b => rowCompareUpTo ext cb st true d (a * st.ENTRY_SIZE) (b * st.ENTRY_SIZE) n = 0)
    (fun a => rowCompareUpTo_self ext hv cb st true d _ n)
    (fun a b h => by
      show rowCompareUpTo ext cb st true d (b * st.ENTRY_SIZE) (a * st.ENTRY_SIZE) n = 0
      rw [rowCompareUpTo_swap ext hv cb st true d _ _ n hok, h]; rfl)
    (fun a b c h1 h2 => by
      show rowCompareUpTo ext cb st true d (a * st.ENTRY_SIZE) (c * st.ENTRY_SIZE) n = 0
      rw [rowCompareUpTo_resp ext hv cb st true d _ _ _ n hok h1]; exact h2)
    t count hties
  intro p p2 hp hp2
  obtain ⟨q, hq, hg, hr⟩ := hmove p hp
  obtain ⟨q2, hq2, hg2, hr2⟩ := hmove p2 hp2
  have c1 := hchain p q hp hq hg
  have c2 := hchain p2 q2 hp2 hq2 hg2
  simp only at c1 c2
  rw [rowCompareUpTo_congr ext cb st true d1 d _ _ _ _ n hok hr hr2,
    rowCompareUpTo_resp_right ext hv cb st true d _ _ _ n hok c2,
    ← rowCompareUpTo_resp ext hv cb st true d _ _ _ n hok c1]

/-- The same for rows that agree up to the key bytes of column `i`: the comparison on the
columns before `i` and the `memcmp` of the key bytes of column `i` are the same in both
blocks. -/
theorem group_move_keys (ext : Extern) (hv : ext.Valid) (cb : ContinuousBlock)
    (st : SortingState) (count i : Nat) (d d1 : Buffer) (t : Nat → Bool)
    (hok : ∀ c, c < i + 1 → ColOK ext st c)
    (hties : ∀ k, k + 1 < count → t k = true →
      KeyTied ext cb st d i (k * st.ENTRY_SIZE) ((k + 1) * st.ENTRY_SIZE))
    (hmove : ∀ p, p < count → ∃ q, q < count ∧ SameGroup t p q ∧ RowEq st.ENTRY_SIZE d1 p d q) :
    ∀ p p2, p < count → p2 < count →
      rowCompareUpTo ext cb st true d1 (p * st.ENTRY_SIZE) (p2 * st.ENTRY_SIZE) i =
        rowCompareUpTo ext cb st true d (p * st.ENTRY_SIZE) (p2 * st.ENTRY_SIZE) i ∧
      memcmp d1 (p * st.ENTRY_SIZE + colStart st i) d1 (p2 * st.ENTRY_SIZE + colStart st i)
          (st.COL_SIZE.getD i 0) =
        memcmp d (p * st.ENTRY_SIZE + colStart st i) d (p2 * st.ENTRY_SIZE + colStart st i)
          (st.COL_SIZE.getD i 0) := by
  have hok2 : ∀ c, c < i → ColOK ext st c := fun c hc => hok c (by omega)
  have hchain := chain_of_group
    (fun a b => KeyTied ext cb st d i (a * st.ENTRY_SIZE) (b * st.ENTRY_SIZE))
    (fun a => KeyTied_refl ext hv cb st d i _)
    (fun a b h => KeyTied_symm ext hv cb st d i _ _ hok2 h)
    (fun a b c h1 h2 => KeyTied_trans ext hv cb st d i _ _ _ hok2 h1 h2)
    t count hties
  intro p p2 hp hp2
  obtain ⟨q, hq, hg, hr⟩ := hmove p hp
  obtain ⟨q2, hq2, hg2, hr2⟩ := hmove p2 hp2
  have c1 := hchain p q hp hq hg
  have c2 := hchain p2 q2 hp2 hq2 hg2
  simp only at c1 c2
  have hcol := (hok i (by omega)).1
  refine ⟨?_, ?_⟩
  · rw [rowCompareUpTo_congr ext cb st true d1 d _ _ _ _ i hok2 hr hr2,
      rowCompareUpTo_resp_right ext hv cb st true d _ _ _ i hok2 c2.1,
      ← rowCompareUpTo_resp ext hv cb st true d _ _ _ i hok2 c1.1]
  · have e1 := (memcmp_eq_zero_iff _ _ _ _ _).mp c1.2
    have e2 := (memcmp_eq_zero_iff _ _ _ _ _).mp c2.2
    apply memcmp_congr
    · intro k hk
      rw [e1 k hk, Nat.add_assoc, Nat.add_assoc]
      exact hr _ (by omega)
    · intro k hk
      rw [e2 k hk, Nat.add_assoc, Nat.add_assoc]
      exact hr2 _ (by omega)

/-- After `SubSortTiedTuples` the array `ties` still describes the block on the columns sorted
before, and tied neighbours are in `memcmp` order over the window. -/
theorem SubSort_TiesInv (ext : Extern) (cb : ContinuousBlock) (st : SortingState)
    (count c0 co sz : Nat) (d : Buffer) (t : Nat → Bool)
    (hwin : co + sz ≤ st.ENTRY_SIZE) (hlt : co + sz < IDX_MOD)
    (hlast : t (count - 1) = false) :
    List.Perm (rowsAt (SubSortTiedTuples ext.fresh d count co sz t st) st.ENTRY_SIZE 0 count)
      (rowsAt d st.ENTRY_SIZE 0 count) ∧
    (∀ p, p + 1 < count → t p = true →
      memcmp (SubSortTiedTuples ext.fresh d count co sz t st) (p * st.ENTRY_SIZE + co)
        (SubSortTiedTuples ext.fresh d count co sz t st) ((p + 1) * st.ENTRY_SIZE + co) sz ≤ 0) ∧
    (ext.Valid → (∀ c, c < c0 → ColOK ext st c) → TiesInv ext cb st count d t c0 →
      TiesInv ext cb st count (SubSortTiedTuples ext.fresh d count co sz t st) t c0) := by
  obtain ⟨-, r2, r3, r4⟩ := SubSort_loop_spec ext.fresh count co sz t st hwin hlt hlast count 0 d
    (Nat.zero_le _) (by omega)
  refine ⟨r3, fun p hp ht => r4 p (Nat.zero_le _) hp ht, ?_⟩
  intro hv hok hinv p hp
  have hmove : ∀ p, p < count → ∃ q, q < count ∧ SameGroup t p q ∧
      RowEq st.ENTRY_SIZE (SubSortTiedTuples ext.fresh d count co sz t st) p d q := by
    intro p hp
    obtain ⟨q, -, hq, hg, hr⟩ := r2 p (Nat.zero_le _) hp
    exact ⟨q, hq, hg, hr⟩
  have e := group_move_compare ext hv cb st count c0 d _ t hok
    (fun k hk ht => (hinv k hk).1 ht) hmove p (p + 1) (by omega) hp
  unfold SubSortTiedTuples at e ⊢
  rw [e]
  exact hinv p hp

/-- The `memcmp` over a window of constant-size columns followed by column `i`, for two rows
equal on the columns before the window. -/
theorem window_split (ext : Extern) (cb : ContinuousBlock) (st : SortingState) (d : Buffer)
    (a b c0 i : Nat) (hc0 : c0 ≤ i)
    (hconst : ∀ c, c0 ≤ c → c < i → st.CONSTANT_SIZE.getD c false = true)
    (h0 : rowCompareUpTo ext cb st true d a b c0 = 0) :
    memcmp d (a + colStart st c0) d (b + colStart st c0) (colStart st (i + 1) - colStart st c0) =
      if rowCompareUpTo ext cb st true d a b i ≠ 0 then rowCompareUpTo ext cb st true d a b i
      else memcmp d (a + colStart st i) d (b + colStart st i) (st.COL_SIZE.getD i 0) := by
  have hw := window_compare ext cb st true d a b c0 h0 (i - c0)
    (fun c h1 h2 => hconst c h1 (by omega))
  have hi : c0 + (i - c0) = i := by omega
  rw [hi] at hw
  have hm := colStart_mono st c0 (i - c0)
  rw [hi] at hm
  have hsz : colStart st (i + 1) - colStart st c0 =
      (colStart st i - colStart st c0) + st.COL_SIZE.getD i 0 := by
    rw [colStart_succ]
    omega
  rw [hsz, memcmp_add, ← hw]
  have e1 : a + colStart st c0 + (colStart st i - colStart st c0) = a + colStart st i := by omega
  have e2 : b + colStart st c0 + (colStart st i - colStart st c0) = b + colStart st i := by omega
  rw [e1, e2]

/-- What `ComputeTies` leaves for column `i` after the rows were sorted within their tied
groups over the window that ends with column `i`. -/
theorem window_PreBreak (ext : Extern) (cb : ContinuousBlock) (st : SortingState)
    (count c0 i : Nat) (d1 : Buffer) (t : Nat → Bool) (hc0 : c0 ≤ i)
    (hconst : ∀ c, c0 ≤ c → c < i → st.CONSTANT_SIZE.getD c false = true)
    (hinv : TiesInv ext cb st count d1 t c0)
    (hsorted : ∀ p, p + 1 < count → t p = true →
      memcmp d1 (p * st.ENTRY_SIZE + colStart st c0) d1 ((p + 1) * st.ENTRY_SIZE + colStart st c0)
        (colStart st (i + 1) - colStart st c0) ≤ 0) :
    PreBreak ext cb st count d1
      (ComputeTies d1 count (colStart st c0) (colStart st (i + 1) - colStart st c0) t st) i := by
  intro p hp
  have hct := (ComputeTies_spec d1 count (colStart st c0) (colStart st (i + 1) - colStart st c0)
    t st).1 p (by omega)
  rw [hct]
  cases htp : t p
  · -- not tied before: strictly ordered by the columns before the window
    have hlt := (hinv p hp).2 htp
    refine ⟨fun h => ?_, fun _ => Or.inl (rowCompareUpTo_neg_le ext cb st true d1 _ _ c0 i hc0 hlt)⟩
    simp at h
  · have h0 := (hinv p hp).1 htp
    have hs := hsorted p hp htp
    have hsplit := window_split ext cb st d1 (p * st.ENTRY_SIZE) ((p + 1) * st.ENTRY_SIZE) c0 i hc0
      hconst h0
    rw [hsplit] at hs ⊢
    by_cases hne : rowCompareUpTo ext cb st true d1 (p * st.ENTRY_SIZE) ((p + 1) * st.ENTRY_SIZE) i
        ≠ 0
    · rw [if_pos hne] at hs ⊢
      refine ⟨fun h => ?_, fun _ => Or.inl (by omega)⟩
      simp only [Bool.true_and, decide_eq_true_eq] at h
      exact absurd h hne
    · rw [if_neg hne] at hs ⊢
      have hz : rowCompareUpTo ext cb st true d1 (p * st.ENTRY_SIZE) ((p + 1) * st.ENTRY_SIZE) i
          = 0 := by
        by_contra hcon
        exact hne hcon
      refine ⟨fun h => ?_, fun h => ?_⟩
      · simp only [Bool.true_and, decide_eq_true_eq] at h
        exact ⟨hz, h⟩
      · simp only [Bool.true_and, decide_eq_false_iff_not] at h
        exact Or.inr ⟨hz, by omega⟩

/-- When the window ends with the last column and is of constant size throughout, sorting
the tied groups over it sorts the block. -/
theorem window_sorted_const (ext : Extern) (cb : ContinuousBlock) (st : SortingState)
    (count c0 : Nat) (d1 : Buffer) (t : Nat → Bool) (hc0 : c0 ≤ st.CONSTANT_SIZE.length)
    (hconst : ∀ c, c0 ≤ c → c < st.CONSTANT_SIZE.length → st.CONSTANT_SIZE.getD c false = true)
    (hinv : TiesInv ext cb st count d1 t c0)
    (hsorted : ∀ p, p + 1 < count → t p = true →
      memcmp d1 (p * st.ENTRY_SIZE + colStart st c0) d1 ((p + 1) * st.ENTRY_SIZE + colStart st c0)
        (colStart st st.CONSTANT_SIZE.length - colStart st c0) ≤ 0) :
    SortedRows ext cb st true count d1 := by
  intro p hp
  unfold rowCompare
  cases htp : t p
  · have := rowCompareUpTo_neg_le ext cb st true d1 _ _ c0 _ hc0 ((hinv p hp).2 htp)
    omega
  · have h0 := (hinv p hp).1 htp
    have hw := window_compare ext cb st true d1 (p * st.ENTRY_SIZE) ((p + 1) * st.ENTRY_SIZE) c0 h0
      (st.CONSTANT_SIZE.length - c0) (fun c h1 h2 => hconst c h1 (by omega))
    rw [show c0 + (st.CONSTANT_SIZE.length - c0) = st.CONSTANT_SIZE.length by omega] at hw
    rw [hw]
    exact hsorted p hp htp

/-- The effect of `BreakTies` on column `i`, a column of variable size. -/
theorem BreakTies_spec (ext : Extern) (cb : ContinuousBlock) (st : SortingState)
    (count i : Nat) (d1 : Buffer) (t1 : Nat → Bool) (hlay : KeyLayout ext cb st)
    (hperm : ∀ (lt : Nat → Nat → Bool) (l : List Nat), List.Perm (ext.std_sort lt l) l)
    (hi : i < st.CONSTANT_SIZE.length) (hvar : st.CONSTANT_SIZE.getD i false = false)
    (hlast : t1 (count - 1) = false) :
    ∃ d2 t2, BreakTies ext cb t1 d1 count i st = .ok (d2, t2) ∧
      List.Perm (rowsAt d2 st.ENTRY_SIZE 0 count) (rowsAt d1 st.ENTRY_SIZE 0 count) ∧
      t2 (count - 1) = false ∧
      (ext.Valid → PreBreak ext cb st count d1 t1 i →
        (∀ p, p + 1 < count →
          rowCompareUpTo ext cb st true d2 (p * st.ENTRY_SIZE) ((p + 1) * st.ENTRY_SIZE) (i + 1)
            ≤ 0) ∧
        (i + 1 < st.CONSTANT_SIZE.length → TiesInv ext cb st count d2 t2 (i + 1))) := by
  obtain ⟨chunk, b1, b2, k0, k1, k2⟩ := hlay.blocks i hi hvar
  rw [BreakTies_eq_loop ext cb t1 d1 count i st chunk b1 b2 k0 k1 k2]
  obtain ⟨d2, t2, r0, -, r2, r3, r4, r5, r6⟩ := BreakTies_loop_spec ext cb st count i hlay.entry_ge
    hlay.entry_lt hperm (hlay.varchar i hi hvar) hvar (hlay.cols i hi) count 0 d1 t1
    (Nat.zero_le _) (by omega) hlast
  refine ⟨d2, t2, r0, r4, ?_, ?_⟩
  · rw [r2 _ (Or.inr (Nat.le_refl _))]; exact hlast
  intro hv hpre
  have hmove : ∀ p, p < count → ∃ q, q < count ∧ SameGroup t1 p q ∧
      RowEq st.ENTRY_SIZE d2 p d1 q := by
    intro p hp
    obtain ⟨q, -, hq, hg, hr⟩ := r3 p (Nat.zero_le _) hp
    exact ⟨q, hq, hg, hr⟩
  have hkeys := group_move_keys ext hv cb st count i d1 d2 t1
    (fun c hc => hlay.cols c (by omega)) (fun k hk ht => (hpre k hk).1 ht) hmove
  have hbr := r6 hv (fun p _ hp ht => ((hpre p hp).1 ht).2)
  -- the facts about neighbours in the block after the call
  have htied : ∀ p, p + 1 < count → t1 p = true →
      rowCompareUpTo ext cb st true d2 (p * st.ENTRY_SIZE) ((p + 1) * st.ENTRY_SIZE) (i + 1) =
        columnCompare ext cb st true d2 i (p * st.ENTRY_SIZE) ((p + 1) * st.ENTRY_SIZE) := by
    intro p hp ht
    apply rowCompareUpTo_succ_of_zero
    rw [(hkeys p (p + 1) (by omega) hp).1]
    exact ((hpre p hp).1 ht).1
  have hless : ∀ p, p + 1 < count → t1 p = false →
      rowCompareUpTo ext cb st true d2 (p * st.ENTRY_SIZE) ((p + 1) * st.ENTRY_SIZE) (i + 1) < 0 := by
    intro p hp ht
    apply KeyLess_lt
    have hk := (hpre p hp).2 ht
    obtain ⟨e1, e2⟩ := hkeys p (p + 1) (by omega) hp
    unfold KeyLess at hk ⊢
    rw [e1, e2]
    exact hk
  refine ⟨?_, ?_⟩
  · intro p hp
    cases ht : t1 p
    · exact Int.le_of_lt (hless p hp ht)
    · rw [htied p hp ht]
      exact (hbr p (Nat.zero_le _) hp ht).1
  · intro hlast2 p hp
    have hord : i < st.ORDER_TYPES.length - 1 := by rw [hlay.orders]; omega
    cases ht : t1 p
    · have := r5 p (Nat.zero_le _) hp ht
      refine ⟨fun h => ?_, fun _ => hless p hp ht⟩
      rw [this] at h
      exact Bool.noConfusion h
    · obtain ⟨b1, b2⟩ := hbr p (Nat.zero_le _) hp ht
      have b3 := b2 hord
      rw [htied p hp ht]
      refine ⟨fun h => b3.mp h, fun h => ?_⟩
      have : columnCompare ext cb st true d2 i (p * st.ENTRY_SIZE) ((p + 1) * st.ENTRY_SIZE) ≠ 0 := by
        intro hz
        rw [b3.mpr hz] at h
        exact Bool.noConfusion h
      omega

theorem columns_nil (ext : Extern) (cb : ContinuousBlock) (st : SortingState) (count : Nat)
    (s : SortLoopState) : SortInMemory.columns ext cb st count [] s = .ok s.dataptr := rfl

theorem columns_cons (ext : Extern) (cb : ContinuousBlock) (st : SortingState) (count i : Nat)
    (rest : List Nat) (s : SortLoopState) :
    SortInMemory.columns ext cb st count (i :: rest) s =
      if st.CONSTANT_SIZE.getD i false && decide (i < st.CONSTANT_SIZE.length - 1) then
        SortInMemory.columns ext cb st count rest
          { s with sorting_size := s.sorting_size + st.COL_SIZE.getD i 0 }
      else
        SortInMemory.afterSort ext cb st count i s.col_offset
          (s.sorting_size + st.COL_SIZE.getD i 0)
          (match s.ties with
            | none =>
              (RadixSort ext.fresh s.dataptr 0 count s.col_offset
                (s.sorting_size + st.COL_SIZE.getD i 0) st, firstTies ext count)
            | some ties =>
              (SubSortTiedTuples ext.fresh s.dataptr count s.col_offset
                (s.sorting_size + st.COL_SIZE.getD i 0) ties st, ties))
          (SortInMemory.columns ext cb st count rest) := rfl

/-- The first sort of the column loop: the whole block is sorted over the window, and the
array `ties` it sets up ties every row but the last to its successor. -/
theorem firstSort_facts (ext : Extern) (cb : ContinuousBlock) (st : SortingState)
    (count co sz : Nat) (d : Buffer) (hwin : co + sz ≤ st.ENTRY_SIZE) (hlt : co + sz < IDX_MOD) :
    List.Perm (rowsAt (RadixSort ext.fresh d 0 count co sz st) st.ENTRY_SIZE 0 count)
      (rowsAt d st.ENTRY_SIZE 0 count) ∧
    firstTies ext count (count - 1) = false ∧
    (∀ p, p + 1 < count →
      memcmp (RadixSort ext.fresh d 0 count co sz st) (p * st.ENTRY_SIZE + co)
        (RadixSort ext.fresh d 0 count co sz st) ((p + 1) * st.ENTRY_SIZE + co) sz ≤ 0) ∧
    TiesInv ext cb st count (RadixSort ext.fresh d 0 count co sz st) (firstTies ext count) 0 := by
  have h := RadixSort_segment ext.fresh d 0 count co sz st hwin hlt
  simp only [Nat.zero_mul, Nat.zero_add] at h
  obtain ⟨-, -, h3, h4⟩ := h
  refine ⟨h3, ?_, fun p hp => h4 p (p + 1) (by omega) hp, ?_⟩
  · simp [firstTies]
  · intro p hp
    refine ⟨fun _ => rfl, fun h => ?_⟩
    have hp1 : p ≠ count - 1 := by omega
    have hp2 : p < count - 1 := by omega
    simp [firstTies, hp1, hp2] at h

/-- The column loop from the test for a constant-size last column on. -/
theorem afterSort_spec (ext : Extern) (cb : ContinuousBlock) (st : SortingState)
    (count i c0 : Nat) (d1 : Buffer) (t : Nat → Bool)
    (next : SortLoopState → Except SortError Buffer) (hlay : KeyLayout ext cb st)
    (hperm : ∀ (lt : Nat → Nat → Bool) (l : List Nat), List.Perm (ext.std_sort lt l) l)
    (hi : i < st.CONSTANT_SIZE.length) (hc0 : c0 ≤ i)
    (hskip : (st.CONSTANT_SIZE.getD i false && decide (i < st.CONSTANT_SIZE.length - 1)) = false)
    (hconst : ∀ c, c0 ≤ c → c < i → st.CONSTANT_SIZE.getD c false = true)
    (hnext : ∀ d2 t2, t2 (count - 1) = false →
      ∃ r, next { dataptr := d2, ties := some t2, sorting_size := 0,
                  col_offset := colStart st c0 + (colStart st (i + 1) - colStart st c0) } = .ok r ∧
        List.Perm (rowsAt r st.ENTRY_SIZE 0 count) (rowsAt d2 st.ENTRY_SIZE 0 count) ∧
        (ext.Valid →
          (if i + 1 < st.CONSTANT_SIZE.length then TiesInv ext cb st count d2 t2 (i + 1)
            else SortedRows ext cb st true count d2) →
          SortedRows ext cb st true count r)) :
    ∃ r, SortInMemory.afterSort ext cb st count i (colStart st c0)
        (colStart st (i + 1) - colStart st c0) (d1, t) next = .ok r ∧
      List.Perm (rowsAt r st.ENTRY_SIZE 0 count) (rowsAt d1 st.ENTRY_SIZE 0 count) ∧
      (ext.Valid → TiesInv ext cb st count d1 t c0 →
        (∀ p, p + 1 < count → t p = true →
          memcmp d1 (p * st.ENTRY_SIZE + colStart st c0) d1
            ((p + 1) * st.ENTRY_SIZE + colStart st c0) (colStart st (i + 1) - colStart st c0) ≤ 0) →
        SortedRows ext cb st true count r) := by
  by_cases hE1 : (st.CONSTANT_SIZE.getD i false
      && decide (i = st.CONSTANT_SIZE.length - 1)) = true
  · -- the last column, of constant size
    have hval : SortInMemory.afterSort ext cb st count i (colStart st c0)
        (colStart st (i + 1) - colStart st c0) (d1, t) next = .ok d1 := by
      unfold SortInMemory.afterSort
      rw [if_pos hE1]
    rw [hval]
    refine ⟨d1, rfl, List.Perm.refl _, ?_⟩
    intro _ hinv hsorted
    rw [Bool.and_eq_true, decide_eq_true_eq] at hE1
    have hnum : i + 1 = st.CONSTANT_SIZE.length := by omega
    rw [hnum] at hsorted
    apply window_sorted_const ext cb st count c0 d1 t (by omega) ?_ hinv hsorted
    intro c h1 h2
    by_cases hci : c = i
    · rw [hci]; exact hE1.1
    · exact hconst c h1 (by omega)
  · have hvar : st.CONSTANT_SIZE.getD i false = false := by
      cases hb : st.CONSTANT_SIZE.getD i false
      · rfl
      · rw [hb, Bool.true_and] at hskip hE1
        rw [decide_eq_false_iff_not] at hskip
        rw [decide_eq_true_eq] at hE1
        omega
    obtain ⟨hct, hctlast⟩ := ComputeTies_spec d1 count (colStart st c0)
      (colStart st (i + 1) - colStart st c0) t st
    have hpb := fun hinv hsorted => window_PreBreak ext cb st count c0 i d1 t hc0 hconst hinv hsorted
    generalize ht1 : ComputeTies d1 count (colStart st c0) (colStart st (i + 1) - colStart st c0)
      t st = t1 at hct hctlast hpb
    by_cases hany : AnyTies t1 count = true
    · obtain ⟨d2, t2, b0, b1, b2, b3⟩ := BreakTies_spec ext cb st count i d1 t1 hlay hperm hi hvar
        hctlast
      by_cases hany2 : AnyTies t2 count = true
      · obtain ⟨r, n0, n1, n2⟩ := hnext d2 t2 b2
        have hval : SortInMemory.afterSort ext cb st count i (colStart st c0)
            (colStart st (i + 1) - colStart st c0) (d1, t) next = .ok r := by
          unfold SortInMemory.afterSort
          rw [if_neg hE1]
          simp only [ht1, hany, b0, hany2, Bool.not_true, Bool.false_eq_true, if_false]
          exact n0
        rw [hval]
        refine ⟨r, rfl, n1.trans b1, ?_⟩
        intro hv hinv hsorted
        obtain ⟨c1, c2⟩ := b3 hv (hpb hinv hsorted)
        apply n2 hv
        by_cases hl : i + 1 < st.CONSTANT_SIZE.length
        · rw [if_pos hl]; exact c2 hl
        · rw [if_neg hl]
          intro p hp
          unfold rowCompare
          rw [← show i + 1 = st.CONSTANT_SIZE.length by omega]
          exact c1 p hp
      · have hval : SortInMemory.afterSort ext cb st count i (colStart st c0)
            (colStart st (i + 1) - colStart st c0) (d1, t) next = .ok d2 := by
          unfold SortInMemory.afterSort
          rw [if_neg hE1]
          simp only [ht1, hany, b0, hany2, Bool.not_true, Bool.false_eq_true, if_false,
            Bool.not_false, if_true]
        rw [hval]
        refine ⟨d2, rfl, b1, ?_⟩
        intro hv hinv hsorted
        obtain ⟨c1, c2⟩ := b3 hv (hpb hinv hsorted)
        intro p hp
        unfold rowCompare
        have := c1 p hp
        by_cases hl : i + 1 < st.CONSTANT_SIZE.length
        · have hf : t2 p = false := by
            cases hb : t2 p
            · rfl
            · exact absurd ((AnyTies_iff t2 count).mpr ⟨p, by omega, hb⟩) hany2
          have := rowCompareUpTo_neg_le ext cb st true d2 _ _ (i + 1) st.CONSTANT_SIZE.length
            (by omega) ((c2 hl p hp).2 hf)
          omega
        · rw [← show i + 1 = st.CONSTANT_SIZE.length by omega]
          exact this
    · have hval : SortInMemory.afterSort ext cb st count i (colStart st c0)
          (colStart st (i + 1) - colStart st c0) (d1, t) next = .ok d1 := by
        unfold SortInMemory.afterSort
        rw [if_neg hE1]
        simp only [ht1, hany, Bool.not_false, if_true]
      rw [hval]
      refine ⟨d1, rfl, List.Perm.refl _, ?_⟩
      intro hv hinv hsorted
      have hp1 := hpb hinv hsorted
      intro p hp
      unfold rowCompare
      have hf : t1 p = false := by
        cases hb : t1 p
        · rfl
        · exact absurd ((AnyTies_iff t1 count).mpr ⟨p, by omega, hb⟩) hany
      have h1 := KeyLess_lt ext cb st d1 i _ _ ((hp1 p hp).2 hf)
      have := rowCompareUpTo_neg_le ext cb st true d1 _ _ (i + 1) st.CONSTANT_SIZE.length
        (by omega) h1
      omega

/-- The column loop of `SortInMemory` from column `i` on, `c0` being the first column of the
current window: it ends, the rows of the block are rearranged, and (the externals keeping
their contract) the block ends up sorted when the array `ties` describes it on entry. -/
theorem columns_spec (ext : Extern) (cb : ContinuousBlock) (st : SortingState) (count : Nat)
    (hlay : KeyLayout ext cb st)
    (hperm : ∀ (lt : Nat → Nat → Bool) (l : List Nat), List.Perm (ext.std_sort lt l) l) :
    ∀ k i c0 (s : SortLoopState), i + k = st.CONSTANT_SIZE.length → c0 ≤ i →
      s.col_offset = colStart st c0 → s.sorting_size = colStart st i - colStart st c0 →
      (∀ c, c0 ≤ c → c < i → st.CONSTANT_SIZE.getD c false = true) →
      (k = 0 → c0 = i) → (s.ties = none → 0 < k) →
      (∀ t, s.ties = some t → t (count - 1) = false) →
      ∃ r, SortInMemory.columns ext cb st count (List.range' i k) s = .ok r ∧
        List.Perm (rowsAt r st.ENTRY_SIZE 0 count) (rowsAt s.dataptr st.ENTRY_SIZE 0 count) ∧
        (ext.Valid → (s.ties = none → c0 = 0) →
          (∀ t, s.ties = some t →
            if c0 < st.CONSTANT_SIZE.length then TiesInv ext cb st count s.dataptr t c0
            else SortedRows ext cb st true count s.dataptr) →
          SortedRows ext cb st true count r) := by
  intro k
  induction k with
  | zero =>
    intro i c0 s hik hc0 hco hsz hconst hk0 hnone hsome
    refine ⟨s.dataptr, rfl, List.Perm.refl _, ?_⟩
    intro _ _ hinv
    cases hs : s.ties with
    | none => exact absurd (hnone hs) (Nat.lt_irrefl 0)
    | some t =>
      have := hinv t hs
      rw [if_neg (by have := hk0 rfl; omega)] at this
      exact this
  | succ k ih =>
    intro i c0 s hik hc0 hco hsz hconst hk0 hnone hsome
    have hi : i < st.CONSTANT_SIZE.length := by omega
    have hmono := colStart_mono st c0 (i - c0)
    rw [show c0 + (i - c0) = i by omega] at hmono
    have hsz2 : s.sorting_size + st.COL_SIZE.getD i 0 = colStart st (i + 1) - colStart st c0 := by
      rw [hsz, colStart_succ]; omega
    rw [List.range'_succ, columns_cons]
    by_cases hskip : (st.CONSTANT_SIZE.getD i false
        && decide (i < st.CONSTANT_SIZE.length - 1)) = true
    · rw [if_pos hskip]
      rw [Bool.and_eq_true, decide_eq_true_eq] at hskip
      obtain ⟨r, r0, r1, r2⟩ := ih (i + 1) c0
        { s with sorting_size := s.sorting_size + st.COL_SIZE.getD i 0 }
        (by omega) (by omega) hco hsz2
        (fun c h1 h2 => by
          by_cases hci : c = i
          · rw [hci]; exact hskip.1
          · exact hconst c h1 (by omega))
        (fun h => by omega) (fun _ => by omega) hsome
      exact ⟨r, r0, r1, r2⟩
    · rw [if_neg hskip]
      have hskip2 : (st.CONSTANT_SIZE.getD i false
          && decide (i < st.CONSTANT_SIZE.length - 1)) = false := bool_eq_false_of_ne_true hskip
      have hcol := (hlay.cols i hi).1
      have hES := hlay.entry_lt
      have hwin : colStart st c0 + (colStart st (i + 1) - colStart st c0) ≤ st.ENTRY_SIZE := by
        rw [colStart_succ]; omega
      have hlt : colStart st c0 + (colStart st (i + 1) - colStart st c0) < IDX_MOD := by omega
      have hnext : ∀ d2 t2, t2 (count - 1) = false →
          ∃ r, SortInMemory.columns ext cb st count (List.range' (i + 1) k)
              { dataptr := d2, ties := some t2, sorting_size := 0,
                col_offset := colStart st c0 + (colStart st (i + 1) - colStart st c0) } = .ok r ∧
            List.Perm (rowsAt r st.ENTRY_SIZE 0 count) (rowsAt d2 st.ENTRY_SIZE 0 count) ∧
            (ext.Valid →
              (if i + 1 < st.CONSTANT_SIZE.length then TiesInv ext cb st count d2 t2 (i + 1)
                else SortedRows ext cb st true count d2) →
              SortedRows ext cb st true count r) := by
        intro d2 t2 hl2
        obtain ⟨r, r0, r1, r2⟩ := ih (i + 1) (i + 1)
          { dataptr := d2, ties := some t2, sorting_size := 0,
            col_offset := colStart st c0 + (colStart st (i + 1) - colStart st c0) }
          (by omega) (Nat.le_refl _)
          (by show colStart st c0 + (colStart st (i + 1) - colStart st c0) = colStart st (i + 1)
              rw [colStart_succ]; omega)
          (by show 0 = colStart st (i + 1) - colStart st (i + 1)
              omega)
          (fun c h1 h2 => by omega) (fun _ => rfl)
          (fun h => Option.noConfusion h)
          (fun u hu => by
            have : t2 = u := Option.some.inj hu
            rw [← this]; exact hl2)
        refine ⟨r, r0, r1, ?_⟩
        intro hv hinv
        apply r2 hv (fun h => Option.noConfusion h)
        intro u hu
        have : t2 = u := Option.some.inj hu
        rw [← this]
        exact hinv
      rw [hco, hsz2]
      cases hs : s.ties with
      | none =>
        obtain ⟨f1, f2, f3, f4⟩ := firstSort_facts ext cb st count (colStart st c0)
          (colStart st (i + 1) - colStart st c0) s.dataptr hwin hlt
        obtain ⟨r, r0, r1, r2⟩ := afterSort_spec ext cb st count i c0 _ (firstTies ext count)
          (SortInMemory.columns ext cb st count (List.range' (i + 1) k)) hlay hperm hi hc0 hskip2
          hconst hnext
        refine ⟨r, r0, r1.trans f1, ?_⟩
        intro hv hnone2 _
        have hc00 : c0 = 0 := hnone2 rfl
        apply r2 hv
        · rw [hc00]; rw [hc00] at f4; exact f4
        · intro p hp _
          exact f3 p hp
      | some t =>
        have hl := hsome t hs
        obtain ⟨f1, f3, f4⟩ := SubSort_TiesInv ext cb st count c0 (colStart st c0)
          (colStart st (i + 1) - colStart st c0) s.dataptr t hwin hlt hl
        obtain ⟨r, r0, r1, r2⟩ := afterSort_spec ext cb st count i c0 _ t
          (SortInMemory.columns ext cb st count (List.range' (i + 1) k)) hlay hperm hi hc0 hskip2
          hconst hnext
        refine ⟨r, r0, r1.trans f1, ?_⟩
        intro hv _ hinv
        have h1 := hinv t rfl
        rw [if_pos (by omega)] at h1
        exact r2 hv (f4 hv (fun c hc => hlay.cols c (by omega)) h1) f3

theorem all_constant_false_pos (l : List Bool)
    (h : l.foldl (fun acc c => acc && c) true = false) : 0 < l.length := by
  cases l with
  | nil => exact Bool.noConfusion h
  | cons a l => exact Nat.succ_pos _

theorem foldl_and_false (l : List Bool) : l.foldl (fun acc c => acc && c) false = false := by
  induction l with
  | nil => rfl
  | cons a l ih => simpa using ih

theorem all_constant_cases (l : List Bool) :
    (∀ c, c ∈ l → c = true) ∨ l.foldl (fun acc c => acc && c) true = false := by
  induction l with
  | nil => left; intro c hc; cases hc
  | cons a l ih =>
    cases a
    · right
      simp only [List.foldl_cons, Bool.and_false]
      exact foldl_and_false l
    · rcases ih with h | h
      · left
        intro c hc
        rcases List.mem_cons.mp hc with e | e
        · exact e
        · exact h c e
      · right
        simp only [List.foldl_cons, Bool.and_true]
        exact h

/-- With a key column of variable size, `SortInMemory.sort` returns a block whose rows are the
stamped rows rearranged and, the externals keeping their contract, sorted. -/
theorem sort_mixed_spec (ext : Extern) (cb : ContinuousBlock) (st : SortingState) (d : Buffer)
    (count : Nat) (hlay : KeyLayout ext cb st)
    (hperm : ∀ (lt : Nat → Nat → Bool) (l : List Nat), List.Perm (ext.std_sort lt l) l)
    (hmix : st.CONSTANT_SIZE.foldl (fun acc c => acc && c) true = false) :
    ∃ r, SortInMemory.sort ext cb st d count = .ok r ∧
      List.Perm (rowsAt r st.ENTRY_SIZE 0 count)
        (rowsAt (SortInMemory.stamp d count st) st.ENTRY_SIZE 0 count) ∧
      (ext.Valid → SortedRows ext cb st true count r) := by
  have hpos := all_constant_false_pos _ hmix
  obtain ⟨r, r0, r1, r2⟩ := columns_spec ext cb st count hlay hperm st.CONSTANT_SIZE.length 0 0
    { dataptr := SortInMemory.stamp d count st, ties := none, sorting_size := 0, col_offset := 0 }
    (by omega) (Nat.le_refl _) rfl rfl (fun c h1 h2 => by omega) (fun h => by omega)
    (fun _ => hpos) (fun t h => Option.noConfusion h)
  refine ⟨r, ?_, r1, fun hv => r2 hv (fun _ => rfl) (fun t h => Option.noConfusion h)⟩
  have hval : SortInMemory.sort ext cb st d count =
      SortInMemory.columns ext cb st count (List.range st.CONSTANT_SIZE.length)
        { dataptr := SortInMemory.stamp d count st, ties := none, sorting_size := 0,
          col_offset := 0 } := by
    simp only [SortInMemory.sort, hmix, Bool.false_eq_true, if_false]
  rw [hval, List.range_eq_range']
  exact r0

/-- On either path `SortInMemory.sort` returns a block whose rows are the stamped rows
rearranged. -/
theorem sort_rows_perm (ext : Extern) (cb : ContinuousBlock) (st : SortingState) (d : Buffer)
    (count : Nat) (h8 : 8 ≤ st.ENTRY_SIZE) (hES : st.ENTRY_SIZE < IDX_MOD)
    (hpath : (∀ c, c ∈ st.CONSTANT_SIZE → c = true) ∨
      (1 ≤ count ∧ KeyLayout ext cb st ∧
        ∀ (lt : Nat → Nat → Bool) (l : List Nat), List.Perm (ext.std_sort lt l) l)) :
    ∃ r, SortInMemory.sort ext cb st d count = .ok r ∧
      List.Perm (rowsAt r st.ENTRY_SIZE 0 count)
        (rowsAt (SortInMemory.stamp d count st) st.ENTRY_SIZE 0 count) := by
  rcases all_constant_cases st.CONSTANT_SIZE with hall | hmix
  · exact ⟨_, sort_all_constant ext cb st d count hall h8 hES,
      RadixSort_rows_perm ext.fresh _ 0 count 0 (st.ENTRY_SIZE - 8) st (by omega) (by omega)⟩
  · rcases hpath with hall | ⟨-, hlay, hperm⟩
    · rw [foldl_and_true _ hall] at hmix
      exact Bool.noConfusion hmix
    · obtain ⟨r, r0, r1, -⟩ := sort_mixed_spec ext cb st d count hlay hperm hmix
      exact ⟨r, r0, r1⟩

theorem bytesOf_getD (p : Buffer) (a n i : Nat) (h : i < n) :
    (bytesOf p a n).getD i 0 = p (a + i) := by
  simp [bytesOf, List.getD, List.getElem?_map, List.getElem?_range h]

theorem bytesOf_take (p : Buffer) (a n m : Nat) (h : m ≤ n) :
    (bytesOf p a n).take m = bytesOf p a m := by
  rw [show n = m + (n - m) by omega, bytesOf_add]
  exact List.take_left' (bytesOf_length p a m)

/-- When the rows of `sorted` are the rows of `stamped` rearranged and row `i` of `stamped`
carries the index `i`, the indices of the rows of `sorted` are a permutation of
`0 .. count - 1` and each row holds the key region of the row its index names. -/
theorem rows_index_origin (ES count : Nat) (h8 : 8 ≤ ES) (sorted stamped : Buffer)
    (hperm : List.Perm (rowsAt sorted ES 0 count) (rowsAt stamped ES 0 count))
    (hidx : ∀ i, i < count → Load_idx stamped (i * ES + (ES - 8)) = i) :
    List.Perm ((List.range count).map (fun k => Load_idx sorted (k * ES + (ES - 8))))
      (List.range count) ∧
    ∀ k, k < count →
      bytesOf sorted (k * ES) (ES - 8) =
        bytesOf stamped (Load_idx sorted (k * ES + (ES - 8)) * ES) (ES - 8) := by
  have hf : ∀ (d : Buffer) (k : Nat),
      (fun row : List Byte => (Load_idx (fun a => row.getD a 0) (ES - 8), row.take (ES - 8)))
        (bytesOf d (0 + k * ES) ES) =
      (Load_idx d (k * ES + (ES - 8)), bytesOf d (k * ES) (ES - 8)) := by
    intro d k
    simp only [Nat.zero_add]
    rw [bytesOf_take _ _ _ _ (by omega)]
    congr 1
    apply Load_idx_congr
    intro j hj
    rw [bytesOf_getD _ _ _ _ (by omega), Nat.add_assoc]
  have hmap := hperm.map
    (fun row : List Byte => (Load_idx (fun a => row.getD a 0) (ES - 8), row.take (ES - 8)))
  simp only [rowsAt, List.map_map] at hmap
  have e : ∀ d : Buffer,
      List.map ((fun row : List Byte =>
          (Load_idx (fun a => row.getD a 0) (ES - 8), row.take (ES - 8))) ∘
        fun k => bytesOf d (0 + k * ES) ES) (List.range count) =
      List.map (fun k => (Load_idx d (k * ES + (ES - 8)), bytesOf d (k * ES) (ES - 8)))
        (List.range count) := by
    intro d
    apply List.map_congr_left
    intro k _
    exact hf d k
  rw [e sorted, e stamped] at hmap
  refine ⟨?_, ?_⟩
  · have h1 := hmap.map Prod.fst
    simp only [List.map_map] at h1
    have e2 : List.map (Prod.fst ∘ fun k =>
        (Load_idx stamped (k * ES + (ES - 8)), bytesOf stamped (k * ES) (ES - 8)))
        (List.range count) = List.range count := by
      conv_rhs => rw [← List.map_id (List.range count)]
      apply List.map_congr_left
      intro k hk
      exact hidx k (List.mem_range.mp hk)
    rw [e2] at h1
    exact h1
  · intro k hk
    have hmem : (Load_idx sorted (k * ES + (ES - 8)), bytesOf sorted (k * ES) (ES - 8)) ∈
        List.map (fun k => (Load_idx stamped (k * ES + (ES - 8)), bytesOf stamped (k * ES) (ES - 8)))
          (List.range count) := by
      apply hmap.subset
      exact List.mem_map.mpr ⟨k, List.mem_range.mpr hk, rfl⟩
    obtain ⟨i, hi, hie⟩ := List.mem_map.mp hmem
    have hi2 := List.mem_range.mp hi
    have e1 := congrArg Prod.fst hie
    have e2 := congrArg Prod.snd hie
    simp only at e1 e2
    rw [hidx i hi2] at e1
    rw [← e1, e2]

theorem mixed_of_var_column (l : List Bool) (c : Nat) (hc : c < l.length)
    (h : l.getD c false = false) : l.foldl (fun acc c => acc && c) true = false := by
  rcases all_constant_cases l with hall | hmix
  · have hmem : l.getD c false ∈ l := by
      rw [List.getD_eq_getElem l false hc]
      exact List.getElem_mem hc
    rw [h] at hmem
    exact Bool.noConfusion (hall false hmem)
  · exact hmix

/-- The index that `SortInMemory` stamps into row `i` reads back as `i`. -/
theorem stamp_index (d : Buffer) (count : Nat) (st : SortingState)
    (h8 : 8 ≤ st.ENTRY_SIZE) (hES : st.ENTRY_SIZE < IDX_MOD) (hcount : count < IDX_MOD) :
    ∀ i, i < count →
      Load_idx (SortInMemory.stamp d count st) (i * st.ENTRY_SIZE + (st.ENTRY_SIZE - 8)) = i := by
  intro i hi
  rw [(stamp_spec d count st h8 hES).1 i hi]
  exact Nat.mod_eq_of_lt (by omega)

/-- C3: after `SortInMemory` the trailing index fields of the rows are a permutation of
`0 .. count - 1`, and for every position `k` the key region of sorted row `k` equals the key
region that the input row number `idx_k` (the value in the trailing field of row `k`) had
before sorting. With a key column of variable size this is for `count >= 1` and a key layout
that fits the rows. -/
theorem SortInMemory_index_permutation (ext : Extern) (cb : ContinuousBlock) (st : SortingState)
    (block : RowDataBlock) (hblock : cb.sorting_blocks.getLast? = some block)
    (h8 : sizeof_idx_t ≤ st.ENTRY_SIZE) (hES : st.ENTRY_SIZE < IDX_MOD)
    (hcount : block.count < IDX_MOD)
    (hpath : (∀ c, c ∈ st.CONSTANT_SIZE → c = true) ∨
      (1 ≤ block.count ∧ KeyLayout ext cb st ∧
        ∀ (lt : Nat → Nat → Bool) (l : List Nat), List.Perm (ext.std_sort lt l) l)) :
    ∃ sorted : Buffer,
      SortInMemory ext cb st = .ok { cb with
        sorting_blocks := cb.sorting_blocks.dropLast ++ [{ block with block := sorted }] } ∧
      List.Perm
        ((List.range block.count).map
          (fun k => Load_idx sorted (k * st.ENTRY_SIZE + (st.ENTRY_SIZE - sizeof_idx_t))))
        (List.range block.count) ∧
      ∀ k, k < block.count →
        bytesOf sorted (k * st.ENTRY_SIZE) (st.ENTRY_SIZE - sizeof_idx_t) =
          bytesOf block.block
            (Load_idx sorted (k * st.ENTRY_SIZE + (st.ENTRY_SIZE - sizeof_idx_t)) * st.ENTRY_SIZE)
            (st.ENTRY_SIZE - sizeof_idx_t) := by
  have h8n : 8 ≤ st.ENTRY_SIZE := h8
  obtain ⟨r, r0, r1⟩ := sort_rows_perm ext cb st block.block block.count h8n hES hpath
  obtain ⟨p1, p2⟩ := rows_index_origin st.ENTRY_SIZE block.count h8n r
    (SortInMemory.stamp block.block block.count st) r1
    (stamp_index block.block block.count st h8n hES hcount)
  refine ⟨r, SortInMemory_of_sort ext cb st block r hblock r0, p1, ?_⟩
  intro k hk
  have hkey := (stamp_spec block.block block.count st h8n hES).2.1
  show bytesOf r (k * st.ENTRY_SIZE) (st.ENTRY_SIZE - 8) =
    bytesOf block.block (Load_idx r (k * st.ENTRY_SIZE + (st.ENTRY_SIZE - 8)) * st.ENTRY_SIZE)
      (st.ENTRY_SIZE - 8)
  rw [p2 k hk]
  apply bytesOf_congr
  intro x hx
  exact hkey _ x hx

/-- C2 (amended): with at least one key column of variable size (VARCHAR) and `count >= 1`,
after `SortInMemory` every adjacent pair of rows is in non-decreasing order under the
comparison column by column: the key bytes of a column are compared by `memcmp`, and when the
key bytes of a VARCHAR column are equal, the values are not NULL and the key bytes contain no
padding byte (0 for ascending, 0xFF for descending), the full strings found through the
trailing indices of the rows in the blob and offsets blocks are compared (reversed for
DESC). -/
theorem SortInMemory_varchar_sorted (ext : Extern) (cb : ContinuousBlock) (st : SortingState)
    (block : RowDataBlock) (hblock : cb.sorting_blocks.getLast? = some block)
    (hvalid : ext.Valid)
    (hperm : ∀ (lt : Nat → Nat → Bool) (l : List Nat), List.Perm (ext.std_sort lt l) l)
    (hlay : KeyLayout ext cb st)
    (hvar : ∃ c, c < st.CONSTANT_SIZE.length ∧ st.CONSTANT_SIZE.getD c false = false)
    (_hcount : 1 ≤ block.count) :
    ∃ sorted : Buffer,
      SortInMemory ext cb st = .ok { cb with
        sorting_blocks := cb.sorting_blocks.dropLast ++ [{ block with block := sorted }] } ∧
      ∀ i, i + 1 < block.count →
        rowCompare ext cb st true sorted (i * st.ENTRY_SIZE) ((i + 1) * st.ENTRY_SIZE) ≤ 0 := by
  obtain ⟨c, hc, hcv⟩ := hvar
  obtain ⟨r, r0, -, r2⟩ := sort_mixed_spec ext cb st block.block block.count hlay hperm
    (mixed_of_var_column _ c hc hcv)
  exact ⟨r, SortInMemory_of_sort ext cb st block r hblock r0, r2 hvalid⟩

theorem sampleExtern_perm (lt : Nat → Nat → Bool) (l : List Nat) :
    List.Perm (sampleExtern.std_sort lt l) l :=
  List.perm_insertionSort _ l

theorem sampleExtern_valid : sampleExtern.Valid := by
  refine ⟨?_, ?_, ?_, ?_, ?_⟩
  · intro lt l hsw
    obtain ⟨h1, h2, h3⟩ := hsw
    haveI : IsTotal Nat (fun a b => lt b a = false) := ⟨by
      intro a b
      show lt b a = false ∨ lt a b = false
      cases hab : lt a b
      · exact Or.inr rfl
      · left
        cases hba : lt b a
        · rfl
        · have := h2 a b a hab hba
          rw [h1 a] at this
          exact Bool.noConfusion this⟩
    haveI : IsTrans Nat (fun a b => lt b a = false) := ⟨by
      intro a b c hab hbc
      exact h3 c b a hbc hab⟩
    exact List.sorted_insertionSort (fun a b => lt b a = false) l
  · intro a b
    show decide (a = b) = true ↔ a = b
    exact decide_eq_true_iff
  · intro a
    show decide (a < a) = false
    exact decide_eq_false (lt_irrefl a)
  · intro a b c hab hbc
    have h1 : a < b := of_decide_eq_true hab
    have h2 : b < c := of_decide_eq_true hbc
    exact decide_eq_true (lt_trans h1 h2)
  · intro a b hne
    rcases lt_or_gt_of_ne hne with h | h
    · exact Or.inl (decide_eq_true h)
    · exact Or.inr (decide_eq_true h)

theorem sampleString_layout :
    KeyLayout sampleExtern sampleStringContinuousBlock sampleStringState := by
  refine ⟨by decide, by decide, rfl, ?_, ?_, ?_⟩
  · intro c hc
    have : c = 0 := by
      have : c < 1 := hc
      omega
    subst this
    exact ⟨by decide, fun _ => by decide⟩
  · intro c hc _
    have : c = 0 := by
      have : c < 1 := hc
      omega
    subst this
    rfl
  · intro c hc _
    have : c = 0 := by
      have : c < 1 := hc
      omega
    subst this
    exact ⟨sampleStringChunk, sampleStringBlob, sampleStringOffsets, rfl, rfl, rfl⟩

/-- The result of `SortInMemory.sort` on the block `sampleStringKeys`: the one `RadixSort` of
the stamped block, the tie between its two rows being left as it is. -/
theorem sampleString_sort :
    SortInMemory.sort sampleExtern sampleStringContinuousBlock sampleStringState
        sampleStringKeys.block 2 =
      .ok (RadixSort sampleExtern.fresh
        (SortInMemory.stamp sampleStringKeys.block 2 sampleStringState) 0 2 0 9
        sampleStringState) ∧
    ∀ j, j < 2 → ∀ x, x < 17 →
      RadixSort sampleExtern.fresh
        (SortInMemory.stamp sampleStringKeys.block 2 sampleStringState) 0 2 0 9
        sampleStringState (j * 17 + x) =
      SortInMemory.stamp sampleStringKeys.block 2 sampleStringState (j * 17 + x) := by
  have hrows : ∀ j, j < 2 → ∀ x, x < 17 →
      RadixSort sampleExtern.fresh
        (SortInMemory.stamp sampleStringKeys.block 2 sampleStringState) 0 2 0 9
        sampleStringState (j * 17 + x) =
      SortInMemory.stamp sampleStringKeys.block 2 sampleStringState (j * 17 + x) := by
    intro j hj x hx
    have h := RadixSort_sorted_input sampleExtern.fresh
      (SortInMemory.stamp sampleStringKeys.block 2 sampleStringState) 0 2 0 9 sampleStringState
      (by decide) (by decide) (by
        intro p q hpq hq
        have hp0 : p = 0 := by omega
        have hq1 : q = 1 := by omega
        subst hp0
        subst hq1
        decide) j hj x hx
    simp only [Nat.zero_add] at h
    exact h
  refine ⟨?_, hrows⟩
  have hval : SortInMemory.sort sampleExtern sampleStringContinuousBlock sampleStringState
      sampleStringKeys.block 2 =
      SortInMemory.afterSort sampleExtern sampleStringContinuousBlock sampleStringState 2 0 0 9
        (RadixSort sampleExtern.fresh
          (SortInMemory.stamp sampleStringKeys.block 2 sampleStringState) 0 2 0 9
          sampleStringState, firstTies sampleExtern 2)
        (SortInMemory.columns sampleExtern sampleStringContinuousBlock sampleStringState 2 []) := by
    have hmix : sampleStringState.CONSTANT_SIZE.foldl (fun acc c => acc && c) true = false := rfl
    have hrange : List.range sampleStringState.CONSTANT_SIZE.length = [0] := rfl
    have hskip : ¬ ((sampleStringState.CONSTANT_SIZE.getD 0 false
        && decide (0 < sampleStringState.CONSTANT_SIZE.length - 1)) = true) := by decide
    simp only [SortInMemory.sort, hmix, Bool.false_eq_true, if_false]
    rw [hrange, columns_cons, if_neg hskip]
    rfl
  rw [hval]
  generalize hd1 : RadixSort sampleExtern.fresh
    (SortInMemory.stamp sampleStringKeys.block 2 sampleStringState) 0 2 0 9 sampleStringState = d1
    at hrows
  have hfirst : ¬ ((sampleStringState.CONSTANT_SIZE.getD 0 false
      && decide (0 = sampleStringState.CONSTANT_SIZE.length - 1)) = true) := by decide
  unfold SortInMemory.afterSort
  rw [if_neg hfirst]
  simp only []
  obtain ⟨hct, hctlast⟩ := ComputeTies_spec d1 2 0 9 (firstTies sampleExtern 2) sampleStringState
  have hm : memcmp d1 (0 * sampleStringState.ENTRY_SIZE + 0) d1
      ((0 + 1) * sampleStringState.ENTRY_SIZE + 0) 9 = 0 := by
    have e : memcmp d1 (0 * sampleStringState.ENTRY_SIZE + 0) d1
        ((0 + 1) * sampleStringState.ENTRY_SIZE + 0) 9 =
        memcmp (SortInMemory.stamp sampleStringKeys.block 2 sampleStringState) 0
          (SortInMemory.stamp sampleStringKeys.block 2 sampleStringState) 17 9 := by
      apply memcmp_congr
      · intro k hk
        exact hrows 0 (by decide) k (by omega)
      · intro k hk
        exact hrows 1 (by decide) k (by omega)
    rw [e]
    decide
  have ht10 := hct 0 (by decide)
  rw [hm] at ht10
  have ht10b : ComputeTies d1 2 0 9 (firstTies sampleExtern 2) sampleStringState 0 = true := by
    rw [ht10]; decide
  have ht11 : ComputeTies d1 2 0 9 (firstTies sampleExtern 2) sampleStringState 1 = false :=
    hctlast
  generalize ComputeTies d1 2 0 9 (firstTies sampleExtern 2) sampleStringState = t1
    at ht10b ht11 ⊢
  have hany : AnyTies t1 2 = true := (AnyTies_iff t1 2).mpr ⟨0, by decide, ht10b⟩
  have hguard : (isNullKey sampleStringState 0 d1 (0 * sampleStringState.ENTRY_SIZE) ||
      hasPadding sampleExtern sampleStringState 0 d1 (0 * sampleStringState.ENTRY_SIZE))
      = true := by
    obtain ⟨g1, g2⟩ := guards_of_colBytes sampleExtern sampleStringState 0 d1
      (SortInMemory.stamp sampleStringKeys.block 2 sampleStringState)
      (0 * sampleStringState.ENTRY_SIZE) (0 * sampleStringState.ENTRY_SIZE) rfl
      (sampleString_layout.cols 0 (by decide))
      (fun x hx => hrows 0 (by decide) x (by
        have : x < 9 := hx
        omega))
    rw [g1, g2]
    decide
  have hbs := (BreakStringTies_group sampleExtern d1 0 2 0 t1
    (varBlob sampleStringContinuousBlock 0) (varOffsets sampleStringContinuousBlock 0)
    sampleStringState (by decide) (by decide) sampleExtern_perm).2.2.2.2.1 hguard
  have hbreak : BreakTies sampleExtern sampleStringContinuousBlock t1 d1 2 0 sampleStringState =
      .ok (d1, t1) := by
    rw [BreakTies_eq_loop sampleExtern sampleStringContinuousBlock t1 d1 2 0 sampleStringState
      sampleStringChunk sampleStringBlob sampleStringOffsets rfl rfl rfl]
    have hscan : scanTies t1 2 2 0 = 1 := by
      simp [scanTies, ht10b, ht11]
    have htype : sampleStringState.TYPES.getD 0 PhysicalType.INT32 = PhysicalType.VARCHAR := rfl
    have h02 : (0 : Nat) < 2 := by decide
    have h22 : ¬ ((1 : Nat) + 1 < 2) := by decide
    simp only [BreakTies.loop, h02, ht10b, hscan, htype, hbs, h22, if_true, if_false,
      Bool.not_true, Bool.false_eq_true]
  simp only [hany, hbreak, Bool.not_true, Bool.false_eq_true, if_false]
  rfl

/-- C2 as stated fails on the block `sampleStringKeys`: its two rows have equal key bytes and
are not NULL, the full string `"a\0"` of the first comes after the full string `"a"` of the
second, and `SortInMemory` leaves them in this order. -/
theorem SortInMemory_padded_strings_unsorted :
    ∃ sorted : Buffer,
      SortInMemory sampleExtern sampleStringContinuousBlock sampleStringState =
        .ok { sampleStringContinuousBlock with
          sorting_blocks := sampleStringContinuousBlock.sorting_blocks.dropLast ++
            [{ sampleStringKeys with block := sorted }] } ∧
      ¬ (∀ i, i + 1 < sampleStringKeys.count →
        rowCompare sampleExtern sampleStringContinuousBlock sampleStringState false sorted
          (i * sampleStringState.ENTRY_SIZE) ((i + 1) * sampleStringState.ENTRY_SIZE) ≤ 0) := by
  refine ⟨_, SortInMemory_of_sort sampleExtern sampleStringContinuousBlock sampleStringState
    sampleStringKeys _ rfl sampleString_sort.1, ?_⟩
  intro h
  have h0 := h 0 (by decide)
  have e : rowCompare sampleExtern sampleStringContinuousBlock sampleStringState false
      (RadixSort sampleExtern.fresh
        (SortInMemory.stamp sampleStringKeys.block 2 sampleStringState) 0 2 0 9
        sampleStringState)
      (0 * sampleStringState.ENTRY_SIZE) ((0 + 1) * sampleStringState.ENTRY_SIZE) =
      rowCompare sampleExtern sampleStringContinuousBlock sampleStringState false
        (SortInMemory.stamp sampleStringKeys.block 2 sampleStringState) 0 17 :=
    rowCompareUpTo_congr sampleExtern sampleStringContinuousBlock sampleStringState false _ _
      _ _ _ _ _ (fun c hc => sampleString_layout.cols c hc)
      (fun x hx => sampleString_sort.2 0 (by decide) x hx)
      (fun x hx => sampleString_sort.2 1 (by decide) x hx)
  rw [e] at h0
  have h1 : rowCompare sampleExtern sampleStringContinuousBlock sampleStringState false
      (SortInMemory.stamp sampleStringKeys.block 2 sampleStringState) 0 17 = 1 := by decide
  rw [h1] at h0
  exact absurd h0 (by decide)

theorem SortInMemory_varchar_sorted_witness :
    ∃ sorted : Buffer,
      SortInMemory sampleExtern sampleStringContinuousBlock sampleStringState =
        .ok { sampleStringContinuousBlock with
          sorting_blocks := sampleStringContinuousBlock.sorting_blocks.dropLast ++
            [{ sampleStringKeys with block := sorted }] } ∧
      ∀ i, i + 1 < sampleStringKeys.count →
        rowCompare sampleExtern sampleStringContinuousBlock sampleStringState true sorted
          (i * sampleStringState.ENTRY_SIZE) ((i + 1) * sampleStringState.ENTRY_SIZE) ≤ 0 :=
  SortInMemory_varchar_sorted sampleExtern sampleStringContinuousBlock sampleStringState
    sampleStringKeys rfl sampleExtern_valid sampleExtern_perm sampleString_layout
    ⟨0, by decide, rfl⟩ (by decide)

theorem SortInMemory_index_permutation_witness :
    ∃ sorted : Buffer,
      SortInMemory sampleExtern sampleStringContinuousBlock sampleStringState =
        .ok { sampleStringContinuousBlock with
          sorting_blocks := sampleStringContinuousBlock.sorting_blocks.dropLast ++
            [{ sampleStringKeys with block := sorted }] } ∧
      List.Perm
        ((List.range sampleStringKeys.count).map
          (fun k => Load_idx sorted
            (k * sampleStringState.ENTRY_SIZE + (sampleStringState.ENTRY_SIZE - sizeof_idx_t))))
        (List.range sampleStringKeys.count) ∧
      ∀ k, k < sampleStringKeys.count →
        bytesOf sorted (k * sampleStringState.ENTRY_SIZE)
            (sampleStringState.ENTRY_SIZE - sizeof_idx_t) =
          bytesOf sampleStringKeys.block
            (Load_idx sorted (k * sampleStringState.ENTRY_SIZE +
              (sampleStringState.ENTRY_SIZE - sizeof_idx_t)) * sampleStringState.ENTRY_SIZE)
            (sampleStringState.ENTRY_SIZE - sizeof_idx_t) :=
  SortInMemory_index_permutation sampleExtern sampleStringContinuousBlock sampleStringState
    sampleStringKeys rfl (by decide) (by decide) (by decide)
    (Or.inr ⟨by decide, sampleString_layout, sampleExtern_perm⟩)

theorem claim_entry_idx (VS count : Nat) (ps : OrderParallelState) (hc : count < IDX_MOD)
    (he : ps.entry_idx ≤ count) :
    (OrderParallelState.claim VS count ps).1 = ps.entry_idx ∧
    (OrderParallelState.claim VS count ps).2.1 = min VS (count - ps.entry_idx) ∧
    (OrderParallelState.claim VS count ps).2.2.entry_idx =
      ps.entry_idx + min VS (count - ps.entry_idx) := by
  have hsub : (count + IDX_MOD - ps.entry_idx) % IDX_MOD = count - ps.entry_idx := by
    rw [show count + IDX_MOD - ps.entry_idx = (count - ps.entry_idx) + IDX_MOD by omega,
      Nat.add_mod_right]
    exact Nat.mod_eq_of_lt (by omega)
  refine ⟨rfl, ?_, ?_⟩
  · show min VS ((count + IDX_MOD - ps.entry_idx) % IDX_MOD) = _
    rw [hsub]
  · show (ps.entry_idx + min VS ((count + IDX_MOD - ps.entry_idx) % IDX_MOD)) % IDX_MOD = _
    rw [hsub]
    exact Nat.mod_eq_of_lt (by omega)

/-- The cursor after `n` claims is `min (n * VS) count`. -/
theorem claimsAfter_entry_idx (VS count : Nat) (hc : count < IDX_MOD) :
    ∀ n, (claimsAfter VS count n).entry_idx = min (n * VS) count := by
  intro n
  induction n with
  | zero => simp [claimsAfter, GetParallelState]
  | succ n ih =>
    have he : (claimsAfter VS count n).entry_idx ≤ count := by rw [ih]; omega
    have := (claim_entry_idx VS count _ hc he).2.2
    show (OrderParallelState.claim VS count (claimsAfter VS count n)).2.2.entry_idx = _
    rw [this, ih, Nat.succ_mul]
    omega

theorem claimedRange_eq (VS count : Nat) (hc : count < IDX_MOD) (n : Nat) :
    claimedRange VS count n = (min (n * VS) count, min VS (count - min (n * VS) count)) := by
  have he : (claimsAfter VS count n).entry_idx ≤ count := by
    rw [claimsAfter_entry_idx VS count hc]; omega
  obtain ⟨h1, h2, -⟩ := claim_entry_idx VS count _ hc he
  unfold claimedRange
  rw [h1, h2, claimsAfter_entry_idx VS count hc]

theorem min_mul_mono (VS count m n : Nat) (h : m ≤ n) : min (m * VS) count ≤ min (n * VS) count := by
  have := Nat.mul_le_mul_right VS h
  omega

/-- The claim step, iterated from `entry_idx = 0`: the cursor never passes `count`, the claimed
ranges are contiguous, pairwise disjoint and inside `[0, count)`, and once the cursor has
reached `count` they cover `[0, count)` and every later claim is empty. -/
theorem claim_ranges_spec (VS count : Nat) (hc : count < IDX_MOD) :
    (∀ n, (claimsAfter VS count n).entry_idx ≤ count) ∧
    (claimedRange VS count 0).1 = 0 ∧
    (∀ n, (claimedRange VS count (n + 1)).1 =
      (claimedRange VS count n).1 + (claimedRange VS count n).2) ∧
    (∀ n, (claimsAfter VS count (n + 1)).entry_idx =
      (claimedRange VS count n).1 + (claimedRange VS count n).2) ∧
    (∀ m n, m < n →
      (claimedRange VS count m).1 + (claimedRange VS count m).2 ≤ (claimedRange VS count n).1) ∧
    (∀ n, (claimedRange VS count n).1 + (claimedRange VS count n).2 ≤ count) ∧
    (∀ n, (claimsAfter VS count n).entry_idx = count →
      (∀ i, i < count → ∃ m, m < n ∧ (claimedRange VS count m).1 ≤ i ∧
        i < (claimedRange VS count m).1 + (claimedRange VS count m).2) ∧
      (∀ m, n ≤ m → (claimedRange VS count m).2 = 0)) := by
  have hstep : ∀ n, min (n * VS) count + min VS (count - min (n * VS) count) =
      min ((n + 1) * VS) count := by
    intro n
    rw [Nat.succ_mul]
    omega
  refine ⟨?_, ?_, ?_, ?_, ?_, ?_, ?_⟩
  · intro n
    rw [claimsAfter_entry_idx VS count hc]; omega
  · rw [claimedRange_eq VS count hc]; simp
  · intro n
    rw [claimedRange_eq VS count hc, claimedRange_eq VS count hc]
    exact (hstep n).symm
  · intro n
    rw [claimsAfter_entry_idx VS count hc, claimedRange_eq VS count hc]
    exact (hstep n).symm
  · intro m n hmn
    rw [claimedRange_eq VS count hc, claimedRange_eq VS count hc]
    show min (m * VS) count + min VS (count - min (m * VS) count) ≤ min (n * VS) count
    rw [hstep m]
    exact min_mul_mono VS count (m + 1) n hmn
  · intro n
    rw [claimedRange_eq VS count hc]
    show min (n * VS) count + min VS (count - min (n * VS) count) ≤ count
    omega
  · intro n hn
    rw [claimsAfter_entry_idx VS count hc] at hn
    refine ⟨?_, ?_⟩
    · have hcov : ∀ k i, i < min (k * VS) count → ∃ m, m < k ∧
          (claimedRange VS count m).1 ≤ i ∧
          i < (claimedRange VS count m).1 + (claimedRange VS count m).2 := by
        intro k
        induction k with
        | zero =>
          intro i hi
          simp at hi
        | succ k ih =>
          intro i hi
          by_cases hik : i < min (k * VS) count
          · obtain ⟨m, hm, h1, h2⟩ := ih i hik
            exact ⟨m, by omega, h1, h2⟩
          · refine ⟨k, Nat.lt_succ_self k, ?_, ?_⟩
            · rw [claimedRange_eq VS count hc]
              show min (k * VS) count ≤ i
              omega
            · rw [claimedRange_eq VS count hc]
              show i < min (k * VS) count + min VS (count - min (k * VS) count)
              rw [hstep k]
              exact hi
      intro i hi
      exact hcov n i (by rw [hn]; exact hi)
    · intro m hm
      rw [claimedRange_eq VS count hc]
      show min VS (count - min (m * VS) count) = 0
      have := min_mul_mono VS count n m hm
      omega

/-- What `Scan` returns to a state of a sequential or parallel scan whose buffers are pinned:
nothing changes when `offset` is past the run, otherwise the chunk gets `next` rows. -/
theorem Scan_cardinality (chunk : Nat) (s : PhysicalOrderOperatorState) (ps : PayloadState)
    (offset next : Nat)
    (hpin : offset < s.count → s.payload_handle.isSome = true ∧
      (ps.HAS_VARIABLE_SIZE = true → s.offsets_handle.isSome = true)) :
    ∃ s2, Scan chunk s ps offset next = some (if offset < s.count then next else chunk, s2) ∧
      s2.initialized = s.initialized ∧ s2.parallel_state = s.parallel_state ∧
      s2.count = s.count ∧ s2.entry_idx = s.entry_idx ∧
      s2.payload_handle = s.payload_handle ∧ s2.offsets_handle = s.offsets_handle := by
  by_cases hoff : offset < s.count
  · obtain ⟨hp, ho⟩ := hpin hoff
    obtain ⟨pb, hpb⟩ := Option.isSome_iff_exists.mp hp
    have hge : ¬ offset ≥ s.count := by omega
    cases hv : ps.HAS_VARIABLE_SIZE
    · apply Exists.intro
      refine ⟨?_, ?_, ?_, ?_, ?_, ?_, ?_⟩
      · simp only [Scan, hge, hpb, hv, hoff, if_true, if_false, Bool.false_eq_true]
        rfl
      all_goals first | rfl | exact hpb.symm
    · obtain ⟨ob, hob⟩ := Option.isSome_iff_exists.mp (ho hv)
      apply Exists.intro
      refine ⟨?_, ?_, ?_, ?_, ?_, ?_, ?_⟩
      · simp only [Scan, hge, hpb, hob, hv, hoff, if_true, if_false]
        rfl
      all_goals first | rfl | exact hpb.symm | exact hob.symm
  · have hge : offset ≥ s.count := by omega
    refine ⟨s, ?_, rfl, rfl, rfl, rfl, rfl, rfl⟩
    simp only [Scan, hge, hoff, if_true, if_false]

theorem sub_mod_idx_lt (c e : Nat) (hc : c < IDX_MOD) (he : e < c) :
    (c + IDX_MOD - e) % IDX_MOD = c - e := by
  rw [show c + IDX_MOD - e = (c - e) + IDX_MOD by omega, Nat.add_mod_right]
  exact Nat.mod_eq_of_lt (by omega)

/-- One call of `GetChunkInternal` in a sequential scan. -/
theorem GetChunkInternal_seq_step (VS : Nat) (op : PhysicalOrder) (g : OrderGlobalState)
    (cb : ContinuousBlock) (c e : Nat) (s : PhysicalOrderOperatorState)
    (hop : op.sink_state = some g) (hcb : g.sorted_blocks.getLast? = some cb)
    (hc : c < IDX_MOD) (hinv : SeqInv g.payload_state c e s) :
    ∃ s2, GetChunkInternal VS op none 0 s =
        some (if e < c then min VS (c - e) else 0, s2, none) ∧
      SeqInv g.payload_state c ((e + VS) % IDX_MOD) s2 := by
  obtain ⟨h1, h2, h3, h4, h5⟩ := hinv
  obtain ⟨s2, k0, k1, k2, k3, k4, k5, k6⟩ := Scan_cardinality 0 s g.payload_state s.entry_idx
    (min VS ((s.count + IDX_MOD - s.entry_idx) % IDX_MOD))
    (fun h => h5 (by omega))
  refine ⟨{ s2 with entry_idx := (s2.entry_idx + VS) % IDX_MOD }, ?_, ?_⟩
  · simp only [GetChunkInternal, hop, hcb, h1, h2, k0, Bool.not_true, Bool.false_eq_true,
      if_false, Bool.not_false, if_true]
    rw [h3, h4]
    by_cases hec : e < c
    · simp only [hec, if_true]
      rw [sub_mod_idx_lt c e hc hec]
    · simp only [hec, if_false]
  · refine ⟨by rw [← h1]; exact k1, by rw [← h2]; exact k2, by rw [← h3]; exact k3, ?_, ?_⟩
    · show (s2.entry_idx + VS) % IDX_MOD = (e + VS) % IDX_MOD
      rw [k4, h4]
    · intro hpos
      show s2.payload_handle.isSome = true ∧ _
      rw [k5, k6]
      exact h5 hpos

/-- The first call of `GetChunkInternal` on a fresh operator state initializes it and then
proceeds as a call on the initialized state. -/
theorem GetChunkInternal_first (VS : Nat) (op : PhysicalOrder) (g : OrderGlobalState)
    (cb : ContinuousBlock) (sb : RowDataBlock) (loc : Nat → Nat)
    (hop : op.sink_state = some g) (hcb : g.sorted_blocks.getLast? = some cb)
    (hsb : cb.sorting_blocks.getLast? = some sb)
    (hpay : 0 < sb.count → cb.payload_chunk.data_blocks.getLast?.isSome = true ∧
      (g.payload_state.HAS_VARIABLE_SIZE = true →
        cb.payload_chunk.offset_blocks.getLast?.isSome = true)) :
    ∃ s1, SeqInv g.payload_state sb.count 0 s1 ∧
      GetChunkInternal VS op none 0 (GetOperatorState loc) = GetChunkInternal VS op none 0 s1 := by
  by_cases hpos : 0 < sb.count
  · obtain ⟨hd, ho⟩ := hpay hpos
    obtain ⟨db, hdb⟩ := Option.isSome_iff_exists.mp hd
    cases hv : g.payload_state.HAS_VARIABLE_SIZE
    · refine ⟨{ GetOperatorState loc with
        count := sb.count, payload_handle := some db.block,
        parallel_state := false, initialized := true }, ⟨rfl, rfl, rfl, rfl, ?_⟩, ?_⟩
      · intro _
        refine ⟨rfl, ?_⟩
        intro h
        rw [hv] at h
        exact Bool.noConfusion h
      · simp only [GetChunkInternal, hop, hcb, hsb, hdb, hv, hpos, GetOperatorState,
          Bool.not_false, Bool.not_true, if_true, if_false, Bool.false_eq_true, gt_iff_lt,
          Option.map_some', Option.isSome_none]
    · obtain ⟨ob, hob⟩ := Option.isSome_iff_exists.mp (ho hv)
      refine ⟨{ GetOperatorState loc with
        count := sb.count, payload_handle := some db.block, offsets_handle := some ob.block,
        parallel_state := false, initialized := true }, ⟨rfl, rfl, rfl, rfl, ?_⟩, ?_⟩
      · intro _
        exact ⟨rfl, fun _ => rfl⟩
      · simp only [GetChunkInternal, hop, hcb, hsb, hdb, hob, hv, hpos, GetOperatorState,
          Bool.not_false, Bool.not_true, if_true, if_false, Bool.false_eq_true, gt_iff_lt,
          Option.map_some', Option.isSome_none]
  · refine ⟨{ GetOperatorState loc with
      count := sb.count, parallel_state := false, initialized := true },
      ⟨rfl, rfl, rfl, rfl, ?_⟩, ?_⟩
    · intro h
      exact absurd h hpos
    · simp only [GetChunkInternal, hop, hcb, hsb, hpos, GetOperatorState,
        Bool.not_false, Bool.not_true, if_true, if_false, Bool.false_eq_true, gt_iff_lt,
        Option.map_some', Option.isSome_none]

theorem range_succ_map_add (f : Nat → Nat) (n k : Nat) :
    (List.range (n + 1)).map (fun j => f (k + j)) =
      f k :: (List.range n).map (fun j => f (k + 1 + j)) := by
  rw [List.range_succ_eq_map, List.map_cons, List.map_map]
  congr 1
  apply List.map_congr_left
  intro j _
  show f (k + (j + 1)) = f (k + 1 + j)
  congr 1
  omega

/-- Successive sequential calls from an initialized state with its cursor at `k * VS`. -/
theorem sequentialChunks_from (VS : Nat) (op : PhysicalOrder) (g : OrderGlobalState)
    (cb : ContinuousBlock) (c : Nat)
    (hop : op.sink_state = some g) (hcb : g.sorted_blocks.getLast? = some cb)
    (hc : c < IDX_MOD) :
    ∀ n k s, SeqInv g.payload_state c (k * VS) s → (k + n) * VS < IDX_MOD →
      ∃ s2, sequentialChunks VS op n s =
        some ((List.range n).map (fun j => batchSize VS c (k + j)), s2) := by
  intro n
  induction n with
  | zero =>
    intro k s _ _
    exact ⟨s, rfl⟩
  | succ n ih =>
    intro k s hinv hk
    obtain ⟨s1, h1, h2⟩ := GetChunkInternal_seq_step VS op g cb c (k * VS) s hop hcb hc hinv
    have hk1 : (k + 1) * VS ≤ (k + (n + 1)) * VS := Nat.mul_le_mul_right VS (by omega)
    have he : (k * VS + VS) % IDX_MOD = (k + 1) * VS := by
      rw [Nat.succ_mul]
      apply Nat.mod_eq_of_lt
      rw [Nat.succ_mul] at hk1
      omega
    rw [he] at h2
    obtain ⟨s2, h3⟩ := ih (k + 1) s1 h2 (by rw [show k + 1 + n = k + (n + 1) by omega]; exact hk)
    refine ⟨s2, ?_⟩
    rw [range_succ_map_add]
    simp only [sequentialChunks, h1, h3]
    rfl

theorem batchSize_sum (VS c : Nat) :
    ∀ n, ((List.range n).map (batchSize VS c)).sum = min (n * VS) c := by
  intro n
  induction n with
  | zero => simp
  | succ n ih =>
    rw [List.range_succ, List.map_append, List.sum_append, ih]
    simp only [List.map_cons, List.map_nil, List.sum_cons, List.sum_nil, Nat.add_zero, batchSize]
    rw [Nat.succ_mul]
    split <;> omega

/-- A sequential scan of the last run: `n` successive calls of `GetChunkInternal` on a fresh
operator state return chunks of `batchSize` rows, which add up to `min (n * VS) count`. -/
theorem sequential_scan_spec (VS : Nat) (op : PhysicalOrder) (g : OrderGlobalState)
    (cb : ContinuousBlock) (sb : RowDataBlock) (loc : Nat → Nat) (n : Nat)
    (hop : op.sink_state = some g) (hcb : g.sorted_blocks.getLast? = some cb)
    (hsb : cb.sorting_blocks.getLast? = some sb)
    (hpay : 0 < sb.count → cb.payload_chunk.data_blocks.getLast?.isSome = true ∧
      (g.payload_state.HAS_VARIABLE_SIZE = true →
        cb.payload_chunk.offset_blocks.getLast?.isSome = true))
    (hc : sb.count < IDX_MOD) (hn : n * VS < IDX_MOD) :
    ∃ s2, sequentialChunks VS op n (GetOperatorState loc) =
        some ((List.range n).map (batchSize VS sb.count), s2) ∧
      ((List.range n).map (batchSize VS sb.count)).sum = min (n * VS) sb.count := by
  refine Exists.imp (fun s2 h => ⟨h, batchSize_sum VS sb.count n⟩) ?_
  cases n with
  | zero => exact ⟨_, rfl⟩
  | succ n =>
    obtain ⟨s1, h1, h2⟩ := GetChunkInternal_first VS op g cb sb loc hop hcb hsb hpay
    have heq : sequentialChunks VS op (n + 1) (GetOperatorState loc) =
        sequentialChunks VS op (n + 1) s1 := by
      simp only [sequentialChunks, h2]
    rw [heq]
    have h0 : SeqInv g.payload_state sb.count (0 * VS) s1 := by rw [Nat.zero_mul]; exact h1
    obtain ⟨s2, h3⟩ := sequentialChunks_from VS op g cb sb.count hop hcb hc (n + 1) 0 s1 h0
      (by rw [Nat.zero_add]; exact hn)
    refine ⟨s2, ?_⟩
    rw [h3]
    congr 2
    apply List.map_congr_left
    intro j _
    rw [Nat.zero_add]

/-- The loops of `Scan` that fill the two arrays of locations. -/
theorem locations_loop (f : Nat → Nat) (vms next : Nat)
    (body : Nat → (Nat → Nat) × (Nat → Nat) → (Nat → Nat) × (Nat → Nat))
    (hbody : ∀ i s, body i s =
      ((fun v => if v = i then f i else s.1 v), (fun v => if v = i then f i + vms else s.2 v)))
    (init : (Nat → Nat) × (Nat → Nat)) :
    (∀ j, j < next → (forUp next body init).1 j = f j ∧ (forUp next body init).2 j = f j + vms) ∧
    (∀ j, next ≤ j → (forUp next body init).1 j = init.1 j ∧
      (forUp next body init).2 j = init.2 j) := by
  refine forUp_inv
    (fun k (s : (Nat → Nat) × (Nat → Nat)) =>
      (∀ j, j < k → s.1 j = f j ∧ s.2 j = f j + vms) ∧
      (∀ j, k ≤ j → s.1 j = init.1 j ∧ s.2 j = init.2 j))
    body init next ⟨fun j hj => absurd hj (Nat.not_lt_zero j), fun j _ => ⟨rfl, rfl⟩⟩ ?_
  intro k st _ ⟨h1, h2⟩
  rw [hbody]
  refine ⟨?_, ?_⟩
  · intro j hj
    by_cases hjk : j = k
    · subst hjk
      simp
    · have := h1 j (by omega)
      simp only [hjk, if_false]
      exact this
  · intro j hj
    have hjk : j ≠ k := by omega
    have := h2 j (by omega)
    simp only [hjk, if_false]
    exact this

/-- The locations that `Scan` computes for a range that starts inside the run: for a payload
of constant size every row gets the base of the payload buffer, for a payload of variable
size row `j` of the range gets `offsets[j]`; the offset of the range is not used. -/
theorem Scan_locations (chunk : Nat) (s : PhysicalOrderOperatorState) (ps : PayloadState)
    (offset next : Nat) (pb ob : Buffer) (hoff : offset < s.count)
    (hpb : s.payload_handle = some pb)
    (hob : ps.HAS_VARIABLE_SIZE = true → s.offsets_handle = some ob) :
    ∃ s2, Scan chunk s ps offset next = some (next, s2) ∧
      ∀ j, j < next →
        s2.validitymask_locations j = (if ps.HAS_VARIABLE_SIZE then offsetAt ob j else 0) ∧
        s2.key_locations j =
          (if ps.HAS_VARIABLE_SIZE then offsetAt ob j else 0) + ps.VALIDITYMASK_SIZE := by
  have hge : ¬ offset ≥ s.count := by omega
  cases hv : ps.HAS_VARIABLE_SIZE
  · apply Exists.intro
    refine ⟨?_, ?_⟩
    · simp only [Scan, hge, hpb, hv, if_false, Bool.false_eq_true]
      rfl
    · intro j hj
      simp only [Bool.false_eq_true, if_false]
      exact (locations_loop (fun _ => 0) ps.VALIDITYMASK_SIZE next _ (fun i s => rfl)
        (s.validitymask_locations, s.key_locations)).1 j hj
  · have hob2 := hob hv
    apply Exists.intro
    refine ⟨?_, ?_⟩
    · simp only [Scan, hge, hpb, hob2, hv, if_true, if_false]
      rfl
    · intro j hj
      simp only [if_true]
      exact (locations_loop (fun i => offsetAt ob i) ps.VALIDITYMASK_SIZE next _ (fun i s => rfl)
        (s.validitymask_locations, s.key_locations)).1 j hj

/-- The claim step computes what its three assignments say, and iterated from `entry_idx = 0`
with a positive vector size it makes progress: a claim made while the cursor is below `count`
is not empty, the cursor is `count` after `n` claims as soon as `count <= n * VECTOR_SIZE`, and
every row number below `count` lies in exactly one claimed range. -/
theorem claim_progress (VS count : Nat) (hc : count < IDX_MOD) :
    (∀ ps : OrderParallelState, ps.entry_idx ≤ count →
      (OrderParallelState.claim VS count ps).1 = ps.entry_idx ∧
      (OrderParallelState.claim VS count ps).2.1 = min VS (count - ps.entry_idx) ∧
      (OrderParallelState.claim VS count ps).2.2.entry_idx =
        ps.entry_idx + min VS (count - ps.entry_idx)) ∧
    (∀ n, (claimsAfter VS count n).entry_idx = min (n * VS) count) ∧
    (∀ n, claimedRange VS count n =
      (min (n * VS) count, min VS (count - min (n * VS) count))) ∧
    (0 < VS →
      (∀ n, (claimsAfter VS count n).entry_idx < count → 0 < (claimedRange VS count n).2) ∧
      (∀ n, count ≤ n * VS → (claimsAfter VS count n).entry_idx = count) ∧
      (claimsAfter VS count count).entry_idx = count ∧
      (∀ i, i < count → ∃ m, m < count ∧
        ((claimedRange VS count m).1 ≤ i ∧
          i < (claimedRange VS count m).1 + (claimedRange VS count m).2) ∧
        ∀ k, ((claimedRange VS count k).1 ≤ i ∧
          i < (claimedRange VS count k).1 + (claimedRange VS count k).2) → k = m)) := by
  have hspec := claim_ranges_spec VS count hc
  refine ⟨fun ps he => claim_entry_idx VS count ps hc he, claimsAfter_entry_idx VS count hc,
    claimedRange_eq VS count hc, ?_⟩
  intro hVS
  have hreach : ∀ n, count ≤ n * VS → (claimsAfter VS count n).entry_idx = count := by
    intro n hn
    rw [claimsAfter_entry_idx VS count hc]
    omega
  have hcc : count ≤ count * VS := Nat.le_mul_of_pos_right count hVS
  refine ⟨?_, hreach, hreach count hcc, ?_⟩
  · intro n hn
    rw [claimsAfter_entry_idx VS count hc] at hn
    rw [claimedRange_eq VS count hc]
    show 0 < min VS (count - min (n * VS) count)
    omega
  · intro i hi
    obtain ⟨m, hm, h1, h2⟩ := (hspec.2.2.2.2.2.2 count (hreach count hcc)).1 i hi
    refine ⟨m, hm, ⟨h1, h2⟩, ?_⟩
    intro k hk
    have hdis := hspec.2.2.2.2.1
    by_contra hne
    rcases Nat.lt_or_gt_of_ne hne with hlt | hgt
    · have := hdis k m hlt
      omega
    · have := hdis m k hgt
      omega

/-- C12 (parallel emit coverage): the claim step run under the lock is `offset := entry_idx;
next := min(VECTOR_SIZE, count - offset); entry_idx := entry_idx + next` (from every cursor
`entry_idx <= count`, without wraparound). Iterated from `entry_idx = 0`, the cursor after `n`
claims is `min(n * VECTOR_SIZE, count)`, so `entry_idx <= count` always holds; claim `n` is the
range `[min(n * VECTOR_SIZE, count), min((n + 1) * VECTOR_SIZE, count))`; successive claimed
ranges `[offset, offset + next)` are contiguous, pairwise disjoint and inside `[0, count)`;
their union after the cursor has reached `count` is exactly `[0, count)`, and every later claim
is empty. With a positive `VECTOR_SIZE` the cursor does reach `count`: every claim made before
is not empty, the cursor is `count` after `n` claims whenever `count <= n * VECTOR_SIZE`, and
every row number below `count` lies in exactly one claimed range. -/
theorem claim_parallel_coverage (STANDARD_VECTOR_SIZE count : Nat) (hc : count < IDX_MOD) :
    ((∀ n, (claimsAfter STANDARD_VECTOR_SIZE count n).entry_idx ≤ count) ∧
    (claimedRange STANDARD_VECTOR_SIZE count 0).1 = 0 ∧
    (∀ n, (claimedRange STANDARD_VECTOR_SIZE count (n + 1)).1 =
      (claimedRange STANDARD_VECTOR_SIZE count n).1 +
        (claimedRange STANDARD_VECTOR_SIZE count n).2) ∧
    (∀ n, (claimsAfter STANDARD_VECTOR_SIZE count (n + 1)).entry_idx =
      (claimedRange STANDARD_VECTOR_SIZE count n).1 +
        (claimedRange STANDARD_VECTOR_SIZE count n).2) ∧
    (∀ m n, m < n →
      (claimedRange STANDARD_VECTOR_SIZE count m).1 +
        (claimedRange STANDARD_VECTOR_SIZE count m).2 ≤
      (claimedRange STANDARD_VECTOR_SIZE count n).1) ∧
    (∀ n, (claimedRange STANDARD_VECTOR_SIZE count n).1 +
      (claimedRange STANDARD_VECTOR_SIZE count n).2 ≤ count) ∧
    (∀ n, (claimsAfter STANDARD_VECTOR_SIZE count n).entry_idx = count →
      (∀ i, i < count → ∃ m, m < n ∧ (claimedRange STANDARD_VECTOR_SIZE count m).1 ≤ i ∧
        i < (claimedRange STANDARD_VECTOR_SIZE count m).1 +
          (claimedRange STANDARD_VECTOR_SIZE count m).2) ∧
      (∀ m, n ≤ m → (claimedRange STANDARD_VECTOR_SIZE count m).2 = 0))) ∧
    ((∀ ps : OrderParallelState, ps.entry_idx ≤ count →
      (OrderParallelState.claim STANDARD_VECTOR_SIZE count ps).1 = ps.entry_idx ∧
      (OrderParallelState.claim STANDARD_VECTOR_SIZE count ps).2.1 =
        min STANDARD_VECTOR_SIZE (count - ps.entry_idx) ∧
      (OrderParallelState.claim STANDARD_VECTOR_SIZE count ps).2.2.entry_idx =
        ps.entry_idx + min STANDARD_VECTOR_SIZE (count - ps.entry_idx)) ∧
    (∀ n, (claimsAfter STANDARD_VECTOR_SIZE count n).entry_idx =
      min (n * STANDARD_VECTOR_SIZE) count) ∧
    (∀ n, claimedRange STANDARD_VECTOR_SIZE count n =
      (min (n * STANDARD_VECTOR_SIZE) count,
        min STANDARD_VECTOR_SIZE (count - min (n * STANDARD_VECTOR_SIZE) count))) ∧
    (0 < STANDARD_VECTOR_SIZE →
      (∀ n, (claimsAfter STANDARD_VECTOR_SIZE count n).entry_idx < count →
        0 < (claimedRange STANDARD_VECTOR_SIZE count n).2) ∧
      (∀ n, count ≤ n * STANDARD_VECTOR_SIZE →
        (claimsAfter STANDARD_VECTOR_SIZE count n).entry_idx = count) ∧
      (claimsAfter STANDARD_VECTOR_SIZE count count).entry_idx = count ∧
      (∀ i, i < count → ∃ m, m < count ∧
        ((claimedRange STANDARD_VECTOR_SIZE count m).1 ≤ i ∧
          i < (claimedRange STANDARD_VECTOR_SIZE count m).1 +
            (claimedRange STANDARD_VECTOR_SIZE count m).2) ∧
        ∀ k, ((claimedRange STANDARD_VECTOR_SIZE count k).1 ≤ i ∧
          i < (claimedRange STANDARD_VECTOR_SIZE count k).1 +
            (claimedRange STANDARD_VECTOR_SIZE count k).2) → k = m))) :=
  ⟨claim_ranges_spec STANDARD_VECTOR_SIZE count hc, claim_progress STANDARD_VECTOR_SIZE count hc⟩

theorem claim_parallel_coverage_witness :
    2500 < IDX_MOD ∧
    (claimedRange 1024 2500 0 = (0, 1024) ∧ claimedRange 1024 2500 1 = (1024, 1024) ∧
      claimedRange 1024 2500 2 = (2048, 452) ∧ claimedRange 1024 2500 3 = (2500, 0)) ∧
    (claimsAfter 1024 2500 3).entry_idx = 2500 ∧
    (∀ n, (claimsAfter 1024 2500 n).entry_idx ≤ 2500) ∧
    (∀ m n, m < n →
      (claimedRange 1024 2500 m).1 + (claimedRange 1024 2500 m).2 ≤
      (claimedRange 1024 2500 n).1) ∧
    ((∀ i, i < 2500 → ∃ m, m < 3 ∧ (claimedRange 1024 2500 m).1 ≤ i ∧
        i < (claimedRange 1024 2500 m).1 + (claimedRange 1024 2500 m).2) ∧
      (∀ m, 3 ≤ m → (claimedRange 1024 2500 m).2 = 0)) ∧
    (∀ i, i < 2500 → ∃ m, m < 2500 ∧
      ((claimedRange 1024 2500 m).1 ≤ i ∧
        i < (claimedRange 1024 2500 m).1 + (claimedRange 1024 2500 m).2) ∧
      ∀ k, ((claimedRange 1024 2500 k).1 ≤ i ∧
        i < (claimedRange 1024 2500 k).1 + (claimedRange 1024 2500 k).2) → k = m) :=
  ⟨by decide,
   ⟨(claim_parallel_coverage 1024 2500 (by decide)).2.2.2.1 0,
    (claim_parallel_coverage 1024 2500 (by decide)).2.2.2.1 1,
    (claim_parallel_coverage 1024 2500 (by decide)).2.2.2.1 2,
    (claim_parallel_coverage 1024 2500 (by decide)).2.2.2.1 3⟩,
   ((claim_parallel_coverage 1024 2500 (by decide)).2.2.2.2 (by decide)).2.1 3 (by decide),
   (claim_parallel_coverage 1024 2500 (by decide)).1.1,
   (claim_parallel_coverage 1024 2500 (by decide)).1.2.2.2.2.1,
   (claim_parallel_coverage 1024 2500 (by decide)).1.2.2.2.2.2.2 3
     (((claim_parallel_coverage 1024 2500 (by decide)).2.2.2.2 (by decide)).2.1 3 (by decide)),
   ((claim_parallel_coverage 1024 2500 (by decide)).2.2.2.2 (by decide)).2.2.2⟩

/-- C13 (sequential emit): for a final run of `count` rows, call number `k` of
`GetChunkInternal` without parallel state, on a chunk that is empty on entry, emits
`min(VECTOR_SIZE, count - k * VECTOR_SIZE)` rows while `k * VECTOR_SIZE < count` and 0 rows on
every later call, so the batch sizes of `n` calls add up to `min(n * VECTOR_SIZE, count)`,
which is `count` once `n * VECTOR_SIZE >= count`. The cursor `entry_idx` is taken not to wrap
around: `n * VECTOR_SIZE < 2^64`. -/
theorem GetChunkInternal_sequential_batches (STANDARD_VECTOR_SIZE : Nat) (op : PhysicalOrder)
    (g : OrderGlobalState) (cb : ContinuousBlock) (sb : RowDataBlock) (loc : Nat → Nat) (n : Nat)
    (hop : op.sink_state = some g) (hcb : g.sorted_blocks.getLast? = some cb)
    (hsb : cb.sorting_blocks.getLast? = some sb)
    (hpay : 0 < sb.count → cb.payload_chunk.data_blocks.getLast?.isSome = true ∧
      (g.payload_state.HAS_VARIABLE_SIZE = true →
        cb.payload_chunk.offset_blocks.getLast?.isSome = true))
    (hc : sb.count < IDX_MOD) (hn : n * STANDARD_VECTOR_SIZE < IDX_MOD) :
    ∃ s2, sequentialChunks STANDARD_VECTOR_SIZE op n (GetOperatorState loc) =
        some ((List.range n).map
          (fun k => if k * STANDARD_VECTOR_SIZE < sb.count then
              min STANDARD_VECTOR_SIZE (sb.count - k * STANDARD_VECTOR_SIZE)
            else 0), s2) ∧
      ((List.range n).map
          (fun k => if k * STANDARD_VECTOR_SIZE < sb.count then
              min STANDARD_VECTOR_SIZE (sb.count - k * STANDARD_VECTOR_SIZE)
            else 0)).sum = min (n * STANDARD_VECTOR_SIZE) sb.count ∧
      (sb.count ≤ n * STANDARD_VECTOR_SIZE →
        ((List.range n).map
          (fun k => if k * STANDARD_VECTOR_SIZE < sb.count then
              min STANDARD_VECTOR_SIZE (sb.count - k * STANDARD_VECTOR_SIZE)
            else 0)).sum = sb.count) := by
  obtain ⟨s2, h1, h2⟩ := sequential_scan_spec STANDARD_VECTOR_SIZE op g cb sb loc n hop hcb hsb
    hpay hc hn
  refine ⟨s2, h1, h2, ?_⟩
  intro hle
  have h3 : ((List.range n).map (batchSize STANDARD_VECTOR_SIZE sb.count)).sum =
      min (n * STANDARD_VECTOR_SIZE) sb.count := h2
  have h4 : ((List.range n).map (batchSize STANDARD_VECTOR_SIZE sb.count)).sum = sb.count := by
    rw [h3]; omega
  exact h4

theorem GetChunkInternal_sequential_batches_witness :
    ∃ s2, sequentialChunks 1024 sampleFinalized 3 (GetOperatorState (fun _ => 0)) =
        some ((List.range 3).map
          (fun k => if k * 1024 < sampleRunKeys.count then
              min 1024 (sampleRunKeys.count - k * 1024)
            else 0), s2) ∧
      ((List.range 3).map
          (fun k => if k * 1024 < sampleRunKeys.count then
              min 1024 (sampleRunKeys.count - k * 1024)
            else 0)).sum = min (3 * 1024) sampleRunKeys.count ∧
      (sampleRunKeys.count ≤ 3 * 1024 →
        ((List.range 3).map
          (fun k => if k * 1024 < sampleRunKeys.count then
              min 1024 (sampleRunKeys.count - k * 1024)
            else 0)).sum = sampleRunKeys.count) :=
  GetChunkInternal_sequential_batches 1024 sampleFinalized
    { sampleGlobalState with total_count := 2 } sampleRun sampleRunKeys (fun _ => 0) 3
    rfl rfl rfl (fun _ => ⟨rfl, fun h => Bool.noConfusion h⟩) (by decide) (by decide)

/-- C14, evaluated on the first call of `GetChunkInternal` for the run `sampleRun` of two rows
with a payload of constant size 2: the range is `[0, 2)`, and row 1 of the chunk gets the
validity-mask location 0 and the value location 1, the locations of payload row 0, where
payload row 1 lies at `(0 + 1) * ENTRY_SIZE = 2`. -/
theorem Scan_constant_payload_reads_first_row :
    ∃ s2, GetChunkInternal 1024 sampleFinalized none 0 (GetOperatorState (fun _ => 0)) =
        some (2, s2, none) ∧
      s2.validitymask_locations 1 = 0 ∧ s2.key_locations 1 = 1 ∧
      s2.validitymask_locations 1 ≠ (0 + 1) * samplePayloadState.ENTRY_SIZE :=
  ⟨_, rfl, rfl, rfl, by decide⟩

/-- What `Finalize` does with a run list that is not empty. -/
theorem Finalize_last (op0 : PhysicalOrder) (g : OrderGlobalState) (cb : ContinuousBlock)
    (b : RowDataBlock) (hcb : g.sorted_blocks.getLast? = some cb)
    (hb : cb.sorting_blocks.getLast? = some b) :
    Finalize op0 g = some { op0 with sink_state := some { g with total_count := b.count } } := by
  simp only [Finalize, hcb, hb]

/-- After `Finalize`, `MaxThreads` is `count / STANDARD_VECTOR_SIZE + 1` for the row count of
the payload block of the last run. -/
theorem MaxThreads_last (VS : Nat) (op : PhysicalOrder) (g : OrderGlobalState)
    (cb : ContinuousBlock) (pb : RowDataBlock) (hop : op.sink_state = some g)
    (hcb : g.sorted_blocks.getLast? = some cb)
    (hpb : cb.payload_chunk.data_blocks.getLast? = some pb)
    (hfit : pb.count / VS + 1 < IDX_MOD) :
    MaxThreads VS op = some (pb.count / VS + 1) := by
  simp only [MaxThreads, hop, hcb, hpb, Nat.mod_eq_of_lt hfit]

/-- C15 as stated fails for the run `sampleRun` of two rows: after `Finalize`, `total_count`
is 2 and `MaxThreads` returns 1, not `ceil(2 / 1024) + 1 = 2`. -/
theorem MaxThreads_not_ceil_plus_one :
    Finalize { sink_state := none, estimated_cardinality := 0 } sampleGlobalState =
      some sampleFinalized ∧
    sampleFinalized.sink_state.map (fun g => g.total_count) = some 2 ∧
    MaxThreads 1024 sampleFinalized = some 1 ∧
    MaxThreads 1024 sampleFinalized ≠ some ((2 + 1024 - 1) / 1024 + 1) :=
  ⟨rfl, rfl, rfl, by decide⟩

/-- C15 (amended): after `Finalize` on a run list that is not empty, `MaxThreads` returns
`floor(total_count / VECTOR_SIZE) + 1`, where `total_count` is the row count of the final
run (the sorting block and the payload block of the run holding the same number of rows, as
`Finalize` asserts). -/
theorem MaxThreads_after_Finalize (STANDARD_VECTOR_SIZE : Nat) (op0 : PhysicalOrder)
    (g : OrderGlobalState) (cb : ContinuousBlock) (sb pb : RowDataBlock)
    (hcb : g.sorted_blocks.getLast? = some cb) (hsb : cb.sorting_blocks.getLast? = some sb)
    (hpb : cb.payload_chunk.data_blocks.getLast? = some pb) (hassert : sb.count = pb.count)
    (_hVS : 0 < STANDARD_VECTOR_SIZE) (hfit : sb.count / STANDARD_VECTOR_SIZE + 1 < IDX_MOD) :
    ∃ op g2, Finalize op0 g = some op ∧ op.sink_state = some g2 ∧ g2.total_count = sb.count ∧
      MaxThreads STANDARD_VECTOR_SIZE op = some (g2.total_count / STANDARD_VECTOR_SIZE + 1) := by
  refine ⟨_, _, Finalize_last op0 g cb sb hcb hsb, rfl, rfl, ?_⟩
  rw [hassert] at hfit
  have h := MaxThreads_last STANDARD_VECTOR_SIZE
    { op0 with sink_state := some { g with total_count := sb.count } }
    { g with total_count := sb.count } cb pb rfl hcb hpb hfit
  rw [← hassert] at h
  exact h

theorem MaxThreads_after_Finalize_witness :
    ∃ op g2, Finalize { sink_state := none, estimated_cardinality := 0 } sampleGlobalState =
        some op ∧
      op.sink_state = some g2 ∧ g2.total_count = sampleRunKeys.count ∧
      MaxThreads 1024 op = some (g2.total_count / 1024 + 1) :=
  MaxThreads_after_Finalize 1024 { sink_state := none, estimated_cardinality := 0 }
    sampleGlobalState sampleRun sampleRunKeys samplePayloadBlock rfl rfl rfl rfl (by decide)
    (by decide)

/-- The result of `GetChunkInternal` depends on the global state only through the payload state
and the last run. -/
theorem GetChunkInternal_last_run (VS : Nat) (op1 op2 : PhysicalOrder) (g1 g2 : OrderGlobalState)
    (cb : ContinuousBlock) (tp : Option OrderParallelState) (chunk : Nat)
    (s : PhysicalOrderOperatorState)
    (h1 : op1.sink_state = some g1) (h2 : op2.sink_state = some g2)
    (hps : g1.payload_state = g2.payload_state)
    (hcb1 : g1.sorted_blocks.getLast? = some cb) (hcb2 : g2.sorted_blocks.getLast? = some cb) :
    GetChunkInternal VS op1 tp chunk s = GetChunkInternal VS op2 tp chunk s := by
  simp only [GetChunkInternal, h1, h2, hcb1, hcb2, hps]

/-- C20: for a global state whose run list is not empty, `Finalize` sets `total_count` to the
row count of the last run of the list whatever the runs before it are, and `GetChunkInternal`
returns the same for every global state with the same payload state and the same last run:
it reads only that run. -/
theorem Finalize_total_count_last_run (STANDARD_VECTOR_SIZE : Nat) (op0 : PhysicalOrder)
    (g : OrderGlobalState) (runs : List ContinuousBlock) (cb : ContinuousBlock)
    (b : RowDataBlock) (hruns : g.sorted_blocks = runs ++ [cb])
    (hb : cb.sorting_blocks.getLast? = some b) :
    ∃ op g2, Finalize op0 g = some op ∧ op.sink_state = some g2 ∧
      g2.total_count = b.count ∧ g2.sorted_blocks = runs ++ [cb] ∧
      ∀ (others : List ContinuousBlock) (op3 : PhysicalOrder) (g3 : OrderGlobalState)
        (tp : Option OrderParallelState) (chunk : Nat) (s : PhysicalOrderOperatorState),
        op3.sink_state = some g3 → g3.payload_state = g.payload_state →
        g3.sorted_blocks = others ++ [cb] →
        GetChunkInternal STANDARD_VECTOR_SIZE op3 tp chunk s =
          GetChunkInternal STANDARD_VECTOR_SIZE op tp chunk s := by
  have hcb : g.sorted_blocks.getLast? = some cb := by rw [hruns]; simp
  refine ⟨_, _, Finalize_last op0 g cb b hcb hb, rfl, rfl, hruns, ?_⟩
  intro others op3 g3 tp chunk s h3 hps hothers
  exact GetChunkInternal_last_run STANDARD_VECTOR_SIZE op3 _ g3 { g with total_count := b.count } cb
    tp chunk s h3 rfl hps (by rw [hothers]; simp) hcb

theorem Finalize_total_count_last_run_witness :
    ∃ op g2, Finalize { sink_state := none, estimated_cardinality := 0 }
        { sampleGlobalState with sorted_blocks := [sampleStringContinuousBlock] ++ [sampleRun] }
        = some op ∧
      op.sink_state = some g2 ∧
      g2.total_count = sampleRunKeys.count ∧
      g2.sorted_blocks = [sampleStringContinuousBlock] ++ [sampleRun] ∧
      ∀ (others : List ContinuousBlock) (op3 : PhysicalOrder) (g3 : OrderGlobalState)
        (tp : Option OrderParallelState) (chunk : Nat) (s : PhysicalOrderOperatorState),
        op3.sink_state = some g3 → g3.payload_state = samplePayloadState →
        g3.sorted_blocks = others ++ [sampleRun] →
        GetChunkInternal 1024 op3 tp chunk s = GetChunkInternal 1024 op tp chunk s :=
  Finalize_total_count_last_run 1024 { sink_state := none, estimated_cardinality := 0 }
    { sampleGlobalState with sorted_blocks := [sampleStringContinuousBlock] ++ [sampleRun] }
    [sampleStringContinuousBlock] sampleRun sampleRunKeys rfl rfl

/-- For a VARCHAR column the loop of `BreakTies` ends without an exception. -/
theorem BreakTies_loop_varchar (ext : Extern) (count c : Nat) (var offs : Buffer)
    (st : SortingState)
    (htype : st.TYPES.getD c PhysicalType.INT32 = PhysicalType.VARCHAR) :
    ∀ fuel i s, ∃ r, BreakTies.loop ext count c var offs st fuel i s = .ok r := by
  intro fuel
  induction fuel with
  | zero => intro i s; exact ⟨s, rfl⟩
  | succ fuel ih =>
    intro i s
    by_cases hic : i < count
    · cases ht : s.2 i
      · obtain ⟨r, hr⟩ := ih (i + 1) s
        refine ⟨r, ?_⟩
        simp only [BreakTies.loop, hic, ht, if_true, Bool.not_false]
        exact hr
      · obtain ⟨r, hr⟩ := ih (scanTies s.2 count count i + 1)
          (BreakStringTies ext s.1 i (scanTies s.2 count count i + 1) c s.2 var offs st)
        refine ⟨r, ?_⟩
        simp only [BreakTies.loop, hic, ht, htype, if_true, Bool.not_true, Bool.false_eq_true,
          if_false]
        exact hr
    · refine ⟨s, ?_⟩
      simp only [BreakTies.loop, hic, if_false]

/-- With no tied row left from row `i` on, the loop of `BreakTies` changes nothing. -/
theorem BreakTies_loop_no_ties (ext : Extern) (count c : Nat) (var offs : Buffer)
    (st : SortingState) :
    ∀ fuel i s, (∀ k, i ≤ k → k < count → s.2 k = false) →
      BreakTies.loop ext count c var offs st fuel i s = .ok s := by
  intro fuel
  induction fuel with
  | zero => intro i s _; rfl
  | succ fuel ih =>
    intro i s h
    by_cases hic : i < count
    · have ht := h i (Nat.le_refl i) hic
      simp only [BreakTies.loop, hic, ht, if_true, Bool.not_false]
      exact ih (i + 1) s (fun k h1 h2 => h k (by omega) h2)
    · simp only [BreakTies.loop, hic, if_false]

/-- For a column of another type than VARCHAR the loop of `BreakTies` throws at the first tied
row. -/
theorem BreakTies_loop_unsupported (ext : Extern) (count c : Nat) (var offs : Buffer)
    (st : SortingState)
    (htype : st.TYPES.getD c PhysicalType.INT32 ≠ PhysicalType.VARCHAR) :
    ∀ fuel i s, count ≤ i + fuel → (∃ k, i ≤ k ∧ k < count ∧ s.2 k = true) →
      BreakTies.loop ext count c var offs st fuel i s = .error SortError.NotImplemented := by
  intro fuel
  induction fuel with
  | zero =>
    intro i s hf ⟨k, h1, h2, _⟩
    omega
  | succ fuel ih =>
    intro i s hf ⟨k, h1, h2, h3⟩
    have hic : i < count := by omega
    cases ht : s.2 i
    · simp only [BreakTies.loop, hic, ht, if_true, Bool.not_false]
      apply ih (i + 1) s (by omega)
      refine ⟨k, ?_, h2, h3⟩
      by_contra hcon
      have : k = i := by omega
      rw [this, ht] at h3
      exact Bool.noConfusion h3
    · have hval : BreakTies.loop ext count c var offs st (fuel + 1) i s =
          match st.TYPES.getD c PhysicalType.INT32 with
          | PhysicalType.VARCHAR =>
            BreakTies.loop ext count c var offs st fuel (scanTies s.2 count count i + 1)
              (BreakStringTies ext s.1 i (scanTies s.2 count count i + 1) c s.2 var offs st)
          | _ => .error SortError.NotImplemented := by
        simp only [BreakTies.loop, hic, ht, if_true, Bool.not_true, Bool.false_eq_true, if_false]
      rw [hval]
      cases hty : st.TYPES.getD c PhysicalType.INT32 <;> first | rfl | exact absurd hty htype

/-- When `BreakTies` throws the not-implemented exception, given that the blocks of the tie
column are present. -/
theorem BreakTies_error_iff (ext : Extern) (cb : ContinuousBlock) (ties : Nat → Bool)
    (d : Buffer) (count c : Nat) (st : SortingState) (chunk : ContinuousChunk)
    (b1 b2 : RowDataBlock)
    (h0 : cb.var_sorting_chunks.getD c none = some chunk)
    (h1 : chunk.data_blocks.getLast? = some b1) (h2 : chunk.offset_blocks.getLast? = some b2) :
    (BreakTies ext cb ties d count c st = .error SortError.NotImplemented ↔
      (st.TYPES.getD c PhysicalType.INT32 ≠ PhysicalType.VARCHAR ∧
        ∃ i, i < count ∧ ties i = true)) ∧
    (st.TYPES.getD c PhysicalType.INT32 = PhysicalType.VARCHAR →
      ∃ r, BreakTies ext cb ties d count c st = .ok r) ∧
    ((∀ i, i < count → ties i = false) →
      BreakTies ext cb ties d count c st = .ok (d, ties)) := by
  rw [BreakTies_eq_loop ext cb ties d count c st chunk b1 b2 h0 h1 h2]
  have hnone : (∀ i, i < count → ties i = false) →
      BreakTies.loop ext count c (varBlob cb c) (varOffsets cb c) st count 0 (d, ties)
        = .ok (d, ties) :=
    fun h => BreakTies_loop_no_ties ext count c _ _ st count 0 (d, ties) (fun k _ hk => h k hk)
  refine ⟨⟨?_, ?_⟩, ?_, hnone⟩
  · intro herr
    refine ⟨?_, ?_⟩
    · intro htype
      obtain ⟨r, hr⟩ := BreakTies_loop_varchar ext count c (varBlob cb c) (varOffsets cb c) st
        htype count 0 (d, ties)
      rw [hr] at herr
      exact Except.noConfusion herr
    · by_contra hcon
      have hall : ∀ i, i < count → ties i = false := by
        intro i hi
        cases hb : ties i
        · rfl
        · exact absurd ⟨i, hi, hb⟩ hcon
      rw [hnone hall] at herr
      exact Except.noConfusion herr
  · rintro ⟨htype, i, hi, hti⟩
    exact BreakTies_loop_unsupported ext count c _ _ st htype count 0 (d, ties) (by omega)
      ⟨i, Nat.zero_le i, hi, hti⟩
  · intro htype
    exact BreakTies_loop_varchar ext count c _ _ st htype count 0 (d, ties)

theorem getD_set_self {α : Type} (l : List α) (i : Nat) (a d : α) (h : i < l.length) :
    (l.set i a).getD i d = a := by
  rw [List.getD_eq_getElem?_getD, List.getElem?_set, if_pos rfl, if_pos h]
  rfl

theorem getD_set_ne {α : Type} (l : List α) (i j : Nat) (a d : α) (h : i ≠ j) :
    (l.set i a).getD j d = l.getD j d := by
  rw [List.getD_eq_getElem?_getD, List.getElem?_set_ne h, ← List.getD_eq_getElem?_getD]

theorem getD_append_left {α : Type} (l m : List α) (n : Nat) (d : α) (h : n < l.length) :
    (l ++ m).getD n d = l.getD n d := by
  rw [List.getD_eq_getElem?_getD, List.getElem?_append_left h, ← List.getD_eq_getElem?_getD]

theorem getD_concat_length {α : Type} (l : List α) (a d : α) :
    (l ++ [a]).getD l.length d = a := by
  rw [List.getD_eq_getElem?_getD, List.getElem?_append_right (Nat.le_refl _), Nat.sub_self]
  rfl

theorem lt_length_of_getD_some {α : Type} (l : List (Option α)) (n : Nat) (x : α)
    (h : l.getD n none = some x) : n < l.length := by
  by_contra hcon
  rw [List.getD_eq_getElem?_getD, List.getElem?_eq_none (by omega)] at h
  exact Option.noConfusion h

theorem getD_default_irrel {α : Type} (l : List α) (n : Nat) (a b : α) (h : n < l.length) :
    l.getD n a = l.getD n b := by
  rw [List.getD_eq_getElem l a h, List.getD_eq_getElem l b h]

theorem foldl_push_back {α : Type} (l m : List α) :
    l.foldl (fun blocks cb => blocks ++ [cb]) m = m ++ l := by
  induction l generalizing m with
  | nil => simp
  | cons a l ih => simp [ih]

/-- The chunk that `ReOrder` returns when the blocks it reads are present: one data block
with the count of the old one and, for a chunk of variable size, one offsets block. -/
theorem ReOrder_shape (fresh : Buffer) (cc : ContinuousChunk) (sorting : Buffer)
    (sorting_ptr : Nat) (st : SortingState) (data : RowDataBlock)
    (hd : cc.data_blocks.getLast? = some data)
    (ho : cc.CONSTANT_SIZE = false → ∃ offs, cc.offset_blocks.getLast? = some offs) :
    ∃ cc1 nd, ReOrder fresh cc sorting sorting_ptr st = some cc1 ∧ cc1.data_blocks = [nd] ∧
      nd.count = data.count ∧ cc1.CONSTANT_SIZE = cc.CONSTANT_SIZE ∧
      (cc.CONSTANT_SIZE = false → ∃ no, cc1.offset_blocks = [no]) := by
  cases hc : cc.CONSTANT_SIZE
  · obtain ⟨offs, hoffs⟩ := ho hc
    simp only [ReOrder, hd, hoffs, hc, Bool.false_eq_true, if_false]
    exact ⟨_, _, rfl, rfl, rfl, rfl, fun _ => ⟨_, rfl⟩⟩
  · simp only [ReOrder, hd, hc, if_true]
    exact ⟨_, _, rfl, rfl, rfl, rfl, fun h => Bool.noConfusion h⟩

/-- The loop of `ReOrder` over the key columns keeps the chunks of the columns of variable
size in place. -/
theorem ReOrder_block_loop (fresh : Buffer) (st : SortingState) (sorting : Buffer)
    (sorting_ptr : Nat) (chunks0 : List (Option ContinuousChunk))
    (body : Nat → Option (List (Option ContinuousChunk)) → Option (List (Option ContinuousChunk)))
    (F : Option (List (Option ContinuousChunk)))
    (hF : forUp st.CONSTANT_SIZE.length body (some chunks0) = F)
    (hbody : ∀ k chunks, body k (some chunks) =
      if !(st.CONSTANT_SIZE.getD k true) then
        match chunks.getD k none with
        | none => none
        | some cc =>
          (ReOrder fresh cc sorting sorting_ptr st).map (fun cc1 => chunks.set k (some cc1))
      else some chunks)
    (hvars : HasVarBlocks st chunks0) :
    ∃ chunks, F = some chunks ∧ HasVarBlocks st chunks := by
  rw [← hF]
  refine forUp_inv
    (fun (_ : Nat) (acc : Option (List (Option ContinuousChunk))) =>
      ∃ chunks, acc = some chunks ∧ HasVarBlocks st chunks)
    body (some chunks0) st.CONSTANT_SIZE.length ⟨_, rfl, hvars⟩ ?_
  rintro k acc hk ⟨chunks, rfl, hch⟩
  rw [hbody]
  cases hconst : st.CONSTANT_SIZE.getD k true
  · obtain ⟨cc, db, ob, h1, h2, h3, h4⟩ := hch k hk hconst
    obtain ⟨cc1, nd, r1, r2, r3, r4, r5⟩ := ReOrder_shape fresh cc sorting sorting_ptr st db h3
      (fun _ => ⟨ob, h4⟩)
    obtain ⟨no, hno⟩ := r5 h2
    refine ⟨chunks.set k (some cc1), ?_, ?_⟩
    · simp only [h1, r1, Bool.not_false, if_true, Option.map_some']
    · intro c hc hcc
      by_cases hck : c = k
      · subst hck
        refine ⟨cc1, nd, no, ?_, ?_, ?_, ?_⟩
        · exact getD_set_self _ _ _ _ (lt_length_of_getD_some _ _ _ h1)
        · rw [r4]; exact h2
        · rw [r2]; rfl
        · rw [hno]; rfl
      · obtain ⟨cc2, db2, ob2, g1, g2, g3, g4⟩ := hch c hc hcc
        refine ⟨cc2, db2, ob2, ?_, g2, g3, g4⟩
        rw [getD_set_ne _ _ _ _ _ (fun h => hck h.symm)]
        exact g1
  · refine ⟨chunks, ?_, hch⟩
    simp only [Bool.not_true, Bool.false_eq_true, if_false]

/-- With the blocks it reads present, `ReOrder` on a continuous block returns a block with the
same sorting blocks and a payload of one data block (and one offsets block when of variable
size). -/
theorem ReOrder_block_some (fresh : Buffer) (cb : ContinuousBlock) (st : SortingState)
    (sb pd : RowDataBlock) (hsb : cb.sorting_blocks.getLast? = some sb)
    (hvars : HasVarBlocks st cb.var_sorting_chunks)
    (hpd : cb.payload_chunk.data_blocks.getLast? = some pd)
    (hpo : cb.payload_chunk.CONSTANT_SIZE = false →
      ∃ po, cb.payload_chunk.offset_blocks.getLast? = some po) :
    ∃ cb2 nd, ReOrder_block fresh cb st = some cb2 ∧ cb2.sorting_blocks = cb.sorting_blocks ∧
      cb2.payload_chunk.data_blocks = [nd] ∧ nd.count = pd.count ∧
      (cb.payload_chunk.CONSTANT_SIZE = false → ∃ no, cb2.payload_chunk.offset_blocks = [no]) := by
  obtain ⟨p1, nd, q1, q2, q3, -, q5⟩ := ReOrder_shape fresh cb.payload_chunk sb.block
    ((st.ENTRY_SIZE + IDX_MOD - sizeof_idx_t) % IDX_MOD) st pd hpd hpo
  unfold ReOrder_block
  simp only [hsb]
  generalize hF : forUp _ _ _ = F
  obtain ⟨chunks, hchunks, -⟩ := ReOrder_block_loop fresh st sb.block
    ((st.ENTRY_SIZE + IDX_MOD - sizeof_idx_t) % IDX_MOD) cb.var_sorting_chunks _ F hF
    (fun _ _ => rfl) hvars
  subst hchunks
  simp only [q1]
  exact ⟨_, nd, rfl, rfl, q2, q3, q5⟩

/-- The loop of `SortLocalState` over the key columns of variable size, given that their
chunks are present in the local state. -/
theorem varChunks_loop (ext : Extern) (st : SortingState) (n : Nat)
    (blocks0 sizes0 : List (Option RowChunk))
    (body : Nat →
      Except SortError
        (List (Option ContinuousChunk) × List (Option RowChunk) × List (Option RowChunk)) →
      Except SortError
        (List (Option ContinuousChunk) × List (Option RowChunk) × List (Option RowChunk)))
    (F : Except SortError
      (List (Option ContinuousChunk) × List (Option RowChunk) × List (Option RowChunk)))
    (hF : forUp n body (.ok ([], blocks0, sizes0)) = F)
    (hbody : ∀ k chunks blocks sizes, body k (.ok (chunks, blocks, sizes)) =
      if !(st.CONSTANT_SIZE.getD k true) then
        match blocks.getD k none, sizes.getD k none with
        | some row_chunk, some sizes_chunk =>
          .ok (chunks ++ [some
                { data_blocks := [(ConcatenateBlocks ext.BLOCK_ALLOC_SIZE ext.fresh row_chunk true).1],
                  offset_blocks := [(SizesToOffsets ext.BLOCK_ALLOC_SIZE ext.fresh sizes_chunk).1],
                  CONSTANT_SIZE := st.CONSTANT_SIZE.getD k true, ENTRY_SIZE := 0 }],
               blocks.set k (some (ConcatenateBlocks ext.BLOCK_ALLOC_SIZE ext.fresh row_chunk true).2),
               sizes.set k (some (SizesToOffsets ext.BLOCK_ALLOC_SIZE ext.fresh sizes_chunk).2))
        | _, _ => .error SortError.InvalidAccess
      else .ok (chunks ++ [none], blocks, sizes))
    (hvars : ∀ c, c < n → st.CONSTANT_SIZE.getD c true = false →
      ∃ vb vs, blocks0.getD c none = some vb ∧ sizes0.getD c none = some vs) :
    ∃ chunks blocks sizes, F = .ok (chunks, blocks, sizes) ∧
      ∀ c, c < n → st.CONSTANT_SIZE.getD c true = false →
        ∃ cc db ob, chunks.getD c none = some cc ∧ cc.CONSTANT_SIZE = false ∧
          cc.data_blocks.getLast? = some db ∧ cc.offset_blocks.getLast? = some ob := by
  rw [← hF]
  have hinv := forUp_inv
    (fun (k : Nat) (acc : Except SortError
        (List (Option ContinuousChunk) × List (Option RowChunk) × List (Option RowChunk))) =>
      ∃ chunks blocks sizes, acc = .ok (chunks, blocks, sizes) ∧ chunks.length = k ∧
        (∀ c, c < k → st.CONSTANT_SIZE.getD c true = false →
          ∃ cc db ob, chunks.getD c none = some cc ∧ cc.CONSTANT_SIZE = false ∧
            cc.data_blocks.getLast? = some db ∧ cc.offset_blocks.getLast? = some ob) ∧
        (∀ c, k ≤ c → blocks.getD c none = blocks0.getD c none ∧
          sizes.getD c none = sizes0.getD c none))
    body (.ok ([], blocks0, sizes0)) n
    ⟨_, _, _, rfl, rfl, fun c hc => absurd hc (Nat.not_lt_zero c), fun c _ => ⟨rfl, rfl⟩⟩
    (by
      rintro k acc hk ⟨chunks, blocks, sizes, rfl, hlen, hdone, hrest⟩
      rw [hbody]
      cases hconst : st.CONSTANT_SIZE.getD k true
      · obtain ⟨vb, vs, hvb, hvs⟩ := hvars k hk hconst
        have e1 : blocks.getD k none = some vb := by rw [(hrest k (Nat.le_refl k)).1]; exact hvb
        have e2 : sizes.getD k none = some vs := by rw [(hrest k (Nat.le_refl k)).2]; exact hvs
        refine ⟨chunks ++ [some
            { data_blocks := [(ConcatenateBlocks ext.BLOCK_ALLOC_SIZE ext.fresh vb true).1],
              offset_blocks := [(SizesToOffsets ext.BLOCK_ALLOC_SIZE ext.fresh vs).1],
              CONSTANT_SIZE := false, ENTRY_SIZE := 0 }],
          blocks.set k (some (ConcatenateBlocks ext.BLOCK_ALLOC_SIZE ext.fresh vb true).2),
          sizes.set k (some (SizesToOffsets ext.BLOCK_ALLOC_SIZE ext.fresh vs).2), ?_, ?_, ?_, ?_⟩
        · simp only [e1, e2, Bool.not_false, if_true]
        · simp [hlen]
        · intro c hc hcc
          by_cases hck : c = k
          · subst hck
            refine ⟨ContinuousChunk.mk [(ConcatenateBlocks ext.BLOCK_ALLOC_SIZE ext.fresh vb true).1]
                [(SizesToOffsets ext.BLOCK_ALLOC_SIZE ext.fresh vs).1] false 0,
              (ConcatenateBlocks ext.BLOCK_ALLOC_SIZE ext.fresh vb true).1,
              (SizesToOffsets ext.BLOCK_ALLOC_SIZE ext.fresh vs).1, ?_, rfl, rfl, rfl⟩
            rw [← hlen]
            exact getD_concat_length _ _ _
          · obtain ⟨cc, db, ob, g1, g2, g3, g4⟩ := hdone c (by omega) hcc
            refine ⟨cc, db, ob, ?_, g2, g3, g4⟩
            rw [getD_append_left _ _ _ _ (by omega)]
            exact g1
        · intro c hc
          rw [getD_set_ne _ _ _ _ _ (by omega), getD_set_ne _ _ _ _ _ (by omega)]
          exact hrest c (by omega)
      · refine ⟨chunks ++ [none], blocks, sizes, ?_, ?_, ?_, ?_⟩
        · simp only [Bool.not_true, Bool.false_eq_true, if_false]
        · simp [hlen]
        · intro c hc hcc
          by_cases hck : c = k
          · subst hck
            rw [hconst] at hcc
            exact Bool.noConfusion hcc
          · obtain ⟨cc, db, ob, g1, g2, g3, g4⟩ := hdone c (by omega) hcc
            refine ⟨cc, db, ob, ?_, g2, g3, g4⟩
            rw [getD_append_left _ _ _ _ (by omega)]
            exact g1
        · intro c hc
          exact hrest c (by omega))
  obtain ⟨chunks, blocks, sizes, h1, -, h3, -⟩ := hinv
  exact ⟨chunks, blocks, sizes, h1, h3⟩

theorem varChunks_spec (ext : Extern) (st : SortingState) (ps : PayloadState)
    (l : OrderLocalState) (hready : LocalReady ext st ps l) :
    ∃ chunks blocks sizes, SortLocalState.varChunks ext l st = .ok (chunks, blocks, sizes) ∧
      HasVarBlocks st chunks := by
  unfold SortLocalState.varChunks
  generalize hF : forUp _ _ _ = F
  obtain ⟨chunks, blocks, sizes, h1, h2⟩ := varChunks_loop ext st l.var_sorting_blocks.length
    l.var_sorting_blocks l.var_sorting_sizes _ F hF (fun _ _ _ _ => rfl)
    (fun c hc hcc => hready.vars c (by rw [← hready.vars_length]; exact hc) hcc)
  refine ⟨chunks, blocks, sizes, h1, ?_⟩
  intro c hc hcc
  exact h2 c (by rw [hready.vars_length]; exact hc) hcc

theorem KeyLayout_of_layout (ext : Extern) (cb : ContinuousBlock) (st : SortingState)
    (h8 : 8 ≤ st.ENTRY_SIZE) (hES : st.ENTRY_SIZE < IDX_MOD) (hl : SortingLayout ext st)
    (hv : HasVarBlocks st cb.var_sorting_chunks) : KeyLayout ext cb st := by
  refine ⟨h8, hES, hl.orders, hl.cols, hl.varchar, ?_⟩
  intro c hc hcc
  rw [getD_default_irrel _ _ false true hc] at hcc
  obtain ⟨cc, db, ob, g1, -, g3, g4⟩ := hv c hc hcc
  exact ⟨cc, db, ob, g1, g3, g4⟩

/-- `SortInMemory` on a continuous block with one sorting block returns the block with its
sorting block sorted. -/
theorem SortInMemory_some (ext : Extern) (cb : ContinuousBlock) (st : SortingState)
    (S : Except SortError ContinuousBlock) (hS : SortInMemory ext cb st = S) (sb : RowDataBlock)
    (hsb : cb.sorting_blocks = [sb]) (h8 : 8 ≤ st.ENTRY_SIZE) (hES : st.ENTRY_SIZE < IDX_MOD)
    (hcount : 1 ≤ sb.count)
    (hkeys : (∀ c, c ∈ st.CONSTANT_SIZE → c = true) ∨ SortingLayout ext st)
    (hv : HasVarBlocks st cb.var_sorting_chunks) :
    ∃ r, S = .ok { cb with sorting_blocks := [{ sb with block := r }] } := by
  have hlast : cb.sorting_blocks.getLast? = some sb := by rw [hsb]; rfl
  have hpath : (∀ c, c ∈ st.CONSTANT_SIZE → c = true) ∨
      (1 ≤ sb.count ∧ KeyLayout ext cb st ∧
        ∀ (lt : Nat → Nat → Bool) (l : List Nat), List.Perm (ext.std_sort lt l) l) := by
    rcases hkeys with h | h
    · exact Or.inl h
    · exact Or.inr ⟨hcount, KeyLayout_of_layout ext cb st h8 hES h hv, h.sort_perm⟩
  obtain ⟨r, r0, -⟩ := sort_rows_perm ext cb st sb.block sb.count h8 hES hpath
  refine ⟨r, ?_⟩
  rw [← hS, SortInMemory_of_sort ext cb st sb r hlast r0, hsb]
  rfl

theorem ReOrder_block_result (fresh : Buffer) (cb : ContinuousBlock) (st : SortingState)
    (R : Option ContinuousBlock) (hR : ReOrder_block fresh cb st = R)
    (sb pd : RowDataBlock) (hsb : cb.sorting_blocks.getLast? = some sb)
    (hvars : HasVarBlocks st cb.var_sorting_chunks)
    (hpd : cb.payload_chunk.data_blocks.getLast? = some pd)
    (hpo : cb.payload_chunk.CONSTANT_SIZE = false →
      ∃ po, cb.payload_chunk.offset_blocks.getLast? = some po) :
    ∃ cb2 nd, R = some cb2 ∧ cb2.sorting_blocks = cb.sorting_blocks ∧
      cb2.payload_chunk.data_blocks = [nd] ∧ nd.count = pd.count ∧
      (cb.payload_chunk.CONSTANT_SIZE = false → ∃ no, cb2.payload_chunk.offset_blocks = [no]) := by
  rw [← hR]
  exact ReOrder_block_some fresh cb st sb pd hsb hvars hpd hpo

/-- What `SortLocalState` does to a local state whose sorting chunk holds rows: it returns,
the run list grows by one run whose sorting block holds the rows of the blocks of the sorting
chunk, and the sorting chunk is left empty. -/
theorem SortLocalState_spec (ext : Extern) (l : OrderLocalState) (st : SortingState)
    (ps : PayloadState) (chunk : RowChunk) (hready : LocalReady ext st ps l)
    (hchunk : l.sorting_block = some chunk) (hrows : chunk.count = chunk.rows)
    (hne : chunk.count ≠ 0) :
    ∃ l2 run kb pb ch2, SortLocalState ext l st ps = .ok l2 ∧
      l2.sorted_blocks = l.sorted_blocks ++ [run] ∧
      run.sorting_blocks = [kb] ∧ kb.count = chunk.rows ∧
      run.payload_chunk.data_blocks = [pb] ∧
      (ps.HAS_VARIABLE_SIZE = true → ∃ ob, run.payload_chunk.offset_blocks = [ob]) ∧
      l2.sorting_block = some ch2 ∧ ch2.count = 0 ∧ ch2.blocks = [] := by
  obtain ⟨chunks, blocks, sizes, hvc, hvb⟩ := varChunks_spec ext st ps l hready
  obtain ⟨pbc, hpbc⟩ := hready.payload
  have hcount : 1 ≤ (ConcatenateBlocks ext.BLOCK_ALLOC_SIZE ext.fresh chunk false).1.count := by
    rw [(ConcatenateBlocks_spec ext.BLOCK_ALLOC_SIZE ext.fresh chunk false).1]
    have : chunk.rows = (chunk.blocks.map (fun b => b.count)).sum := rfl
    omega
  have hkb : (ConcatenateBlocks ext.BLOCK_ALLOC_SIZE ext.fresh chunk false).1.count = chunk.rows :=
    (ConcatenateBlocks_spec ext.BLOCK_ALLOC_SIZE ext.fresh chunk false).1
  unfold SortLocalState
  simp only [hchunk, hne, if_false, hvc, hpbc]
  cases hv : ps.HAS_VARIABLE_SIZE
  · simp only [Bool.false_eq_true, if_false, Bool.not_false]
    generalize hS : SortInMemory ext _ st = S
    obtain ⟨r, hr⟩ := SortInMemory_some ext _ st S hS
      (ConcatenateBlocks ext.BLOCK_ALLOC_SIZE ext.fresh chunk false).1 rfl hready.entry_ge
      hready.entry_lt hcount hready.keys hvb
    subst hr
    simp only []
    generalize hR : ReOrder_block ext.fresh _ st = R
    obtain ⟨cb2, nd, q0, q1, q2, -, -⟩ := ReOrder_block_result ext.fresh _ st R hR _
      (ConcatenateBlocks ext.BLOCK_ALLOC_SIZE ext.fresh pbc false).1 rfl hvb rfl
      (fun h => by cases h)
    subst q0
    simp only []
    exact ⟨_, cb2, _, nd, _, rfl, rfl, q1, hkb, q2, (fun h => by cases h), rfl, rfl, rfl⟩
  · obtain ⟨sc, hsc⟩ := hready.sizes hv
    simp only [hsc, if_true, Bool.not_true]
    generalize hS : SortInMemory ext _ st = S
    obtain ⟨r, hr⟩ := SortInMemory_some ext _ st S hS
      (ConcatenateBlocks ext.BLOCK_ALLOC_SIZE ext.fresh chunk false).1 rfl hready.entry_ge
      hready.entry_lt hcount hready.keys hvb
    subst hr
    simp only []
    generalize hR : ReOrder_block ext.fresh _ st = R
    obtain ⟨cb2, nd, q0, q1, q2, -, q4⟩ := ReOrder_block_result ext.fresh _ st R hR _
      (ConcatenateBlocks ext.BLOCK_ALLOC_SIZE ext.fresh pbc true).1 rfl hvb rfl
      (fun _ => ⟨_, rfl⟩)
    subst q0
    simp only []
    exact ⟨_, cb2, _, nd, _, rfl, rfl, q1, hkb, q2, fun _ => q4 rfl, rfl, rfl, rfl⟩

/-- A sorting chunk without rows: `SortLocalState` returns at once and leaves the local state
as it is. -/
theorem SortLocalState_empty (ext : Extern) (l : OrderLocalState) (st : SortingState)
    (ps : PayloadState) (chunk : RowChunk) (hchunk : l.sorting_block = some chunk)
    (h0 : chunk.count = 0) : SortLocalState ext l st ps = .ok l := by
  unfold SortLocalState
  simp only [hchunk, h0, if_true]

/-- The result of `Combine` once the result of its call of `SortLocalState` is known. -/
theorem Combine_ok (ext : Extern) (g : OrderGlobalState) (l l2 : OrderLocalState)
    (chunk : RowChunk) (hchunk : l.sorting_block = some chunk)
    (hs : SortLocalState ext l g.sorting_state g.payload_state = .ok l2) :
    Combine ext g l = .ok { g with sorted_blocks := g.sorted_blocks ++ l2.sorted_blocks } := by
  unfold Combine
  simp only [hchunk, hs, foldl_push_back]

/-- A local state whose sorting chunk is null: `Combine` returns the global state as it is. -/
theorem Combine_null (ext : Extern) (g : OrderGlobalState) (l : OrderLocalState)
    (hchunk : l.sorting_block = none) : Combine ext g l = .ok g := by
  unfold Combine
  simp only [hchunk]

/-- A local state whose sorting chunk holds rows: `Combine` appends the runs of the local
state and then the run sealed from the rows of the chunk. -/
theorem Combine_spec (ext : Extern) (g : OrderGlobalState) (l : OrderLocalState)
    (chunk : RowChunk) (hready : LocalReady ext g.sorting_state g.payload_state l)
    (hchunk : l.sorting_block = some chunk) (hrows : chunk.count = chunk.rows)
    (hne : chunk.count ≠ 0) :
    ∃ l2 run kb pb, SortLocalState ext l g.sorting_state g.payload_state = .ok l2 ∧
      l2.sorted_blocks = l.sorted_blocks ++ [run] ∧
      run.sorting_blocks = [kb] ∧ kb.count = chunk.count ∧
      run.payload_chunk.data_blocks = [pb] ∧
      (g.payload_state.HAS_VARIABLE_SIZE = true → ∃ ob, run.payload_chunk.offset_blocks = [ob]) ∧
      Combine ext g l =
        .ok { g with sorted_blocks := g.sorted_blocks ++ (l.sorted_blocks ++ [run]) } := by
  obtain ⟨l2, run, kb, pb, ch2, h1, h2, h3, h4, h5, h6, -, -, -⟩ :=
    SortLocalState_spec ext l g.sorting_state g.payload_state chunk hready hchunk hrows hne
  refine ⟨l2, run, kb, pb, h1, h2, h3, by rw [h4, hrows], h5, h6, ?_⟩
  rw [Combine_ok ext g l l2 chunk hchunk h1, h2]

/-- A local state whose sorting chunk is there and holds no rows: `Combine` seals no run and
appends the runs that the local state holds. -/
theorem Combine_empty_chunk (ext : Extern) (g : OrderGlobalState) (l : OrderLocalState)
    (chunk : RowChunk) (hchunk : l.sorting_block = some chunk) (h0 : chunk.count = 0) :
    Combine ext g l = .ok { g with sorted_blocks := g.sorted_blocks ++ l.sorted_blocks } :=
  Combine_ok ext g l l chunk hchunk
    (SortLocalState_empty ext l g.sorting_state g.payload_state chunk hchunk h0)

/-- The sample local states can be sorted by `SortLocalState`. -/
theorem sampleLocalState_ready (rows : Nat) :
    LocalReady sampleExtern sampleSortingState samplePayloadState (sampleLocalState rows) where
  entry_ge := by decide
  entry_lt := by decide
  keys := Or.inl (by decide)
  vars_length := rfl
  vars := by
    intro c hc h
    have hc0 : c = 0 := by
      have : sampleSortingState.CONSTANT_SIZE.length = 1 := rfl
      omega
    subst hc0
    exact absurd h (by decide)
  payload := ⟨_, rfl⟩
  sizes := fun h => absurd h (by decide)

/-- The last `Combine` followed by `Finalize` and a sequential scan: `total_count` is the number
of rows that the sorting chunk of the local state combined last held, and `n` calls of
`GetChunkInternal` emit `min (n * VS)` of that number of rows. -/
theorem Combine_Finalize_scan (ext : Extern) (VS : Nat) (op0 : PhysicalOrder)
    (g : OrderGlobalState) (l : OrderLocalState) (chunk : RowChunk) (loc : Nat → Nat) (n : Nat)
    (hready : LocalReady ext g.sorting_state g.payload_state l)
    (hchunk : l.sorting_block = some chunk) (hrows : chunk.count = chunk.rows)
    (hne : chunk.count ≠ 0) (hc : chunk.count < IDX_MOD) (hn : n * VS < IDX_MOD) :
    ∃ run g2 op gs chunks s2, Combine ext g l = .ok g2 ∧
      g2.sorted_blocks = g.sorted_blocks ++ (l.sorted_blocks ++ [run]) ∧
      run.sorting_blocks.map (fun b => b.count) = [chunk.count] ∧
      Finalize op0 g2 = some op ∧ op.sink_state = some gs ∧ gs.total_count = chunk.count ∧
      sequentialChunks VS op n (GetOperatorState loc) = some (chunks, s2) ∧
      chunks.sum = min (n * VS) chunk.count := by
  obtain ⟨l2, run, kb, pb, -, -, h3, h4, h5, h6, h7⟩ :=
    Combine_spec ext g l chunk hready hchunk hrows hne
  have hcb : ({ g with sorted_blocks := g.sorted_blocks ++ (l.sorted_blocks ++ [run]) } :
      OrderGlobalState).sorted_blocks.getLast? = some run := by
    simp
  have hsb : run.sorting_blocks.getLast? = some kb := by rw [h3]; rfl
  have hfin := Finalize_last op0 _ run kb hcb hsb
  obtain ⟨s2, q1, q2⟩ := sequential_scan_spec VS
    (PhysicalOrder.mk (some (OrderGlobalState.mk g.sorting_state g.payload_state
      (g.sorted_blocks ++ (l.sorted_blocks ++ [run])) kb.count)) op0.estimated_cardinality)
    _ run kb loc n rfl hcb hsb
    (fun _ => ⟨by rw [h5]; rfl, fun hv => by
      obtain ⟨ob, hob⟩ := h6 hv
      rw [hob]; rfl⟩)
    (by rw [h4]; exact hc) hn
  rw [h4] at q1 q2 hfin
  exact ⟨run, _, _, _, _, s2, h7, rfl, by rw [h3, ← h4]; rfl, hfin, rfl, rfl, q1, q2⟩

/-- C16: `BreakTies` throws the not-implemented exception exactly when the physical type of
the tie column is not VARCHAR and some entry of `ties` below `count` is true; for a VARCHAR
tie column it returns a result; and when no entry of `ties` below `count` is true it returns
the sorting block and `ties` as they were. The chunk of the tie column is there and has a
blob block and an offsets block. -/
theorem BreakTies_not_implemented_iff (ext : Extern) (cb : ContinuousBlock)
    (ties : Nat → Bool) (dataptr : Buffer) (count tie_col : Nat) (sorting_state : SortingState)
    (chunk : ContinuousChunk) (var_data_block var_offsets_block : RowDataBlock)
    (hchunk : cb.var_sorting_chunks.getD tie_col none = some chunk)
    (hdata : chunk.data_blocks.getLast? = some var_data_block)
    (hoffsets : chunk.offset_blocks.getLast? = some var_offsets_block) :
    (BreakTies ext cb ties dataptr count tie_col sorting_state = .error SortError.NotImplemented ↔
      (sorting_state.TYPES.getD tie_col PhysicalType.INT32 ≠ PhysicalType.VARCHAR ∧
        ∃ i, i < count ∧ ties i = true)) ∧
    (sorting_state.TYPES.getD tie_col PhysicalType.INT32 = PhysicalType.VARCHAR →
      ∃ r, BreakTies ext cb ties dataptr count tie_col sorting_state = .ok r) ∧
    ((∀ i, i < count → ties i = false) →
      BreakTies ext cb ties dataptr count tie_col sorting_state = .ok (dataptr, ties)) :=
  BreakTies_error_iff ext cb ties dataptr count tie_col sorting_state chunk var_data_block
    var_offsets_block hchunk hdata hoffsets

theorem BreakTies_not_implemented_iff_witness :
    (BreakTies sampleExtern sampleStringContinuousBlock (fun i => decide (i = 0))
        sampleStringKeys.block 2 0 sampleStringState = .error SortError.NotImplemented ↔
      (sampleStringState.TYPES.getD 0 PhysicalType.INT32 ≠ PhysicalType.VARCHAR ∧
        ∃ i, i < 2 ∧ (fun i => decide (i = 0)) i = true)) ∧
    (sampleStringState.TYPES.getD 0 PhysicalType.INT32 = PhysicalType.VARCHAR →
      ∃ r, BreakTies sampleExtern sampleStringContinuousBlock (fun i => decide (i = 0))
        sampleStringKeys.block 2 0 sampleStringState = .ok r) ∧
    ((∀ i, i < 2 → (fun i => decide (i = 0)) i = false) →
      BreakTies sampleExtern sampleStringContinuousBlock (fun i => decide (i = 0))
        sampleStringKeys.block 2 0 sampleStringState =
          .ok (sampleStringKeys.block, fun i => decide (i = 0))) :=
  BreakTies_not_implemented_iff sampleExtern sampleStringContinuousBlock
    (fun i => decide (i = 0)) sampleStringKeys.block 2 0 sampleStringState sampleStringChunk
    sampleStringBlob sampleStringOffsets rfl rfl rfl

/-- C18 as stated fails for the local state `sampleSortedLocalState`, whose sorting chunk
holds no rows and which holds the run `sampleRun` sealed by an earlier `Sink`: `Combine` on a
global state without runs returns a global state whose run list is `[sampleRun]`. -/
theorem Combine_empty_chunk_appends_sealed_runs :
    sampleSortedLocalState.sorting_block.map (fun chunk => (chunk.count, chunk.blocks.length)) =
      some (0, 0) ∧
    sampleEmptyGlobalState.sorted_blocks = [] ∧
    Combine sampleExtern sampleEmptyGlobalState sampleSortedLocalState =
      .ok { sampleEmptyGlobalState with sorted_blocks := [sampleRun] } ∧
    (Combine sampleExtern sampleEmptyGlobalState sampleSortedLocalState).toOption.map
        (fun g => g.sorted_blocks.length) = some 1 :=
  ⟨rfl, rfl, rfl, rfl⟩

/-- C18 (amended): for a local state whose sorting chunk is there and holds no rows,
`Combine` seals no new run and returns the global state with the runs that the local state
already holds appended to its run list; the run list is unchanged when the local state
holds no run. -/
theorem Combine_without_rows (ext : Extern) (gstate : OrderGlobalState)
    (lstate : OrderLocalState) (chunk : RowChunk) (hchunk : lstate.sorting_block = some chunk)
    (hcount : chunk.count = 0) :
    Combine ext gstate lstate =
      .ok { gstate with sorted_blocks := gstate.sorted_blocks ++ lstate.sorted_blocks } ∧
    (lstate.sorted_blocks = [] → Combine ext gstate lstate = .ok gstate) := by
  have h := Combine_empty_chunk ext gstate lstate chunk hchunk hcount
  refine ⟨h, fun hnil => ?_⟩
  rw [h, hnil, List.append_nil]

theorem Combine_without_rows_witness :
    Combine sampleExtern sampleGlobalState sampleSortedLocalState =
      .ok { sampleGlobalState with
        sorted_blocks := sampleGlobalState.sorted_blocks ++ sampleSortedLocalState.sorted_blocks } ∧
    (sampleSortedLocalState.sorted_blocks = [] →
      Combine sampleExtern sampleGlobalState sampleSortedLocalState = .ok sampleGlobalState) :=
  Combine_without_rows sampleExtern sampleGlobalState sampleSortedLocalState (RowChunk.create 10)
    rfl rfl

/-- C11 as stated fails for two local states holding 2 rows and 1 row: each seals a run that
is not empty, `Combine` puts both runs into the global state, and `Finalize` sets
`total_count` to 1, not to the 3 rows sunk; three sequential calls of `GetChunkInternal` emit
1 row in all. -/
theorem Finalize_total_count_not_rows_sunk :
    ∃ g1 g2 op gs chunks s2,
      Combine sampleExtern sampleEmptyGlobalState (sampleLocalState 2) = .ok g1 ∧
      Combine sampleExtern g1 (sampleLocalState 1) = .ok g2 ∧
      g2.sorted_blocks.map (fun cb => cb.sorting_blocks.map (fun b => b.count)) = [[2], [1]] ∧
      Finalize { sink_state := none, estimated_cardinality := 0 } g2 = some op ∧
      op.sink_state = some gs ∧ gs.total_count = 1 ∧ gs.total_count ≠ 2 + 1 ∧
      sequentialChunks 1024 op 3 (GetOperatorState (fun _ => 0)) = some (chunks, s2) ∧
      chunks.sum = 1 := by
  obtain ⟨-, run1, kb1, -, -, -, h3, h4, -, -, h7⟩ :=
    Combine_spec sampleExtern sampleEmptyGlobalState (sampleLocalState 2) (sampleSortingChunk 2)
      (sampleLocalState_ready 2) rfl rfl (by decide)
  obtain ⟨run2, g2, op, gs, chunks, s2, q1, q2, q3, q4, q5, q6, q7, q8⟩ :=
    Combine_Finalize_scan sampleExtern 1024 { sink_state := none, estimated_cardinality := 0 }
      (OrderGlobalState.mk sampleSortingState samplePayloadState ([] ++ ([] ++ [run1])) 0)
      (sampleLocalState 1) (sampleSortingChunk 1) (fun _ => 0) 3
      (sampleLocalState_ready 1) rfl rfl (by decide) (by decide) (by decide)
  refine ⟨_, g2, op, gs, chunks, s2, h7, q1, ?_, q4, q5, q6, ?_, q7, q8⟩
  · rw [q2]
    show List.map (fun cb => cb.sorting_blocks.map (fun b => b.count)) [run1, run2] = [[2], [1]]
    simp only [List.map_cons, List.map_nil, h3, h4, q3]
    rfl
  · rw [q6]
    decide

/-- C11 (amended): when the local state combined last holds the rows of `chunk` in its sorting
chunk (at least one), `Finalize` after that `Combine` sets `total_count` to `chunk.count`, the
number of rows of the run sealed last, whatever runs the global state and the local state
held before; and sequential calls of `GetChunkInternal` that cover the run emit that many
rows. -/
theorem Finalize_total_count_last_combined (ext : Extern) (STANDARD_VECTOR_SIZE : Nat)
    (op0 : PhysicalOrder) (gstate : OrderGlobalState) (lstate : OrderLocalState)
    (chunk : RowChunk) (locations : Nat → Nat) (n : Nat)
    (hready : LocalReady ext gstate.sorting_state gstate.payload_state lstate)
    (hchunk : lstate.sorting_block = some chunk) (hrows : chunk.count = chunk.rows)
    (hne : chunk.count ≠ 0) (hc : chunk.count < IDX_MOD)
    (hn : n * STANDARD_VECTOR_SIZE < IDX_MOD) (hall : chunk.count ≤ n * STANDARD_VECTOR_SIZE) :
    ∃ run g2 op gs chunks s2, Combine ext gstate lstate = .ok g2 ∧
      g2.sorted_blocks = gstate.sorted_blocks ++ (lstate.sorted_blocks ++ [run]) ∧
      Finalize op0 g2 = some op ∧ op.sink_state = some gs ∧ gs.total_count = chunk.count ∧
      sequentialChunks STANDARD_VECTOR_SIZE op n (GetOperatorState locations) =
        some (chunks, s2) ∧
      chunks.sum = chunk.count := by
  obtain ⟨run, g2, op, gs, chunks, s2, q1, q2, -, q4, q5, q6, q7, q8⟩ :=
    Combine_Finalize_scan ext STANDARD_VECTOR_SIZE op0 gstate lstate chunk locations n hready
      hchunk hrows hne hc hn
  exact ⟨run, g2, op, gs, chunks, s2, q1, q2, q4, q5, q6, q7, by rw [q8]; exact Nat.min_eq_right hall⟩

theorem Finalize_total_count_last_combined_witness :
    ∃ run g2 op gs chunks s2,
      Combine sampleExtern sampleGlobalState (sampleLocalState 1) = .ok g2 ∧
      g2.sorted_blocks =
        sampleGlobalState.sorted_blocks ++ ((sampleLocalState 1).sorted_blocks ++ [run]) ∧
      Finalize { sink_state := none, estimated_cardinality := 0 } g2 = some op ∧
      op.sink_state = some gs ∧ gs.total_count = (sampleSortingChunk 1).count ∧
      sequentialChunks 1024 op 1 (GetOperatorState (fun _ => 0)) = some (chunks, s2) ∧
      chunks.sum = (sampleSortingChunk 1).count :=
  Finalize_total_count_last_combined sampleExtern 1024
    { sink_state := none, estimated_cardinality := 0 } sampleGlobalState (sampleLocalState 1)
    (sampleSortingChunk 1) (fun _ => 0) 1 (sampleLocalState_ready 1) rfl rfl (by decide)
    (by decide) (by decide) (by decide)

/-- The loop of `IsNullLoop` writes the entries below `count` and leaves the others. -/
theorem IsNullLoop_loop (f : Nat → Bool) (init : Nat → Bool) :
    ∀ count, (∀ i, i < count →
      forUp count (fun i (result_data : Nat → Bool) => fun v =>
        if v = i then f i else result_data v) init i = f i) ∧
    (∀ v, count ≤ v →
      forUp count (fun i (result_data : Nat → Bool) => fun v =>
        if v = i then f i else result_data v) init v = init v) := by
  intro count
  induction count with
  | zero => exact ⟨fun i hi => absurd hi (Nat.not_lt_zero i), fun v _ => rfl⟩
  | succ n ih =>
    refine ⟨?_, ?_⟩
    · intro i hi
      simp only [forUp]
      by_cases h : i = n
      · simp only [h, if_true]
      · simp only [h, if_false]
        exact ih.1 i (by omega)
    · intro v hv
      simp only [forUp]
      have h : v ≠ n := by omega
      simp only [h, if_false]
      exact ih.2 v (by omega)

/-- What `IsNullLoop` writes for an input that is not constant. -/
theorem IsNullLoop_flat (INVERSE : Bool) (input : Vector) (result : ResultVector) (count : Nat)
    (hflat : input.vector_type ≠ VectorType.CONSTANT_VECTOR) :
    (IsNullLoop INVERSE input result count).vector_type = VectorType.FLAT_VECTOR ∧
    (∀ i, i < count → (IsNullLoop INVERSE input result count).data i =
      (if INVERSE then (input.Orrify count).validity.RowIsValid ((input.Orrify count).sel i)
       else !(input.Orrify count).validity.RowIsValid ((input.Orrify count).sel i))) ∧
    (∀ v, count ≤ v → (IsNullLoop INVERSE input result count).data v = result.data v) := by
  have h := IsNullLoop_loop
    (fun i => if INVERSE then
        (input.Orrify count).validity.RowIsValid ((input.Orrify count).sel i)
      else !(input.Orrify count).validity.RowIsValid ((input.Orrify count).sel i))
    result.data count
  unfold IsNullLoop
  rw [if_neg hflat]
  exact ⟨rfl, h.1, h.2⟩

/-- What `IsNullLoop` writes for a constant input. -/
theorem IsNullLoop_constant (INVERSE : Bool) (input : Vector) (result : ResultVector)
    (count : Nat) (hconst : input.vector_type = VectorType.CONSTANT_VECTOR) :
    (IsNullLoop INVERSE input result count).vector_type = VectorType.CONSTANT_VECTOR ∧
    (IsNullLoop INVERSE input result count).data 0 =
      (if INVERSE then !input.ConstantIsNull else input.ConstantIsNull) := by
  unfold IsNullLoop
  rw [if_pos hconst]
  exact ⟨rfl, rfl⟩

/-- The loop of `HasNull` finds a row that is not valid among the rows from `i` on. -/
theorem HasNull_loop_iff (data : VectorData) (count : Nat) :
    ∀ fuel i, i + fuel = count →
      (HasNull.loop data count fuel i = true ↔
        ∃ k, i ≤ k ∧ k < count ∧ data.validity.RowIsValid (data.sel k) = false) := by
  intro fuel
  induction fuel with
  | zero =>
    intro i hi
    simp only [HasNull.loop]
    constructor
    · intro h; exact Bool.noConfusion h
    · rintro ⟨k, h1, h2, -⟩; omega
  | succ fuel ih =>
    intro i hi
    have hlt : i < count := by omega
    simp only [HasNull.loop, hlt, if_true]
    cases hv : data.validity.RowIsValid (data.sel i)
    · simp only [Bool.not_false, if_true, true_iff]
      exact ⟨i, Nat.le_refl i, hlt, hv⟩
    · simp only [Bool.not_true, Bool.false_eq_true, if_false]
      rw [ih (i + 1) (by omega)]
      constructor
      · rintro ⟨k, h1, h2, h3⟩
        exact ⟨k, by omega, h2, h3⟩
      · rintro ⟨k, h1, h2, h3⟩
        have hki : k ≠ i := by
          intro h
          rw [h, hv] at h3
          exact Bool.noConfusion h3
        exact ⟨k, by omega, h2, h3⟩

/-- The loop of `HasNotNull` finds a valid row among the rows from `i` on. -/
theorem HasNotNull_loop_iff (data : VectorData) (count : Nat) :
    ∀ fuel i, i + fuel = count →
      (HasNotNull.loop data count fuel i = true ↔
        ∃ k, i ≤ k ∧ k < count ∧ data.validity.RowIsValid (data.sel k) = true) := by
  intro fuel
  induction fuel with
  | zero =>
    intro i hi
    simp only [HasNotNull.loop]
    constructor
    · intro h; exact Bool.noConfusion h
    · rintro ⟨k, h1, h2, -⟩; omega
  | succ fuel ih =>
    intro i hi
    have hlt : i < count := by omega
    simp only [HasNotNull.loop, hlt, if_true]
    cases hv : data.validity.RowIsValid (data.sel i)
    · simp only [Bool.false_eq_true, if_false]
      rw [ih (i + 1) (by omega)]
      constructor
      · rintro ⟨k, h1, h2, h3⟩
        exact ⟨k, by omega, h2, h3⟩
      · rintro ⟨k, h1, h2, h3⟩
        have hki : k ≠ i := by
          intro h
          rw [h, hv] at h3
          exact Bool.noConfusion h3
        exact ⟨k, by omega, h2, h3⟩
    · simp only [if_true, true_iff]
      exact ⟨i, Nat.le_refl i, hlt, hv⟩

theorem scanHasNull_iff (input : Vector) (count : Nat) :
    scanHasNull input count = true ↔
      ∃ k, k < count ∧
        (input.Orrify count).validity.RowIsValid ((input.Orrify count).sel k) = false := by
  unfold scanHasNull
  simp only [List.any_eq_true, List.mem_range, Bool.not_eq_true']

theorem scanHasNotNull_iff (input : Vector) (count : Nat) :
    scanHasNotNull input count = true ↔
      ∃ k, k < count ∧
        (input.Orrify count).validity.RowIsValid ((input.Orrify count).sel k) = true := by
  unfold scanHasNotNull
  simp only [List.any_eq_true, List.mem_range]

/-- With the contract of the classes outside the sources, `HasNull` tells whether one of the
`count` selected rows is NULL. -/
theorem HasNull_iff (input : Vector) (count : Nat) (hc : input.Contract count) :
    HasNull input count = true ↔
      ∃ k, k < count ∧
        (input.Orrify count).validity.RowIsValid ((input.Orrify count).sel k) = false := by
  unfold HasNull
  by_cases h0 : count = 0
  · simp only [h0, if_true]
    constructor
    · intro h; exact Bool.noConfusion h
    · rintro ⟨k, hk, -⟩; omega
  · simp only [h0, if_false]
    by_cases hconst : input.vector_type = VectorType.CONSTANT_VECTOR
    · simp only [hconst, if_true]
      constructor
      · intro h
        refine ⟨0, by omega, ?_⟩
        rw [hc.constant hconst 0, h]
        rfl
      · rintro ⟨k, -, hk⟩
        rw [hc.constant hconst k] at hk
        cases hn : input.ConstantIsNull
        · rw [hn] at hk; exact Bool.noConfusion hk
        · rfl
    · simp only [hconst, if_false]
      by_cases hall : (input.Orrify count).validity.AllValid = true
      · simp only [hall, if_true]
        constructor
        · intro h; exact Bool.noConfusion h
        · rintro ⟨k, -, hk⟩
          rw [hc.all_valid hall] at hk
          exact Bool.noConfusion hk
      · have hall2 : (input.Orrify count).validity.AllValid = false := by simpa using hall
        simp only [hall2, Bool.false_eq_true, if_false]
        rw [HasNull_loop_iff (input.Orrify count) count count 0 (by omega)]
        constructor
        · rintro ⟨k, -, h2, h3⟩; exact ⟨k, h2, h3⟩
        · rintro ⟨k, h2, h3⟩; exact ⟨k, Nat.zero_le k, h2, h3⟩

/-- With the contract of the classes outside the sources, `HasNotNull` tells whether one of
the `count` selected rows is not NULL. -/
theorem HasNotNull_iff (input : Vector) (count : Nat) (hc : input.Contract count) :
    HasNotNull input count = true ↔
      ∃ k, k < count ∧
        (input.Orrify count).validity.RowIsValid ((input.Orrify count).sel k) = true := by
  unfold HasNotNull
  by_cases h0 : count = 0
  · simp only [h0, if_true]
    constructor
    · intro h; exact Bool.noConfusion h
    · rintro ⟨k, hk, -⟩; omega
  · simp only [h0, if_false]
    by_cases hconst : input.vector_type = VectorType.CONSTANT_VECTOR
    · simp only [hconst, if_true]
      constructor
      · intro h
        refine ⟨0, by omega, ?_⟩
        rw [hc.constant hconst 0, h]
      · rintro ⟨k, -, hk⟩
        rw [hc.constant hconst k] at hk
        exact hk
    · simp only [hconst, if_false]
      by_cases hall : (input.Orrify count).validity.AllValid = true
      · simp only [hall, if_true, true_iff]
        exact ⟨0, by omega, hc.all_valid hall _⟩
      · have hall2 : (input.Orrify count).validity.AllValid = false := by simpa using hall
        simp only [hall2, Bool.false_eq_true, if_false]
        rw [HasNotNull_loop_iff (input.Orrify count) count count 0 (by omega)]
        constructor
        · rintro ⟨k, -, h2, h3⟩; exact ⟨k, h2, h3⟩
        · rintro ⟨k, h2, h3⟩; exact ⟨k, Nat.zero_le k, h2, h3⟩

theorem sampleVector_contract (count : Nat) : sampleVector.Contract count where
  all_valid := fun h => Bool.noConfusion h
  constant := fun h => VectorType.noConfusion h

/-- C21: for an input that is not constant and every `i < count`, `IsNull` writes
`result[i] = true` exactly when the input row `sel[i]` is not valid, `IsNotNull` writes the
negation, both results are flat vectors, and entries from `count` on are left as they were;
for a constant input both results are constant vectors whose value is the answer for the one
constant value (`ConstantVector::IsNull(input)` and its negation). -/
theorem IsNull_IsNotNull_rows (input : Vector) (result : ResultVector) (count : Nat) :
    (input.vector_type ≠ VectorType.CONSTANT_VECTOR →
      (IsNull input result count).vector_type = VectorType.FLAT_VECTOR ∧
      (IsNotNull input result count).vector_type = VectorType.FLAT_VECTOR ∧
      (∀ i, i < count →
        ((IsNull input result count).data i = true ↔
          (input.Orrify count).validity.RowIsValid ((input.Orrify count).sel i) = false) ∧
        (IsNotNull input result count).data i = !(IsNull input result count).data i) ∧
      (∀ v, count ≤ v → (IsNull input result count).data v = result.data v ∧
        (IsNotNull input result count).data v = result.data v)) ∧
    (input.vector_type = VectorType.CONSTANT_VECTOR →
      (IsNull input result count).vector_type = VectorType.CONSTANT_VECTOR ∧
      (IsNotNull input result count).vector_type = VectorType.CONSTANT_VECTOR ∧
      (IsNull input result count).data 0 = input.ConstantIsNull ∧
      (IsNotNull input result count).data 0 = !input.ConstantIsNull) := by
  refine ⟨fun hflat => ?_, fun hconst => ?_⟩
  · obtain ⟨a1, a2, a3⟩ := IsNullLoop_flat false input result count hflat
    obtain ⟨b1, b2, b3⟩ := IsNullLoop_flat true input result count hflat
    refine ⟨a1, b1, fun i hi => ?_, fun v hv => ⟨a3 v hv, b3 v hv⟩⟩
    have ha := a2 i hi
    have hb := b2 i hi
    simp only [Bool.false_eq_true, if_false, if_true] at ha hb
    unfold IsNull IsNotNull
    rw [ha, hb]
    cases (input.Orrify count).validity.RowIsValid ((input.Orrify count).sel i) <;> simp
  · obtain ⟨a1, a2⟩ := IsNullLoop_constant false input result count hconst
    obtain ⟨b1, b2⟩ := IsNullLoop_constant true input result count hconst
    exact ⟨a1, b1, a2, b2⟩

theorem IsNull_IsNotNull_rows_witness :
    (sampleVector.vector_type ≠ VectorType.CONSTANT_VECTOR →
      (IsNull sampleVector ⟨VectorType.FLAT_VECTOR, fun _ => false⟩ 4).vector_type =
        VectorType.FLAT_VECTOR ∧
      (IsNotNull sampleVector ⟨VectorType.FLAT_VECTOR, fun _ => false⟩ 4).vector_type =
        VectorType.FLAT_VECTOR ∧
      (∀ i, i < 4 →
        ((IsNull sampleVector ⟨VectorType.FLAT_VECTOR, fun _ => false⟩ 4).data i = true ↔
          (sampleVector.Orrify 4).validity.RowIsValid ((sampleVector.Orrify 4).sel i) = false) ∧
        (IsNotNull sampleVector ⟨VectorType.FLAT_VECTOR, fun _ => false⟩ 4).data i =
          !(IsNull sampleVector ⟨VectorType.FLAT_VECTOR, fun _ => false⟩ 4).data i) ∧
      (∀ v, 4 ≤ v →
        (IsNull sampleVector ⟨VectorType.FLAT_VECTOR, fun _ => false⟩ 4).data v = false ∧
        (IsNotNull sampleVector ⟨VectorType.FLAT_VECTOR, fun _ => false⟩ 4).data v = false)) ∧
    (sampleVector.vector_type = VectorType.CONSTANT_VECTOR →
      (IsNull sampleVector ⟨VectorType.FLAT_VECTOR, fun _ => false⟩ 4).vector_type =
        VectorType.CONSTANT_VECTOR ∧
      (IsNotNull sampleVector ⟨VectorType.FLAT_VECTOR, fun _ => false⟩ 4).vector_type =
        VectorType.CONSTANT_VECTOR ∧
      (IsNull sampleVector ⟨VectorType.FLAT_VECTOR, fun _ => false⟩ 4).data 0 =
        sampleVector.ConstantIsNull ∧
      (IsNotNull sampleVector ⟨VectorType.FLAT_VECTOR, fun _ => false⟩ 4).data 0 =
        !sampleVector.ConstantIsNull) :=
  IsNull_IsNotNull_rows sampleVector ⟨VectorType.FLAT_VECTOR, fun _ => false⟩ 4

/-- C22: with the contract of `ValidityMask` and `Orrify`, `HasNull(input, count)` is true
exactly when `count > 0` and one of the `count` selected rows is NULL, `HasNotNull` is true
exactly when `count > 0` and one of them is not NULL; both return what the row-by-row scan
returns, through the `AllValid` shortcut and the branch for constant vectors too; and both
return false for `count = 0`. -/
theorem HasNull_HasNotNull_scan (input : Vector) (count : Nat) (hc : input.Contract count) :
    (HasNull input count = true ↔ 0 < count ∧ ∃ k, k < count ∧
      (input.Orrify count).validity.RowIsValid ((input.Orrify count).sel k) = false) ∧
    (HasNotNull input count = true ↔ 0 < count ∧ ∃ k, k < count ∧
      (input.Orrify count).validity.RowIsValid ((input.Orrify count).sel k) = true) ∧
    HasNull input count = scanHasNull input count ∧
    HasNotNull input count = scanHasNotNull input count ∧
    HasNull input 0 = false ∧ HasNotNull input 0 = false := by
  have h1 := HasNull_iff input count hc
  have h2 := HasNotNull_iff input count hc
  refine ⟨?_, ?_, ?_, ?_, rfl, rfl⟩
  · rw [h1]
    exact ⟨fun ⟨k, hk, h⟩ => ⟨by omega, k, hk, h⟩, fun ⟨_, h⟩ => h⟩
  · rw [h2]
    exact ⟨fun ⟨k, hk, h⟩ => ⟨by omega, k, hk, h⟩, fun ⟨_, h⟩ => h⟩
  · rw [Bool.eq_iff_iff, h1, scanHasNull_iff]
  · rw [Bool.eq_iff_iff, h2, scanHasNotNull_iff]

theorem HasNull_HasNotNull_scan_witness :
    (HasNull sampleVector 4 = true ↔ 0 < 4 ∧ ∃ k, k < 4 ∧
      (sampleVector.Orrify 4).validity.RowIsValid ((sampleVector.Orrify 4).sel k) = false) ∧
    (HasNotNull sampleVector 4 = true ↔ 0 < 4 ∧ ∃ k, k < 4 ∧
      (sampleVector.Orrify 4).validity.RowIsValid ((sampleVector.Orrify 4).sel k) = true) ∧
    HasNull sampleVector 4 = scanHasNull sampleVector 4 ∧
    HasNotNull sampleVector 4 = scanHasNotNull sampleVector 4 ∧
    HasNull sampleVector 0 = false ∧ HasNotNull sampleVector 0 = false :=
  HasNull_HasNotNull_scan sampleVector 4 (sampleVector_contract 4)

/-- The unrolled loop of `ComputeTies` writes no entry from `count - 1` on. -/
theorem ComputeTies_unrolled_frame (data : Buffer) (ES count tie_size : Nat)
    (ties : Nat → Bool) :
    ∀ fuel (s : Nat × Nat × (Nat → Bool)),
      (∀ v, count - 1 ≤ v → s.2.2 v = ties v) →
      ∀ v, count - 1 ≤ v → (ComputeTies.unrolled data ES count tie_size fuel s).2.2 v = ties v := by
  intro fuel
  induction fuel with
  | zero => intro s h; exact h
  | succ fuel ih =>
    intro s h
    by_cases hc : s.1 + 7 < count - 1
    · have hval : ComputeTies.unrolled data ES count tie_size (fuel + 1) s =
          ComputeTies.unrolled data ES count tie_size fuel
            (s.1 + 8,
             (forUp 8
              (fun j (t : Nat × (Nat → Bool)) =>
                (t.1 + ES,
                 fun v => if v = s.1 + j then
                   (t.2 (s.1 + j) && decide (memcmp data t.1 data (t.1 + ES) tie_size = 0))
                   else t.2 v))
              (s.2.1, s.2.2)).1,
             (forUp 8
              (fun j (t : Nat × (Nat → Bool)) =>
                (t.1 + ES,
                 fun v => if v = s.1 + j then
                   (t.2 (s.1 + j) && decide (memcmp data t.1 data (t.1 + ES) tie_size = 0))
                   else t.2 v))
              (s.2.1, s.2.2)).2) := by
        simp [ComputeTies.unrolled, hc]
      rw [hval]
      apply ih
      have hinner := forUp_inv
        (fun _ (t : Nat × (Nat → Bool)) => ∀ v, count - 1 ≤ v → t.2 v = ties v)
        (fun j (t : Nat × (Nat → Bool)) =>
          (t.1 + ES,
           fun v => if v = s.1 + j then
             (t.2 (s.1 + j) && decide (memcmp data t.1 data (t.1 + ES) tie_size = 0))
             else t.2 v))
        (s.2.1, s.2.2) 8 h
        (by
          rintro j ⟨p, t⟩ hj g v hv
          simp only [] at g ⊢
          have hvj : v ≠ s.1 + j := by omega
          simp only [hvj, if_false]
          exact g v hv)
      exact hinner
    · have hval : ComputeTies.unrolled data ES count tie_size (fuel + 1) s = s := by
        simp [ComputeTies.unrolled, hc]
      rw [hval]
      exact h

/-- The remainder loop of `ComputeTies` writes no entry from `count - 1` on. -/
theorem ComputeTies_remainder_frame (data : Buffer) (ES count tie_size : Nat)
    (ties : Nat → Bool) :
    ∀ fuel (s : Nat × Nat × (Nat → Bool)),
      (∀ v, count - 1 ≤ v → s.2.2 v = ties v) →
      ∀ v, count - 1 ≤ v →
        (ComputeTies.remainder data ES count tie_size fuel s).2.2 v = ties v := by
  intro fuel
  induction fuel with
  | zero => intro s h; exact h
  | succ fuel ih =>
    intro s h
    by_cases hc : s.1 < count - 1
    · have hval : ComputeTies.remainder data ES count tie_size (fuel + 1) s =
          ComputeTies.remainder data ES count tie_size fuel
            (s.1 + 1, s.2.1 + ES,
             fun v => if v = s.1 then
               (s.2.2 s.1 && decide (memcmp data s.2.1 data (s.2.1 + ES) tie_size = 0))
               else s.2.2 v) := by
        simp [ComputeTies.remainder, hc]
      rw [hval]
      apply ih
      intro v hv
      have hvj : v ≠ s.1 := by omega
      simp only [hvj, if_false]
      exact h v hv
    · have hval : ComputeTies.remainder data ES count tie_size (fuel + 1) s = s := by
        simp [ComputeTies.remainder, hc]
      rw [hval]
      exact h

/-- The array that `ComputeTies` returns is the array of the pairwise comparisons. -/
theorem ComputeTies_eq_pairwise (d : Buffer) (count co sz : Nat) (ties : Nat → Bool)
    (st : SortingState) :
    ComputeTies d count co sz ties st = pairwiseTies d count co sz ties st := by
  obtain ⟨h1, h2⟩ := ComputeTies_spec d count co sz ties st
  funext v
  unfold pairwiseTies
  by_cases hv : v < count - 1
  · rw [if_pos hv]
    exact h1 v hv
  · rw [if_neg hv]
    by_cases hv2 : v = count - 1
    · rw [if_pos hv2, hv2]
      exact h2
    · rw [if_neg hv2]
      have hf := ComputeTies_remainder_frame d st.ENTRY_SIZE count sz ties count
        (ComputeTies.unrolled d st.ENTRY_SIZE count sz count (0, co, ties))
        (ComputeTies_unrolled_frame d st.ENTRY_SIZE count sz ties count (0, co, ties)
          (fun _ _ => rfl))
        v (by omega)
      simp only [ComputeTies, hv2, if_false]
      exact hf

/-- C23: for `count >= 1`, every window and every array `ties`, `ComputeTies` with its
unrolled loop and its remainder loop returns the array of the pairwise comparisons:
`ties[i] && memcmp(row i + col_offset, row i+1 + col_offset, tie_size) == 0` for every
`i < count - 1`, false at `count - 1`, the entries past the block unchanged; an entry that is
true afterwards was true before. -/
theorem ComputeTies_pairwise (dataptr : Buffer) (count col_offset tie_size : Nat)
    (ties : Nat → Bool) (sorting_state : SortingState) (_hcount : 1 ≤ count) :
    ComputeTies dataptr count col_offset tie_size ties sorting_state =
      pairwiseTies dataptr count col_offset tie_size ties sorting_state ∧
    (∀ i, i < count - 1 →
      ComputeTies dataptr count col_offset tie_size ties sorting_state i =
        (ties i && decide (memcmp dataptr (i * sorting_state.ENTRY_SIZE + col_offset)
          dataptr ((i + 1) * sorting_state.ENTRY_SIZE + col_offset) tie_size = 0))) ∧
    ComputeTies dataptr count col_offset tie_size ties sorting_state (count - 1) = false ∧
    (∀ i, ComputeTies dataptr count col_offset tie_size ties sorting_state i = true →
      ties i = true) := by
  have he := ComputeTies_eq_pairwise dataptr count col_offset tie_size ties sorting_state
  obtain ⟨h1, h2⟩ := ComputeTies_spec dataptr count col_offset tie_size ties sorting_state
  refine ⟨he, h1, h2, ?_⟩
  intro i hi
  rw [he] at hi
  unfold pairwiseTies at hi
  by_cases hv : i < count - 1
  · rw [if_pos hv, Bool.and_eq_true] at hi
    exact hi.1
  · rw [if_neg hv] at hi
    by_cases hv2 : i = count - 1
    · rw [if_pos hv2] at hi
      exact Bool.noConfusion hi
    · rw [if_neg hv2] at hi
      exact hi

theorem ComputeTies_pairwise_witness :
    ComputeTies sampleKeyBlock.block 3 0 2 sampleAlphabetTies sampleSortingState =
      pairwiseTies sampleKeyBlock.block 3 0 2 sampleAlphabetTies sampleSortingState ∧
    (∀ i, i < 3 - 1 →
      ComputeTies sampleKeyBlock.block 3 0 2 sampleAlphabetTies sampleSortingState i =
        (sampleAlphabetTies i && decide (memcmp sampleKeyBlock.block
          (i * sampleSortingState.ENTRY_SIZE + 0)
          sampleKeyBlock.block ((i + 1) * sampleSortingState.ENTRY_SIZE + 0) 2 = 0))) ∧
    ComputeTies sampleKeyBlock.block 3 0 2 sampleAlphabetTies sampleSortingState (3 - 1) = false ∧
    (∀ i, ComputeTies sampleKeyBlock.block 3 0 2 sampleAlphabetTies sampleSortingState i = true →
      sampleAlphabetTies i = true) :=
  ComputeTies_pairwise sampleKeyBlock.block 3 0 2 sampleAlphabetTies sampleSortingState (by decide)

/-- The properties of `CompareStrings` as `BreakStringTies` calls it for column `c`, with
`LessThan` a strict total order of strings and `Equals` equality. -/
theorem CompareStrings_order (ext : Extern) (hv : ext.Valid) (st : SortingState) (c : Nat)
    (d : Buffer) (var offs : Buffer) (ss : Nat) :
    (st.ORDER_TYPES.getD c OrderType.ASCENDING ≠ OrderType.DESCENDING →
      ∀ l r, CompareStrings ext d l r var offs (breakOrder st c) ss =
        ext.LessThan (stringOfRow ext d l var offs ss).2 (stringOfRow ext d r var offs ss).2) ∧
    (st.ORDER_TYPES.getD c OrderType.ASCENDING = OrderType.DESCENDING →
      ∀ l r, CompareStrings ext d l r var offs (breakOrder st c) ss =
        ext.LessThan (stringOfRow ext d r var offs ss).2 (stringOfRow ext d l var offs ss).2) ∧
    (∀ l r, (stringOfRow ext d l var offs ss).2 = (stringOfRow ext d r var offs ss).2 →
      CompareStrings ext d l r var offs (breakOrder st c) ss = false) ∧
    (∀ l, CompareStrings ext d l l var offs (breakOrder st c) ss = false) ∧
    (∀ l r, CompareStrings ext d l r var offs (breakOrder st c) ss = true →
      CompareStrings ext d r l var offs (breakOrder st c) ss = false) ∧
    StrictWeak (fun l r => CompareStrings ext d l r var offs (breakOrder st c) ss) := by
  refine ⟨?_, ?_, ?_, ?_, ?_, CompareStrings_strictWeak ext hv st c d var offs ss⟩
  · intro h l r
    rw [CompareStrings_eq_before ext hv]
    unfold stringBefore
    have : (st.ORDER_TYPES.getD c OrderType.ASCENDING == OrderType.DESCENDING) = false := by
      simpa using h
    simp only [this, Bool.false_eq_true, if_false]
  · intro h l r
    rw [CompareStrings_eq_before ext hv]
    unfold stringBefore
    have : (st.ORDER_TYPES.getD c OrderType.ASCENDING == OrderType.DESCENDING) = true := by
      simpa using h
    simp only [this, if_true]
  · intro l r h
    rw [CompareStrings_eq_before ext hv, h]
    exact stringBefore_irrefl ext hv st c _
  · intro l
    rw [CompareStrings_eq_before ext hv]
    exact stringBefore_irrefl ext hv st c _
  · intro l r h
    rw [CompareStrings_eq_before ext hv] at h ⊢
    exact stringBefore_asymm ext hv st c _ _ h

/-- A group whose first row holds a NULL key is left as it is by `BreakStringTies`. -/
theorem BreakStringTies_null (ext : Extern) (d : Buffer) (start end_ c : Nat)
    (t : Nat → Bool) (var offs : Buffer) (st : SortingState)
    (hhas : st.HAS_NULL.getD c false = true)
    (hbyte : d (start * st.ENTRY_SIZE + colStart st c) =
      if st.ORDER_BY_NULL_TYPES.getD c OrderByNullType.NULLS_FIRST = OrderByNullType.NULLS_FIRST
      then 0 else 1) :
    BreakStringTies ext d start end_ c t var offs st = (d, t) := by
  have hnull : isNullKey st c d (start * st.ENTRY_SIZE) = true := by
    unfold isNullKey
    rw [hhas, hbyte]
    cases st.ORDER_BY_NULL_TYPES.getD c OrderByNullType.NULLS_FIRST <;> decide
  rw [BreakStringTies_unfold, if_pos hnull]

/-- A group whose first row has the padding byte among its key bytes is left as it is by
`BreakStringTies`. -/
theorem BreakStringTies_padded (ext : Extern) (d : Buffer) (start end_ c : Nat)
    (t : Nat → Bool) (var offs : Buffer) (st : SortingState)
    (hpad : hasPadding ext st c d (start * st.ENTRY_SIZE) = true) :
    BreakStringTies ext d start end_ c t var offs st = (d, t) := by
  rw [BreakStringTies_unfold, if_pos hpad]
  split <;> rfl

/-- The order of the full strings after `BreakStringTies`, spelled out for the two order
types. -/
theorem BreakStringTies_strings_ordered (ext : Extern) (hv : ext.Valid) (d : Buffer)
    (start end_ c : Nat) (t : Nat → Bool) (var offs : Buffer) (st : SortingState)
    (h8 : 8 ≤ st.ENTRY_SIZE) (hES : st.ENTRY_SIZE < IDX_MOD)
    (hperm : ∀ (lt : Nat → Nat → Bool) (l : List Nat), List.Perm (ext.std_sort lt l) l)
    (hnull : isNullKey st c d (start * st.ENTRY_SIZE) = false)
    (hpad : hasPadding ext st c d (start * st.ENTRY_SIZE) = false) :
    (st.ORDER_TYPES.getD c OrderType.ASCENDING ≠ OrderType.DESCENDING →
      ∀ p q, p < q → q < end_ - start →
        ext.LessThan
          (stringOfRow ext (BreakStringTies ext d start end_ c t var offs st).1
            ((start + q) * st.ENTRY_SIZE) var offs (st.ENTRY_SIZE - 8)).2
          (stringOfRow ext (BreakStringTies ext d start end_ c t var offs st).1
            ((start + p) * st.ENTRY_SIZE) var offs (st.ENTRY_SIZE - 8)).2 = false) ∧
    (st.ORDER_TYPES.getD c OrderType.ASCENDING = OrderType.DESCENDING →
      ∀ p q, p < q → q < end_ - start →
        ext.LessThan
          (stringOfRow ext (BreakStringTies ext d start end_ c t var offs st).1
            ((start + p) * st.ENTRY_SIZE) var offs (st.ENTRY_SIZE - 8)).2
          (stringOfRow ext (BreakStringTies ext d start end_ c t var offs st).1
            ((start + q) * st.ENTRY_SIZE) var offs (st.ENTRY_SIZE - 8)).2 = false) := by
  obtain ⟨-, -, -, -, -, h6⟩ := BreakStringTies_group ext d start end_ c t var offs st h8 hES hperm
  obtain ⟨hs, -, -⟩ := h6 hv (by rw [hnull, hpad]; rfl)
  refine ⟨?_, ?_⟩
  · intro h p q hpq hq
    have := hs p q hpq hq
    unfold stringBefore at this
    have hb : (st.ORDER_TYPES.getD c OrderType.ASCENDING == OrderType.DESCENDING) = false := by
      simpa using h
    simpa only [hb, Bool.false_eq_true, if_false] using this
  · intro h p q hpq hq
    have := hs p q hpq hq
    unfold stringBefore at this
    have hb : (st.ORDER_TYPES.getD c OrderType.ASCENDING == OrderType.DESCENDING) = true := by
      simpa using h
    simpa only [hb, if_true] using this

/-- C24: for a group of rows `[start, end)` whose first row holds a key that is not NULL and
has no padding byte among its key bytes, after `BreakStringTies` the rows of the group are
the rows that were there before, rearranged (each row whole, trailing index included); the
full strings of the rows, found through their trailing indices, are in non-decreasing order
for an ascending column and in non-increasing order for a descending one; and every byte
outside the group is unchanged. `std::sort` keeps its contract and `LessThan`, `Equals` are
the order and the equality of strings. -/
theorem BreakStringTies_sorts_run (ext : Extern) (hv : ext.Valid)
    (hperm : ∀ (lt : Nat → Nat → Bool) (l : List Nat), List.Perm (ext.std_sort lt l) l)
    (dataptr : Buffer) (start end_ tie_col : Nat) (ties : Nat → Bool)
    (var_dataptr offsets_ptr : Buffer) (sorting_state : SortingState)
    (h8 : 8 ≤ sorting_state.ENTRY_SIZE) (hES : sorting_state.ENTRY_SIZE < IDX_MOD)
    (hnull : isNullKey sorting_state tie_col dataptr (start * sorting_state.ENTRY_SIZE) = false)
    (hpad : hasPadding ext sorting_state tie_col dataptr (start * sorting_state.ENTRY_SIZE)
      = false) :
    List.Perm
      (rowsAt (BreakStringTies ext dataptr start end_ tie_col ties var_dataptr offsets_ptr
        sorting_state).1 sorting_state.ENTRY_SIZE (start * sorting_state.ENTRY_SIZE)
        (end_ - start))
      (rowsAt dataptr sorting_state.ENTRY_SIZE (start * sorting_state.ENTRY_SIZE)
        (end_ - start)) ∧
    (∀ q, q < end_ - start → ∃ k, k < end_ - start ∧
      RowEq sorting_state.ENTRY_SIZE
        (BreakStringTies ext dataptr start end_ tie_col ties var_dataptr offsets_ptr
          sorting_state).1 (start + q) dataptr (start + k)) ∧
    (sorting_state.ORDER_TYPES.getD tie_col OrderType.ASCENDING ≠ OrderType.DESCENDING →
      ∀ p q, p < q → q < end_ - start →
        ext.LessThan
          (stringOfRow ext (BreakStringTies ext dataptr start end_ tie_col ties var_dataptr
            offsets_ptr sorting_state).1 ((start + q) * sorting_state.ENTRY_SIZE) var_dataptr
            offsets_ptr (sorting_state.ENTRY_SIZE - 8)).2
          (stringOfRow ext (BreakStringTies ext dataptr start end_ tie_col ties var_dataptr
            offsets_ptr sorting_state).1 ((start + p) * sorting_state.ENTRY_SIZE) var_dataptr
            offsets_ptr (sorting_state.ENTRY_SIZE - 8)).2 = false) ∧
    (sorting_state.ORDER_TYPES.getD tie_col OrderType.ASCENDING = OrderType.DESCENDING →
      ∀ p q, p < q → q < end_ - start →
        ext.LessThan
          (stringOfRow ext (BreakStringTies ext dataptr start end_ tie_col ties var_dataptr
            offsets_ptr sorting_state).1 ((start + p) * sorting_state.ENTRY_SIZE) var_dataptr
            offsets_ptr (sorting_state.ENTRY_SIZE - 8)).2
          (stringOfRow ext (BreakStringTies ext dataptr start end_ tie_col ties var_dataptr
            offsets_ptr sorting_state).1 ((start + q) * sorting_state.ENTRY_SIZE) var_dataptr
            offsets_ptr (sorting_state.ENTRY_SIZE - 8)).2 = false) ∧
    SameOutside sorting_state.ENTRY_SIZE (end_ - start) dataptr
      (start * sorting_state.ENTRY_SIZE)
      (BreakStringTies ext dataptr start end_ tie_col ties var_dataptr offsets_ptr
        sorting_state).1 := by
  obtain ⟨h1, h2, h3, -, -, -⟩ := BreakStringTies_group ext dataptr start end_ tie_col ties
    var_dataptr offsets_ptr sorting_state h8 hES hperm
  obtain ⟨h4, h5⟩ := BreakStringTies_strings_ordered ext hv dataptr start end_ tie_col ties
    var_dataptr offsets_ptr sorting_state h8 hES hperm hnull hpad
  exact ⟨h3, h2, h4, h5, h1⟩

theorem BreakStringTies_sorts_run_witness :
    (isNullKey sampleStringState 0 sampleAlphabetKeys (0 * sampleStringState.ENTRY_SIZE) = false ∧
      hasPadding sampleExtern sampleStringState 0 sampleAlphabetKeys
        (0 * sampleStringState.ENTRY_SIZE) = false) ∧
    (List.Perm
      (rowsAt (BreakStringTies sampleExtern sampleAlphabetKeys 0 3 0 sampleAlphabetTies
        sampleAlphabetBlob sampleAlphabetOffsets sampleStringState).1
        sampleStringState.ENTRY_SIZE (0 * sampleStringState.ENTRY_SIZE) (3 - 0))
      (rowsAt sampleAlphabetKeys sampleStringState.ENTRY_SIZE
        (0 * sampleStringState.ENTRY_SIZE) (3 - 0)) ∧
    (∀ q, q < 3 - 0 → ∃ k, k < 3 - 0 ∧
      RowEq sampleStringState.ENTRY_SIZE
        (BreakStringTies sampleExtern sampleAlphabetKeys 0 3 0 sampleAlphabetTies
          sampleAlphabetBlob sampleAlphabetOffsets sampleStringState).1 (0 + q)
        sampleAlphabetKeys (0 + k)) ∧
    (sampleStringState.ORDER_TYPES.getD 0 OrderType.ASCENDING ≠ OrderType.DESCENDING →
      ∀ p q, p < q → q < 3 - 0 →
        sampleExtern.LessThan
          (stringOfRow sampleExtern (BreakStringTies sampleExtern sampleAlphabetKeys 0 3 0
            sampleAlphabetTies sampleAlphabetBlob sampleAlphabetOffsets sampleStringState).1
            ((0 + q) * sampleStringState.ENTRY_SIZE) sampleAlphabetBlob sampleAlphabetOffsets
            (sampleStringState.ENTRY_SIZE - 8)).2
          (stringOfRow sampleExtern (BreakStringTies sampleExtern sampleAlphabetKeys 0 3 0
            sampleAlphabetTies sampleAlphabetBlob sampleAlphabetOffsets sampleStringState).1
            ((0 + p) * sampleStringState.ENTRY_SIZE) sampleAlphabetBlob sampleAlphabetOffsets
            (sampleStringState.ENTRY_SIZE - 8)).2 = false) ∧
    (sampleStringState.ORDER_TYPES.getD 0 OrderType.ASCENDING = OrderType.DESCENDING →
      ∀ p q, p < q → q < 3 - 0 →
        sampleExtern.LessThan
          (stringOfRow sampleExtern (BreakStringTies sampleExtern sampleAlphabetKeys 0 3 0
            sampleAlphabetTies sampleAlphabetBlob sampleAlphabetOffsets sampleStringState).1
            ((0 + p) * sampleStringState.ENTRY_SIZE) sampleAlphabetBlob sampleAlphabetOffsets
            (sampleStringState.ENTRY_SIZE - 8)).2
          (stringOfRow sampleExtern (BreakStringTies sampleExtern sampleAlphabetKeys 0 3 0
            sampleAlphabetTies sampleAlphabetBlob sampleAlphabetOffsets sampleStringState).1
            ((0 + q) * sampleStringState.ENTRY_SIZE) sampleAlphabetBlob sampleAlphabetOffsets
            (sampleStringState.ENTRY_SIZE - 8)).2 = false) ∧
    SameOutside sampleStringState.ENTRY_SIZE (3 - 0) sampleAlphabetKeys
      (0 * sampleStringState.ENTRY_SIZE)
      (BreakStringTies sampleExtern sampleAlphabetKeys 0 3 0 sampleAlphabetTies
        sampleAlphabetBlob sampleAlphabetOffsets sampleStringState).1) ∧
    bytesOf (BreakStringTies sampleExtern sampleAlphabetKeys 0 3 0 sampleAlphabetTies
        sampleAlphabetBlob sampleAlphabetOffsets sampleStringState).1 0 51 =
      sampleAlphabetRow 2 ++ sampleAlphabetRow 1 ++ sampleAlphabetRow 0 :=
  ⟨⟨by decide, by decide⟩,
   BreakStringTies_sorts_run sampleExtern sampleExtern_valid sampleExtern_perm
     sampleAlphabetKeys 0 3 0 sampleAlphabetTies sampleAlphabetBlob sampleAlphabetOffsets
     sampleStringState (by decide) (by decide) (by decide) (by decide),
   by decide⟩

/-- C25 as stated fails for a group in the last key column: the three rows of
`sampleAlphabetKeys` (one VARCHAR key column, strings `alphabetical`, `alphabetic!`,
`alphabet`) are tied, `BreakStringTies` sorts them, and afterwards `ties[0]` and `ties[1]`
are still true although the full strings of rows 0, 1 and 2 differ. -/
theorem BreakStringTies_last_column_keeps_ties :
    sampleStringState.ORDER_TYPES.length = 1 ∧
    isNullKey sampleStringState 0 sampleAlphabetKeys 0 = false ∧
    hasPadding sampleExtern sampleStringState 0 sampleAlphabetKeys 0 = false ∧
    (BreakStringTies sampleExtern sampleAlphabetKeys 0 3 0 sampleAlphabetTies
      sampleAlphabetBlob sampleAlphabetOffsets sampleStringState).2 0 = true ∧
    (BreakStringTies sampleExtern sampleAlphabetKeys 0 3 0 sampleAlphabetTies
      sampleAlphabetBlob sampleAlphabetOffsets sampleStringState).2 1 = true ∧
    (stringOfRow sampleExtern (BreakStringTies sampleExtern sampleAlphabetKeys 0 3 0
        sampleAlphabetTies sampleAlphabetBlob sampleAlphabetOffsets sampleStringState).1
        0 sampleAlphabetBlob sampleAlphabetOffsets 9).2 =
      [97, 108, 112, 104, 97, 98, 101, 116] ∧
    (stringOfRow sampleExtern (BreakStringTies sampleExtern sampleAlphabetKeys 0 3 0
        sampleAlphabetTies sampleAlphabetBlob sampleAlphabetOffsets sampleStringState).1
        17 sampleAlphabetBlob sampleAlphabetOffsets 9).2 =
      [97, 108, 112, 104, 97, 98, 101, 116, 105, 99, 33] ∧
    (stringOfRow sampleExtern (BreakStringTies sampleExtern sampleAlphabetKeys 0 3 0
        sampleAlphabetTies sampleAlphabetBlob sampleAlphabetOffsets sampleStringState).1
        34 sampleAlphabetBlob sampleAlphabetOffsets 9).2 =
      [97, 108, 112, 104, 97, 98, 101, 116, 105, 99, 97, 108] :=
  ⟨rfl, by decide, by decide, by decide, by decide, by decide, by decide, by decide⟩

/-- C25 (amended): for a group that `BreakStringTies` sorts (the key of its first row is not
NULL and has no padding byte) in a tie column that is not the last key column, afterwards
`ties[i]` for `start <= i < end - 1` is true exactly when the full strings of rows `i` and
`i + 1` are equal; in the last key column the array `ties` is left as it was. -/
theorem BreakStringTies_recomputes_ties (ext : Extern) (hv : ext.Valid)
    (hperm : ∀ (lt : Nat → Nat → Bool) (l : List Nat), List.Perm (ext.std_sort lt l) l)
    (dataptr : Buffer) (start end_ tie_col : Nat) (ties : Nat → Bool)
    (var_dataptr offsets_ptr : Buffer) (sorting_state : SortingState)
    (h8 : 8 ≤ sorting_state.ENTRY_SIZE) (hES : sorting_state.ENTRY_SIZE < IDX_MOD)
    (_hcol : tie_col < sorting_state.ORDER_TYPES.length)
    (hnull : isNullKey sorting_state tie_col dataptr (start * sorting_state.ENTRY_SIZE) = false)
    (hpad : hasPadding ext sorting_state tie_col dataptr (start * sorting_state.ENTRY_SIZE)
      = false) :
    (tie_col < sorting_state.ORDER_TYPES.length - 1 →
      ∀ k, k < end_ - start - 1 →
        ((BreakStringTies ext dataptr start end_ tie_col ties var_dataptr offsets_ptr
            sorting_state).2 (start + k) = true ↔
          (stringOfRow ext (BreakStringTies ext dataptr start end_ tie_col ties var_dataptr
              offsets_ptr sorting_state).1 ((start + k) * sorting_state.ENTRY_SIZE)
              var_dataptr offsets_ptr (sorting_state.ENTRY_SIZE - 8)).2 =
            (stringOfRow ext (BreakStringTies ext dataptr start end_ tie_col ties var_dataptr
              offsets_ptr sorting_state).1 ((start + k + 1) * sorting_state.ENTRY_SIZE)
              var_dataptr offsets_ptr (sorting_state.ENTRY_SIZE - 8)).2)) ∧
    (tie_col = sorting_state.ORDER_TYPES.length - 1 →
      (BreakStringTies ext dataptr start end_ tie_col ties var_dataptr offsets_ptr
        sorting_state).2 = ties) := by
  obtain ⟨-, -, -, -, -, h6⟩ := BreakStringTies_group ext dataptr start end_ tie_col ties
    var_dataptr offsets_ptr sorting_state h8 hES hperm
  obtain ⟨-, h7, h8'⟩ := h6 hv (by rw [hnull, hpad]; rfl)
  refine ⟨?_, ?_⟩
  · intro hlt k hk
    rw [h7 hlt k hk, decide_eq_true_eq]
  · intro heq
    exact h8' (by omega)

theorem BreakStringTies_recomputes_ties_witness :
    (isNullKey sampleTwoStringState 0 sampleTwoStringKeys
        (0 * sampleTwoStringState.ENTRY_SIZE) = false ∧
      hasPadding sampleExtern sampleTwoStringState 0 sampleTwoStringKeys
        (0 * sampleTwoStringState.ENTRY_SIZE) = false) ∧
    ((0 < sampleTwoStringState.ORDER_TYPES.length - 1 →
      ∀ k, k < 3 - 0 - 1 →
        ((BreakStringTies sampleExtern sampleTwoStringKeys 0 3 0 sampleAlphabetTies
            sampleAlphabetBlob sampleAlphabetOffsets sampleTwoStringState).2 (0 + k) = true ↔
          (stringOfRow sampleExtern (BreakStringTies sampleExtern sampleTwoStringKeys 0 3 0
              sampleAlphabetTies sampleAlphabetBlob sampleAlphabetOffsets
              sampleTwoStringState).1 ((0 + k) * sampleTwoStringState.ENTRY_SIZE)
              sampleAlphabetBlob sampleAlphabetOffsets (sampleTwoStringState.ENTRY_SIZE - 8)).2 =
            (stringOfRow sampleExtern (BreakStringTies sampleExtern sampleTwoStringKeys 0 3 0
              sampleAlphabetTies sampleAlphabetBlob sampleAlphabetOffsets
              sampleTwoStringState).1 ((0 + k + 1) * sampleTwoStringState.ENTRY_SIZE)
              sampleAlphabetBlob sampleAlphabetOffsets
              (sampleTwoStringState.ENTRY_SIZE - 8)).2)) ∧
    (0 = sampleTwoStringState.ORDER_TYPES.length - 1 →
      (BreakStringTies sampleExtern sampleTwoStringKeys 0 3 0 sampleAlphabetTies
        sampleAlphabetBlob sampleAlphabetOffsets sampleTwoStringState).2 =
          sampleAlphabetTies)) ∧
    (BreakStringTies sampleExtern sampleTwoStringKeys 0 3 0 sampleAlphabetTies
      sampleAlphabetBlob sampleAlphabetOffsets sampleTwoStringState).2 0 = false :=
  ⟨⟨by decide, by decide⟩,
   BreakStringTies_recomputes_ties sampleExtern sampleExtern_valid sampleExtern_perm
     sampleTwoStringKeys 0 3 0 sampleAlphabetTies sampleAlphabetBlob sampleAlphabetOffsets
     sampleTwoStringState (by decide) (by decide) (by decide) (by decide) (by decide),
   by decide⟩

/-- C26: for a group whose first row is NULL in the tie column, `BreakStringTies` returns
the sorting block and the array `ties` as they were, for an ascending and for a descending
column alike. The first row is NULL when the column has a validity byte and that byte is 0
under NULLS_FIRST or 1 under NULLS_LAST (the values that `BreakStringTies` names as the
encoding of NULL, whatever the order type); the same holds when one of the key bytes of the
first row is the padding byte of the order of the column (0 ascending, 0xFF descending), the
second test of the function, which its comment applies to NULL keys too. -/
theorem BreakStringTies_null_run_unchanged (ext : Extern) (dataptr : Buffer)
    (start end_ tie_col : Nat) (ties : Nat → Bool) (var_dataptr offsets_ptr : Buffer)
    (sorting_state : SortingState)
    (hnull : (sorting_state.HAS_NULL.getD tie_col false = true ∧
        dataptr (start * sorting_state.ENTRY_SIZE + colStart sorting_state tie_col) =
          if sorting_state.ORDER_BY_NULL_TYPES.getD tie_col OrderByNullType.NULLS_FIRST =
            OrderByNullType.NULLS_FIRST
          then 0 else 1) ∨
      hasPadding ext sorting_state tie_col dataptr (start * sorting_state.ENTRY_SIZE) = true) :
    BreakStringTies ext dataptr start end_ tie_col ties var_dataptr offsets_ptr sorting_state =
      (dataptr, ties) := by
  rcases hnull with ⟨hhas, hbyte⟩ | hpad
  · exact BreakStringTies_null ext dataptr start end_ tie_col ties var_dataptr offsets_ptr
      sorting_state hhas hbyte
  · exact BreakStringTies_padded ext dataptr start end_ tie_col ties var_dataptr offsets_ptr
      sorting_state hpad

theorem BreakStringTies_null_run_unchanged_witness :
    sampleDescStringState.ORDER_TYPES.getD 0 OrderType.ASCENDING = OrderType.DESCENDING ∧
    sampleDescStringState.HAS_NULL.getD 0 false = true ∧
    sampleNullKeys (0 * sampleDescStringState.ENTRY_SIZE + colStart sampleDescStringState 0) =
      (if sampleDescStringState.ORDER_BY_NULL_TYPES.getD 0 OrderByNullType.NULLS_FIRST =
        OrderByNullType.NULLS_FIRST
      then 0 else 1) ∧
    BreakStringTies sampleExtern sampleNullKeys 0 2 0 sampleAlphabetTies sampleAlphabetBlob
      sampleAlphabetOffsets sampleDescStringState = (sampleNullKeys, sampleAlphabetTies) :=
  ⟨rfl, rfl, rfl,
   BreakStringTies_null_run_unchanged sampleExtern sampleNullKeys 0 2 0 sampleAlphabetTies
     sampleAlphabetBlob sampleAlphabetOffsets sampleDescStringState (Or.inl ⟨rfl, rfl⟩)⟩

/-- C29: with `LessThan` a strict total order of strings and `Equals` their equality, for
every pair of rows `l`, `r` the comparison `CompareStrings(l, r)` that `BreakStringTies`
hands to `std::sort` is true exactly when the full string of `l` is less than that of `r`
for an ascending column and greater for a descending one; it is false for rows with equal
strings and for `l = r`, never true in both directions, and a strict weak ordering. -/
theorem CompareStrings_strict_weak_order (ext : Extern) (hv : ext.Valid)
    (sorting_state : SortingState) (tie_col : Nat) (dataptr var_dataptr offsets : Buffer)
    (sorting_size : Nat) :
    (sorting_state.ORDER_TYPES.getD tie_col OrderType.ASCENDING ≠ OrderType.DESCENDING →
      ∀ l r, CompareStrings ext dataptr l r var_dataptr offsets
          (breakOrder sorting_state tie_col) sorting_size =
        ext.LessThan (stringOfRow ext dataptr l var_dataptr offsets sorting_size).2
          (stringOfRow ext dataptr r var_dataptr offsets sorting_size).2) ∧
    (sorting_state.ORDER_TYPES.getD tie_col OrderType.ASCENDING = OrderType.DESCENDING →
      ∀ l r, CompareStrings ext dataptr l r var_dataptr offsets
          (breakOrder sorting_state tie_col) sorting_size =
        ext.LessThan (stringOfRow ext dataptr r var_dataptr offsets sorting_size).2
          (stringOfRow ext dataptr l var_dataptr offsets sorting_size).2) ∧
    (∀ l r, (stringOfRow ext dataptr l var_dataptr offsets sorting_size).2 =
        (stringOfRow ext dataptr r var_dataptr offsets sorting_size).2 →
      CompareStrings ext dataptr l r var_dataptr offsets (breakOrder sorting_state tie_col)
        sorting_size = false) ∧
    (∀ l, CompareStrings ext dataptr l l var_dataptr offsets (breakOrder sorting_state tie_col)
      sorting_size = false) ∧
    (∀ l r, CompareStrings ext dataptr l r var_dataptr offsets
        (breakOrder sorting_state tie_col) sorting_size = true →
      CompareStrings ext dataptr r l var_dataptr offsets (breakOrder sorting_state tie_col)
        sorting_size = false) ∧
    StrictWeak (fun l r => CompareStrings ext dataptr l r var_dataptr offsets
      (breakOrder sorting_state tie_col) sorting_size) :=
  CompareStrings_order ext hv sorting_state tie_col dataptr var_dataptr offsets sorting_size

theorem CompareStrings_strict_weak_order_witness :
    ((sampleStringState.ORDER_TYPES.getD 0 OrderType.ASCENDING ≠ OrderType.DESCENDING →
      ∀ l r, CompareStrings sampleExtern sampleAlphabetKeys l r sampleAlphabetBlob
          sampleAlphabetOffsets (breakOrder sampleStringState 0) 9 =
        sampleExtern.LessThan
          (stringOfRow sampleExtern sampleAlphabetKeys l sampleAlphabetBlob
            sampleAlphabetOffsets 9).2
          (stringOfRow sampleExtern sampleAlphabetKeys r sampleAlphabetBlob
            sampleAlphabetOffsets 9).2) ∧
    (sampleStringState.ORDER_TYPES.getD 0 OrderType.ASCENDING = OrderType.DESCENDING →
      ∀ l r, CompareStrings sampleExtern sampleAlphabetKeys l r sampleAlphabetBlob
          sampleAlphabetOffsets (breakOrder sampleStringState 0) 9 =
        sampleExtern.LessThan
          (stringOfRow sampleExtern sampleAlphabetKeys r sampleAlphabetBlob
            sampleAlphabetOffsets 9).2
          (stringOfRow sampleExtern sampleAlphabetKeys l sampleAlphabetBlob
            sampleAlphabetOffsets 9).2) ∧
    (∀ l r, (stringOfRow sampleExtern sampleAlphabetKeys l sampleAlphabetBlob
          sampleAlphabetOffsets 9).2 =
        (stringOfRow sampleExtern sampleAlphabetKeys r sampleAlphabetBlob
          sampleAlphabetOffsets 9).2 →
      CompareStrings sampleExtern sampleAlphabetKeys l r sampleAlphabetBlob
        sampleAlphabetOffsets (breakOrder sampleStringState 0) 9 = false) ∧
    (∀ l, CompareStrings sampleExtern sampleAlphabetKeys l l sampleAlphabetBlob
      sampleAlphabetOffsets (breakOrder sampleStringState 0) 9 = false) ∧
    (∀ l r, CompareStrings sampleExtern sampleAlphabetKeys l r sampleAlphabetBlob
        sampleAlphabetOffsets (breakOrder sampleStringState 0) 9 = true →
      CompareStrings sampleExtern sampleAlphabetKeys r l sampleAlphabetBlob
        sampleAlphabetOffsets (breakOrder sampleStringState 0) 9 = false) ∧
    StrictWeak (fun l r => CompareStrings sampleExtern sampleAlphabetKeys l r
      sampleAlphabetBlob sampleAlphabetOffsets (breakOrder sampleStringState 0) 9)) ∧
    CompareStrings sampleExtern sampleAlphabetKeys 34 0 sampleAlphabetBlob
      sampleAlphabetOffsets (breakOrder sampleStringState 0) 9 = true ∧
    CompareStrings sampleExtern sampleAlphabetKeys 0 34 sampleAlphabetBlob
      sampleAlphabetOffsets (breakOrder sampleStringState 0) 9 = false :=
  ⟨CompareStrings_strict_weak_order sampleExtern sampleExtern_valid sampleStringState 0
     sampleAlphabetKeys sampleAlphabetBlob sampleAlphabetOffsets 9,
   by decide, by decide⟩

/-- The loop of `SubSortTiedTuples` from row `i` on rearranges the rows of every maximal tied
group that starts at row `i` or later within the group. -/
theorem SubSort_loop_group_perm (fresh : Buffer) (count co sz : Nat) (ties : Nat → Bool)
    (st : SortingState) (hwin : co + sz ≤ st.ENTRY_SIZE) (hlt : co + sz < IDX_MOD)
    (hlast : ties (count - 1) = false) :
    ∀ fuel i d, i ≤ count → count ≤ i + fuel →
      ∀ a b, i ≤ a → b < count → TiedGroup ties a b →
        List.Perm
          (rowsAt (SubSortTiedTuples.loop fresh count co sz ties st fuel i d) st.ENTRY_SIZE
            (a * st.ENTRY_SIZE) (b - a + 1))
          (rowsAt d st.ENTRY_SIZE (a * st.ENTRY_SIZE) (b - a + 1)) := by
  intro fuel
  induction fuel with
  | zero =>
    intro i d _ _ a b _ _ _
    exact List.Perm.refl _
  | succ fuel ih =>
    intro i d hi hfuel a b hia hbc hg
    obtain ⟨hab, hgt, hgb, hga⟩ := hg
    have hic : i < count := by omega
    by_cases ht : ties i = true
    · have hi1 : i + 1 < count := by
        by_contra hcon
        have : i = count - 1 := by omega
        rw [this, hlast] at ht
        exact Bool.noConfusion ht
      obtain ⟨s1, s2, s3, s4⟩ := scanTies_spec ties count count (i + 1) (by omega)
      generalize hj : scanTies ties count count (i + 1) = j at s1 s2 s3 s4
      have hjc : j < count := by
        by_contra hcon
        have hj' : j = count := by have := s4 (by omega); omega
        have := (s2 (count - 1) (by omega) (by omega)).2
        rw [hlast] at this
        exact Bool.noConfusion this
      have hval : SubSortTiedTuples.loop fresh count co sz ties st (fuel + 1) i d =
          SubSortTiedTuples.loop fresh count co sz ties st fuel (j + 1)
            (RadixSort fresh d (i * st.ENTRY_SIZE) (j - i + 1) co sz st) := by
        simp [SubSortTiedTuples.loop, hic, ht, hj]
      rw [hval]
      obtain ⟨g1, -, g3, -⟩ := RadixSort_segment fresh d i (j - i + 1) co sz st hwin hlt
      generalize RadixSort fresh d (i * st.ENTRY_SIZE) (j - i + 1) co sz st = d1 at g1 g3
      obtain ⟨r1, -, -, -⟩ := SubSort_loop_spec fresh count co sz ties st hwin hlt hlast fuel
        (j + 1) d1 (by omega) (by omega)
      have hties : ∀ k, i ≤ k → k < j → ties k = true := by
        intro k hk1 hk2
        by_cases hki : k = i
        · subst hki; exact ht
        · exact (s2 k (by omega) hk2).2
      have hjf : ties j = false := s3 hjc
      have hseg : (j + 1) * st.ENTRY_SIZE = i * st.ENTRY_SIZE + (j - i + 1) * st.ENTRY_SIZE := by
        rw [← Nat.add_mul]
        congr 1
        omega
      by_cases hai : a = i
      · subst hai
        have hbj : b = j := by
          have h1 : ¬ b < j := by
            intro hlt'
            rw [hties b hab hlt'] at hgb
            exact Bool.noConfusion hgb
          have h2 : ¬ j < b := by
            intro hlt'
            rw [hgt j (by omega) hlt'] at hjf
            exact Bool.noConfusion hjf
          omega
        subst hbj
        have e : rowsAt (SubSortTiedTuples.loop fresh count co sz ties st fuel (b + 1) d1)
            st.ENTRY_SIZE (a * st.ENTRY_SIZE) (b - a + 1) =
            rowsAt d1 st.ENTRY_SIZE (a * st.ENTRY_SIZE) (b - a + 1) := by
          apply rowsAt_congr
          intro x _ hx
          exact r1 x (Or.inl (by omega))
        rw [e]
        exact g3
      · have haj : j + 1 ≤ a := by
          rcases hga with h0 | hprev
          · omega
          · by_contra hcon
            rw [hties (a - 1) (by omega) (by omega)] at hprev
            exact Bool.noConfusion hprev
        have hIH := ih (j + 1) d1 (by omega) (by omega) a b haj hbc ⟨hab, hgt, hgb, hga⟩
        have e : rowsAt d1 st.ENTRY_SIZE (a * st.ENTRY_SIZE) (b - a + 1) =
            rowsAt d st.ENTRY_SIZE (a * st.ENTRY_SIZE) (b - a + 1) := by
          apply rowsAt_congr
          intro x hx _
          apply g1
          right
          rw [← hseg]
          have := Nat.mul_le_mul_right st.ENTRY_SIZE haj
          omega
        rw [← e]
        exact hIH
    · have ht' : ties i = false := by simpa using ht
      have hval : SubSortTiedTuples.loop fresh count co sz ties st (fuel + 1) i d =
          SubSortTiedTuples.loop fresh count co sz ties st fuel (i + 1) d := by
        simp [SubSortTiedTuples.loop, hic, ht']
      rw [hval]
      by_cases hai : a = i
      · subst hai
        have hba : b = a := by
          by_contra hcon
          rw [hgt a (Nat.le_refl a) (by omega)] at ht'
          exact Bool.noConfusion ht'
        subst hba
        obtain ⟨r1, -, -, -⟩ := SubSort_loop_spec fresh count co sz ties st hwin hlt hlast fuel
          (b + 1) d (by omega) (by omega)
        have e : rowsAt (SubSortTiedTuples.loop fresh count co sz ties st fuel (b + 1) d)
            st.ENTRY_SIZE (b * st.ENTRY_SIZE) (b - b + 1) =
            rowsAt d st.ENTRY_SIZE (b * st.ENTRY_SIZE) (b - b + 1) := by
          apply rowsAt_congr
          intro x _ hx
          apply r1 x
          left
          rw [Nat.sub_self, Nat.zero_add, Nat.one_mul] at hx
          rw [Nat.add_mul, Nat.one_mul]
          exact hx
        rw [e]
      · exact ih (i + 1) d (by omega) (by omega) a b (by omega) hbc ⟨hab, hgt, hgb, hga⟩

/-- The rows of a tied group of one row are the row itself. -/
theorem SameGroup_single (ties : Nat → Bool) (p q : Nat) (hp : ties p = false)
    (hprev : p = 0 ∨ ties (p - 1) = false) (h : SameGroup ties p q) : q = p := by
  by_contra hne
  rcases Nat.lt_or_gt_of_ne hne with hlt | hgt
  · rcases hprev with h0 | hf
    · omega
    · have := h (p - 1) (by rw [Nat.min_eq_right (Nat.le_of_lt hlt)]; omega)
        (by rw [Nat.max_eq_left (Nat.le_of_lt hlt)]; omega)
      rw [this] at hf
      exact Bool.noConfusion hf
  · have := h p (by rw [Nat.min_eq_left (Nat.le_of_lt hgt)])
      (by rw [Nat.max_eq_right (Nat.le_of_lt hgt)]; exact hgt)
    rw [this] at hp
    exact Bool.noConfusion hp

/-- What `SubSortTiedTuples` does to the block, group by group. -/
theorem SubSortTiedTuples_spec (fresh d : Buffer) (count co sz : Nat) (ties : Nat → Bool)
    (st : SortingState) (hwin : co + sz ≤ st.ENTRY_SIZE) (hlt : co + sz < IDX_MOD)
    (hlast : ties (count - 1) = false) :
    (∀ a b, b < count → TiedGroup ties a b →
      List.Perm
        (rowsAt (SubSortTiedTuples fresh d count co sz ties st) st.ENTRY_SIZE
          (a * st.ENTRY_SIZE) (b - a + 1))
        (rowsAt d st.ENTRY_SIZE (a * st.ENTRY_SIZE) (b - a + 1))) ∧
    (∀ p, p + 1 < count → ties p = true →
      memcmp (SubSortTiedTuples fresh d count co sz ties st) (p * st.ENTRY_SIZE + co)
        (SubSortTiedTuples fresh d count co sz ties st) ((p + 1) * st.ENTRY_SIZE + co) sz ≤ 0) ∧
    (∀ p, p < count → ties p = false → (p = 0 ∨ ties (p - 1) = false) →
      RowEq st.ENTRY_SIZE (SubSortTiedTuples fresh d count co sz ties st) p d p) ∧
    (∀ a, count * st.ENTRY_SIZE ≤ a → SubSortTiedTuples fresh d count co sz ties st a = d a) ∧
    List.Perm (rowsAt (SubSortTiedTuples fresh d count co sz ties st) st.ENTRY_SIZE 0 count)
      (rowsAt d st.ENTRY_SIZE 0 count) := by
  obtain ⟨r1, r2, r3, r4⟩ := SubSort_loop_spec fresh count co sz ties st hwin hlt hlast count 0 d
    (Nat.zero_le _) (by omega)
  refine ⟨?_, ?_, ?_, ?_, r3⟩
  · intro a b hb hg
    exact SubSort_loop_group_perm fresh count co sz ties st hwin hlt hlast count 0 d
      (Nat.zero_le _) (by omega) a b (Nat.zero_le _) hb hg
  · intro p hp ht
    exact r4 p (Nat.zero_le _) hp ht
  · intro p hp hf hprev
    obtain ⟨q, -, -, hq3, hq4⟩ := r2 p (Nat.zero_le _) hp
    have := SameGroup_single ties p q hf hprev hq3
    rw [this] at hq4
    exact hq4
  · intro a ha
    exact r1 a (Or.inr ha)

/-- C27: for a block and an array `ties` with `ties[count - 1] = false`, and a window inside
the row, `SubSortTiedTuples` rearranges the rows of every maximal tied group (rows `a..b`
where `ties[a..b-1]` are true, `ties[b]` is false and `ties[a-1]` is not true) among
themselves, leaves every row that is tied to its successor in `memcmp` order with it over the
window, leaves every row that belongs to no tied group where it was with its bytes unchanged,
and leaves the bytes past the block as they were. -/
theorem SubSortTiedTuples_sorts_groups (fresh dataptr : Buffer)
    (count col_offset sorting_size : Nat) (ties : Nat → Bool) (sorting_state : SortingState)
    (hwin : col_offset + sorting_size ≤ sorting_state.ENTRY_SIZE)
    (hlt : col_offset + sorting_size < IDX_MOD)
    (hlast : ties (count - 1) = false) :
    (∀ a b, b < count → TiedGroup ties a b →
      List.Perm
        (rowsAt (SubSortTiedTuples fresh dataptr count col_offset sorting_size ties
          sorting_state) sorting_state.ENTRY_SIZE (a * sorting_state.ENTRY_SIZE) (b - a + 1))
        (rowsAt dataptr sorting_state.ENTRY_SIZE (a * sorting_state.ENTRY_SIZE) (b - a + 1))) ∧
    (∀ p, p + 1 < count → ties p = true →
      memcmp (SubSortTiedTuples fresh dataptr count col_offset sorting_size ties sorting_state)
          (p * sorting_state.ENTRY_SIZE + col_offset)
        (SubSortTiedTuples fresh dataptr count col_offset sorting_size ties sorting_state)
          ((p + 1) * sorting_state.ENTRY_SIZE + col_offset) sorting_size ≤ 0) ∧
    (∀ p, p < count → ties p = false → (p = 0 ∨ ties (p - 1) = false) →
      RowEq sorting_state.ENTRY_SIZE
        (SubSortTiedTuples fresh dataptr count col_offset sorting_size ties sorting_state) p
        dataptr p) ∧
    (∀ a, count * sorting_state.ENTRY_SIZE ≤ a →
      SubSortTiedTuples fresh dataptr count col_offset sorting_size ties sorting_state a =
        dataptr a) := by
  obtain ⟨h1, h2, h3, h4, -⟩ := SubSortTiedTuples_spec fresh dataptr count col_offset
    sorting_size ties sorting_state hwin hlt hlast
  exact ⟨h1, h2, h3, h4⟩

theorem SubSortTiedTuples_sorts_groups_witness :
    (0 + 2 ≤ sampleSortingState.ENTRY_SIZE ∧ sampleAlphabetTies (3 - 1) = false ∧
      TiedGroup sampleAlphabetTies 0 2) ∧
    ((∀ a b, b < 3 → TiedGroup sampleAlphabetTies a b →
      List.Perm
        (rowsAt (SubSortTiedTuples sampleExtern.fresh sampleKeyBlock.block 3 0 2
          sampleAlphabetTies sampleSortingState) sampleSortingState.ENTRY_SIZE
          (a * sampleSortingState.ENTRY_SIZE) (b - a + 1))
        (rowsAt sampleKeyBlock.block sampleSortingState.ENTRY_SIZE
          (a * sampleSortingState.ENTRY_SIZE) (b - a + 1))) ∧
    (∀ p, p + 1 < 3 → sampleAlphabetTies p = true →
      memcmp (SubSortTiedTuples sampleExtern.fresh sampleKeyBlock.block 3 0 2
          sampleAlphabetTies sampleSortingState) (p * sampleSortingState.ENTRY_SIZE + 0)
        (SubSortTiedTuples sampleExtern.fresh sampleKeyBlock.block 3 0 2
          sampleAlphabetTies sampleSortingState)
          ((p + 1) * sampleSortingState.ENTRY_SIZE + 0) 2 ≤ 0) ∧
    (∀ p, p < 3 → sampleAlphabetTies p = false → (p = 0 ∨ sampleAlphabetTies (p - 1) = false) →
      RowEq sampleSortingState.ENTRY_SIZE
        (SubSortTiedTuples sampleExtern.fresh sampleKeyBlock.block 3 0 2
          sampleAlphabetTies sampleSortingState) p sampleKeyBlock.block p) ∧
    (∀ a, 3 * sampleSortingState.ENTRY_SIZE ≤ a →
      SubSortTiedTuples sampleExtern.fresh sampleKeyBlock.block 3 0 2
        sampleAlphabetTies sampleSortingState a = sampleKeyBlock.block a)) :=
  ⟨⟨by decide, by decide,
    ⟨by decide, fun k _ hk => by simp [sampleAlphabetTies, hk], by decide, Or.inl rfl⟩⟩,
   SubSortTiedTuples_sorts_groups sampleExtern.fresh sampleKeyBlock.block 3 0 2
     sampleAlphabetTies sampleSortingState (by decide) (by decide) (by decide)⟩

theorem columnsTraced_cons (ext : Extern) (cb : ContinuousBlock) (st : SortingState)
    (count i : Nat) (rest : List Nat) (s : SortLoopState) :
    SortInMemory.columnsTraced ext cb st count (i :: rest) s =
      if st.CONSTANT_SIZE.getD i false && decide (i < st.CONSTANT_SIZE.length - 1) then
        SortInMemory.columnsTraced ext cb st count rest
          { s with sorting_size := s.sorting_size + st.COL_SIZE.getD i 0 }
      else
        SortInMemory.afterSortTraced ext cb st count i s.col_offset
          (s.sorting_size + st.COL_SIZE.getD i 0)
          (match s.ties with
            | none =>
              (RadixSort ext.fresh s.dataptr 0 count s.col_offset
                (s.sorting_size + st.COL_SIZE.getD i 0) st, firstTies ext count)
            | some ties =>
              (SubSortTiedTuples ext.fresh s.dataptr count s.col_offset
                (s.sorting_size + st.COL_SIZE.getD i 0) ties st, ties))
          (match s.ties with
            | none => SortCall.RadixSort count s.col_offset (s.sorting_size + st.COL_SIZE.getD i 0)
            | some ties =>
              SortCall.SubSortTiedTuples s.col_offset (s.sorting_size + st.COL_SIZE.getD i 0) ties)
          (SortInMemory.columnsTraced ext cb st count rest) := rfl

/-- The result of the traced body is the result of the body. -/
theorem afterSortTraced_fst (ext : Extern) (cb : ContinuousBlock) (st : SortingState)
    (count i co sz : Nat) (sorted : Buffer × (Nat → Bool)) (first : SortCall)
    (next : SortLoopState → Except SortError Buffer × List SortCall) :
    (SortInMemory.afterSortTraced ext cb st count i co sz sorted first next).1 =
      SortInMemory.afterSort ext cb st count i co sz sorted (fun s => (next s).1) := by
  unfold SortInMemory.afterSortTraced SortInMemory.afterSort
  by_cases h1 : (st.CONSTANT_SIZE.getD i false && decide (i = st.CONSTANT_SIZE.length - 1)) = true
  · simp only [h1, if_true]
  · simp only [h1, Bool.false_eq_true, if_false]
    by_cases h2 : (!AnyTies (ComputeTies sorted.1 count co sz sorted.2 st) count) = true
    · simp only [h2, Bool.false_eq_true, if_false, if_true]
    · simp only [h2, Bool.false_eq_true, if_false]
      cases hb : BreakTies ext cb (ComputeTies sorted.1 count co sz sorted.2 st) sorted.1 count i st with
      | error e => rfl
      | ok broken =>
        simp only []
        by_cases h3 : (!AnyTies broken.2 count) = true
        · simp only [h3, Bool.false_eq_true, if_false, if_true]
        · simp only [h3, Bool.false_eq_true, if_false]

/-- The result of the traced column loop is the result of the column loop. -/
theorem columnsTraced_fst (ext : Extern) (cb : ContinuousBlock) (st : SortingState)
    (count : Nat) :
    ∀ l s, (SortInMemory.columnsTraced ext cb st count l s).1 =
      SortInMemory.columns ext cb st count l s := by
  intro l
  induction l with
  | nil => intro s; rfl
  | cons i rest ih =>
    intro s
    rw [columnsTraced_cons, columns_cons]
    by_cases hskip : (st.CONSTANT_SIZE.getD i false
        && decide (i < st.CONSTANT_SIZE.length - 1)) = true
    · rw [if_pos hskip, if_pos hskip]
      exact ih _
    · rw [if_neg hskip, if_neg hskip, afterSortTraced_fst]
      have hnext : (fun s => (SortInMemory.columnsTraced ext cb st count rest s).1) =
          SortInMemory.columns ext cb st count rest := funext ih
      rw [hnext]
      try rfl

/-- The result of the traced body of `SortInMemory` is the result of the body. -/
theorem sortTraced_fst (ext : Extern) (cb : ContinuousBlock) (st : SortingState)
    (d : Buffer) (count : Nat) :
    (SortInMemory.sortTraced ext cb st d count).1 = SortInMemory.sort ext cb st d count := by
  unfold SortInMemory.sortTraced SortInMemory.sort
  by_cases h : st.CONSTANT_SIZE.foldl (fun acc c => acc && c) true = true
  · simp only [h, if_true]
  · simp only [h, Bool.false_eq_true, if_false]
    exact columnsTraced_fst ext cb st count _ _

/-- The loop of `BreakStringTies` that recomputes the ties writes only the entries
`start .. end - 2`. -/
theorem recomputedTies_frame (ext : Extern) (d : Buffer) (start end_ : Nat) (ties : Nat → Bool)
    (var offs : Buffer) (st : SortingState) :
    ∀ v, v < start ∨ start + (end_ - start - 1) ≤ v →
      recomputedTies ext d start end_ ties var offs st v = ties v := by
  unfold recomputedTies
  have hinv := forUp_inv
    (fun i (s : (Nat → Bool) × Nat × Nat × List Byte) =>
      ∀ v, v < start ∨ start + i ≤ v → s.1 v = ties v)
    (fun i (s : (Nat → Bool) × Nat × Nat × List Byte) =>
      let idx_ptr := s.2.1 + st.ENTRY_SIZE
      let next := stringOfRow ext d idx_ptr var offs
        ((st.ENTRY_SIZE + IDX_MOD - sizeof_idx_t) % IDX_MOD)
      let tie : Bool :=
        if s.2.2.1 ≠ next.1 then false else ext.Equals s.2.2.2 next.2
      ((fun v => if v = start + i then tie else s.1 v), idx_ptr, next.1, next.2))
    (ties, start * st.ENTRY_SIZE,
      (stringOfRow ext d (start * st.ENTRY_SIZE) var offs
        ((st.ENTRY_SIZE + IDX_MOD - sizeof_idx_t) % IDX_MOD)).1,
      (stringOfRow ext d (start * st.ENTRY_SIZE) var offs
        ((st.ENTRY_SIZE + IDX_MOD - sizeof_idx_t) % IDX_MOD)).2)
    (end_ - start - 1)
    (fun v _ => rfl)
    (by
      rintro i ⟨t, p, cs, cv⟩ _ h v hv
      simp only [] at h ⊢
      have hne : v ≠ start + i := by omega
      simp only [hne, if_false]
      exact h v (by omega))
  exact hinv

/-- The function `BreakStringTies` writes no entry of `ties` outside `start .. end - 2`. -/
theorem BreakStringTies_ties_frame (ext : Extern) (d : Buffer) (start end_ c : Nat)
    (t : Nat → Bool) (var offs : Buffer) (st : SortingState) :
    ∀ v, v < start ∨ start + (end_ - start - 1) ≤ v →
      (BreakStringTies ext d start end_ c t var offs st).2 v = t v := by
  intro v hv
  rw [BreakStringTies_unfold]
  split
  · rfl
  · split
    · rfl
    · split
      · exact recomputedTies_frame ext _ start end_ t var offs st v hv
      · rfl

/-- With `ties[count - 1]` false, the inner scan of `BreakTies` from a row of the block stops
at a row of the block. -/
theorem scanTies_lt (ties : Nat → Bool) (count i : Nat) (hi : i < count)
    (hlast : ties (count - 1) = false) :
    i ≤ scanTies ties count count i ∧ scanTies ties count count i < count ∧
    ties (scanTies ties count count i) = false ∧
    (∀ k, i ≤ k → k < scanTies ties count count i → ties k = true) := by
  obtain ⟨s1, s2, s3, s4⟩ := scanTies_spec ties count count i (by omega)
  have hjc : scanTies ties count count i < count := by
    by_contra hcon
    have hj' : scanTies ties count count i = count := by have := s4 (by omega); omega
    have := (s2 (count - 1) (by omega) (by omega)).2
    rw [hlast] at this
    exact Bool.noConfusion this
  exact ⟨s1, hjc, s3 hjc, fun k h1 h2 => (s2 k h1 h2).2⟩

/-- The loop of `BreakTies` keeps `ties[count - 1]` false. -/
theorem BreakTies_loop_sentinel (ext : Extern) (count c : Nat) (var offs : Buffer)
    (st : SortingState) :
    ∀ fuel i s, s.2 (count - 1) = false →
      ∀ r, BreakTies.loop ext count c var offs st fuel i s = .ok r → r.2 (count - 1) = false := by
  intro fuel
  induction fuel with
  | zero =>
    intro i s hs r hr
    have : r = s := by
      have h : BreakTies.loop ext count c var offs st 0 i s = .ok s := rfl
      rw [h] at hr
      exact (Except.ok.inj hr).symm
    rw [this]
    exact hs
  | succ fuel ih =>
    intro i s hs r hr
    by_cases hic : i < count
    · cases ht : s.2 i
      · have hval : BreakTies.loop ext count c var offs st (fuel + 1) i s =
            BreakTies.loop ext count c var offs st fuel (i + 1) s := by
          simp only [BreakTies.loop, hic, ht, if_true, Bool.not_false]
        rw [hval] at hr
        exact ih (i + 1) s hs r hr
      · obtain ⟨j1, j2, -, -⟩ := scanTies_lt s.2 count i hic hs
        have hframe := BreakStringTies_ties_frame ext s.1 i (scanTies s.2 count count i + 1) c
          s.2 var offs st (count - 1) (Or.inr (by omega))
        cases hty : st.TYPES.getD c PhysicalType.INT32 <;>
          simp only [BreakTies.loop, hic, ht, hty, if_true, Bool.not_true, Bool.false_eq_true,
            if_false] at hr <;>
          first
          | exact Except.noConfusion hr
          | exact ih _ _ (by rw [hframe]; exact hs) r hr
    · have hval : BreakTies.loop ext count c var offs st (fuel + 1) i s = .ok s := by
        simp only [BreakTies.loop, hic, if_false]
      rw [hval] at hr
      rw [← Except.ok.inj hr]
      exact hs

/-- The function `BreakTies` keeps `ties[count - 1]` false. -/
theorem BreakTies_sentinel (ext : Extern) (cb : ContinuousBlock) (ties : Nat → Bool)
    (d : Buffer) (count c : Nat) (st : SortingState) (hlast : ties (count - 1) = false)
    (r : Buffer × (Nat → Bool)) (hr : BreakTies ext cb ties d count c st = .ok r) :
    r.2 (count - 1) = false := by
  unfold BreakTies at hr
  cases h0 : cb.var_sorting_chunks.getD c none with
  | none =>
    rw [h0] at hr
    exact Except.noConfusion hr
  | some chunk =>
    rw [h0] at hr
    simp only [] at hr
    cases h1 : chunk.data_blocks.getLast? with
    | none =>
      rw [h1] at hr
      exact Except.noConfusion hr
    | some b1 =>
      cases h2 : chunk.offset_blocks.getLast? with
      | none =>
        rw [h1, h2] at hr
        exact Except.noConfusion hr
      | some b2 =>
        rw [h1, h2] at hr
        exact BreakTies_loop_sentinel ext count c _ _ st count 0 (d, ties) hlast r hr

/-- Every group that the loop of `SubSortTiedTuples` hands to `RadixSort` has more than one
row and ends inside the block. -/
theorem SubSort_groups_bound (count : Nat) (ties : Nat → Bool)
    (hlast : ties (count - 1) = false) :
    ∀ fuel i, ∀ g, g ∈ SubSortTiedTuples.groups count ties fuel i →
      i ≤ g.1 ∧ g.1 < g.2 ∧ g.2 ≤ count - 1 := by
  intro fuel
  induction fuel with
  | zero => intro i g hg; exact absurd hg (List.not_mem_nil g)
  | succ fuel ih =>
    intro i g hg
    by_cases hic : i < count
    · cases ht : ties i
      · have hval : SubSortTiedTuples.groups count ties (fuel + 1) i =
            SubSortTiedTuples.groups count ties fuel (i + 1) := by
          simp only [SubSortTiedTuples.groups, hic, ht, if_true, Bool.not_false]
        rw [hval] at hg
        have := ih (i + 1) g hg
        omega
      · have hval : SubSortTiedTuples.groups count ties (fuel + 1) i =
            (i, scanTies ties count count (i + 1)) ::
              SubSortTiedTuples.groups count ties fuel (scanTies ties count count (i + 1) + 1) := by
          simp only [SubSortTiedTuples.groups, hic, ht, if_true, Bool.not_true,
            Bool.false_eq_true, if_false]
        rw [hval] at hg
        have hi1 : i + 1 < count := by
          by_contra hcon
          have : i = count - 1 := by omega
          rw [this, hlast] at ht
          exact Bool.noConfusion ht
        obtain ⟨j1, j2, -, -⟩ := scanTies_lt ties count (i + 1) hi1 hlast
        rcases List.mem_cons.mp hg with h | h
        · rw [h]
          simp only []
          omega
        · have := ih _ g h
          omega
    · have hval : SubSortTiedTuples.groups count ties (fuel + 1) i = [] := by
        simp only [SubSortTiedTuples.groups, hic, if_false]
      rw [hval] at hg
      exact absurd hg (List.not_mem_nil g)

/-- Every group that the loop of `BreakTies` hands to `BreakStringTies` ends inside the
block. -/
theorem BreakTies_groups_bound (ext : Extern) (count c : Nat) (var offs : Buffer)
    (st : SortingState) :
    ∀ fuel i s, s.2 (count - 1) = false →
      ∀ g, g ∈ BreakTies.groups ext count c var offs st fuel i s →
        i ≤ g.1 ∧ g.1 < g.2 ∧ g.2 ≤ count := by
  intro fuel
  induction fuel with
  | zero => intro i s _ g hg; exact absurd hg (List.not_mem_nil g)
  | succ fuel ih =>
    intro i s hs g hg
    by_cases hic : i < count
    · cases ht : s.2 i
      · have hval : BreakTies.groups ext count c var offs st (fuel + 1) i s =
            BreakTies.groups ext count c var offs st fuel (i + 1) s := by
          simp only [BreakTies.groups, hic, ht, if_true, Bool.not_false]
        rw [hval] at hg
        have := ih (i + 1) s hs g hg
        omega
      · obtain ⟨j1, j2, -, -⟩ := scanTies_lt s.2 count i hic hs
        have hframe := BreakStringTies_ties_frame ext s.1 i (scanTies s.2 count count i + 1) c
          s.2 var offs st (count - 1) (Or.inr (by omega))
        cases hty : st.TYPES.getD c PhysicalType.INT32 <;>
          simp only [BreakTies.groups, hic, ht, hty, if_true, Bool.not_true, Bool.false_eq_true,
            if_false] at hg <;>
          first
          | exact absurd hg (List.not_mem_nil g)
          | (rcases List.mem_cons.mp hg with h | h
             · rw [h]
               simp only []
               omega
             · have := ih _ _ (by rw [hframe]; exact hs) g h
               omega)
    · have hval : BreakTies.groups ext count c var offs st (fuel + 1) i s = [] := by
        simp only [BreakTies.groups, hic, if_false]
      rw [hval] at hg
      exact absurd hg (List.not_mem_nil g)

/-- The loop of `SubSortTiedTuples` is the sequence of the calls of `RadixSort` on its
groups. -/
theorem SubSort_loop_eq_foldl (fresh : Buffer) (count co sz : Nat) (ties : Nat → Bool)
    (st : SortingState) :
    ∀ fuel i d, SubSortTiedTuples.loop fresh count co sz ties st fuel i d =
      (SubSortTiedTuples.groups count ties fuel i).foldl
        (fun d g => RadixSort fresh d (g.1 * st.ENTRY_SIZE) (g.2 - g.1 + 1) co sz st) d := by
  intro fuel
  induction fuel with
  | zero => intro i d; rfl
  | succ fuel ih =>
    intro i d
    by_cases hic : i < count
    · cases ht : ties i
      · simp only [SubSortTiedTuples.loop, SubSortTiedTuples.groups, hic, ht, if_true,
          Bool.not_false]
        exact ih _ _
      · simp only [SubSortTiedTuples.loop, SubSortTiedTuples.groups, hic, ht, if_true,
          Bool.not_true, Bool.false_eq_true, if_false, List.foldl_cons]
        exact ih _ _
    · simp only [SubSortTiedTuples.loop, SubSortTiedTuples.groups, hic, if_false, List.foldl_nil]

/-- For a VARCHAR column the loop of `BreakTies` is the sequence of the calls of
`BreakStringTies` on its groups. -/
theorem BreakTies_loop_eq_foldl (ext : Extern) (count c : Nat) (var offs : Buffer)
    (st : SortingState)
    (htype : st.TYPES.getD c PhysicalType.INT32 = PhysicalType.VARCHAR) :
    ∀ fuel i s, BreakTies.loop ext count c var offs st fuel i s =
      .ok ((BreakTies.groups ext count c var offs st fuel i s).foldl
        (fun s g => BreakStringTies ext s.1 g.1 g.2 c s.2 var offs st) s) := by
  intro fuel
  induction fuel with
  | zero => intro i s; rfl
  | succ fuel ih =>
    intro i s
    by_cases hic : i < count
    · cases ht : s.2 i
      · simp only [BreakTies.loop, BreakTies.groups, hic, ht, if_true, Bool.not_false]
        exact ih _ _
      · simp only [BreakTies.loop, BreakTies.groups, hic, ht, htype, if_true, Bool.not_true,
          Bool.false_eq_true, if_false, List.foldl_cons]
        exact ih _ _
    · simp only [BreakTies.loop, BreakTies.groups, hic, if_false, List.foldl_nil]

/-- A property that holds of every call listed by `SortInMemory.afterSortTraced`. -/
theorem afterSortTraced_forall (Q : SortCall → Prop) (ext : Extern) (cb : ContinuousBlock)
    (st : SortingState) (count i co sz : Nat) (sorted : Buffer × (Nat → Bool))
    (first : SortCall) (next : SortLoopState → Except SortError Buffer × List SortCall)
    (h1 : Q first) (h2 : Q (SortCall.ComputeTies co sz sorted.2))
    (h3 : Q (SortCall.AnyTies (ComputeTies sorted.1 count co sz sorted.2 st)))
    (h4 : Q (SortCall.BreakTies i (ComputeTies sorted.1 count co sz sorted.2 st) sorted.1))
    (h5 : ∀ broken,
      BreakTies ext cb (ComputeTies sorted.1 count co sz sorted.2 st) sorted.1 count i st =
        .ok broken →
      Q (SortCall.AnyTies broken.2) ∧
      ∀ call, call ∈ (next { dataptr := broken.1, ties := some broken.2, sorting_size := 0,
                             col_offset := co + sz }).2 → Q call) :
    ∀ call, call ∈ (SortInMemory.afterSortTraced ext cb st count i co sz sorted first next).2 →
      Q call := by
  intro call hcall
  unfold SortInMemory.afterSortTraced at hcall
  by_cases c1 : (st.CONSTANT_SIZE.getD i false && decide (i = st.CONSTANT_SIZE.length - 1)) = true
  · simp only [c1, if_true, List.mem_singleton] at hcall
    rw [hcall]; exact h1
  · simp only [c1, Bool.false_eq_true, if_false] at hcall
    by_cases c2 : (!AnyTies (ComputeTies sorted.1 count co sz sorted.2 st) count) = true
    · simp only [c2, if_true, List.mem_cons, List.mem_singleton, List.not_mem_nil,
        or_false] at hcall
      rcases hcall with h | h | h <;> rw [h] <;> assumption
    · simp only [c2, Bool.false_eq_true, if_false] at hcall
      cases hb : BreakTies ext cb (ComputeTies sorted.1 count co sz sorted.2 st) sorted.1
          count i st with
      | error e =>
        rw [hb] at hcall
        simp only [List.mem_append, List.mem_cons, List.mem_singleton, List.not_mem_nil,
          or_false] at hcall
        rcases hcall with (h | h | h) | h <;> rw [h] <;> assumption
      | ok broken =>
        rw [hb] at hcall
        obtain ⟨h6, h7⟩ := h5 broken hb
        by_cases c3 : (!AnyTies broken.2 count) = true
        · simp only [c3, if_true, List.mem_append, List.mem_cons, List.mem_singleton,
            List.not_mem_nil, or_false] at hcall
          rcases hcall with ((h | h | h) | h) | h <;> rw [h] <;> assumption
        · simp only [c3, Bool.false_eq_true, if_false, List.mem_append, List.mem_cons,
            List.mem_singleton, List.not_mem_nil, or_false] at hcall
          rcases hcall with (((h | h | h) | h) | h) | h
          · rw [h]; exact h1
          · rw [h]; exact h2
          · rw [h]; exact h3
          · rw [h]; exact h4
          · rw [h]; exact h6
          · exact h7 call h

/-- Every call of the column loop from column `i` on receives an array `ties` whose entry
`count - 1` is false and a window that ends at the end of a key column. -/
theorem columnsTraced_inv (ext : Extern) (cb : ContinuousBlock) (st : SortingState)
    (count : Nat) :
    ∀ k i (s : SortLoopState), s.col_offset + s.sorting_size = colStart st i →
      (∀ t, s.ties = some t → t (count - 1) = false) →
      ∀ call, call ∈ (SortInMemory.columnsTraced ext cb st count (List.range' i k) s).2 →
        (∀ t, call.tiesArg = some t → t (count - 1) = false) ∧
        (∀ w, call.window = some w → w.1 + w.2 ≤ colStart st (i + k)) := by
  intro k
  induction k with
  | zero =>
    intro i s _ _ call hcall
    exact absurd hcall (List.not_mem_nil call)
  | succ k ih =>
    intro i s hwin hties call hcall
    rw [List.range'_succ, columnsTraced_cons] at hcall
    have hik : i + (k + 1) = i + 1 + k := by omega
    have hB : colStart st (i + 1) ≤ colStart st (i + (k + 1)) := by
      rw [hik]; exact colStart_mono st (i + 1) k
    have hsum : s.col_offset + (s.sorting_size + st.COL_SIZE.getD i 0) = colStart st (i + 1) := by
      rw [colStart_succ, ← hwin]; omega
    by_cases hskip : (st.CONSTANT_SIZE.getD i false
        && decide (i < st.CONSTANT_SIZE.length - 1)) = true
    · rw [if_pos hskip] at hcall
      have := ih (i + 1) { s with sorting_size := s.sorting_size + st.COL_SIZE.getD i 0 }
        hsum hties call hcall
      rw [hik]
      exact this
    · rw [if_neg hskip] at hcall
      revert call
      apply afterSortTraced_forall
      · cases hs : s.ties with
        | none =>
          refine ⟨fun t ht => Option.noConfusion ht, fun w hw => ?_⟩
          have : w = (s.col_offset, s.sorting_size + st.COL_SIZE.getD i 0) :=
            (Option.some.inj hw).symm
          rw [this]; simp only []; omega
        | some t0 =>
          refine ⟨fun t ht => ?_, fun w hw => ?_⟩
          · have : t = t0 := (Option.some.inj ht).symm
            rw [this]; exact hties t0 hs
          · have : w = (s.col_offset, s.sorting_size + st.COL_SIZE.getD i 0) :=
              (Option.some.inj hw).symm
            rw [this]; simp only []; omega
      · refine ⟨fun t ht => ?_, fun w hw => ?_⟩
        · have ht' := (Option.some.inj ht).symm
          rw [ht']
          cases hs : s.ties with
          | none => simp [firstTies]
          | some t0 => exact hties t0 hs
        · have : w = (s.col_offset, s.sorting_size + st.COL_SIZE.getD i 0) :=
            (Option.some.inj hw).symm
          rw [this]; simp only []; omega
      · refine ⟨fun t ht => ?_, fun w hw => Option.noConfusion hw⟩
        have ht' := (Option.some.inj ht).symm
        rw [ht']
        exact (ComputeTies_spec _ count _ _ _ st).2
      · refine ⟨fun t ht => ?_, fun w hw => Option.noConfusion hw⟩
        have ht' := (Option.some.inj ht).symm
        rw [ht']
        exact (ComputeTies_spec _ count _ _ _ st).2
      · intro broken hb
        have hbl := BreakTies_sentinel ext cb _ _ count i st
          (ComputeTies_spec _ count _ _ _ st).2 broken hb
        refine ⟨⟨fun t ht => ?_, fun w hw => Option.noConfusion hw⟩, ?_⟩
        · have ht' := (Option.some.inj ht).symm
          rw [ht']
          exact hbl
        · intro call hcall
          have := ih (i + 1)
            { dataptr := broken.1, ties := some broken.2, sorting_size := 0,
              col_offset := s.col_offset + (s.sorting_size + st.COL_SIZE.getD i 0) }
            (by simp only []; omega)
            (fun t ht => by
              have : t = broken.2 := (Option.some.inj ht).symm
              rw [this]; exact hbl)
            call hcall
          rw [hik]
          exact this

/-- The sum of the column sizes up to the last column. -/
theorem colStart_eq_sum_take (st : SortingState) :
    ∀ k, k ≤ st.COL_SIZE.length → colStart st k = (st.COL_SIZE.take k).sum := by
  intro k
  induction k with
  | zero => intro _; rfl
  | succ k ih =>
    intro hk
    rw [colStart_succ, ih (by omega), List.sum_take_succ _ _ (by omega),
      List.getD_eq_getElem _ _ (by omega)]

theorem colStart_length (st : SortingState) :
    colStart st st.COL_SIZE.length = st.COL_SIZE.sum := by
  rw [colStart_eq_sum_take st _ (Nat.le_refl _), List.take_length]

/-- Every call of `SortInMemory` receives an array `ties` whose entry `count - 1` is false. -/
theorem sortTraced_sentinel (ext : Extern) (cb : ContinuousBlock) (st : SortingState)
    (d : Buffer) (count : Nat) :
    ∀ call, call ∈ (SortInMemory.sortTraced ext cb st d count).2 →
      ∀ t, call.tiesArg = some t → t (count - 1) = false := by
  intro call hcall
  unfold SortInMemory.sortTraced at hcall
  by_cases h : st.CONSTANT_SIZE.foldl (fun acc c => acc && c) true = true
  · simp only [h, if_true, List.mem_singleton] at hcall
    rw [hcall]
    intro t ht
    exact Option.noConfusion ht
  · simp only [h, Bool.false_eq_true, if_false] at hcall
    rw [List.range_eq_range'] at hcall
    exact (columnsTraced_inv ext cb st count st.CONSTANT_SIZE.length 0
      { dataptr := SortInMemory.stamp d count st, ties := none, sorting_size := 0,
        col_offset := 0 } rfl
      (fun t ht => Option.noConfusion ht) call hcall).1

/-- Every window that `SortInMemory` passes lies before the trailing index, when the entry
size is the sum of the column sizes and the size of the index. -/
theorem sortTraced_windows (ext : Extern) (cb : ContinuousBlock) (st : SortingState)
    (d : Buffer) (count : Nat) (hlen : st.CONSTANT_SIZE.length = st.COL_SIZE.length)
    (hentry : st.ENTRY_SIZE = st.COL_SIZE.sum + sizeof_idx_t) (hES : st.ENTRY_SIZE < IDX_MOD) :
    ∀ call, call ∈ (SortInMemory.sortTraced ext cb st d count).2 →
      ∀ w, call.window = some w → w.1 + w.2 ≤ st.ENTRY_SIZE - sizeof_idx_t := by
  have h8 : 8 ≤ st.ENTRY_SIZE := by rw [hentry]; exact Nat.le_add_left _ _
  intro call hcall
  unfold SortInMemory.sortTraced at hcall
  by_cases h : st.CONSTANT_SIZE.foldl (fun acc c => acc && c) true = true
  · simp only [h, if_true, List.mem_singleton] at hcall
    rw [hcall]
    intro w hw
    have : w = (0, (st.ENTRY_SIZE + IDX_MOD - sizeof_idx_t) % IDX_MOD) :=
      (Option.some.inj hw).symm
    rw [this, sorting_size_eq _ h8 hES]
    simp only [Nat.zero_add]
    exact Nat.le_refl _
  · simp only [h, Bool.false_eq_true, if_false] at hcall
    rw [List.range_eq_range'] at hcall
    have := (columnsTraced_inv ext cb st count st.CONSTANT_SIZE.length 0
      { dataptr := SortInMemory.stamp d count st, ties := none, sorting_size := 0,
        col_offset := 0 } rfl
      (fun t ht => Option.noConfusion ht) call hcall).2
    intro w hw
    have hb := this w hw
    rw [Nat.zero_add, hlen, colStart_length] at hb
    rw [hentry, Nat.add_sub_cancel]
    exact hb

theorem foldl_inv {α β : Type} (P : β → Prop) (f : β → α → β)
    (hf : ∀ b a, P b → P (f b a)) : ∀ (l : List α) (b : β), P b → P (l.foldl f b) := by
  intro l
  induction l with
  | nil => intro b hb; exact hb
  | cons a l ih => intro b hb; exact ih (f b a) (hf b a hb)

/-- The sorting state that `GetGlobalState` builds: one entry per order in each vector, and
an entry size that is the sum of the column sizes and the size of the index, modulo `2^64`. -/
theorem GetGlobalState_sorting_state (ext : Extern) (TypeIsConstantSize : PhysicalType → Bool)
    (GetTypeIdSize : PhysicalType → Nat) (orders : List BoundOrderByNode) :
    (GetGlobalState.sorting_state ext TypeIsConstantSize GetTypeIdSize orders).ENTRY_SIZE =
      ((GetGlobalState.sorting_state ext TypeIsConstantSize GetTypeIdSize orders).COL_SIZE.sum
        + sizeof_idx_t) % IDX_MOD ∧
    (GetGlobalState.sorting_state ext TypeIsConstantSize GetTypeIdSize orders).CONSTANT_SIZE.length
      = (GetGlobalState.sorting_state ext TypeIsConstantSize GetTypeIdSize orders).COL_SIZE.length
      := by
  have h := foldl_inv
    (fun (s : SortingState) => s.ENTRY_SIZE = s.COL_SIZE.sum % IDX_MOD ∧
      s.CONSTANT_SIZE.length = s.COL_SIZE.length)
    (GetGlobalState.addOrder ext TypeIsConstantSize GetTypeIdSize)
    (by
      intro s order hs
      obtain ⟨h1, h2⟩ := hs
      refine ⟨?_, ?_⟩
      · simp only [GetGlobalState.addOrder, List.sum_append, List.sum_cons, List.sum_nil,
          Nat.add_zero]
        rw [h1, Nat.mod_add_mod]
      · simp only [GetGlobalState.addOrder, List.length_append, List.length_singleton, h2])
    orders
    { ENTRY_SIZE := 0, ORDER_TYPES := [], ORDER_BY_NULL_TYPES := [], TYPES := [],
      HAS_NULL := [], CONSTANT_SIZE := [], COL_SIZE := [] }
    ⟨rfl, rfl⟩
  obtain ⟨h1, h2⟩ := h
  refine ⟨?_, h2⟩
  show (_ + sizeof_idx_t) % IDX_MOD = _
  rw [h1, Nat.mod_add_mod]
  rfl

/-- The groups handed on by the calls of `SortInMemory` end inside the block. -/
theorem sortTraced_groups (ext : Extern) (cb : ContinuousBlock) (st : SortingState)
    (d : Buffer) (count : Nat) :
    (∀ call, call ∈ (SortInMemory.sortTraced ext cb st d count).2 →
      ∀ co sz t, call = SortCall.SubSortTiedTuples co sz t →
        ∀ g, g ∈ SubSortTiedTuples.groups count t count 0 → g.1 < g.2 ∧ g.2 ≤ count - 1) ∧
    (∀ call, call ∈ (SortInMemory.sortTraced ext cb st d count).2 →
      ∀ c t dp, call = SortCall.BreakTies c t dp →
        ∀ g, g ∈ BreakTies.groups ext count c (varBlob cb c) (varOffsets cb c) st count 0
            (dp, t) → g.1 < g.2 ∧ g.2 ≤ count) := by
  refine ⟨?_, ?_⟩
  · intro call hcall co sz t heq g hg
    have hs := sortTraced_sentinel ext cb st d count call hcall t (by rw [heq]; rfl)
    exact (SubSort_groups_bound count t hs count 0 g hg).2
  · intro call hcall c t dp heq g hg
    have hs := sortTraced_sentinel ext cb st d count call hcall t (by rw [heq]; rfl)
    exact (BreakTies_groups_bound ext count c _ _ st count 0 (dp, t) hs g hg).2

/-- C28: in `SortInMemory` with `count >= 1`, every array `ties` passed to
`SubSortTiedTuples`, `ComputeTies`, `AnyTies` or `BreakTies` has `ties[count - 1] = false`
(the calls are those listed by `SortInMemory.sortTraced`, which computes what
`SortInMemory.sort` computes); `BreakStringTies` on a group that ends inside the block
leaves `ties[count - 1]` as it was; and every group that `SubSortTiedTuples` hands to
`RadixSort` (rows `g.1 .. g.2`) or that `BreakTies` hands to `BreakStringTies` (rows
`g.1 .. g.2 - 1`) ends at a row index of at most `count - 1`. -/
theorem SortInMemory_ties_sentinel (ext : Extern) (cb : ContinuousBlock)
    (sorting_state : SortingState) (dataptr : Buffer) (count : Nat) (_hcount : 1 ≤ count) :
    (SortInMemory.sortTraced ext cb sorting_state dataptr count).1 =
      SortInMemory.sort ext cb sorting_state dataptr count ∧
    (∀ call, call ∈ (SortInMemory.sortTraced ext cb sorting_state dataptr count).2 →
      ∀ ties, call.tiesArg = some ties → ties (count - 1) = false) ∧
    (∀ (block : Buffer) (start end_ tie_col : Nat) (ties : Nat → Bool)
        (var_dataptr offsets_ptr : Buffer), end_ ≤ count →
      (BreakStringTies ext block start end_ tie_col ties var_dataptr offsets_ptr
        sorting_state).2 (count - 1) = ties (count - 1)) ∧
    (∀ call, call ∈ (SortInMemory.sortTraced ext cb sorting_state dataptr count).2 →
      ∀ col_offset sorting_size ties,
        call = SortCall.SubSortTiedTuples col_offset sorting_size ties →
        ∀ g, g ∈ SubSortTiedTuples.groups count ties count 0 →
          g.1 < g.2 ∧ g.2 ≤ count - 1) ∧
    (∀ call, call ∈ (SortInMemory.sortTraced ext cb sorting_state dataptr count).2 →
      ∀ tie_col ties block, call = SortCall.BreakTies tie_col ties block →
        ∀ g, g ∈ BreakTies.groups ext count tie_col (varBlob cb tie_col)
            (varOffsets cb tie_col) sorting_state count 0 (block, ties) →
          g.1 < g.2 ∧ g.2 - 1 ≤ count - 1) := by
  obtain ⟨h1, h2⟩ := sortTraced_groups ext cb sorting_state dataptr count
  refine ⟨sortTraced_fst ext cb sorting_state dataptr count,
    sortTraced_sentinel ext cb sorting_state dataptr count, ?_, h1, ?_⟩
  · intro block start end_ tie_col ties var_dataptr offsets_ptr hend
    apply BreakStringTies_ties_frame
    omega
  · intro call hcall tie_col ties block heq g hg
    have := h2 call hcall tie_col ties block heq g hg
    omega

theorem SortInMemory_ties_sentinel_witness :
    (SortInMemory.sortTraced sampleExtern sampleStringContinuousBlock sampleStringState
        sampleAlphabetKeys 3).1 =
      SortInMemory.sort sampleExtern sampleStringContinuousBlock sampleStringState
        sampleAlphabetKeys 3 ∧
    (∀ call, call ∈ (SortInMemory.sortTraced sampleExtern sampleStringContinuousBlock
        sampleStringState sampleAlphabetKeys 3).2 →
      ∀ ties, call.tiesArg = some ties → ties (3 - 1) = false) ∧
    (∀ (block : Buffer) (start end_ tie_col : Nat) (ties : Nat → Bool)
        (var_dataptr offsets_ptr : Buffer), end_ ≤ 3 →
      (BreakStringTies sampleExtern block start end_ tie_col ties var_dataptr offsets_ptr
        sampleStringState).2 (3 - 1) = ties (3 - 1)) ∧
    (∀ call, call ∈ (SortInMemory.sortTraced sampleExtern sampleStringContinuousBlock
        sampleStringState sampleAlphabetKeys 3).2 →
      ∀ col_offset sorting_size ties,
        call = SortCall.SubSortTiedTuples col_offset sorting_size ties →
        ∀ g, g ∈ SubSortTiedTuples.groups 3 ties 3 0 → g.1 < g.2 ∧ g.2 ≤ 3 - 1) ∧
    (∀ call, call ∈ (SortInMemory.sortTraced sampleExtern sampleStringContinuousBlock
        sampleStringState sampleAlphabetKeys 3).2 →
      ∀ tie_col ties block, call = SortCall.BreakTies tie_col ties block →
        ∀ g, g ∈ BreakTies.groups sampleExtern 3 tie_col
            (varBlob sampleStringContinuousBlock tie_col)
            (varOffsets sampleStringContinuousBlock tie_col) sampleStringState 3 0
            (block, ties) →
          g.1 < g.2 ∧ g.2 - 1 ≤ 3 - 1) :=
  SortInMemory_ties_sentinel sampleExtern sampleStringContinuousBlock sampleStringState
    sampleAlphabetKeys 3 (by decide)

/-- C30: for the sorting state that `GetGlobalState` builds from `orders` (the sum of the
column sizes and the size of the index fitting an `idx_t`), `ENTRY_SIZE` is the sum of
`COL_SIZE` over the key columns plus `sizeof(idx_t)`, and every window `(col_offset,
sorting_size)` that `SortInMemory` passes to `RadixSort`, `SubSortTiedTuples` (which passes
it on to `RadixSort`) or `ComputeTies` satisfies
`col_offset + sorting_size <= ENTRY_SIZE - sizeof(idx_t)`: the assertion of `ComputeTies`
holds and no window reaches the trailing index. The calls are those listed by
`SortInMemory.sortTraced`, which computes what `SortInMemory.sort` computes. -/
theorem GetGlobalState_windows_before_index (ext : Extern)
    (TypeIsConstantSize : PhysicalType → Bool) (GetTypeIdSize : PhysicalType → Nat)
    (orders : List BoundOrderByNode)
    (hfit : (GetGlobalState.sorting_state ext TypeIsConstantSize GetTypeIdSize
      orders).COL_SIZE.sum + sizeof_idx_t < IDX_MOD) :
    (GetGlobalState.sorting_state ext TypeIsConstantSize GetTypeIdSize orders).ENTRY_SIZE =
      (GetGlobalState.sorting_state ext TypeIsConstantSize GetTypeIdSize orders).COL_SIZE.sum
        + sizeof_idx_t ∧
    ∀ (cb : ContinuousBlock) (dataptr : Buffer) (count : Nat),
      (SortInMemory.sortTraced ext cb
          (GetGlobalState.sorting_state ext TypeIsConstantSize GetTypeIdSize orders)
          dataptr count).1 =
        SortInMemory.sort ext cb
          (GetGlobalState.sorting_state ext TypeIsConstantSize GetTypeIdSize orders)
          dataptr count ∧
      ∀ call, call ∈ (SortInMemory.sortTraced ext cb
          (GetGlobalState.sorting_state ext TypeIsConstantSize GetTypeIdSize orders)
          dataptr count).2 →
        ∀ w, call.window = some w →
          w.1 + w.2 ≤
            (GetGlobalState.sorting_state ext TypeIsConstantSize GetTypeIdSize
              orders).ENTRY_SIZE - sizeof_idx_t := by
  obtain ⟨h1, h2⟩ := GetGlobalState_sorting_state ext TypeIsConstantSize GetTypeIdSize orders
  rw [Nat.mod_eq_of_lt hfit] at h1
  refine ⟨h1, fun cb dataptr count => ⟨sortTraced_fst ext cb _ dataptr count, ?_⟩⟩
  exact sortTraced_windows ext cb _ dataptr count h2 h1 (by rw [h1]; exact hfit)

theorem GetGlobalState_windows_before_index_witness :
    ((GetGlobalState.sorting_state sampleExtern sampleTypeIsConstantSize sampleGetTypeIdSize
        sampleOrders).COL_SIZE = [5, 9] ∧
      (GetGlobalState.sorting_state sampleExtern sampleTypeIsConstantSize sampleGetTypeIdSize
        sampleOrders).COL_SIZE.sum + sizeof_idx_t < IDX_MOD) ∧
    ((GetGlobalState.sorting_state sampleExtern sampleTypeIsConstantSize sampleGetTypeIdSize
        sampleOrders).ENTRY_SIZE =
      (GetGlobalState.sorting_state sampleExtern sampleTypeIsConstantSize sampleGetTypeIdSize
        sampleOrders).COL_SIZE.sum + sizeof_idx_t ∧
    ∀ (cb : ContinuousBlock) (dataptr : Buffer) (count : Nat),
      (SortInMemory.sortTraced sampleExtern cb
          (GetGlobalState.sorting_state sampleExtern sampleTypeIsConstantSize
            sampleGetTypeIdSize sampleOrders) dataptr count).1 =
        SortInMemory.sort sampleExtern cb
          (GetGlobalState.sorting_state sampleExtern sampleTypeIsConstantSize
            sampleGetTypeIdSize sampleOrders) dataptr count ∧
      ∀ call, call ∈ (SortInMemory.sortTraced sampleExtern cb
          (GetGlobalState.sorting_state sampleExtern sampleTypeIsConstantSize
            sampleGetTypeIdSize sampleOrders) dataptr count).2 →
        ∀ w, call.window = some w →
          w.1 + w.2 ≤
            (GetGlobalState.sorting_state sampleExtern sampleTypeIsConstantSize
              sampleGetTypeIdSize sampleOrders).ENTRY_SIZE - sizeof_idx_t) :=
  ⟨⟨by decide, by decide⟩,
   GetGlobalState_windows_before_index sampleExtern sampleTypeIsConstantSize
     sampleGetTypeIdSize sampleOrders (by decide)⟩

/-- The placement that `RadixSort` realises keeps rows with equal window bytes in their input
order. -/
theorem RadixSort_stable_placement (fresh data : Buffer) (base count col_offset sorting_size : Nat)
    (st : SortingState) (hwin : col_offset + sorting_size ≤ st.ENTRY_SIZE)
    (hlt : col_offset + sorting_size < IDX_MOD) :
    ∃ σ : Nat → Nat,
      (∀ j, j < count → σ j < count) ∧
      (∀ j k, j < count → k < count → σ j = σ k → j = k) ∧
      RowsMoved st.ENTRY_SIZE count data base
        (RadixSort fresh data base count col_offset sorting_size st) base σ ∧
      ∀ j k, j < k → k < count →
        memcmp data (base + j * st.ENTRY_SIZE + col_offset)
          data (base + k * st.ENTRY_SIZE + col_offset) sorting_size = 0 →
        σ j < σ k := by
  obtain ⟨σ, hσ, hrows, -⟩ :=
    RadixSort_spec fresh data base count col_offset sorting_size st hwin hlt
  refine ⟨σ, hσ.1, placement_inj count _ σ (fun j k => memcmp_swap _ _ _ _ _) hσ, hrows, ?_⟩
  intro j k hjk hk h0
  exact (hσ.2 j k (by omega) hk).mpr (Or.inr ⟨h0, hjk⟩)

/-- In the block sorted by the all-constant path, rows with equal key regions carry strictly
increasing trailing indices. -/
theorem sort_all_constant_indices (fresh : Buffer) (st : SortingState) (dataptr : Buffer)
    (count : Nat) (h8 : 8 ≤ st.ENTRY_SIZE) (hES : st.ENTRY_SIZE < IDX_MOD)
    (hcount : count < IDX_MOD) :
    ∀ p q, p < q → q < count →
      memcmp (RadixSort fresh (SortInMemory.stamp dataptr count st) 0 count 0
          (st.ENTRY_SIZE - 8) st) (p * st.ENTRY_SIZE)
        (RadixSort fresh (SortInMemory.stamp dataptr count st) 0 count 0
          (st.ENTRY_SIZE - 8) st) (q * st.ENTRY_SIZE) (st.ENTRY_SIZE - 8) = 0 →
      Load_idx (RadixSort fresh (SortInMemory.stamp dataptr count st) 0 count 0
          (st.ENTRY_SIZE - 8) st) (p * st.ENTRY_SIZE + (st.ENTRY_SIZE - 8)) <
        Load_idx (RadixSort fresh (SortInMemory.stamp dataptr count st) 0 count 0
          (st.ENTRY_SIZE - 8) st) (q * st.ENTRY_SIZE + (st.ENTRY_SIZE - 8)) := by
  obtain ⟨σ, hσ, hrows, -⟩ := RadixSort_spec fresh (SortInMemory.stamp dataptr count st) 0 count 0
    (st.ENTRY_SIZE - 8) st (by omega) (by omega)
  have hinj := placement_inj count _ σ (fun j k => memcmp_swap _ _ _ _ _) hσ
  generalize hR : RadixSort fresh (SortInMemory.stamp dataptr count st) 0 count 0
    (st.ENTRY_SIZE - 8) st = R at hrows
  intro p q hpq hq h0
  obtain ⟨j, hj, rfl⟩ := placement_surj count σ hσ.1 hinj p (by omega)
  obtain ⟨k, hk, rfl⟩ := placement_surj count σ hσ.1 hinj q hq
  have hrow : ∀ i, i < count → ∀ x, x < st.ENTRY_SIZE →
      R (σ i * st.ENTRY_SIZE + x) = SortInMemory.stamp dataptr count st (i * st.ENTRY_SIZE + x) := by
    intro i hi x hx
    have := hrows i hi x hx
    simpa using this
  have hc : memcmp R (σ j * st.ENTRY_SIZE) R (σ k * st.ENTRY_SIZE) (st.ENTRY_SIZE - 8) =
      memcmp (SortInMemory.stamp dataptr count st) (0 + j * st.ENTRY_SIZE + 0)
        (SortInMemory.stamp dataptr count st) (0 + k * st.ENTRY_SIZE + 0) (st.ENTRY_SIZE - 8) := by
    apply memcmp_congr
    · intro x hx
      rw [Nat.add_zero, Nat.zero_add]
      exact hrow j hj x (by omega)
    · intro x hx
      rw [Nat.add_zero, Nat.zero_add]
      exact hrow k hk x (by omega)
  rw [hc] at h0
  have hjk : j < k := by
    rcases (hσ.2 j k hj hk).mp hpq with h | ⟨-, h⟩
    · have h' : memcmp (SortInMemory.stamp dataptr count st) (0 + j * st.ENTRY_SIZE + 0)
          (SortInMemory.stamp dataptr count st) (0 + k * st.ENTRY_SIZE + 0)
          (st.ENTRY_SIZE - 8) < 0 := h
      omega
    · exact h
  have hidx : ∀ i, i < count →
      Load_idx R (σ i * st.ENTRY_SIZE + (st.ENTRY_SIZE - 8)) = i := by
    intro i hi
    refine Eq.trans (Load_idx_congr _ _ _ _ ?_) (stamp_index dataptr count st h8 hES hcount i hi)
    intro x hx
    rw [Nat.add_assoc, Nat.add_assoc]
    exact hrow i hi _ (by omega)
  rw [hidx j hj, hidx k hk]
  exact hjk

/-- C31: `RadixSort` is stable. For every block and every window inside the rows there is a
placement `σ` of the rows (row `j` of the input is row `σ j` of the output, a bijection of the
row numbers) such that two rows whose window bytes are equal keep their relative input order;
and in the all-constant-width path of `SortInMemory`, rows of the sorted block with identical
key regions carry strictly increasing trailing indices. -/
theorem RadixSort_stable (fresh data : Buffer) (base count col_offset sorting_size : Nat)
    (st : SortingState) (hwin : col_offset + sorting_size ≤ st.ENTRY_SIZE)
    (hlt : col_offset + sorting_size < IDX_MOD)
    (ext : Extern) (cb : ContinuousBlock) (block : RowDataBlock)
    (hblock : cb.sorting_blocks.getLast? = some block)
    (hall : ∀ c, c ∈ st.CONSTANT_SIZE → c = true)
    (h8 : sizeof_idx_t ≤ st.ENTRY_SIZE) (hES : st.ENTRY_SIZE < IDX_MOD)
    (hcount : block.count < IDX_MOD) :
    (∃ σ : Nat → Nat,
      (∀ j, j < count → σ j < count) ∧
      (∀ j k, j < count → k < count → σ j = σ k → j = k) ∧
      RowsMoved st.ENTRY_SIZE count data base
        (RadixSort fresh data base count col_offset sorting_size st) base σ ∧
      ∀ j k, j < k → k < count →
        memcmp data (base + j * st.ENTRY_SIZE + col_offset)
          data (base + k * st.ENTRY_SIZE + col_offset) sorting_size = 0 →
        σ j < σ k) ∧
    ∃ sorted : Buffer,
      SortInMemory ext cb st = .ok { cb with
        sorting_blocks := cb.sorting_blocks.dropLast ++ [{ block with block := sorted }] } ∧
      ∀ p q, p < q → q < block.count →
        memcmp sorted (p * st.ENTRY_SIZE) sorted (q * st.ENTRY_SIZE)
          (st.ENTRY_SIZE - sizeof_idx_t) = 0 →
        Load_idx sorted (p * st.ENTRY_SIZE + (st.ENTRY_SIZE - sizeof_idx_t)) <
          Load_idx sorted (q * st.ENTRY_SIZE + (st.ENTRY_SIZE - sizeof_idx_t)) :=
  ⟨RadixSort_stable_placement fresh data base count col_offset sorting_size st hwin hlt,
   _, SortInMemory_of_sort ext cb st block _ hblock
      (sort_all_constant ext cb st block.block block.count hall h8 hES),
   sort_all_constant_indices ext.fresh st block.block block.count h8 hES hcount⟩

theorem RadixSort_stable_witness :
    (∃ σ : Nat → Nat,
      (∀ j, j < 3 → σ j < 3) ∧
      (∀ j k, j < 3 → k < 3 → σ j = σ k → j = k) ∧
      RowsMoved sampleSortingState.ENTRY_SIZE 3 sampleKeyBlock.block 0
        (RadixSort (fun _ => 0) sampleKeyBlock.block 0 3 0 1 sampleSortingState) 0 σ ∧
      ∀ j k, j < k → k < 3 →
        memcmp sampleKeyBlock.block (0 + j * sampleSortingState.ENTRY_SIZE + 0)
          sampleKeyBlock.block (0 + k * sampleSortingState.ENTRY_SIZE + 0) 1 = 0 →
        σ j < σ k) ∧
    ∃ sorted : Buffer,
      SortInMemory sampleExtern sampleContinuousBlock sampleSortingState =
        .ok { sampleContinuousBlock with
          sorting_blocks := sampleContinuousBlock.sorting_blocks.dropLast ++
            [{ sampleKeyBlock with block := sorted }] } ∧
      ∀ p q, p < q → q < sampleKeyBlock.count →
        memcmp sorted (p * sampleSortingState.ENTRY_SIZE) sorted
          (q * sampleSortingState.ENTRY_SIZE)
          (sampleSortingState.ENTRY_SIZE - sizeof_idx_t) = 0 →
        Load_idx sorted (p * sampleSortingState.ENTRY_SIZE +
            (sampleSortingState.ENTRY_SIZE - sizeof_idx_t)) <
          Load_idx sorted (q * sampleSortingState.ENTRY_SIZE +
            (sampleSortingState.ENTRY_SIZE - sizeof_idx_t)) :=
  RadixSort_stable (fun _ => 0) sampleKeyBlock.block 0 3 0 1 sampleSortingState
    (by decide) (by decide) sampleExtern sampleContinuousBlock sampleKeyBlock rfl
    (by decide) (by decide) (by decide) (by decide)

theorem windowOffsets_succ (c n : Nat) :
    windowOffsets c (n + 1) = (c + n) :: windowOffsets c n := by
  simp only [windowOffsets, List.range_succ_eq_map, List.map_cons, List.map_map]
  refine congrArg₂ _ (by omega) ?_
  apply List.map_congr_left
  intro k _
  simp only [Function.comp]
  omega

theorem windowOffsets_length (c n : Nat) : (windowOffsets c n).length = n := by
  simp [windowOffsets]

theorem windowOffsets_mem (c n o : Nat) (hn : 0 < n) :
    o ∈ windowOffsets c n ↔ c ≤ o ∧ o ≤ c + n - 1 := by
  simp only [windowOffsets, List.mem_map, List.mem_range]
  constructor
  · rintro ⟨k, hk, rfl⟩
    omega
  · rintro ⟨h1, h2⟩
    exact ⟨c + n - 1 - o, by omega, by omega⟩

/-- The byte loop of `RadixSort` on a window that ends below `2^64`: it runs the iterations
for the offsets of the window, last byte first, and then stops on its condition. -/
theorem RadixSort_loop_eq_steps (ES count c : Nat) :
    ∀ (n fuel : Nat) (s : (Buffer × Nat) × (Buffer × Nat) × Bool),
      n < fuel → c + n < IDX_MOD →
      RadixSort.loop ES count c fuel ((c + n + IDX_MOD - 1) % IDX_MOD) s =
        (windowOffsets c n).foldl (RadixSort.step ES count) s := by
  intro n
  induction n with
  | zero =>
    intro fuel s hfuel hlt
    obtain ⟨fuel, rfl⟩ : ∃ f, fuel = f + 1 := ⟨fuel - 1, by omega⟩
    have hcond : ¬ (((c + 0 + IDX_MOD - 1) % IDX_MOD + 1) % IDX_MOD > c) := by
      by_cases hc : c = 0
      · subst hc
        simp [IDX_MOD]
      · simp only [Nat.add_zero]
        rw [idx_pred c (by omega) (by omega),
          show c - 1 + 1 = c by omega, Nat.mod_eq_of_lt (by omega)]
        omega
    simp only [RadixSort.loop, hcond, if_false]
    rfl
  | succ n ih =>
    intro fuel s hfuel hlt
    obtain ⟨fuel, rfl⟩ : ∃ f, fuel = f + 1 := ⟨fuel - 1, by omega⟩
    have hoff : (c + (n + 1) + IDX_MOD - 1) % IDX_MOD = c + n := by
      rw [idx_pred (c + (n + 1)) (by omega) (by omega)]
      omega
    have hcond : (c + n + 1) % IDX_MOD > c := by
      rw [Nat.mod_eq_of_lt (by omega)]
      omega
    rw [hoff, windowOffsets_succ, List.foldl_cons]
    simp only [RadixSort.loop, hcond, if_true]
    exact ih fuel _ (by omega) (by omega)

/-- The swap flag after a run of iterations: it has been flipped once per iteration. -/
theorem RadixSort_steps_flag (ES count : Nat) (l : List Nat) :
    ∀ s : (Buffer × Nat) × (Buffer × Nat) × Bool,
      (l.foldl (RadixSort.step ES count) s).2.2 = xor s.2.2 (decide (l.length % 2 = 1)) := by
  induction l with
  | nil => intro s; simp
  | cons o rest ih =>
    intro s
    rw [List.foldl_cons, ih]
    simp only [RadixSort.step, List.length_cons]
    by_cases h : rest.length % 2 = 1
    · have h2 : ¬ ((rest.length + 1) % 2 = 1) := by omega
      simp [h, h2]
    · have h2 : (rest.length + 1) % 2 = 1 := by omega
      simp [h, h2]

/-- The byte loop of `RadixSort` on a window that reaches `2^64` or beyond: no iteration
runs. -/
theorem RadixSort_loop_overflow (ES count c n fuel : Nat)
    (s : (Buffer × Nat) × (Buffer × Nat) × Bool)
    (hc : c < IDX_MOD) (hn : n < IDX_MOD) (hpos : 0 < n) (hov : IDX_MOD ≤ c + n) :
    RadixSort.loop ES count c fuel ((c + n + IDX_MOD - 1) % IDX_MOD) s = s := by
  cases fuel with
  | zero => rfl
  | succ fuel =>
    have hM : IDX_MOD = 2 ^ 64 := rfl
    have hcond : ¬ (((c + n + IDX_MOD - 1) % IDX_MOD + 1) % IDX_MOD > c) := by
      by_cases he : c + n = IDX_MOD
      · have e1 : (c + n + IDX_MOD - 1) % IDX_MOD = IDX_MOD - 1 := by
          rw [show c + n + IDX_MOD - 1 = (IDX_MOD - 1) + IDX_MOD by omega, Nat.add_mod_right]
          exact Nat.mod_eq_of_lt (by omega)
        rw [e1, show IDX_MOD - 1 + 1 = IDX_MOD by omega, Nat.mod_self]
        omega
      · have e1 : (c + n + IDX_MOD - 1) % IDX_MOD = c + n - 1 - IDX_MOD := by
          rw [show c + n + IDX_MOD - 1 = (c + n - 1 - IDX_MOD) + IDX_MOD + IDX_MOD by omega,
            Nat.add_mod_right, Nat.add_mod_right]
          exact Nat.mod_eq_of_lt (by omega)
        rw [e1, Nat.mod_eq_of_lt (by omega)]
        omega
    simp only [RadixSort.loop, hcond, if_false]

/-- The function `RadixSort` in terms of the iterations of its byte loop, for a window that
ends below `2^64`: the block it leaves is the caller's block, written back from the temporary
block when the number of iterations was odd. -/
theorem RadixSort_eq_steps (fresh data : Buffer) (base count c n : Nat) (st : SortingState)
    (hlt : c + n < IDX_MOD) :
    RadixSort fresh data base count c n st =
      if n % 2 = 1 then
        memcpy
          ((windowOffsets c n).foldl (RadixSort.step st.ENTRY_SIZE count)
            ((data, base), (fresh, 0), false)).2.1.1
          ((windowOffsets c n).foldl (RadixSort.step st.ENTRY_SIZE count)
            ((data, base), (fresh, 0), false)).2.1.2
          ((windowOffsets c n).foldl (RadixSort.step st.ENTRY_SIZE count)
            ((data, base), (fresh, 0), false)).1.1
          ((windowOffsets c n).foldl (RadixSort.step st.ENTRY_SIZE count)
            ((data, base), (fresh, 0), false)).1.2
          (count * st.ENTRY_SIZE)
      else
        ((windowOffsets c n).foldl (RadixSort.step st.ENTRY_SIZE count)
          ((data, base), (fresh, 0), false)).1.1 := by
  have hM : IDX_MOD = 2 ^ 64 := rfl
  unfold RadixSort
  simp only []
  rw [RadixSort_loop_eq_steps st.ENTRY_SIZE count c n IDX_MOD _ (by omega) hlt]
  have hflag := RadixSort_steps_flag st.ENTRY_SIZE count (windowOffsets c n)
    ((data, base), (fresh, 0), false)
  rw [windowOffsets_length] at hflag
  rw [hflag]
  by_cases h : n % 2 = 1
  · simp [h]
  · simp [h]

/-- The function `RadixSort` on a window that reaches `2^64` or beyond returns the block as it
was. -/
theorem RadixSort_overflow (fresh data : Buffer) (base count c n : Nat) (st : SortingState)
    (hc : c < IDX_MOD) (hn : n < IDX_MOD) (hpos : 0 < n) (hov : IDX_MOD ≤ c + n) :
    RadixSort fresh data base count c n st = data := by
  unfold RadixSort
  simp only []
  rw [RadixSort_loop_overflow st.ENTRY_SIZE count c n IDX_MOD _ hc hn hpos hov]
  simp

/-- For `col_offset = 2^64 - 1` and `sorting_size = 1` the byte loop of `RadixSort` runs no
pass, from any state and with any fuel, and `RadixSort` returns the block as it was. -/
theorem RadixSort_top_window (fresh data : Buffer) (base count fuel : Nat)
    (st : SortingState) (s : (Buffer × Nat) × (Buffer × Nat) × Bool) :
    RadixSort.loop st.ENTRY_SIZE count (2 ^ 64 - 1) fuel
      ((2 ^ 64 - 1 + 1 + IDX_MOD - 1) % IDX_MOD) s = s ∧
    RadixSort.loop st.ENTRY_SIZE count (2 ^ 64 - 1) fuel
      ((2 ^ 64 - 1 + 1 + IDX_MOD - 1) % IDX_MOD) s ≠
        (windowOffsets (2 ^ 64 - 1) 1).foldl (RadixSort.step st.ENTRY_SIZE count) s ∧
    RadixSort fresh data base count (2 ^ 64 - 1) 1 st = data := by
  have hloop := RadixSort_loop_overflow st.ENTRY_SIZE count (2 ^ 64 - 1) 1 fuel s
    (by decide) (by decide) (by decide) (by decide)
  refine ⟨hloop, ?_, RadixSort_overflow fresh data base count (2 ^ 64 - 1) 1 st
    (by decide) (by decide) (by decide) (by decide)⟩
  rw [hloop]
  intro h
  have hflag := RadixSort_steps_flag st.ENTRY_SIZE count (windowOffsets (2 ^ 64 - 1) 1) s
  rw [← h] at hflag
  revert hflag
  cases s.2.2 <;> simp [windowOffsets]

/-- C32, counterexample: `col_offset = 2^64 - 1` and `sorting_size = 1` on the sample block of
3 rows of 10 bytes. The window is the single byte offset `2^64 - 1`, but the byte loop of
`RadixSort` runs no pass: the loop variable starts at `2^64 - 1`, `offset + 1` wraps to 0 and
`0 > col_offset` fails at once. The loop returns its initial state, which differs from the
state after the one pass of the window, and `RadixSort` returns the block unchanged. -/
theorem RadixSort_top_window_runs_no_pass :
    windowOffsets (2 ^ 64 - 1) 1 = [2 ^ 64 - 1] ∧
    RadixSort.loop sampleSortingState.ENTRY_SIZE 3 (2 ^ 64 - 1) IDX_MOD
      ((2 ^ 64 - 1 + 1 + IDX_MOD - 1) % IDX_MOD)
      ((sampleKeyBlock.block, 0), (fun _ => 0, 0), false) =
        ((sampleKeyBlock.block, 0), (fun _ => 0, 0), false) ∧
    RadixSort.loop sampleSortingState.ENTRY_SIZE 3 (2 ^ 64 - 1) IDX_MOD
      ((2 ^ 64 - 1 + 1 + IDX_MOD - 1) % IDX_MOD)
      ((sampleKeyBlock.block, 0), (fun _ => 0, 0), false) ≠
        (windowOffsets (2 ^ 64 - 1) 1).foldl (RadixSort.step sampleSortingState.ENTRY_SIZE 3)
          ((sampleKeyBlock.block, 0), (fun _ => 0, 0), false) ∧
    RadixSort (fun _ => 0) sampleKeyBlock.block 0 3 (2 ^ 64 - 1) 1 sampleSortingState =
      sampleKeyBlock.block :=
  ⟨rfl,
   (RadixSort_top_window (fun _ => 0) sampleKeyBlock.block 0 3 IDX_MOD sampleSortingState
      ((sampleKeyBlock.block, 0), (fun _ => 0, 0), false)).1,
   (RadixSort_top_window (fun _ => 0) sampleKeyBlock.block 0 3 IDX_MOD sampleSortingState
      ((sampleKeyBlock.block, 0), (fun _ => 0, 0), false)).2.1,
   (RadixSort_top_window (fun _ => 0) sampleKeyBlock.block 0 3 IDX_MOD sampleSortingState
      ((sampleKeyBlock.block, 0), (fun _ => 0, 0), false)).2.2⟩

/-- C32 (amended): for every `col_offset` and `sorting_size` with
`col_offset + sorting_size < 2^64`, the byte loop of `RadixSort` runs exactly `sorting_size`
passes, at the byte offsets `col_offset + sorting_size - 1` down to `col_offset`, and then
stops on its condition (with any fuel above `sorting_size` the loop is the run of these
passes): this includes `col_offset = 0`, where the loop variable wraps past zero, and
`sorting_size = 0`, where no pass runs. The swap flag is then set exactly when `sorting_size` is
odd, in which case the rows are copied back from the temporary block, so that for a window
inside the rows the caller's block holds the stably sorted rows and is unchanged elsewhere. -/
theorem RadixSort_byte_loop_passes (fresh data : Buffer) (base count col_offset sorting_size : Nat)
    (st : SortingState) (hlt : col_offset + sorting_size < IDX_MOD) :
    (windowOffsets col_offset sorting_size).length = sorting_size ∧
    (∀ fuel s, sorting_size < fuel →
      RadixSort.loop st.ENTRY_SIZE count col_offset fuel
          ((col_offset + sorting_size + IDX_MOD - 1) % IDX_MOD) s =
        (windowOffsets col_offset sorting_size).foldl (RadixSort.step st.ENTRY_SIZE count) s) ∧
    (RadixSort.loop st.ENTRY_SIZE count col_offset IDX_MOD
        ((col_offset + sorting_size + IDX_MOD - 1) % IDX_MOD)
        ((data, base), (fresh, 0), false)).2.2 = decide (sorting_size % 2 = 1) ∧
    (RadixSort fresh data base count col_offset sorting_size st =
      if sorting_size % 2 = 1 then
        memcpy
          ((windowOffsets col_offset sorting_size).foldl (RadixSort.step st.ENTRY_SIZE count)
            ((data, base), (fresh, 0), false)).2.1.1
          ((windowOffsets col_offset sorting_size).foldl (RadixSort.step st.ENTRY_SIZE count)
            ((data, base), (fresh, 0), false)).2.1.2
          ((windowOffsets col_offset sorting_size).foldl (RadixSort.step st.ENTRY_SIZE count)
            ((data, base), (fresh, 0), false)).1.1
          ((windowOffsets col_offset sorting_size).foldl (RadixSort.step st.ENTRY_SIZE count)
            ((data, base), (fresh, 0), false)).1.2
          (count * st.ENTRY_SIZE)
      else
        ((windowOffsets col_offset sorting_size).foldl (RadixSort.step st.ENTRY_SIZE count)
          ((data, base), (fresh, 0), false)).1.1) ∧
    (col_offset + sorting_size ≤ st.ENTRY_SIZE →
      ∃ σ : Nat → Nat,
        IsStablePlacement count
          (fun j k => memcmp data (base + j * st.ENTRY_SIZE + col_offset)
            data (base + k * st.ENTRY_SIZE + col_offset) sorting_size) σ ∧
        RowsMoved st.ENTRY_SIZE count data base
          (RadixSort fresh data base count col_offset sorting_size st) base σ ∧
        SameOutside st.ENTRY_SIZE count data base
          (RadixSort fresh data base count col_offset sorting_size st)) := by
  have hM : IDX_MOD = 2 ^ 64 := rfl
  refine ⟨windowOffsets_length _ _,
    fun fuel s hf => RadixSort_loop_eq_steps st.ENTRY_SIZE count col_offset sorting_size fuel s hf hlt,
    ?_, RadixSort_eq_steps fresh data base count col_offset sorting_size st hlt,
    fun hwin => RadixSort_spec fresh data base count col_offset sorting_size st hwin hlt⟩
  rw [RadixSort_loop_eq_steps st.ENTRY_SIZE count col_offset sorting_size IDX_MOD _ (by omega) hlt,
    RadixSort_steps_flag, windowOffsets_length]
  simp

theorem RadixSort_byte_loop_passes_witness :
    0 + 3 < IDX_MOD ∧ windowOffsets 0 3 = [2, 1, 0] ∧
    (∀ fuel s, 3 < fuel →
      RadixSort.loop 10 3 0 fuel ((0 + 3 + IDX_MOD - 1) % IDX_MOD) s =
        [2, 1, 0].foldl (RadixSort.step 10 3) s) ∧
    (RadixSort.loop 10 3 0 IDX_MOD ((0 + 3 + IDX_MOD - 1) % IDX_MOD)
        ((sampleKeyBlock.block, 0), (fun _ => 0, 0), false)).2.2 = true :=
  ⟨by decide, by decide,
   (RadixSort_byte_loop_passes (fun _ => 0) sampleKeyBlock.block 0 3 0 3 sampleSortingState
      (by decide)).2.1,
   (RadixSort_byte_loop_passes (fun _ => 0) sampleKeyBlock.block 0 3 0 3 sampleSortingState
      (by decide)).2.2.1⟩

theorem size_foldl (v : Bool) (e : Nat) (blocks : List RowDataBlock) (s : Nat × Nat) :
    (blocks.foldl (fun (s : Nat × Nat) (block : RowDataBlock) =>
      (s.1 + block.count,
       if v then s.2 + block.byte_offset else s.2 + block.count * e)) s).2
      = s.2 + (blocks.map (usedLen e v)).sum := by
  induction blocks generalizing s with
  | nil => simp
  | cons b rest ih =>
    simp only [List.foldl_cons, List.map_cons, List.sum_cons, ih, usedLen]
    cases v <;> simp <;> omega

theorem usedLen_fixed_sum (e : Nat) (blocks : List RowDataBlock) :
    (blocks.map (usedLen e false)).sum = (blocks.map (fun b => b.count)).sum * e := by
  induction blocks with
  | nil => simp
  | cons b rest ih =>
    simp only [List.map_cons, List.sum_cons, ih, usedLen, Nat.add_mul]
    simp

/-- The capacity that `ComputeCountAndCapacity` computes, from the sums over the blocks. -/
theorem ComputeCountAndCapacity_capacity (B : Nat) (row_chunk : RowChunk) (v : Bool) :
    (ComputeCountAndCapacity B row_chunk v).2 =
      if v then max (B / row_chunk.entry_size)
        ((row_chunk.blocks.map (usedLen row_chunk.entry_size true)).sum / row_chunk.entry_size + 1)
      else max (B / row_chunk.entry_size + 1) ((row_chunk.blocks.map (fun b => b.count)).sum) := by
  unfold ComputeCountAndCapacity
  simp only []
  rw [count_foldl, size_foldl]
  cases v <;> simp

/-- The capacity covers the used bytes of the blocks. -/
theorem ComputeCountAndCapacity_covers (B : Nat) (row_chunk : RowChunk) (v : Bool)
    (hes : 1 ≤ row_chunk.entry_size) :
    (row_chunk.blocks.map (usedLen row_chunk.entry_size v)).sum ≤
      (ComputeCountAndCapacity B row_chunk v).2 * row_chunk.entry_size := by
  rw [ComputeCountAndCapacity_capacity]
  cases v
  · simp only [Bool.false_eq_true, if_false, usedLen_fixed_sum]
    exact Nat.mul_le_mul_right _ (Nat.le_max_right _ _)
  · simp only [if_true]
    generalize (row_chunk.blocks.map (usedLen row_chunk.entry_size true)).sum = t
    have h1 : t < (t / row_chunk.entry_size + 1) * row_chunk.entry_size := by
      rw [Nat.add_mul, Nat.one_mul]
      have := Nat.div_add_mod t row_chunk.entry_size
      have := Nat.mod_lt t (show row_chunk.entry_size > 0 from hes)
      rw [Nat.mul_comm]
      omega
    have h2 : (t / row_chunk.entry_size + 1) * row_chunk.entry_size ≤
        max (B / row_chunk.entry_size) (t / row_chunk.entry_size + 1) * row_chunk.entry_size :=
      Nat.mul_le_mul_right _ (Nat.le_max_right _ _)
    omega

/-- The capacity of the block that `SizesToOffsets` returns. -/
theorem SizesToOffsets_capacity (B : Nat) (fresh : Buffer) (row_chunk : RowChunk) :
    (SizesToOffsets B fresh row_chunk).1.CAPACITY =
      max (B / row_chunk.entry_size + 1) ((row_chunk.blocks.map (fun b => b.count)).sum) := by
  have h : (SizesToOffsets B fresh row_chunk).1.CAPACITY =
      (ComputeCountAndCapacity B row_chunk false).2 := rfl
  rw [h, ComputeCountAndCapacity_capacity]
  simp

/-- The count of the block that `SizesToOffsets` returns. -/
theorem SizesToOffsets_count (B : Nat) (fresh : Buffer) (row_chunk : RowChunk) :
    (SizesToOffsets B fresh row_chunk).1.count =
      (row_chunk.blocks.map (fun b => b.count)).sum := by
  have h : (SizesToOffsets B fresh row_chunk).1.count =
      (ComputeCountAndCapacity B row_chunk false).1 := rfl
  rw [h, ComputeCountAndCapacity_count]

/-- The block returned by `SizesToOffsets` has room for `count + 1` entries exactly when the
chunk holds at most `BLOCK_ALLOC_SIZE / entry_size` rows; with more rows its capacity is
`count`. -/
theorem SizesToOffsets_capacity_cases (B : Nat) (fresh : Buffer) (row_chunk : RowChunk) :
    ((SizesToOffsets B fresh row_chunk).1.count ≤ B / row_chunk.entry_size →
      (SizesToOffsets B fresh row_chunk).1.count + 1 ≤ (SizesToOffsets B fresh row_chunk).1.CAPACITY) ∧
    (B / row_chunk.entry_size < (SizesToOffsets B fresh row_chunk).1.count →
      (SizesToOffsets B fresh row_chunk).1.CAPACITY = (SizesToOffsets B fresh row_chunk).1.count) := by
  rw [SizesToOffsets_capacity, SizesToOffsets_count]
  constructor
  · intro h
    exact Nat.le_trans (by omega) (Nat.le_max_left _ _)
  · intro h
    exact Nat.max_eq_right (by omega)

/-- C34: for every row chunk with `entry_size >= 1`, the capacity computed by
`ComputeCountAndCapacity`, which `ConcatenateBlocks` gives to the new block, times `entry_size`
is at least the number of bytes that `ConcatenateBlocks` copies into the new block: the copying
loop ends at the sum of `count * entry_size` over the blocks of a fixed-width chunk and at the
sum of `byte_offset` over the blocks of a variable-width chunk. The sums are those of the
`idx_t` variables when the number of bytes is below `2^64`. -/
theorem ComputeCountAndCapacity_covers_copy (B : Nat) (fresh : Buffer) (row_chunk : RowChunk)
    (v : Bool) (hes : 1 ≤ row_chunk.entry_size)
    (_hsum : (row_chunk.blocks.map (usedLen row_chunk.entry_size v)).sum < IDX_MOD) :
    (ConcatenateBlocks B fresh row_chunk v).1.CAPACITY = (ComputeCountAndCapacity B row_chunk v).2 ∧
    (ConcatenateBlocks B fresh row_chunk v).1.block =
      (row_chunk.blocks.foldl (copyStep (usedLen row_chunk.entry_size v)) (fresh, 0)).1 ∧
    (row_chunk.blocks.foldl (copyStep (usedLen row_chunk.entry_size v)) (fresh, 0)).2 =
      (row_chunk.blocks.map
        (fun b => if v then b.byte_offset else b.count * row_chunk.entry_size)).sum ∧
    (row_chunk.blocks.foldl (copyStep (usedLen row_chunk.entry_size v)) (fresh, 0)).2 ≤
      (ComputeCountAndCapacity B row_chunk v).2 * row_chunk.entry_size := by
  have hptr := copy_foldl_ptr (usedLen row_chunk.entry_size v) row_chunk.blocks (fresh, 0)
  simp only [Nat.zero_add] at hptr
  refine ⟨rfl, ConcatenateBlocks_block B fresh row_chunk v, ?_, ?_⟩
  · rw [hptr]
    rfl
  · rw [hptr]
    exact ComputeCountAndCapacity_covers B row_chunk v hes

theorem ComputeCountAndCapacity_covers_copy_witness :
    (1 ≤ sampleTwoBlockChunk.entry_size ∧
      (sampleTwoBlockChunk.blocks.map (usedLen sampleTwoBlockChunk.entry_size false)).sum
        < IDX_MOD) ∧
    (ComputeCountAndCapacity 262144 sampleTwoBlockChunk false).2 = 26215 ∧
    (sampleTwoBlockChunk.blocks.foldl (copyStep (usedLen sampleTwoBlockChunk.entry_size false))
      (fun _ => 0, 0)).2 = 50 ∧
    (sampleTwoBlockChunk.blocks.foldl (copyStep (usedLen sampleTwoBlockChunk.entry_size false))
      (fun _ => 0, 0)).2 ≤
      (ComputeCountAndCapacity 262144 sampleTwoBlockChunk false).2 *
        sampleTwoBlockChunk.entry_size :=
  ⟨⟨by decide, by decide⟩, by decide, by decide,
   (ComputeCountAndCapacity_covers_copy 262144 (fun _ => 0) sampleTwoBlockChunk false
      (by decide) (by decide)).2.2.2⟩

theorem ALLOW_GAP_eq : ReadHeadComparator.ALLOW_GAP = 16384 := by decide

theorem IDX_MAX_eq : IDX_MAX = 18446744073709551615 := by decide

/-- The comparator on a head whose end does not overflow: `a` is less than `b` exactly when
`a` ends more than `ALLOW_GAP` bytes before `b` starts. -/
theorem ReadHeadComparator_no_overflow (a b : ReadHead)
    (ha : a.location + a.size ≤ IDX_MAX - ReadHeadComparator.ALLOW_GAP) :
    ReadHeadComparator a b = true ↔
      a.location + a.size + ReadHeadComparator.ALLOW_GAP < b.location := by
  have hM : IDX_MOD = 18446744073709551616 := by decide
  have hmod : (a.location + a.size) % IDX_MOD = a.location + a.size := by
    apply Nat.mod_eq_of_lt
    rw [IDX_MAX_eq, ALLOW_GAP_eq] at ha
    omega
  simp only [ReadHeadComparator, hmod, if_pos ha, Bool.and_eq_true, decide_eq_true_eq]
  omega

/-- The comparator is a strict partial order on all heads, with or without overflow of the
end. -/
theorem ReadHeadComparator_order (a b c : ReadHead) :
    ReadHeadComparator a a = false ∧
    (ReadHeadComparator a b = true → ReadHeadComparator b a = false) ∧
    (ReadHeadComparator a b = true → ReadHeadComparator b c = true →
      ReadHeadComparator a c = true) := by
  refine ⟨?_, ?_, ?_⟩
  · simp [ReadHeadComparator]
  · intro h
    simp only [ReadHeadComparator, Bool.and_eq_true, decide_eq_true_eq] at h
    simp only [ReadHeadComparator, Bool.and_eq_false_iff, decide_eq_false_iff_not]
    left
    omega
  · intro h1 h2
    simp only [ReadHeadComparator, Bool.and_eq_true, decide_eq_true_eq] at h1 h2 ⊢
    generalize (if (a.location + a.size) % IDX_MOD ≤ IDX_MAX - ReadHeadComparator.ALLOW_GAP
      then (a.location + a.size) % IDX_MOD + ReadHeadComparator.ALLOW_GAP
      else (a.location + a.size) % IDX_MOD) = ea at h1 ⊢
    omega

/-- The heads that the comparator leaves unordered are those whose ranges overlap, are
adjacent, or are at most `ALLOW_GAP` bytes apart. -/
theorem ReadHeadComparator_unordered (a b : ReadHead)
    (ha : a.location + a.size ≤ IDX_MAX - ReadHeadComparator.ALLOW_GAP)
    (hb : b.location + b.size ≤ IDX_MAX - ReadHeadComparator.ALLOW_GAP) :
    (ReadHeadComparator a b = false ∧ ReadHeadComparator b a = false) ↔
      (a.Overlaps b ∨ a.Adjacent b ∨
        ReadHead.SeparatedWithin ReadHeadComparator.ALLOW_GAP a b) := by
  have h1 := ReadHeadComparator_no_overflow a b ha
  have h2 := ReadHeadComparator_no_overflow b a hb
  rw [← Bool.not_eq_true, ← Bool.not_eq_true, h1, h2]
  simp only [ReadHead.Overlaps, ReadHead.Adjacent, ReadHead.SeparatedWithin]
  omega

/-- C35: for every pair of read heads `a`, `b` whose ends do not overflow
(`location + size <= max - ALLOW_GAP`, with `ALLOW_GAP = 16384`), `ReadHeadComparator` reports
neither `a < b` nor `b < a` exactly when the two byte ranges overlap, are adjacent, or are
separated by at most `ALLOW_GAP` bytes; otherwise exactly one of the two compares less, namely
the head that lies entirely before the other. -/
theorem ReadHeadComparator_incomparable_iff_near (a b : ReadHead)
    (ha : a.location + a.size ≤ IDX_MAX - ReadHeadComparator.ALLOW_GAP)
    (hb : b.location + b.size ≤ IDX_MAX - ReadHeadComparator.ALLOW_GAP) :
    ReadHeadComparator.ALLOW_GAP = 16384 ∧
    ((ReadHeadComparator a b = false ∧ ReadHeadComparator b a = false) ↔
      (a.Overlaps b ∨ a.Adjacent b ∨
        ReadHead.SeparatedWithin ReadHeadComparator.ALLOW_GAP a b)) ∧
    (¬ (a.Overlaps b ∨ a.Adjacent b ∨
        ReadHead.SeparatedWithin ReadHeadComparator.ALLOW_GAP a b) →
      (ReadHeadComparator a b = true ↔ a.location + a.size ≤ b.location) ∧
      (ReadHeadComparator b a = true ↔ b.location + b.size ≤ a.location) ∧
      (ReadHeadComparator a b = true ∨ ReadHeadComparator b a = true) ∧
      ¬ (ReadHeadComparator a b = true ∧ ReadHeadComparator b a = true)) := by
  refine ⟨ALLOW_GAP_eq, ReadHeadComparator_unordered a b ha hb, ?_⟩
  have h1 := ReadHeadComparator_no_overflow a b ha
  have h2 := ReadHeadComparator_no_overflow b a hb
  rw [h1, h2]
  simp only [ReadHead.Overlaps, ReadHead.Adjacent, ReadHead.SeparatedWithin]
  intro h
  omega

theorem ReadHeadComparator_incomparable_iff_near_witness :
    ((100 : Nat) + 50 ≤ IDX_MAX - ReadHeadComparator.ALLOW_GAP ∧
      (20000 : Nat) + 10 ≤ IDX_MAX - ReadHeadComparator.ALLOW_GAP) ∧
    ReadHeadComparator { location := 100, size := 50 } { location := 20000, size := 10 } = true ∧
    ((ReadHeadComparator { location := 100, size := 50 } { location := 20000, size := 10 } = false ∧
      ReadHeadComparator { location := 20000, size := 10 } { location := 100, size := 50 } = false) ↔
      (ReadHead.Overlaps { location := 100, size := 50 } { location := 20000, size := 10 } ∨
        ReadHead.Adjacent { location := 100, size := 50 } { location := 20000, size := 10 } ∨
        ReadHead.SeparatedWithin ReadHeadComparator.ALLOW_GAP
          { location := 100, size := 50 } { location := 20000, size := 10 })) :=
  ⟨⟨by decide, by decide⟩, by decide,
   (ReadHeadComparator_incomparable_iff_near { location := 100, size := 50 }
      { location := 20000, size := 10 } (by decide) (by decide)).2.1⟩

/-- C36, counterexample: the heads `[0, 1)`, `[10000, 10001)` and `[20000, 20001)`. The first
and the second are less than `ALLOW_GAP` bytes apart, so neither compares less than the other,
and the same holds for the second and the third; but the first compares less than the third.
The incomparability relation of `ReadHeadComparator` is not transitive. -/
theorem ReadHeadComparator_incomparability_not_transitive :
    ReadHeadComparator { location := 0, size := 1 } { location := 10000, size := 1 } = false ∧
    ReadHeadComparator { location := 10000, size := 1 } { location := 0, size := 1 } = false ∧
    ReadHeadComparator { location := 10000, size := 1 } { location := 20000, size := 1 } = false ∧
    ReadHeadComparator { location := 20000, size := 1 } { location := 10000, size := 1 } = false ∧
    ReadHeadComparator { location := 0, size := 1 } { location := 20000, size := 1 } = true ∧
    ¬ (∀ a b c : ReadHead,
      (ReadHeadComparator a b = false ∧ ReadHeadComparator b a = false) →
      (ReadHeadComparator b c = false ∧ ReadHeadComparator c b = false) →
      (ReadHeadComparator a c = false ∧ ReadHeadComparator c a = false)) := by
  refine ⟨by decide, by decide, by decide, by decide, by decide, ?_⟩
  intro h
  have := (h { location := 0, size := 1 } { location := 10000, size := 1 }
    { location := 20000, size := 1 } ⟨by decide, by decide⟩ ⟨by decide, by decide⟩).1
  revert this
  decide

/-- C36 (amended): `ReadHeadComparator` is a strict partial order on all read heads: it is
irreflexive, asymmetric and transitive. Its incomparability relation is reflexive and symmetric
(it is not transitive, so the comparator is not a strict weak ordering). -/
theorem ReadHeadComparator_strict_partial_order (a b c : ReadHead) :
    ReadHeadComparator a a = false ∧
    (ReadHeadComparator a b = true → ReadHeadComparator b a = false) ∧
    (ReadHeadComparator a b = true → ReadHeadComparator b c = true →
      ReadHeadComparator a c = true) ∧
    ((ReadHeadComparator a b = false ∧ ReadHeadComparator b a = false) →
      (ReadHeadComparator b a = false ∧ ReadHeadComparator a b = false)) :=
  ⟨(ReadHeadComparator_order a b c).1, (ReadHeadComparator_order a b c).2.1,
   (ReadHeadComparator_order a b c).2.2, fun h => ⟨h.2, h.1⟩⟩

theorem ReadHeadComparator_strict_partial_order_witness :
    ReadHeadComparator { location := 0, size := 1 } { location := 20000, size := 1 } = true ∧
    ReadHeadComparator { location := 20000, size := 1 } { location := 40000, size := 1 } = true ∧
    ReadHeadComparator { location := 0, size := 1 } { location := 40000, size := 1 } = true ∧
    ReadHeadComparator { location := 20000, size := 1 } { location := 0, size := 1 } = false :=
  ⟨by decide, by decide,
   (ReadHeadComparator_strict_partial_order { location := 0, size := 1 }
      { location := 20000, size := 1 } { location := 40000, size := 1 }).2.2.1
      (by decide) (by decide),
   (ReadHeadComparator_strict_partial_order { location := 0, size := 1 }
      { location := 20000, size := 1 } { location := 40000, size := 1 }).2.1 (by decide)⟩

theorem getD_mem_of_lt {α : Type} (l : List α) (i : Nat) (d : α) (h : i < l.length) :
    l.getD i d ∈ l := by
  rw [List.getD_eq_getElem l d h]
  exact List.getElem_mem h

theorem getD_set_same {α : Type} (l : List α) (i : Nat) (x d : α) (h : i < l.length) :
    (l.set i x).getD i d = x := by
  rw [List.getD_eq_getElem _ d (by simpa using h)]
  simp

theorem getD_set_other {α : Type} (l : List α) (i j : Nat) (x d : α) (h : i ≠ j) :
    (l.set i x).getD j d = l.getD j d := by
  simp [List.getD_eq_getElem?_getD, List.getElem?_set_ne h]

/-- The list `set` and `find`/`insert` of the sample set meet the contract. -/
theorem sampleStdSet_valid : sampleStdSet.Valid := by
  refine ⟨?_, ?_⟩
  · intro deref set key p h
    simp only [sampleStdSet] at h
    have hm := List.mem_of_find?_eq_some h
    have hp := List.find?_some h
    simp only [Bool.and_eq_true, Bool.not_eq_true'] at hp
    exact ⟨hm, hp.1, hp.2⟩
  · intro deref set p q h
    simp only [sampleStdSet] at h
    cases hf : set.find? (fun q => !ReadHeadComparator (deref q) (deref p) &&
        !ReadHeadComparator (deref p) (deref q)) with
    | some r =>
      rw [hf] at h
      exact Or.inl h
    | none =>
      rw [hf] at h
      rcases List.mem_cons.mp h with h | h
      · exact Or.inr h
      · exact Or.inl h

/-- The merging branch of `AddReadHead`: when `find` yields a head, the call returns with
that head widened to the union span, every other head, the merge set and `total_size` as they
were. -/
theorem AddReadHead_merge (S : StdSet) (file_size : Nat) (b : ReadAheadBuffer) (pos len p : Nat)
    (hfind : S.find b.deref b.merge_set { location := pos, size := len } = some p)
    (hp : p < b.read_heads.length)
    (hpos : pos + len < IDX_MOD)
    (hold : (b.deref p).location + (b.deref p).size < IDX_MOD) :
    ∃ b1, AddReadHead S file_size b pos len true = .ok b1 ∧
      b1.read_heads.length = b.read_heads.length ∧
      b1.merge_set = b.merge_set ∧
      b1.total_size = b.total_size ∧
      (b1.deref p).location = min (b.deref p).location pos ∧
      (b1.deref p).location + (b1.deref p).size =
        max ((b.deref p).location + (b.deref p).size) (pos + len) ∧
      (∀ q, q < b.read_heads.length → q ≠ p → b1.deref q = b.deref q) := by
  have hM : IDX_MOD = 18446744073709551616 := by decide
  have hidx : b.read_heads.length - 1 - p < b.read_heads.length := by omega
  have hcall : AddReadHead S file_size b pos len true =
      .ok (ReadAheadBuffer.mk (b.read_heads.set (b.indexOf p)
        (ReadHead.mk (min (b.deref p).location pos)
          ((max (b.deref p).GetEnd (ReadHead.mk pos len).GetEnd + IDX_MOD -
            min (b.deref p).location pos) % IDX_MOD))) b.merge_set b.total_size) := by
    simp only [AddReadHead, if_true, hfind]
  refine ⟨_, hcall, ?_, rfl, rfl, ?_, ?_, ?_⟩
  · simp
  · simp only [ReadAheadBuffer.deref, ReadAheadBuffer.indexOf, List.length_set]
    rw [getD_set_same _ _ _ _ hidx]
  · simp only [ReadAheadBuffer.deref, ReadAheadBuffer.indexOf, List.length_set]
    rw [getD_set_same _ _ _ _ hidx]
    simp only [ReadAheadBuffer.deref, ReadAheadBuffer.indexOf] at hold
    simp only [ReadHead.GetEnd]
    generalize (b.read_heads.getD (b.read_heads.length - 1 - p) { location := 0, size := 0 }) = old
      at hold ⊢
    rw [Nat.mod_eq_of_lt (show old.size + old.location < IDX_MOD by omega),
      Nat.mod_eq_of_lt (show len + pos < IDX_MOD by omega)]
    have hle : min old.location pos ≤ max (old.size + old.location) (len + pos) := by omega
    have hlt : max (old.size + old.location) (len + pos) < IDX_MOD := by omega
    rw [sub_mod_idx _ _ hle hlt]
    omega
  · intro q hq hne
    simp only [ReadAheadBuffer.deref, ReadAheadBuffer.indexOf, List.length_set]
    apply getD_set_other
    omega

/-- The registering part of `AddReadHead` puts the new head in front of the list and adds its
length to `total_size`, whether or not it throws afterwards. -/
theorem AddReadHead_add_after (S : StdSet) (file_size : Nat) (b : ReadAheadBuffer)
    (pos len : Nat) :
    (AddReadHead.after (AddReadHead.add S file_size b pos len)).read_heads =
      { location := pos, size := len } :: b.read_heads ∧
    (AddReadHead.after (AddReadHead.add S file_size b pos len)).total_size =
      (b.total_size + len) % IDX_MOD := by
  simp only [AddReadHead.add]
  split <;> exact ⟨rfl, rfl⟩

/-- When no head of the merge set is equivalent to the new range, `find` yields no head and
`AddReadHead` registers a new head. -/
theorem AddReadHead_no_equivalent (S : StdSet) (hS : S.Valid) (file_size : Nat)
    (b : ReadAheadBuffer) (pos len : Nat) (m : Bool)
    (hnone : ∀ q, q ∈ b.merge_set →
      ¬ (ReadHeadComparator (b.deref q) { location := pos, size := len } = false ∧
        ReadHeadComparator { location := pos, size := len } (b.deref q) = false)) :
    AddReadHead S file_size b pos len m = AddReadHead.add S file_size b pos len := by
  cases m
  · simp [AddReadHead]
  · cases hf : S.find b.deref b.merge_set { location := pos, size := len } with
    | none => simp only [AddReadHead, if_true, hf]
    | some p =>
      have h := hS.1 _ _ _ _ hf
      exact absurd h.2 (hnone p h.1)

/-- Without merging, every call registers a head and `total_size` stays the sum of the sizes
of the heads, in `idx_t` arithmetic. -/
theorem AddReadHead_calls_unmerged (S : StdSet) (file_size : Nat) :
    ∀ (cs : List (Nat × Nat × Bool)) (b b1 : ReadAheadBuffer),
      (∀ c, c ∈ cs → c.2.2 = false) →
      b.total_size = (b.read_heads.map (fun h => h.size)).sum % IDX_MOD →
      AddReadHead.calls S file_size b cs = .ok b1 →
      b1.total_size = (b1.read_heads.map (fun h => h.size)).sum % IDX_MOD := by
  intro cs
  induction cs with
  | nil =>
    intro b b1 _ hb h
    simp only [AddReadHead.calls, Except.ok.injEq] at h
    rw [← h]
    exact hb
  | cons c rest ih =>
    intro b b1 hm hb h
    have hc : c.2.2 = false := hm c (List.mem_cons_self _ _)
    have hadd : AddReadHead S file_size b c.1 c.2.1 c.2.2 =
        AddReadHead.add S file_size b c.1 c.2.1 := by
      rw [hc]
      simp [AddReadHead]
    have hafter := AddReadHead_add_after S file_size b c.1 c.2.1
    simp only [AddReadHead.calls, hadd] at h
    cases hr : AddReadHead.add S file_size b c.1 c.2.1 with
    | error e =>
      rw [hr] at h
      exact Except.noConfusion h
    | ok b2 =>
      rw [hr] at h hafter
      simp only [AddReadHead.after] at hafter
      refine ih b2 b1 (fun c2 h2 => hm c2 (List.mem_cons_of_mem _ h2)) ?_ h
      rw [hafter.1, hafter.2, hb]
      simp only [List.map_cons, List.sum_cons]
      rw [Nat.add_comm c.2.1, Nat.mod_add_mod]

/-- C37: when `AddReadHead(pos, len)` with merging enabled finds a registered head (`find`
yields a pointer, which the merge set holds and whose head the comparator treats as equivalent
to the new range), the call returns, the number of read heads is unchanged and that head
afterwards spans exactly `[min(old.location, pos), max(old.location + old.size, pos + len))`,
which contains its old range and the new range, every other head being as it was; when no
head of the merge set is equivalent to the new range, `find` yields nothing and exactly one new
head `(pos, len)` is added in front. This is for a contract-abiding `std::set`, pointers of the
merge set that point into `read_heads`, and ranges that end below `2^64`. -/
theorem AddReadHead_merges_or_adds (S : StdSet) (hS : S.Valid) (file_size : Nat)
    (b : ReadAheadBuffer) (pos len : Nat)
    (hwf : ∀ p, p ∈ b.merge_set → p < b.read_heads.length)
    (hpos : pos + len < IDX_MOD)
    (hheads : ∀ h, h ∈ b.read_heads → h.location + h.size < IDX_MOD) :
    (∀ p, S.find b.deref b.merge_set { location := pos, size := len } = some p →
      (p ∈ b.merge_set ∧
        ReadHeadComparator (b.deref p) { location := pos, size := len } = false ∧
        ReadHeadComparator { location := pos, size := len } (b.deref p) = false) ∧
      ∃ b1, AddReadHead S file_size b pos len true = .ok b1 ∧
        b1.read_heads.length = b.read_heads.length ∧
        (b1.deref p).location = min (b.deref p).location pos ∧
        (b1.deref p).location + (b1.deref p).size =
          max ((b.deref p).location + (b.deref p).size) (pos + len) ∧
        ((b1.deref p).location ≤ (b.deref p).location ∧
          (b.deref p).location + (b.deref p).size ≤ (b1.deref p).location + (b1.deref p).size) ∧
        ((b1.deref p).location ≤ pos ∧
          pos + len ≤ (b1.deref p).location + (b1.deref p).size) ∧
        (∀ q, q < b.read_heads.length → q ≠ p → b1.deref q = b.deref q)) ∧
    ((∀ q, q ∈ b.merge_set →
        ¬ (ReadHeadComparator (b.deref q) { location := pos, size := len } = false ∧
          ReadHeadComparator { location := pos, size := len } (b.deref q) = false)) →
      S.find b.deref b.merge_set { location := pos, size := len } = none ∧
      (AddReadHead.after (AddReadHead S file_size b pos len true)).read_heads =
        { location := pos, size := len } :: b.read_heads) := by
  refine ⟨?_, ?_⟩
  · intro p hfind
    have hc := hS.1 _ _ _ _ hfind
    have hp := hwf p hc.1
    have hold : (b.deref p).location + (b.deref p).size < IDX_MOD :=
      hheads _ (getD_mem_of_lt _ _ _ (by simp only [ReadAheadBuffer.indexOf]; omega))
    obtain ⟨b1, h1, h2, -, -, h5, h6, h7⟩ :=
      AddReadHead_merge S file_size b pos len p hfind hp hpos hold
    refine ⟨hc, b1, h1, h2, h5, h6, ?_, ?_, h7⟩
    · omega
    · omega
  · intro hnone
    refine ⟨?_, ?_⟩
    · cases hf : S.find b.deref b.merge_set { location := pos, size := len } with
      | none => rfl
      | some p =>
        have h := hS.1 _ _ _ _ hf
        exact absurd h.2 (hnone p h.1)
    · rw [AddReadHead_no_equivalent S hS file_size b pos len true hnone]
      exact (AddReadHead_add_after S file_size b pos len).1

theorem AddReadHead_merges_or_adds_witness :
    ∃ b1, AddReadHead sampleStdSet 1000 sampleReadAheadBuffer 120 100 true = .ok b1 ∧
      b1.read_heads.length = 1 ∧
      (b1.deref 0).location = 100 ∧
      (b1.deref 0).location + (b1.deref 0).size = 220 :=
  let ⟨b1, h1, h2, h3, h4, _⟩ :=
    ((AddReadHead_merges_or_adds sampleStdSet sampleStdSet_valid 1000 sampleReadAheadBuffer
      120 100 (by decide) (by decide) (by decide)).1 0 rfl).2
  ⟨b1, h1, h2, h3, h4⟩

/-- C38, evaluated on a fresh buffer, a file of 1000 bytes and the calls `AddReadHead(0, 10)`
and `AddReadHead(5, 10)` with merging enabled: both calls return; the second finds the head
`[0, 10)`, widens it to `[0, 15)` and leaves `total_size` at 10, while the sizes of the heads
in `read_heads` sum to 15. -/
theorem AddReadHead_merge_leaves_total_size :
    ∃ b, AddReadHead.calls sampleStdSet 1000 ReadAheadBuffer.create
        [(0, 10, true), (5, 10, true)] = .ok b ∧
      b.read_heads = [{ location := 0, size := 15 }] ∧
      b.total_size = 10 ∧
      (b.read_heads.map (fun h => h.size)).sum = 15 :=
  ⟨{ read_heads := [{ location := 0, size := 15 }], merge_set := [0], total_size := 10 },
   rfl, rfl, rfl, rfl⟩

/-- An iteration of the second loop of `StringListCastLoop` never makes an invalid result row
valid and never sets `all_converted` again. -/
theorem StringListCastLoop_body_mono {string_t : Type} (ext : ListCastExtern string_t)
    (source_data : Nat → string_t) (source_mask : ValidityMask) (sel : Option (Nat → Nat))
    (i : Nat) (s : ListCastState string_t) :
    (∀ j, s.result_mask.RowIsValid j = false →
      (StringListCastLoop.body ext source_data source_mask sel i s).result_mask.RowIsValid j
        = false) ∧
    (s.all_converted = false →
      (StringListCastLoop.body ext source_data source_mask sel i s).all_converted = false) := by
  simp only [StringListCastLoop.body]
  by_cases hv : source_mask.RowIsValid (selIndex sel i) = true
  · by_cases hs : (ext.SplitStringifiedList (source_data (selIndex sel i)) s.child_data
        s.total).1 = true
    · simp [hv, hs]
    · have hs' : (ext.SplitStringifiedList (source_data (selIndex sel i)) s.child_data
          s.total).1 = false := by simpa using hs
      simp only [hv, hs', Bool.not_true, Bool.not_false, Bool.false_eq_true, if_false, if_true,
        HandleVectorCastError.Operation, ValidityMask.SetInvalid]
      refine ⟨?_, fun _ => trivial⟩
      intro j hj
      by_cases hji : j = selIndex sel i
      · simp [hji]
      · simp [hji, hj]
  · have hv' : source_mask.RowIsValid (selIndex sel i) = false := by simpa using hv
    simp only [hv', Bool.not_false, if_true, ValidityMask.SetInvalid]
    refine ⟨?_, fun h => h⟩
    intro j hj
    by_cases hji : j = i
    · simp [hji]
    · simp [hji, hj]

/-- The NULL rows of `StringListCastLoop`: when source row `sel[i]` is NULL, result row `i` is
invalid after the loop. -/
theorem StringListCastLoop_null_rows {string_t : Type} (ext : ListCastExtern string_t)
    (source_data : Nat → string_t) (source_mask : ValidityMask) (list_data : Nat → list_entry_t)
    (varchar_vector : Nat → string_t) (result_mask : ValidityMask) (count : Nat)
    (sel : Option (Nat → Nat)) :
    ∀ i, i < count → source_mask.RowIsValid (selIndex sel i) = false →
      (StringListCastLoop ext source_data source_mask list_data varchar_vector result_mask
        count sel).1.result_mask.RowIsValid i = false := by
  have h := forUp_inv
    (fun k (s : ListCastState string_t) => ∀ i, i < k →
      source_mask.RowIsValid (selIndex sel i) = false → s.result_mask.RowIsValid i = false)
    (StringListCastLoop.body ext source_data source_mask sel)
    { list_data := list_data, child_data := varchar_vector, total := 0,
      result_mask := result_mask, all_converted := true } count
    (fun i hi => absurd hi (Nat.not_lt_zero i))
    (by
      intro k s _ ih i hi hnull
      by_cases hik : i = k
      · subst hik
        simp [StringListCastLoop.body, hnull, ValidityMask.SetInvalid]
      · exact (StringListCastLoop_body_mono ext source_data source_mask sel k s).1 i
          (ih i (by omega) hnull))
  exact h

/-- The rows that `StringListCastLoop` cannot split: when source row `sel[i]` is valid and its
string cannot be split, the result row that is invalid after the loop is row `sel[i]`, the
index handed to `HandleVectorCastError::Operation`, and the function returns false. -/
theorem StringListCastLoop_unsplittable {string_t : Type} (ext : ListCastExtern string_t)
    (source_data : Nat → string_t) (source_mask : ValidityMask) (list_data : Nat → list_entry_t)
    (varchar_vector : Nat → string_t) (result_mask : ValidityMask) (count : Nat)
    (sel : Option (Nat → Nat)) :
    ∀ i, i < count → source_mask.RowIsValid (selIndex sel i) = true →
      (∀ child_data total,
        (ext.SplitStringifiedList (source_data (selIndex sel i)) child_data total).1 = false) →
      (StringListCastLoop ext source_data source_mask list_data varchar_vector result_mask
        count sel).1.result_mask.RowIsValid (selIndex sel i) = false ∧
      (StringListCastLoop ext source_data source_mask list_data varchar_vector result_mask
        count sel).2 = false := by
  have h := forUp_inv
    (fun k (s : ListCastState string_t) => ∀ i, i < k →
      source_mask.RowIsValid (selIndex sel i) = true →
      (∀ child_data total,
        (ext.SplitStringifiedList (source_data (selIndex sel i)) child_data total).1 = false) →
      s.result_mask.RowIsValid (selIndex sel i) = false ∧ s.all_converted = false)
    (StringListCastLoop.body ext source_data source_mask sel)
    { list_data := list_data, child_data := varchar_vector, total := 0,
      result_mask := result_mask, all_converted := true } count
    (fun i hi => absurd hi (Nat.not_lt_zero i))
    (by
      intro k s _ ih i hi hvalid hsplit
      by_cases hik : i = k
      · subst hik
        simp [StringListCastLoop.body, hvalid, hsplit, HandleVectorCastError.Operation,
          ValidityMask.SetInvalid]
      · have hprev := ih i (by omega) hvalid hsplit
        exact ⟨(StringListCastLoop_body_mono ext source_data source_mask sel k s).1 _ hprev.1,
          (StringListCastLoop_body_mono ext source_data source_mask sel k s).2 hprev.2⟩)
  intro i hi hvalid hsplit
  have hi2 := h i hi hvalid hsplit
  refine ⟨hi2.1, ?_⟩
  simp only [StringListCastLoop]
  rw [hi2.2]
  simp

/-- C39, evaluated on two valid source rows holding the strings `7` and `13`, of which `13`
cannot be split, read through the selection vector that swaps them (`sel[0] = 1`,
`sel[1] = 0`), and on the same rows with source row 1 NULL. In the first run output position 0
reads the unsplittable source row 1: `StringListCastLoop` returns false, but result row 0 is
left valid and result row 1, the row at index `sel[0]`, is marked invalid, although its own
string (source row 0) was split. `StringEnumCastLoop` on the same input, where `13` is not a
member of the enum, marks result row 0 and leaves row 1 valid. In the run with the NULL,
result row 0 is marked invalid and row 1 is valid. -/
theorem StringListCastLoop_marks_source_row :
    (selIndex (some sampleSwapSel) 0 = 1 ∧ selIndex (some sampleSwapSel) 1 = 0) ∧
    ((StringListCastLoop sampleListCastExtern sampleSourceData sampleAllValid
        (fun _ => { offset := 0, length := 0 }) (fun _ => 0) sampleAllValid 2
        (some sampleSwapSel)).2 = false ∧
      (StringListCastLoop sampleListCastExtern sampleSourceData sampleAllValid
        (fun _ => { offset := 0, length := 0 }) (fun _ => 0) sampleAllValid 2
        (some sampleSwapSel)).1.result_mask.RowIsValid 0 = true ∧
      (StringListCastLoop sampleListCastExtern sampleSourceData sampleAllValid
        (fun _ => { offset := 0, length := 0 }) (fun _ => 0) sampleAllValid 2
        (some sampleSwapSel)).1.result_mask.RowIsValid 1 = false ∧
      (StringListCastLoop sampleListCastExtern sampleSourceData sampleAllValid
        (fun _ => { offset := 0, length := 0 }) (fun _ => 0) sampleAllValid 2
        (some sampleSwapSel)).1.list_data 1 = { offset := 0, length := 1 }) ∧
    ((StringEnumCastLoop sampleGetPos 0 sampleSourceData sampleAllValid (fun _ => 0)
        sampleAllValid 2 (some sampleSwapSel)).all_converted = false ∧
      (StringEnumCastLoop sampleGetPos 0 sampleSourceData sampleAllValid (fun _ => 0)
        sampleAllValid 2 (some sampleSwapSel)).result_mask.RowIsValid 0 = false ∧
      (StringEnumCastLoop sampleGetPos 0 sampleSourceData sampleAllValid (fun _ => 0)
        sampleAllValid 2 (some sampleSwapSel)).result_mask.RowIsValid 1 = true) ∧
    ((StringListCastLoop sampleListCastExtern sampleSourceData sampleRowOneNull
        (fun _ => { offset := 0, length := 0 }) (fun _ => 0) sampleAllValid 2
        (some sampleSwapSel)).1.result_mask.RowIsValid 0 = false ∧
      (StringListCastLoop sampleListCastExtern sampleSourceData sampleRowOneNull
        (fun _ => { offset := 0, length := 0 }) (fun _ => 0) sampleAllValid 2
        (some sampleSwapSel)).1.result_mask.RowIsValid 1 = true) := by
  decide

end duckdb
